import Mathlib

/-!
# wsh: a shallow embedding of the shell engine

The definitions below follow `src/wsh.c` and `src/wsh.h` function by function.

Modelling conventions:

* A C string (`char *`, no embedded NUL) is a `List Char`; `strcmp(a, b) == 0` is `a = b`.
* A counted array whose cells may be read before they were ever written (the history's
  `Entries`) is a list of `Slot`s; a scalar field of a `malloc`ed struct that may never be
  assigned is a `Cell`.
* Allocation (`malloc`, `calloc`, `realloc`, `strdup`) is taken to succeed, so the
  `NULL`-on-failure branches of the source do not appear.
* Undefined behaviour of the C program (an access outside an array, a dereference of an
  indeterminate pointer, a read of a field that was never assigned), in the shell or in a
  forked child up to its call of `execv`, is the result `Except.error Fault.undefined`.
* What the operating system decides (whether `open`, `dup2`, `chdir`, `fork`, `access`
  succeed, how a started program ends, the names in the current directory) is an argument
  `os : OS`; what the shell writes and which calls it makes are collected in a trace of
  `Event`s.
* The process environment is a list of names with values, each entry standing for the
  string `name=value` of `environ`; `getenv` and `setenv` find an entry as the C library
  does, by the name followed by `=` at the start of that string.
* A call of `execv` is recorded in the trace with the tokens of the array it is handed, and
  what the started program does is the answer of `os`. Whether the array ends with `NULL`,
  and so which argument vector `execv` reads from it, is not decided by `childProcess`: it is
  given by `argvOf` on `Command.tokenArray`, the array of `MAX_NUM_TOKENS` cells that
  `getCommand` allocates. A child that hands `execv` an array without `NULL` has undefined
  behaviour of its own; it shares no memory with the shell, and how it ends is among the
  answers of `os`.
* Commands are values wherever it cannot matter which objects they share. Where it can
  (the history entry and the live command it was copied from), the same functions are
  translated once more on a heap of objects at addresses (`Heap`, with `malloc` as any
  function that returns a free address); `Holds` ties a command on the heap to the value.
-/

namespace Wsh

/-- C strings. -/
abbrev CStr := List Char

def MAX_INPUT_LEN : Nat := 1024
def MAX_NUM_TOKENS : Nat := 128
def MAX_PATH_LEN : Nat := 1024
def INITIAL_LOCAL_VARS_CAPACITY : Nat := 128
def INITIAL_HISTORY_CAPACITY : Nat := 5

/-- Ways in which a run of the model stops without a result. -/
inductive Fault where
  | undefined : Fault
  | outOfFuel : Fault
  deriving DecidableEq, Repr

deriving instance DecidableEq for Except

/-- The enum `RedirectMode` of `wsh.h`, constructors in declaration order. -/
inductive RedirectMode where
  | RedirectNone : RedirectMode
  | RedirectInput : RedirectMode
  | RedirectOutput : RedirectMode
  | RedirectAppend : RedirectMode
  | RedirectOuputError : RedirectMode
  | RedirectAppendError : RedirectMode
  deriving DecidableEq, Repr

/-- A scalar field of a heap object: never assigned since `malloc`, or holding a value. -/
inductive Cell (α : Type) where
  | uninit : Cell α
  | val (a : α) : Cell α
  deriving DecidableEq, Repr

/-- The struct `Redirect`; `File = none` is the `NULL` pointer. -/
structure Redirect where
  Mode : Cell RedirectMode
  File : Option CStr
  FD : Cell Int
  deriving DecidableEq, Repr

/-- The struct `Command`: `Tokens` holds the first `TokenCount` cells of the token array,
`Redirection = none` is the `NULL` pointer. -/
structure Command where
  Tokens : List CStr
  Redirection : Option Redirect
  deriving DecidableEq, Repr

/-- The field `TokenCount`. -/
def Command.TokenCount (Cmd : Command) : Nat := Cmd.Tokens.length

/-- One cell of the array `History.Entries`: `NULL` (as left by `calloc`), a pointer to an
owned `Command`, or indeterminate (as left by `realloc`). -/
inductive Slot where
  | null : Slot
  | entry (c : Command) : Slot
  | uninit : Slot
  deriving DecidableEq, Repr

/-- The struct `History`; `Entries` is the whole allocated array. -/
structure History where
  Entries : List Slot
  Count : Nat
  Capacity : Nat
  deriving DecidableEq, Repr

/-- Read of `Entries[i]`. -/
def readSlot (E : List Slot) (i : Nat) : Except Fault Slot :=
  match E[i]? with
  | some s => .ok s
  | none => .error .undefined

/-- Assignment `Entries[i] = s`. -/
def writeSlot (E : List Slot) (i : Nat) (s : Slot) : Except Fault (List Slot) :=
  if i < E.length then .ok (E.set i s) else .error .undefined

/-- `initHistory`: `calloc` leaves every cell `NULL`. -/
def initHistory (NumEntries : Nat) : History :=
  { Entries := List.replicate NumEntries Slot.null, Count := 0, Capacity := NumEntries }

/-- `getCommandCopy` on a non-`NULL` command. The copy always owns a fresh `Redirect`;
its `Mode` and `File` are assigned only when the original has a `Redirect`, and its `FD`
is never assigned. -/
def getCommandCopy (Cmd : Command) : Command :=
  { Tokens := Cmd.Tokens
    Redirection := some
      { Mode := match Cmd.Redirection with
          | some R => R.Mode
          | none => Cell.uninit
        File := match Cmd.Redirection with
          | some R => R.File
          | none => none
        FD := Cell.uninit } }

/-- `getHistory`: `none` is the `NULL` result. -/
def getHistory (NumEntry : Int) (Hist : History) : Except Fault (Option Command) :=
  if NumEntry < 1 ∨ NumEntry > (Hist.Count : Int) then .ok none
  else
    match readSlot Hist.Entries ((Hist.Count : Int) - NumEntry).toNat with
    | .error e => .error e
    | .ok Slot.null => .ok none
    | .ok (Slot.entry c) => .ok (some (getCommandCopy c))
    | .ok Slot.uninit => .error .undefined

/-- The loop of `compareHistory` over two token arrays of the same length. -/
def compareTokens : List CStr → List CStr → Int
  | a :: as, b :: bs => if a ≠ b then 1 else compareTokens as bs
  | _, _ => 0

/-- `compareHistory`: 0 when the token sequences are equal, 1 otherwise. -/
def compareHistory (CmdA CmdB : Command) : Int :=
  if CmdA.TokenCount ≠ CmdB.TokenCount then 1
  else compareTokens CmdA.Tokens CmdB.Tokens

/-- The loop `for (i = 0; i < Capacity - 1; i++) Entries[i] = Entries[i + 1]` of
`addHistory`, with `k` iterations left. -/
def shiftLoop : Nat → Nat → List Slot → Except Fault (List Slot)
  | 0, _, E => .ok E
  | k + 1, i, E =>
    match readSlot E (i + 1) with
    | .error e => .error e
    | .ok s =>
      match writeSlot E i s with
      | .error e => .error e
      | .ok E1 => shiftLoop k (i + 1) E1

/-- `freeCommand(p)` for a cell `p` of the history: fine on `NULL` and on an owned
command, undefined on an indeterminate pointer. -/
def freeSlot : Slot → Except Fault Unit
  | Slot.uninit => .error .undefined
  | _ => .ok ()

/-- `addHistory`: the result code and the history afterwards. -/
def addHistory (Hist : History) (Cmd : Command) : Except Fault (Int × History) :=
  match getHistory 1 Hist with
  | .error e => .error e
  | .ok PrevCmd =>
    if (match PrevCmd with
        | some P => decide (compareHistory Cmd P = 0)
        | none => false) then .ok (1, Hist)
    else if Hist.Count = Hist.Capacity then
      match readSlot Hist.Entries 0 with
      | .error e => .error e
      | .ok s0 =>
        match freeSlot s0 with
        | .error e => .error e
        | .ok _ =>
          match shiftLoop (Hist.Capacity - 1) 0 Hist.Entries with
          | .error e => .error e
          | .ok E1 =>
            if Hist.Count = 0 then .error .undefined
            else
              match writeSlot E1 (Hist.Count - 1) (Slot.entry Cmd) with
              | .error e => .error e
              | .ok E2 => .ok (0, { Entries := E2, Count := Hist.Count - 1 + 1, Capacity := Hist.Capacity })
    else
      match writeSlot Hist.Entries Hist.Count (Slot.entry Cmd) with
      | .error e => .error e
      | .ok E2 => .ok (0, { Entries := E2, Count := Hist.Count + 1, Capacity := Hist.Capacity })

/-- The loop `for (i = 0; i < Count; i++) NewEntries[i] = Entries[NumRemoveEntries + i]`
of `setHistoryCapacity`, with `k` iterations left. -/
def copyLoop (Old : List Slot) (NumRemoveEntries : Nat) :
    Nat → Nat → List Slot → Except Fault (List Slot)
  | 0, _, New => .ok New
  | k + 1, i, New =>
    match readSlot Old (NumRemoveEntries + i) with
    | .error e => .error e
    | .ok s =>
      match writeSlot New i s with
      | .error e => .error e
      | .ok New1 => copyLoop Old NumRemoveEntries k (i + 1) New1

/-- `realloc` of the entries array to `n` cells: the common prefix is kept, new cells are
indeterminate. -/
def reallocEntries (E : List Slot) (n : Nat) : List Slot :=
  (E ++ List.replicate (n - E.length) Slot.uninit).take n

/-- `setHistoryCapacity`. A negative `Capacity` makes `calloc` fail (result 1). -/
def setHistoryCapacity (Capacity : Int) (Hist : History) : Except Fault (Int × History) :=
  if Capacity > (Hist.Capacity : Int) then
    .ok (0, { Entries := reallocEntries Hist.Entries Capacity.toNat
              Count := Hist.Count
              Capacity := Capacity.toNat })
  else if Capacity < 0 then .ok (1, Hist)
  else
    let NumRemoveEntries := Hist.Capacity - Capacity.toNat
    let Count := if Hist.Count < Capacity.toNat then Hist.Count else Capacity.toNat
    match copyLoop Hist.Entries NumRemoveEntries Count 0
        (List.replicate Capacity.toNat Slot.null) with
    | .error e => .error e
    | .ok NewEntries => .ok (0, { Entries := NewEntries, Count := Count, Capacity := Capacity.toNat })


/-! ## Strings and the C library -/

/-- `strtok` with the delimiter set `delim`, on the text that is left to scan: the next
token and the text left after it, or `none` (the `NULL` result) when only delimiters are
left. -/
def strtok (s : CStr) (delim : CStr) : Option (CStr × CStr) :=
  let s1 := s.dropWhile (fun c => delim.contains c)
  if s1.isEmpty then none
  else some (s1.takeWhile (fun c => !delim.contains c),
             (s1.dropWhile (fun c => !delim.contains c)).drop 1)

/-- `strstr`: the suffix of `hay` at the first occurrence of `needle`, or `none`. -/
def strstr : CStr → CStr → Option CStr
  | [], needle => if needle.isEmpty then some [] else none
  | c :: cs, needle =>
    if needle.isPrefixOf (c :: cs) then some (c :: cs) else strstr cs needle

/-- `strchr` for a character other than NUL: the suffix at its first occurrence. -/
def strchr : CStr → Char → Option CStr
  | [], _ => none
  | c :: cs, x => if c = x then some (c :: cs) else strchr cs x

/-- `isdigit` in the C locale. -/
def isdigit (c : Char) : Bool := decide ('0' ≤ c ∧ c ≤ '9')

/-- `isspace` in the C locale. -/
def isspace (c : Char) : Bool :=
  c = ' ' || c = '\t' || c = '\n' || c = Char.ofNat 11 || c = Char.ofNat 12 || c = '\r'

/-- `isalnum` in the C locale. -/
def isalnum (c : Char) : Bool :=
  decide ('0' ≤ c ∧ c ≤ '9') || decide ('a' ≤ c ∧ c ≤ 'z') || decide ('A' ≤ c ∧ c ≤ 'Z')

/-- The value of a character as a digit of `strtol` (letters count from 10). -/
def digitValue (c : Char) : Option Nat :=
  if '0' ≤ c ∧ c ≤ '9' then some (c.toNat - '0'.toNat)
  else if 'a' ≤ c ∧ c ≤ 'z' then some (c.toNat - 'a'.toNat + 10)
  else if 'A' ≤ c ∧ c ≤ 'Z' then some (c.toNat - 'A'.toNat + 10)
  else none

/-- Whether `c` is a digit of base `b`. -/
def isDigitOf (b : Nat) (c : Char) : Bool :=
  match digitValue c with
  | some v => decide (v < b)
  | none => false

def LONG_MAX : Int := 2 ^ 63 - 1
def LONG_MIN : Int := -(2 ^ 63)

/-- `strtol(s, &EndPtr, base)` for `base` 0 or in 2..36, on a 64-bit `long`: the value and
the offset of `EndPtr` from `s` (offset 0: no conversion was performed). -/
def strtol (s : CStr) (base : Nat) : Int × Nat :=
  let ws := (s.takeWhile isspace).length
  let s1 := s.drop ws
  let sign : Bool × Nat :=
    match s1 with
    | '-' :: _ => (true, 1)
    | '+' :: _ => (false, 1)
    | _ => (false, 0)
  let s2 := s1.drop sign.2
  let radix : Nat × Nat :=
    match s2 with
    | '0' :: x :: h :: _ =>
      if (base = 0 ∨ base = 16) ∧ (x = 'x' ∨ x = 'X') ∧ isDigitOf 16 h then (16, 2)
      else if base = 0 then (8, 0) else (base, 0)
    | '0' :: _ => if base = 0 then (8, 0) else (base, 0)
    | _ => if base = 0 then (10, 0) else (base, 0)
  let digits := (s2.drop radix.2).takeWhile (isDigitOf radix.1)
  if digits.isEmpty then (0, 0)
  else
    let magnitude : Nat :=
      digits.foldl (fun acc c => acc * radix.1 + (digitValue c).getD 0) 0
    let value : Int :=
      if sign.1 then max (-(magnitude : Int)) LONG_MIN else min (magnitude : Int) LONG_MAX
    (value, ws + sign.2 + radix.2 + digits.length)

/-- The conversion `(int)` of a `long` on a two's-complement 32-bit `int`. -/
def toInt32 (v : Int) : Int := (v + 2 ^ 31) % 2 ^ 32 - 2 ^ 31

/-! ## Variables -/

/-- The struct `LocalVariable`. -/
structure LocalVariable where
  Name : CStr
  Value : CStr
  deriving DecidableEq, Repr

/-- The struct `LocalVariableArray`; `Vars` holds the first `Count` cells of the array. -/
structure LocalVariableArray where
  Vars : List LocalVariable
  Capacity : Nat
  deriving DecidableEq, Repr

/-- The field `Count`. -/
def LocalVariableArray.Count (VA : LocalVariableArray) : Nat := VA.Vars.length

/-- `initLocalVariables`. -/
def initLocalVariables (Capacity : Nat) : LocalVariableArray :=
  { Vars := [], Capacity := Capacity }

/-! ## The parser -/

/-- The loop `while (Token != NULL && TokenCount < MAX_NUM_TOKENS)` of `getCommand`:
`Token` is the pending result of `strtok` together with the text left to scan. The first
argument bounds the number of iterations; `getCommand` passes more than the loop can use. -/
def tokenLoop : Nat → Option (CStr × CStr) → List CStr → List CStr
  | 0, _, Tokens => Tokens
  | fuel + 1, Token, Tokens =>
    match Token with
    | none => Tokens
    | some (tok, rest) =>
      if Tokens.length < MAX_NUM_TOKENS then
        tokenLoop fuel (strtok rest [' ']) (Tokens ++ [tok])
      else Tokens

/-- The `strstr`/`strchr` cascade of `getCommand` on the last token: the mode and
`RedirectLen`. -/
def redirectOperator (LastToken : CStr) : RedirectMode × Nat :=
  if (strstr LastToken ['&', '>', '>']).isSome then (RedirectMode.RedirectAppendError, 3)
  else if (strstr LastToken ['>', '>']).isSome then (RedirectMode.RedirectAppend, 2)
  else if (strstr LastToken ['&', '>']).isSome then (RedirectMode.RedirectOuputError, 2)
  else if (strchr LastToken '>').isSome then (RedirectMode.RedirectOutput, 1)
  else if (strchr LastToken '<').isSome then (RedirectMode.RedirectInput, 1)
  else (RedirectMode.RedirectNone, 0)

/-- Whether `isdigit(LastToken[0])` holds (the terminating NUL of an empty string is no
digit). -/
def startsWithDigit (LastToken : CStr) : Bool :=
  match LastToken with
  | c :: _ => isdigit c
  | [] => false

/-- The offset into the last token at which `getCommand` reads the file path:
`EndPtr + RedirectLen` after `strtol` when the token starts with a digit, `RedirectLen`
otherwise. -/
def filePathOffset (LastToken : CStr) : Nat :=
  if startsWithDigit LastToken then (strtol LastToken 10).2 + (redirectOperator LastToken).2
  else (redirectOperator LastToken).2

/-- The `Redirect` that `getCommand` builds from the last token of a command with more
than one token. -/
def parseRedirect (LastToken : CStr) : Redirect :=
  let Mode := (redirectOperator LastToken).1
  if Mode ≠ RedirectMode.RedirectNone then
    { Mode := Cell.val Mode
      File := some (LastToken.drop (filePathOffset LastToken))
      FD := if startsWithDigit LastToken then Cell.val (toInt32 (strtol LastToken 10).1)
            else Cell.val (-1) }
  else { Mode := Cell.val Mode, File := none, FD := Cell.val (-1) }

/-- `getCommand`; `none` is the `NULL` result. The array is not consulted. -/
def getCommand (Input : CStr) (_VA : LocalVariableArray) : Option Command :=
  let Tokens := tokenLoop (Input.length + 1) (strtok Input [' ']) []
  if Tokens.length = 0 then none
  else
    let Redirection : Option Redirect :=
      if Tokens.length > 1 then some (parseRedirect (Tokens.getLast?.getD []))
      else none
    match Tokens with
    | ('#' :: _) :: _ => none
    | _ => some { Tokens := Tokens, Redirection := Redirection }

/-! ## The environment and the operating system -/

/-- The process environment: names with their values. -/
abbrev Environ := List (CStr × CStr)

/-- The string `name=value` of `environ` that an entry stands for. -/
def envString (p : CStr × CStr) : CStr := p.1 ++ '=' :: p.2

/-- The test by which `getenv` and `setenv` find an entry of `environ`: the string begins
with the name, followed by `=`. -/
def envMatch (Name : CStr) (p : CStr × CStr) : Bool :=
  (Name ++ ['=']).isPrefixOf (envString p)

/-- `getenv`; `none` is the `NULL` result. An empty name finds nothing; otherwise the
result is the text behind the `=` that follows the name in the first string that begins
with the name and `=`. -/
def getenv : Environ → CStr → Option CStr
  | [], _ => none
  | p :: rest, Name =>
    if Name ≠ [] ∧ envMatch Name p = true then some ((envString p).drop (Name.length + 1))
    else getenv rest Name

/-- The update performed by a successful `setenv(Name, Value, 1)`: the first string that
begins with the name and `=` is replaced, or a new string is added at the end. -/
def envUpdate : Environ → CStr → CStr → Environ
  | [], Name, Value => [(Name, Value)]
  | p :: rest, Name, Value =>
    if envMatch Name p = true then (Name, Value) :: rest else p :: envUpdate rest Name Value

/-- `setenv(Name, Value, 1)`; `none` is the result -1 (an empty name or one with `=`). -/
def setenv (env : Environ) (Name Value : CStr) : Option Environ :=
  if Name.isEmpty ∨ '=' ∈ Name then none else some (envUpdate env Name Value)

/-- How a child process ended, as reported by `waitpid`. -/
inductive WaitStatus where
  | exited (code : Int) : WaitStatus
  | signaled : WaitStatus
  deriving DecidableEq, Repr

/-- What the operating system answers to the calls of the shell; the shell decides none
of it. -/
structure OS where
  /-- whether `open` of a file with the flags of a mode succeeds -/
  openOk : CStr → RedirectMode → Bool
  /-- whether `dup2` onto a descriptor succeeds -/
  dup2Ok : Int → Bool
  /-- whether `access(path, X_OK)` is 0 -/
  accessX : CStr → Bool
  /-- whether `chdir` succeeds -/
  chdirOk : CStr → Bool
  /-- whether `fork` succeeds -/
  forkOk : Bool
  /-- the end of the program started by `execv`, or `none` when `execv` fails -/
  execv : CStr → List CStr → Option WaitStatus
  /-- the names in the current directory, or `none` when `scandir` fails -/
  dirNames : Option (List CStr)

/-- Something a process does that is visible outside it. -/
inductive Action where
  | stderr (msg : CStr) : Action
  | stdout (msg : CStr) : Action
  | perror (what : CStr) : Action
  | openFile (File : CStr) (Mode : RedirectMode) (ok : Bool) : Action
  | dup2 (target : Int) (ok : Bool) : Action
  | execv (path : CStr) (argv : List CStr) (started : Bool) : Action
  deriving DecidableEq, Repr

/-- The trace of a shell session: actions of the shell process itself, of a forked
child, and the calls that change the process as a whole. `builtin` marks the call
`BC->Func(Cmd, S)` of `execute` with the tokens the function receives. -/
inductive Event where
  | shell (a : Action) : Event
  | child (a : Action) : Event
  | fork (ok : Bool) : Event
  | chdir (dir : CStr) (ok : Bool) : Event
  | builtin (name : CStr) (argv : List CStr) : Event
  deriving DecidableEq, Repr

/-- The struct `Shell`. -/
structure Shell where
  VA : LocalVariableArray
  Hist : History
  Error : Int
  deriving DecidableEq, Repr

/-- The state of the shell process: the `Shell`, the environment and the trace so far. -/
structure Proc where
  S : Shell
  Env : Environ
  Out : List Event
  deriving DecidableEq, Repr

/-- Append actions of the shell process to the trace. -/
def Proc.emit (P : Proc) (as : List Action) : Proc :=
  { P with Out := P.Out ++ as.map Event.shell }

/-- How a call that may end the process comes back: it returns a code, the command
(`none` once it was freed) and the new state, or the process has exited. -/
inductive Result where
  | returned (code : Int) (Cmd : Option Command) (P : Proc) : Result
  | exited (status : Int) (Out : List Event) : Result
  deriving DecidableEq, Repr

/-- `initShell` on the inherited environment; `none` is `exit(1)`. -/
def initShell (env0 : Environ) : Option Proc :=
  match setenv env0 "PATH".toList "/bin".toList with
  | none => none
  | some env =>
    some { S := { VA := initLocalVariables INITIAL_LOCAL_VARS_CAPACITY
                  Hist := initHistory INITIAL_HISTORY_CAPACITY
                  Error := 0 }
           Env := env
           Out := [] }

/-- The loop over the directories of `PATH` in `findExecutable`; `snprintf` cuts the
candidate at `MAX_PATH_LEN - 1` characters. -/
def pathLoop (os : OS) (Exe : CStr) : Nat → Option (CStr × CStr) → Option CStr
  | 0, _ => none
  | _ + 1, none => none
  | fuel + 1, some (Dir, rest) =>
    let ExecutablePath := (Dir ++ ['/'] ++ Exe).take (MAX_PATH_LEN - 1)
    if os.accessX ExecutablePath then some ExecutablePath
    else pathLoop os Exe fuel (strtok rest [':'])

/-- `findExecutable`. -/
def findExecutable (os : OS) (env : Environ) (ExeToken : CStr) : Option CStr :=
  if (strchr ExeToken '/').isSome then
    if os.accessX ExeToken then some ExeToken else none
  else
    match getenv env "PATH".toList with
    | none => none
    | some Path => pathLoop os ExeToken (Path.length + 1) (strtok Path [':'])

/-- `openRedirect` on a redirect with a file and a mode other than `RedirectNone`:
whether a descriptor was obtained. -/
def openRedirect (os : OS) (File : CStr) (Mode : RedirectMode) : Bool × List Action :=
  if os.openOk File Mode then (true, [Action.openFile File Mode true])
  else (false, [Action.openFile File Mode false,
                Action.stderr (File ++ ": no such file or directory\n".toList)])

/-- `redirect`: the C truth value it returns and what it did. -/
def redirect (os : OS) (R : Option Redirect) : Except Fault (Bool × List Action) :=
  match R with
  | none => .ok (true, [])
  | some R =>
    match R.File with
    | none => .ok (true, [])
    | some File =>
      match R.Mode with
      | Cell.uninit => .error .undefined
      | Cell.val Mode =>
        if Mode = RedirectMode.RedirectNone then .ok (true, [])
        else
          let opened := openRedirect os File Mode
          if ¬ opened.1 then .ok (false, opened.2)
          else
            match R.FD with
            | Cell.uninit => .error .undefined
            | Cell.val FD =>
              if FD ≥ 0 then .ok (os.dup2Ok FD, opened.2 ++ [Action.dup2 FD (os.dup2Ok FD)])
              else
                match Mode with
                | RedirectMode.RedirectInput =>
                  .ok (os.dup2Ok 0, opened.2 ++ [Action.dup2 0 (os.dup2Ok 0)])
                | RedirectMode.RedirectOutput =>
                  .ok (os.dup2Ok 1, opened.2 ++ [Action.dup2 1 (os.dup2Ok 1)])
                | RedirectMode.RedirectAppend =>
                  .ok (os.dup2Ok 1, opened.2 ++ [Action.dup2 1 (os.dup2Ok 1)])
                | RedirectMode.RedirectNone => .ok (true, opened.2)
                | _ =>
                  -- `dup2(fd, 1) != -1 && dup2(fd, 2) != 1`: the second test never fails
                  if os.dup2Ok 1 then
                    .ok (true, opened.2 ++ [Action.dup2 1 true, Action.dup2 2 (os.dup2Ok 2)])
                  else .ok (false, opened.2 ++ [Action.dup2 1 false])

/-- `getLocalVariable`: the first variable of that name. -/
def getLocalVariable (Name : CStr) (VA : LocalVariableArray) : Option LocalVariable :=
  VA.Vars.find? (fun Var => decide (Name = Var.Name))

/-- `addLocalVariable`: the array doubles when it is full. -/
def addLocalVariable (VA : LocalVariableArray) (Var : LocalVariable) :
    Except Fault LocalVariableArray :=
  let Capacity := if VA.Count ≥ VA.Capacity then VA.Capacity * 2 else VA.Capacity
  if VA.Count < Capacity then .ok { Vars := VA.Vars ++ [Var], Capacity := Capacity }
  else .error .undefined

/-- The loop of `updateLocalVariable` over the array. -/
def updateVars : List LocalVariable → LocalVariable → List LocalVariable
  | [], _ => []
  | V :: rest, Var =>
    if V.Name = Var.Name then { V with Value := Var.Value } :: rest
    else V :: updateVars rest Var

/-- `updateLocalVariable`. -/
def updateLocalVariable (VA : LocalVariableArray) (Var : LocalVariable) : LocalVariableArray :=
  { VA with Vars := updateVars VA.Vars Var }

/-- What `replaceVariables` stores in place of one token. -/
def replaceToken (env : Environ) (VA : LocalVariableArray) (Token : CStr) : CStr :=
  match Token with
  | '$' :: Name =>
    match getenv env Name with
    | some Value => Value
    | none =>
      match getLocalVariable Name VA with
      | some Var => Var.Value
      | none => []
  | _ => Token

/-- `replaceVariables`: the result code, the command afterwards and the diagnostics.
Only the token at index 0 can end the loop early. -/
def replaceVariables (env : Environ) (Cmd : Command) (VA : LocalVariableArray)
    (CheckFirst : Int) : Int × Command × List Action :=
  match Cmd.Tokens with
  | ('$' :: _) :: _ =>
    if CheckFirst = 1 then
      (1, Cmd, [Action.stderr "local: variable cannot start with $\n".toList])
    else if CheckFirst = 2 then
      (1, Cmd, [Action.stderr "export: variable cannot start with $\n".toList])
    else (0, { Cmd with Tokens := Cmd.Tokens.map (replaceToken env VA) }, [])
  | _ => (0, { Cmd with Tokens := Cmd.Tokens.map (replaceToken env VA) }, [])

/-! ## Builtins and dispatch -/

/-- The functions named in the table `BuiltinCommandInfoMap`. -/
inductive BuiltinCommandFunc where
  | Exit : BuiltinCommandFunc
  | Cd : BuiltinCommandFunc
  | Export : BuiltinCommandFunc
  | Local : BuiltinCommandFunc
  | Vars : BuiltinCommandFunc
  | Hist : BuiltinCommandFunc
  | Ls : BuiltinCommandFunc
  deriving DecidableEq, Repr

/-- The table `BuiltinCommandInfoMap`, in the order of the source. -/
def BuiltinCommandInfoMap : List (CStr × BuiltinCommandFunc) :=
  [("exit".toList, BuiltinCommandFunc.Exit), ("cd".toList, BuiltinCommandFunc.Cd),
   ("export".toList, BuiltinCommandFunc.Export), ("local".toList, BuiltinCommandFunc.Local),
   ("vars".toList, BuiltinCommandFunc.Vars), ("history".toList, BuiltinCommandFunc.Hist),
   ("ls".toList, BuiltinCommandFunc.Ls)]

/-- `getBuiltinCommandInfo` on a command with at least one token. -/
def getBuiltinCommandInfo (Cmd : Command) : Option (CStr × BuiltinCommandFunc) :=
  match Cmd.Tokens with
  | [] => none
  | Token :: _ => BuiltinCommandInfoMap.find? (fun BC => decide (Token = BC.1))

/-- `printCommand`: nothing for `NULL`, else the tokens separated by one space and a
newline. -/
def printCommand (Cmd : Option Command) : List Action :=
  match Cmd with
  | none => []
  | some C => [Action.stdout ((List.intercalate [' '] C.Tokens) ++ ['\n'])]

/-- The text `printf("%d) ", i)` writes. -/
def entryLabel (i : Nat) : CStr := (Nat.repr i).toList ++ [')', ' ']

/-- The loop `for (i = 1; i <= Count; i++)` of `executeHistoryCommand`, with `k`
iterations left. -/
def listLoop (Hist : History) : Nat → Nat → List Action → Except Fault (List Action)
  | 0, _, out => .ok out
  | k + 1, i, out =>
    match getHistory (i : Int) Hist with
    | .error e => .error e
    | .ok Temp => listLoop Hist k (i + 1) (out ++ [Action.stdout (entryLabel i)] ++ printCommand Temp)

/-- `strcmp` as a sign: the order of the first differing characters, or of the lengths. -/
def strcmp : CStr → CStr → Int
  | [], [] => 0
  | [], _ :: _ => -1
  | _ :: _, [] => 1
  | a :: as, b :: bs => if a = b then strcmp as bs else if a.toNat < b.toNat then -1 else 1

/-- `filterDirDotFiles` on a directory entry name. -/
def filterDirDotFiles (d_name : CStr) : Bool :=
  match d_name with
  | '.' :: _ => false
  | _ => true

/-- The loop of `compareStrs`; the first argument bounds the number of iterations. -/
def compareStrsLoop : Nat → CStr → CStr → Int
  | 0, _, _ => 0
  | _ + 1, [], [] => 0
  | _ + 1, _ :: _, [] => 1
  | _ + 1, [], _ :: _ => -1
  | fuel + 1, a :: as, b :: bs =>
    if isalnum a ∧ isalnum b then
      if a ≠ b then (a.toNat : Int) - (b.toNat : Int) else compareStrsLoop fuel as bs
    else
      compareStrsLoop fuel (if ¬ isalnum a then as else a :: as) (if ¬ isalnum b then bs else b :: bs)

/-- `compareStrs` on two strings. -/
def compareStrs (StrA StrB : CStr) : Int :=
  compareStrsLoop (StrA.length + StrB.length + 1) StrA StrB

/-- `executeExitCommand`: the process ends with status `-Error`. -/
def executeExitCommand (_Cmd : Command) (P : Proc) : Except Fault Result :=
  .ok (Result.exited (-P.S.Error) P.Out)

/-- `executeCdCommand`. -/
def executeCdCommand (os : OS) (Cmd : Command) (P : Proc) : Except Fault Result :=
  if Cmd.TokenCount ≠ 2 then
    .ok (Result.returned 1 (some Cmd) (P.emit [Action.stderr "cd: usage: 'cd <dir>'\n".toList]))
  else
    let dir := Cmd.Tokens.getD 1 []
    if ¬ os.chdirOk dir then
      .ok (Result.returned 1 (some Cmd)
        (Proc.emit { P with Out := P.Out ++ [Event.chdir dir false] }
          [Action.stderr ("cd: cannot change to directory '".toList ++ dir ++ "'\n".toList)]))
    else .ok (Result.returned 0 (some Cmd) { P with Out := P.Out ++ [Event.chdir dir true] })

/-- `executeExportCommand`. `strtok` works on the token itself and ends it after the
name. -/
def executeExportCommand (Cmd : Command) (P : Proc) : Except Fault Result :=
  if Cmd.TokenCount ≠ 2 then
    .ok (Result.returned 1 (some Cmd)
      (P.emit [Action.stderr "export: usage: 'export S->VAR=<value>'\n".toList]))
  else
    let Token := Cmd.Tokens.getD 1 []
    match strtok Token ['='] with
    | none => .ok (Result.returned 1 (some Cmd) P)
    | some (name, rest) =>
      let Cmd1 : Command :=
        { Cmd with Tokens := Cmd.Tokens.set 1 (Token.takeWhile (fun c => c = '=') ++ name) }
      match strtok rest ['='] with
      | none =>
        .ok (Result.returned 1 (some Cmd1)
          (P.emit [Action.stderr "export: variable must have definition\n".toList]))
      | some (value, _) =>
        match setenv P.Env name value with
        | none => .ok (Result.returned 1 (some Cmd1) P)
        | some env => .ok (Result.returned 0 (some Cmd1) { P with Env := env })

/-- `executeLocalCommand`. `strtok` works on a copy of the token. -/
def executeLocalCommand (Cmd : Command) (P : Proc) : Except Fault Result :=
  if Cmd.TokenCount ≠ 2 then
    .ok (Result.returned 1 (some Cmd)
      (P.emit [Action.stderr "local: usage: 'local S->VAR=<value>'\n".toList]))
  else
    match strtok (Cmd.Tokens.getD 1 []) ['='] with
    | none =>
      .ok (Result.returned 1 (some Cmd)
        (P.emit [Action.stderr "local: usage: 'local S->VAR=<value>'\n".toList]))
    | some (Name, rest) =>
      let Value : CStr :=
        match strtok rest ['='] with
        | some (v, _) => v
        | none => []
      let Var : LocalVariable := { Name := Name, Value := Value }
      match getLocalVariable Name P.S.VA with
      | none =>
        match addLocalVariable P.S.VA Var with
        | .error e => .error e
        | .ok VA => .ok (Result.returned 0 (some Cmd) { P with S := { P.S with VA := VA } })
      | some _ =>
        .ok (Result.returned 0 (some Cmd)
          { P with S := { P.S with VA := updateLocalVariable P.S.VA Var } })

/-- `executeVarsCommand`. -/
def executeVarsCommand (Cmd : Command) (P : Proc) : Except Fault Result :=
  if Cmd.TokenCount ≠ 1 then
    .ok (Result.returned 1 (some Cmd) (P.emit [Action.stderr "vars: usage: 'vars'\n".toList]))
  else
    .ok (Result.returned 0 (some Cmd)
      (P.emit (P.S.VA.Vars.map (fun Var => Action.stdout (Var.Name ++ ['='] ++ Var.Value ++ ['\n'])))))

/-- `executeHistoryCommand`; `exec` is the recursive call of `execute`. -/
def executeHistoryCommand (exec : Command → Proc → Except Fault Result)
    (Cmd : Command) (P : Proc) : Except Fault Result :=
  let Hist := P.S.Hist
  if Cmd.TokenCount = 1 then
    match listLoop Hist Hist.Count 1 [] with
    | .error e => .error e
    | .ok out => .ok (Result.returned 0 (some Cmd) (P.emit out))
  else if Cmd.TokenCount = 2 then
    let parsed := strtol (Cmd.Tokens.getD 1 []) 0
    let NumEntry := toInt32 parsed.1
    if parsed.2 = 0 then
      .ok (Result.returned 1 (some Cmd)
        (P.emit [Action.stderr "history: usage: 'history <n>'\n".toList]))
    else
      match getHistory NumEntry Hist with
      | .error e => .error e
      | .ok none => .ok (Result.returned 1 (some Cmd) P)
      | .ok (some NextCmd) =>
        match exec NextCmd P with
        | .error e => .error e
        | .ok (Result.returned code _ P1) => .ok (Result.returned code (some Cmd) P1)
        | .ok (Result.exited status out) => .ok (Result.exited status out)
  else if Cmd.TokenCount = 3 then
    if Cmd.Tokens.getD 1 [] ≠ "set".toList then
      .ok (Result.returned 1 (some Cmd)
        (P.emit [Action.stderr "history: usage: 'history set <n>'\n".toList]))
    else
      let parsed := strtol (Cmd.Tokens.getD 2 []) 0
      let Capacity := toInt32 parsed.1
      if parsed.2 = 0 then
        .ok (Result.returned 1 (some Cmd)
          (P.emit [Action.stderr "history: usage: 'history set <n>'\n".toList]))
      else if Capacity < 1 then
        .ok (Result.returned 1 (some Cmd)
          (P.emit [Action.stderr "history: minimum history is 1\n".toList]))
      else
        match setHistoryCapacity Capacity Hist with
        | .error e => .error e
        | .ok (code, Hist1) =>
          .ok (Result.returned code (some Cmd) { P with S := { P.S with Hist := Hist1 } })
  else
    .ok (Result.returned 1 (some Cmd) (P.emit [Action.stderr "history: incorrect usage\n".toList]))

/-- `executeLsCommand`: `scandir` keeps the names accepted by `filterDirDotFiles` and
sorts them with `alphasort`, which in the C locale orders by `strcmp`. -/
def executeLsCommand (os : OS) (Cmd : Command) (P : Proc) : Except Fault Result :=
  if Cmd.TokenCount ≠ 1 then
    .ok (Result.returned 1 (some Cmd) (P.emit [Action.stderr "ls: usage: 'ls'\n".toList]))
  else
    match os.dirNames with
    | none => .ok (Result.returned 1 (some Cmd) (P.emit [Action.perror "scandir".toList]))
    | some names =>
      let NameList := (names.filter filterDirDotFiles).insertionSort (fun a b => strcmp a b ≤ 0)
      .ok (Result.returned 0 (some Cmd)
        (P.emit (NameList.map (fun d_name => Action.stdout (d_name ++ ['\n'])))))

/-- The step `if (Redirection && Redirection->File && Mode != RedirectNone)` of `execute`
that drops the last token. -/
def stripRedirection (Cmd : Command) : Except Fault Command :=
  match Cmd.Redirection with
  | none => .ok Cmd
  | some R =>
    match R.File with
    | none => .ok Cmd
    | some _ =>
      match R.Mode with
      | Cell.uninit => .error .undefined
      | Cell.val Mode =>
        if Mode ≠ RedirectMode.RedirectNone then
          if Cmd.TokenCount = 0 then .error .undefined
          else .ok { Cmd with Tokens := Cmd.Tokens.dropLast }
        else .ok Cmd

/-- The child branch (`PID == 0`) of `execute`: what the child does and how it ends, as
`waitpid` reports it to the parent. The action `execv` carries the tokens of the array that
is handed to `execv`; the vector that `execv` reads from that array is `argvOf` of it. -/
def childProcess (os : OS) (env : Environ) (Cmd : Command) :
    Except Fault (List Action × WaitStatus) :=
  match Cmd.Tokens with
  | [] => .error .undefined
  | Exe :: _ =>
    match findExecutable os env Exe with
    | none =>
      .ok ([Action.stderr ("command not found: ".toList ++ Exe ++ ['\n'])], WaitStatus.exited 1)
    | some ExecutablePath =>
      match redirect os Cmd.Redirection with
      | .error e => .error e
      | .ok (false, acts) => .ok (acts, WaitStatus.exited 1)
      | .ok (true, acts) =>
        match os.execv ExecutablePath Cmd.Tokens with
        | some status => .ok (acts ++ [Action.execv ExecutablePath Cmd.Tokens true], status)
        | none =>
          .ok (acts ++ [Action.execv ExecutablePath Cmd.Tokens false,
                        Action.perror "execv".toList], WaitStatus.exited 1)

/-- `execute`. The first argument bounds the depth of the recursion through
`executeHistoryCommand`. -/
def execute : Nat → OS → Command → Proc → Except Fault Result
  | 0, _, _, _ => .error .outOfFuel
  | fuel + 1, os, Cmd, P =>
    if Cmd.TokenCount = 0 then .ok (Result.returned 1 (some Cmd) P)
    else
      match getBuiltinCommandInfo Cmd with
      | none =>
        match addHistory P.S.Hist (getCommandCopy Cmd) with
        | .error e => .error e
        | .ok (_, Hist1) =>
          let P1 : Proc := { P with S := { P.S with Hist := Hist1 } }
          match stripRedirection Cmd with
          | .error e => .error e
          | .ok Cmd1 =>
            let Cmd2 := (replaceVariables P1.Env Cmd1 P1.S.VA 0).2.1
            if ¬ os.forkOk then
              .ok (Result.returned 1 (some Cmd2)
                (Proc.emit { P1 with Out := P1.Out ++ [Event.fork false] }
                  [Action.perror "fork".toList]))
            else
              match childProcess os P1.Env Cmd2 with
              | .error e => .error e
              | .ok (acts, status) =>
                let P2 : Proc :=
                  { P1 with Out := P1.Out ++ [Event.fork true] ++ acts.map Event.child }
                match status with
                | WaitStatus.exited code => .ok (Result.returned code (some Cmd2) P2)
                | WaitStatus.signaled => .ok (Result.returned 1 (some Cmd2) P2)
      | some BC =>
        let CheckFirstVar : Int :=
          if BC.1 = "local".toList then 1 else if BC.1 = "export".toList then 2 else 0
        let replaced := replaceVariables P.Env Cmd P.S.VA CheckFirstVar
        let P1 := P.emit replaced.2.2
        if CheckFirstVar ≠ 0 ∧ replaced.1 ≠ 0 then .ok (Result.returned 1 (some replaced.2.1) P1)
        else
          match stripRedirection replaced.2.1 with
          | .error e => .error e
          | .ok Cmd1 =>
            match redirect os Cmd1.Redirection with
            | .error e => .error e
            | .ok (false, acts) => .ok (Result.returned 1 none (P1.emit acts))
            | .ok (true, acts) =>
              let P2 : Proc :=
                { (P1.emit acts) with
                  Out := (P1.emit acts).Out ++ [Event.builtin BC.1 Cmd1.Tokens] }
              match BC.2 with
              | BuiltinCommandFunc.Exit => executeExitCommand Cmd1 P2
              | BuiltinCommandFunc.Cd => executeCdCommand os Cmd1 P2
              | BuiltinCommandFunc.Export => executeExportCommand Cmd1 P2
              | BuiltinCommandFunc.Local => executeLocalCommand Cmd1 P2
              | BuiltinCommandFunc.Vars => executeVarsCommand Cmd1 P2
              | BuiltinCommandFunc.Hist => executeHistoryCommand (execute fuel os) Cmd1 P2
              | BuiltinCommandFunc.Ls => executeLsCommand os Cmd1 P2

/-- The call `BC->Func(Cmd, S)` of `execute`: the function of the table entry, applied to
the command and the shell. -/
def callBuiltin (exec : Command → Proc → Except Fault Result) (os : OS)
    (Func : BuiltinCommandFunc) (Cmd : Command) (P : Proc) : Except Fault Result :=
  match Func with
  | BuiltinCommandFunc.Exit => executeExitCommand Cmd P
  | BuiltinCommandFunc.Cd => executeCdCommand os Cmd P
  | BuiltinCommandFunc.Export => executeExportCommand Cmd P
  | BuiltinCommandFunc.Local => executeLocalCommand Cmd P
  | BuiltinCommandFunc.Vars => executeVarsCommand Cmd P
  | BuiltinCommandFunc.Hist => executeHistoryCommand exec Cmd P
  | BuiltinCommandFunc.Ls => executeLsCommand os Cmd P

/-- The read loop on commands that are already parsed: `S->Error = execute(Cmd, S)` for
each in turn, each with the answers the operating system gives at that time. The
`freeCommand(Cmd)` that follows each call is not part of this function. -/
def runCommands (fuel : Nat) : List (OS × Command) → Proc → Except Fault Result
  | [], P => .ok (Result.returned P.S.Error none P)
  | (os, Cmd) :: rest, P =>
    match execute fuel os Cmd P with
    | .error e => .error e
    | .ok (Result.exited status out) => .ok (Result.exited status out)
    | .ok (Result.returned code _ P1) =>
      runCommands fuel rest { P1 with S := { P1.S with Error := code } }

/-- The shell states that a sequence of `execute` calls can reach from `initShell`. -/
inductive Reachable : Proc → Prop where
  | init (env0 : Environ) (P : Proc) (h : initShell env0 = some P) : Reachable P
  | step (fuel : Nat) (os : OS) (Cmd : Command) (P P1 : Proc) (code : Int)
      (Cmd1 : Option Command) (hP : Reachable P)
      (h : execute fuel os Cmd P = .ok (Result.returned code Cmd1 P1)) :
      Reachable { P1 with S := { P1.S with Error := code } }

/-! ## Vocabulary of the statements -/

/-- The history stores exactly the commands `es`, oldest first: they fill its first
`Count` cells, and the array has `Capacity` cells. -/
def History.Stores (Hist : History) (es : List Command) : Prop :=
  Hist.Count = es.length ∧ Hist.Entries.take Hist.Count = es.map Slot.entry ∧
    Hist.Entries.length = Hist.Capacity

/-- The maximal non-empty substrings of a line that contain no space, in order: the line
is cut at every space and the empty pieces are dropped. -/
def spaceFreeRuns (Input : CStr) : List CStr :=
  (Input.splitOn ' ').filter (fun t => !t.isEmpty)

/-- The shape of a command that `getCommand` builds: at least one token, and a
redirection, when there is one, whose mode and descriptor are assigned and which names a
file only when the command has at least two tokens. -/
def Command.WellFormed (Cmd : Command) : Prop :=
  Cmd.Tokens ≠ [] ∧ ∀ R, Cmd.Redirection = some R →
    (∃ m, R.Mode = Cell.val m) ∧ (∃ fd, R.FD = Cell.val fd) ∧
    (R.File ≠ none → 2 ≤ Cmd.TokenCount)

/-- The bounds of a history: the array has `Capacity` cells, `Capacity` is at least 1 and
`Count` is at most `Capacity`. -/
def History.Bounded (Hist : History) : Prop :=
  Hist.Entries.length = Hist.Capacity ∧ 1 ≤ Hist.Capacity ∧ Hist.Count ≤ Hist.Capacity

/-- The lines of a history listing for the given entries, numbered from `i` on: for each
entry its number followed by `) `, then its tokens separated by spaces and a newline. -/
def historyListing : Nat → List Command → List Action
  | _, [] => []
  | i, e :: rest =>
    Action.stdout ((Nat.repr i).toList ++ [')', ' ']) ::
      Action.stdout (List.intercalate [' '] e.Tokens ++ ['\n']) :: historyListing (i + 1) rest

/-- The last `n` elements of a list, in their order. -/
def lastN {α : Type} (n : Nat) (l : List α) : List α := l.drop (l.length - n)

/-- The names of the stored variables, in the order of the array. -/
def LocalVariableArray.Names (VA : LocalVariableArray) : List CStr :=
  VA.Vars.map (fun V => V.Name)

/-- The shape of a variable store: no name occurs twice, `Capacity` is at least 1 and
`Count` is at most `Capacity`. -/
def LocalVariableArray.Sound (VA : LocalVariableArray) : Prop :=
  VA.Names.Nodup ∧ 1 ≤ VA.Capacity ∧ VA.Count ≤ VA.Capacity

/-- Whether the command has a redirection whose mode is assigned and is not
`RedirectNone`. -/
def Command.redirects (Cmd : Command) : Bool :=
  match Cmd.Redirection with
  | some R =>
    match R.Mode with
    | Cell.val Mode => decide (Mode ≠ RedirectMode.RedirectNone)
    | Cell.uninit => false
  | none => false

/-- The tokens of the command without the last one when the command redirects, all of
them otherwise, each after variable substitution. -/
def Command.argumentList (Cmd : Command) (env : Environ) (VA : LocalVariableArray) :
    List CStr :=
  (if Cmd.redirects then Cmd.Tokens.dropLast else Cmd.Tokens).map (replaceToken env VA)

/-- The code that `execute` returns for the way a child ended. -/
def WaitStatus.code (status : WaitStatus) : Int :=
  match status with
  | WaitStatus.exited code => code
  | WaitStatus.signaled => 1

/-- The text that the cascade of `strstr` and `strchr` of `getCommand` looks for, for each
mode it assigns. -/
def operatorText : RedirectMode → CStr
  | RedirectMode.RedirectAppendError => ['&', '>', '>']
  | RedirectMode.RedirectAppend => ['>', '>']
  | RedirectMode.RedirectOuputError => ['&', '>']
  | RedirectMode.RedirectOutput => ['>']
  | RedirectMode.RedirectInput => ['<']
  | RedirectMode.RedirectNone => []

/-- The number that a run of decimal digits denotes. -/
def decimalValue (digits : CStr) : Nat :=
  digits.foldl (fun acc c => acc * 10 + (c.toNat - '0'.toNat)) 0

/-- The names of the builtin commands, in the order of `BuiltinCommandInfoMap`. -/
def builtinNames : List CStr :=
  ["exit".toList, "cd".toList, "export".toList, "local".toList, "vars".toList,
   "history".toList, "ls".toList]

/-- Every command held by a cell of the history has at least one token, and
`getBuiltinCommandInfo` finds no builtin for it. -/
def History.External (Hist : History) : Prop :=
  ∀ c, Slot.entry c ∈ Hist.Entries → c.Tokens ≠ [] ∧ getBuiltinCommandInfo c = none

/-- The trace with which a call comes back. -/
def Result.Out : Result → List Event
  | Result.returned _ _ P => P.Out
  | Result.exited _ Out => Out

/-- The name that a string of `environ` binds: the text before its first `=`. -/
def envName (s : CStr) : CStr := s.takeWhile (fun c => c != '=')

/-- The value that a string of `environ` gives to its name: the text behind its first
`=`. -/
def envValue (s : CStr) : CStr := (s.dropWhile (fun c => c != '=')).drop 1

/-- The array `Cmd->Tokens` of a command that `getCommand` built, as it is when `execute`
calls `execv`: `calloc` gave `MAX_NUM_TOKENS` cells, all `NULL`, the tokens fill the first
`TokenCount` of them, and the cell of a removed redirection token was set to `NULL`
again. -/
def Command.tokenArray (Cmd : Command) : List (Option CStr) :=
  Cmd.Tokens.map some ++ List.replicate (MAX_NUM_TOKENS - Cmd.TokenCount) none

/-- The argument vector that `execv` reads from an array of strings: the strings before
the first `NULL`. An array without a `NULL` cell is read beyond its last cell. -/
def argvOf : List (Option CStr) → Except Fault (List CStr)
  | [] => .error .undefined
  | none :: _ => .ok []
  | some t :: rest =>
    match argvOf rest with
    | .ok l => .ok (t :: l)
    | .error e => .error e

/-! ## Sample data for the closed statements -/

/-- The variable array `initShell` creates. -/
def sampleVA : LocalVariableArray := initLocalVariables INITIAL_LOCAL_VARS_CAPACITY

/-- An operating system in which every call succeeds and every program exits with 0. -/
def sampleOS : OS :=
  { openOk := fun _ _ => true
    dup2Ok := fun _ => true
    accessX := fun _ => true
    chdirOk := fun _ => true
    forkOk := true
    execv := fun _ _ => some (WaitStatus.exited 0)
    dirNames := some [] }

/-- The command `getCommand` builds from a line (the empty command when it builds none). -/
def parseLine (line : String) : Command :=
  (getCommand line.toList sampleVA).getD { Tokens := [], Redirection := none }

/-- The history entry that `execute` stores for a line. -/
def entryOf (line : String) : Command := getCommandCopy (parseLine line)

/-- The shell `initShell` creates on an empty inherited environment. -/
def sampleProc : Proc :=
  { S := { VA := sampleVA, Hist := initHistory INITIAL_HISTORY_CAPACITY, Error := 0 }
    Env := [("PATH".toList, "/bin".toList)]
    Out := [] }

/-- The sample shell after the line `echo a` was run in it. -/
def sampleAfterEcho : Proc :=
  { S := { VA := sampleVA
           Hist := { Entries := [Slot.entry (getCommandCopy (parseLine "echo a")), Slot.null,
                       Slot.null, Slot.null, Slot.null]
                     Count := 1
                     Capacity := 5 }
           Error := 0 }
    Env := [("PATH".toList, "/bin".toList)]
    Out := [Event.fork true,
      Event.child (Action.execv "/bin/echo".toList ["echo".toList, "a".toList] true)] }

/-- The sample shell after `echo a` and then `history set 7`. -/
def sampleAfterGrow : Proc :=
  { S := { VA := sampleVA
           Hist := { Entries := [Slot.entry (getCommandCopy (parseLine "echo a")), Slot.null,
                       Slot.null, Slot.null, Slot.null, Slot.uninit, Slot.uninit]
                     Count := 1
                     Capacity := 7 }
           Error := 0 }
    Env := [("PATH".toList, "/bin".toList)]
    Out := [Event.fork true,
      Event.child (Action.execv "/bin/echo".toList ["echo".toList, "a".toList] true),
      Event.builtin "history".toList ["history".toList, "set".toList, "7".toList]] }

/-- A history of the given capacity that stores the entries of the given lines. -/
def historyOf (Capacity : Nat) (lines : List String) : History :=
  { Entries := lines.map (fun l => Slot.entry (entryOf l)) ++
      List.replicate (Capacity - lines.length) Slot.null
    Count := lines.length
    Capacity := Capacity }

/-- The sample shell after `export x=1` and then `local x=2` were run in it. -/
def sampleAfterExportLocal : Proc :=
  { S := { VA := { Vars := [{ Name := "x".toList, Value := "2".toList }]
                   Capacity := INITIAL_LOCAL_VARS_CAPACITY }
           Hist := initHistory INITIAL_HISTORY_CAPACITY
           Error := 0 }
    Env := [("PATH".toList, "/bin".toList), ("x".toList, "1".toList)]
    Out := [Event.builtin "export".toList ["export".toList, "x=1".toList],
      Event.builtin "local".toList ["local".toList, "x=2".toList]] }

/-- An operating system like `sampleOS` whose current directory holds the given names. -/
def sampleDir (names : List String) : OS :=
  { sampleOS with dirNames := some (names.map String.toList) }

/-- The sample shell after the line `echo hi 2>err` was run in it. -/
def sampleAfterRedirect : Proc :=
  { S := { VA := sampleVA
           Hist := { Entries := [Slot.entry (getCommandCopy (parseLine "echo hi 2>err")),
                       Slot.null, Slot.null, Slot.null, Slot.null]
                     Count := 1
                     Capacity := 5 }
           Error := 0 }
    Env := [("PATH".toList, "/bin".toList)]
    Out := [Event.fork true,
      Event.child (Action.openFile "err".toList RedirectMode.RedirectOutput true),
      Event.child (Action.dup2 2 true),
      Event.child (Action.execv "/bin/echo".toList ["echo".toList, "hi".toList] true)] }

/-- The command `getCommand` builds from the line `echo $x >out`. -/
def sampleRedirected : Command := parseLine "echo $x >out"

/-- The argument list of `sampleRedirected` in the shell `sampleAfterExportLocal`. -/
def sampleArguments : List CStr :=
  sampleRedirected.argumentList sampleAfterExportLocal.Env sampleAfterExportLocal.S.VA

/-- An operating system like `sampleOS` in which no file can be opened. -/
def sampleNoOpen : OS := { sampleOS with openOk := fun _ _ => false }

/-- The variable store after `local x=2` and `local y=5`. -/
def sampleStore : LocalVariableArray :=
  { Vars := [{ Name := "x".toList, Value := "2".toList },
             { Name := "y".toList, Value := "5".toList }]
    Capacity := 128 }

/-- The shell that `initShell` creates when the inherited environment is the one string
`FOO=bar=baz`. -/
def sampleInherited : Proc :=
  { sampleProc with Env := [("FOO".toList, "bar=baz".toList), ("PATH".toList, "/bin".toList)] }

/-- The sample shell after `echo a`, `echo b` and then `history set 2`. -/
def sampleAfterShrink : Proc :=
  { S := { VA := sampleVA
           Hist := { Entries := [Slot.null, Slot.null], Count := 2, Capacity := 2 }
           Error := 0 }
    Env := [("PATH".toList, "/bin".toList)]
    Out := [Event.fork true,
      Event.child (Action.execv "/bin/echo".toList ["echo".toList, "a".toList] true),
      Event.fork true,
      Event.child (Action.execv "/bin/echo".toList ["echo".toList, "b".toList] true),
      Event.builtin "history".toList ["history".toList, "set".toList, "2".toList]] }

/-- An operating system like `sampleNoOpen` in which, besides, no program is found. -/
def sampleNoProgram : OS := { sampleNoOpen with accessX := fun _ => false }

/-- An address of the heap. -/
abbrev Addr := Nat

/-- An object created by `malloc`, `calloc` or `strdup`: a string, an array of `char *`
(`none` is `NULL`), a struct `Redirect` or a struct `Command`. -/
inductive Obj where
  | str (s : CStr) : Obj
  | tokens (cells : List (Option Addr)) : Obj
  | redirect (Mode : Cell RedirectMode) (File : Option Addr) (FD : Cell Int) : Obj
  | command (Tokens : Option Addr) (TokenCount : Nat) (Redirection : Option Addr) : Obj
  deriving DecidableEq, Repr

/-- The heap: the object at each address; `none` at an address that is free. -/
structure Heap where
  cells : List (Option Obj)
  deriving DecidableEq, Repr

/-- The object at an address. -/
def Heap.obj (h : Heap) (a : Addr) : Option Obj := h.cells.getD a none

/-- The heap with the cell of one address replaced. -/
def Heap.put (h : Heap) (a : Addr) (o : Option Obj) : Heap :=
  if a < h.cells.length then { cells := h.cells.set a o }
  else { cells := h.cells ++ List.replicate (a - h.cells.length) none ++ [o] }

/-- `free(a)` for a non-`NULL` pointer: undefined when no object lives at `a`. -/
def Heap.free (h : Heap) (a : Addr) : Except Fault Heap :=
  match h.obj a with
  | none => .error .undefined
  | some _ => .ok (h.put a none)

/-- `strdup(a)`: undefined when `a` is not a string; `malloc` picks the address. -/
def strdupH (malloc : Heap → Addr) (h : Heap) (a : Addr) : Except Fault (Addr × Heap) :=
  match h.obj a with
  | some (Obj.str s) => .ok (malloc h, h.put (malloc h) (some (Obj.str s)))
  | _ => .error .undefined

/-- The loop `for (i = 0; i < TokenCount; i++) CmdCpy->Tokens[i] = strdup(Cmd->Tokens[i])`
of `getCommandCopy`, with `k` iterations left; `src` and `dst` are the two arrays. -/
def copyTokensH (malloc : Heap → Addr) (src dst : Addr) : Nat → Nat → Heap → Except Fault Heap
  | 0, _, h => .ok h
  | k + 1, i, h =>
    match h.obj src with
    | some (Obj.tokens cells) =>
      match cells[i]? with
      | some (some a) =>
        match strdupH malloc h a with
        | .error e => .error e
        | .ok (b, h1) =>
          match h1.obj dst with
          | some (Obj.tokens out) =>
            if i < out.length then
              copyTokensH malloc src dst k (i + 1)
                (h1.put dst (some (Obj.tokens (out.set i (some b)))))
            else .error .undefined
          | _ => .error .undefined
      | _ => .error .undefined
    | _ => .error .undefined

/-- The step `if (Cmd->Redirection != NULL) { Mode = ...; File = ... }` of
`getCommandCopy`; `r` is the `Redirect` of the copy. -/
def copyRedirectH (malloc : Heap → Addr) (h : Heap) (Redirection : Option Addr) (r : Addr) :
    Except Fault Heap :=
  match Redirection with
  | none => .ok h
  | some r0 =>
    match h.obj r0 with
    | some (Obj.redirect Mode File _) =>
      match File with
      | none => .ok (h.put r (some (Obj.redirect Mode none Cell.uninit)))
      | some f =>
        match strdupH malloc h f with
        | .error e => .error e
        | .ok (f1, h1) => .ok (h1.put r (some (Obj.redirect Mode (some f1) Cell.uninit)))
    | _ => .error .undefined

/-- `getCommandCopy` on the command at `p`: the address of the copy and the heap
afterwards. The struct, its `Redirect`, the file name, the array and the tokens are
allocated in the order of the source. -/
def getCommandCopyH (malloc : Heap → Addr) (h : Heap) (p : Addr) : Except Fault (Addr × Heap) :=
  match h.obj p with
  | some (Obj.command Tokens n Redirection) =>
    let q := malloc h
    let h1 := h.put q (some (Obj.command none 0 none))
    let r := malloc h1
    let h2 := (h1.put r (some (Obj.redirect Cell.uninit none Cell.uninit))).put q
      (some (Obj.command none 0 (some r)))
    match copyRedirectH malloc h2 Redirection r with
    | .error e => .error e
    | .ok h3 =>
      let arr := malloc h3
      let h4 := (h3.put arr (some (Obj.tokens (List.replicate n none)))).put q
        (some (Obj.command (some arr) n (some r)))
      match Tokens with
      | none => if n = 0 then .ok (q, h4) else .error .undefined
      | some src =>
        match copyTokensH malloc src arr n 0 h4 with
        | .error e => .error e
        | .ok h5 => .ok (q, h5)
  | _ => .error .undefined

/-- The loop `for (i = 0; i < TokenCount; i++) if (Tokens[i]) free(Tokens[i])` of
`freeCommand`, with `k` iterations left. -/
def freeTokensH (arr : Addr) : Nat → Nat → Heap → Except Fault Heap
  | 0, _, h => .ok h
  | k + 1, i, h =>
    match h.obj arr with
    | some (Obj.tokens cells) =>
      match cells[i]? with
      | some (some a) =>
        match h.free a with
        | .error e => .error e
        | .ok h1 => freeTokensH arr k (i + 1) h1
      | some none => freeTokensH arr k (i + 1) h
      | none => .error .undefined
    | _ => .error .undefined

/-- The step `if (Cmd->Tokens) { ... free(Cmd->Tokens); }` of `freeCommand`. -/
def freeArrayH (h : Heap) (Tokens : Option Addr) (n : Nat) : Except Fault Heap :=
  match Tokens with
  | none => .ok h
  | some arr =>
    match freeTokensH arr n 0 h with
    | .error e => .error e
    | .ok h1 => h1.free arr

/-- The step `if (Cmd->Redirection) { ... free(Cmd->Redirection); }` of `freeCommand`. -/
def freeRedirectH (h : Heap) (Redirection : Option Addr) : Except Fault Heap :=
  match Redirection with
  | none => .ok h
  | some r =>
    match h.obj r with
    | some (Obj.redirect _ File _) =>
      match File with
      | none => h.free r
      | some f =>
        match h.free f with
        | .error e => .error e
        | .ok h1 => h1.free r
    | _ => .error .undefined

/-- `freeCommand` on a non-`NULL` pointer. -/
def freeCommandH (h : Heap) (p : Addr) : Except Fault Heap :=
  match h.obj p with
  | some (Obj.command Tokens n Redirection) =>
    match freeArrayH h Tokens n with
    | .error e => .error e
    | .ok h1 =>
      match freeRedirectH h1 Redirection with
      | .error e => .error e
      | .ok h2 => h2.free p
  | _ => .error .undefined

/-- The loop of `compareHistory` over the two arrays, with `k` iterations left. -/
def compareTokensH (h : Heap) (A B : Addr) : Nat → Nat → Except Fault Int
  | 0, _ => .ok 0
  | k + 1, i =>
    match h.obj A, h.obj B with
    | some (Obj.tokens ca), some (Obj.tokens cb) =>
      match ca[i]?, cb[i]? with
      | some (some a), some (some b) =>
        match h.obj a, h.obj b with
        | some (Obj.str s), some (Obj.str t) =>
          if s ≠ t then .ok 1 else compareTokensH h A B k (i + 1)
        | _, _ => .error .undefined
      | _, _ => .error .undefined
    | _, _ => .error .undefined

/-- `compareHistory` on two non-`NULL` pointers. -/
def compareHistoryH (h : Heap) (a b : Addr) : Except Fault Int :=
  match h.obj a, h.obj b with
  | some (Obj.command (some A) na _), some (Obj.command (some B) nb _) =>
    if na ≠ nb then .ok 1 else compareTokensH h A B na 0
  | _, _ => .error .undefined

/-- One cell of the array `History.Entries` as the code sees it: `NULL`, a pointer to a
command, or indeterminate. -/
inductive PSlot where
  | null : PSlot
  | entry (a : Addr) : PSlot
  | uninit : PSlot
  deriving DecidableEq, Repr

/-- The struct `History` with the pointers it holds. -/
structure HistoryH where
  Entries : List PSlot
  Count : Nat
  Capacity : Nat
  deriving DecidableEq, Repr

/-- Read of `Entries[i]`. -/
def readSlotH (E : List PSlot) (i : Nat) : Except Fault PSlot :=
  match E[i]? with
  | some s => .ok s
  | none => .error .undefined

/-- Assignment `Entries[i] = s`. -/
def writeSlotH (E : List PSlot) (i : Nat) (s : PSlot) : Except Fault (List PSlot) :=
  if i < E.length then .ok (E.set i s) else .error .undefined

/-- The loop `for (i = 0; i < Capacity - 1; i++) Entries[i] = Entries[i + 1]` of
`addHistory`, with `k` iterations left. -/
def shiftLoopH : Nat → Nat → List PSlot → Except Fault (List PSlot)
  | 0, _, E => .ok E
  | k + 1, i, E =>
    match readSlotH E (i + 1) with
    | .error e => .error e
    | .ok s =>
      match writeSlotH E i s with
      | .error e => .error e
      | .ok E1 => shiftLoopH k (i + 1) E1

/-- `freeCommand(p)` for a cell `p` of the history. -/
def freeSlotH (h : Heap) : PSlot → Except Fault Heap
  | PSlot.null => .ok h
  | PSlot.entry a => freeCommandH h a
  | PSlot.uninit => .error .undefined

/-- `getHistory`: the pointer it returns (`none` is `NULL`) and the heap afterwards. -/
def getHistoryH (malloc : Heap → Addr) (h : Heap) (Hist : HistoryH) (NumEntry : Int) :
    Except Fault (Option Addr × Heap) :=
  if NumEntry < 1 ∨ NumEntry > (Hist.Count : Int) then .ok (none, h)
  else
    match readSlotH Hist.Entries ((Hist.Count : Int) - NumEntry).toNat with
    | .error e => .error e
    | .ok PSlot.null => .ok (none, h)
    | .ok (PSlot.entry a) =>
      match getCommandCopyH malloc h a with
      | .error e => .error e
      | .ok (q, h1) => .ok (some q, h1)
    | .ok PSlot.uninit => .error .undefined

/-- The second half of `addHistory`: room is made when the history is full, and the
pointer `Cmd` itself is stored. -/
def storeHistoryH (h : Heap) (Hist : HistoryH) (Cmd : Addr) :
    Except Fault (Int × HistoryH × Heap) :=
  if Hist.Count = Hist.Capacity then
    match readSlotH Hist.Entries 0 with
    | .error e => .error e
    | .ok s0 =>
      match freeSlotH h s0 with
      | .error e => .error e
      | .ok h1 =>
        match shiftLoopH (Hist.Capacity - 1) 0 Hist.Entries with
        | .error e => .error e
        | .ok E1 =>
          if Hist.Count = 0 then .error .undefined
          else
            match writeSlotH E1 (Hist.Count - 1) (PSlot.entry Cmd) with
            | .error e => .error e
            | .ok E2 =>
              .ok (0, { Entries := E2, Count := Hist.Count - 1 + 1, Capacity := Hist.Capacity },
                h1)
  else
    match writeSlotH Hist.Entries Hist.Count (PSlot.entry Cmd) with
    | .error e => .error e
    | .ok E2 =>
      .ok (0, { Entries := E2, Count := Hist.Count + 1, Capacity := Hist.Capacity }, h)

/-- `addHistory`: the result code, the history and the heap afterwards. -/
def addHistoryH (malloc : Heap → Addr) (h : Heap) (Hist : HistoryH) (Cmd : Addr) :
    Except Fault (Int × HistoryH × Heap) :=
  match getHistoryH malloc h Hist 1 with
  | .error e => .error e
  | .ok (none, h1) => storeHistoryH h1 Hist Cmd
  | .ok (some PrevCmd, h1) =>
    match compareHistoryH h1 Cmd PrevCmd with
    | .error e => .error e
    | .ok c =>
      match freeCommandH h1 PrevCmd with
      | .error e => .error e
      | .ok h2 => if c = 0 then .ok (1, Hist, h2) else storeHistoryH h2 Hist Cmd

/-- `free(Cmd->Tokens[i])` for a cell that may be `NULL`. -/
def freeCellH (h : Heap) (c : Option Addr) : Except Fault Heap :=
  match c with
  | none => .ok h
  | some a => h.free a

/-- The step `if (Redirection && Redirection->File && Mode != RedirectNone)` of `execute`:
the last token is freed, its cell set to `NULL` and `TokenCount` decremented. -/
def stripRedirectionH (h : Heap) (p : Addr) : Except Fault Heap :=
  match h.obj p with
  | some (Obj.command Tokens n Redirection) =>
    match Redirection with
    | none => .ok h
    | some r =>
      match h.obj r with
      | some (Obj.redirect Mode File _) =>
        match File with
        | none => .ok h
        | some _ =>
          match Mode with
          | Cell.uninit => .error .undefined
          | Cell.val M =>
            if M ≠ RedirectMode.RedirectNone then
              if n = 0 then .error .undefined
              else
                match Tokens with
                | none => .error .undefined
                | some arr =>
                  match h.obj arr with
                  | some (Obj.tokens cells) =>
                    match cells[n - 1]? with
                    | none => .error .undefined
                    | some c =>
                      match freeCellH h c with
                      | .error e => .error e
                      | .ok h1 =>
                        match h1.obj arr with
                        | some (Obj.tokens cells1) =>
                          .ok ((h1.put arr (some (Obj.tokens (cells1.set (n - 1) none)))).put p
                            (some (Obj.command Tokens (n - 1) Redirection)))
                        | _ => .error .undefined
                  | _ => .error .undefined
            else .ok h
      | _ => .error .undefined
  | _ => .error .undefined

/-- Assignment `Cmd->Tokens[i] = a`. -/
def writeTokenH (h : Heap) (arr : Addr) (i : Nat) (a : Addr) : Except Fault Heap :=
  match h.obj arr with
  | some (Obj.tokens cells) =>
    if i < cells.length then .ok (h.put arr (some (Obj.tokens (cells.set i (some a)))))
    else .error .undefined
  | _ => .error .undefined

/-- The body of the loop of `replaceVariables` for a token `$Name` at the address `a`:
with a value in the environment the value is duplicated before the token is freed, otherwise
the token is freed first. -/
def replaceTokenH (malloc : Heap → Addr) (env : Environ) (VA : LocalVariableArray)
    (h : Heap) (arr : Addr) (i : Nat) (a : Addr) (Name : CStr) : Except Fault Heap :=
  match getenv env Name with
  | some Value =>
    let h1 := h.put (malloc h) (some (Obj.str Value))
    match h1.free a with
    | .error e => .error e
    | .ok h2 => writeTokenH h2 arr i (malloc h)
  | none =>
    match h.free a with
    | .error e => .error e
    | .ok h1 =>
      match getLocalVariable Name VA with
      | none => writeTokenH (h1.put (malloc h1) (some (Obj.str []))) arr i (malloc h1)
      | some Var =>
        writeTokenH (h1.put (malloc h1) (some (Obj.str Var.Value))) arr i (malloc h1)

/-- The loop of `replaceVariables` over the array `arr`, with `k` iterations left. -/
def replaceLoopH (malloc : Heap → Addr) (env : Environ) (VA : LocalVariableArray)
    (arr : Addr) (CheckFirst : Int) : Nat → Nat → Heap → Except Fault (Int × List Action × Heap)
  | 0, _, h => .ok (0, [], h)
  | k + 1, i, h =>
    match h.obj arr with
    | some (Obj.tokens cells) =>
      match cells[i]? with
      | some (some a) =>
        match h.obj a with
        | some (Obj.str ('$' :: Name)) =>
          if i = 0 ∧ CheckFirst = 1 then
            .ok (1, [Action.stderr "local: variable cannot start with $\n".toList], h)
          else if i = 0 ∧ CheckFirst = 2 then
            .ok (1, [Action.stderr "export: variable cannot start with $\n".toList], h)
          else
            match replaceTokenH malloc env VA h arr i a Name with
            | .error e => .error e
            | .ok h1 => replaceLoopH malloc env VA arr CheckFirst k (i + 1) h1
        | some (Obj.str _) => replaceLoopH malloc env VA arr CheckFirst k (i + 1) h
        | _ => .error .undefined
      | _ => .error .undefined
    | _ => .error .undefined

/-- `replaceVariables` on the command at `p`: the result code, the diagnostics and the
heap afterwards. -/
def replaceVariablesH (malloc : Heap → Addr) (env : Environ) (VA : LocalVariableArray)
    (h : Heap) (p : Addr) (CheckFirst : Int) : Except Fault (Int × List Action × Heap) :=
  match h.obj p with
  | some (Obj.command Tokens n _) =>
    match Tokens with
    | none => if n = 0 then .ok (0, [], h) else .error .undefined
    | some arr => replaceLoopH malloc env VA arr CheckFirst n 0 h
  | _ => .error .undefined

/-- The statements of `execute` for an external command before `fork`: the copy of the
command is made and handed to `addHistory`, then the redirection token is removed from the
command itself and its variables are replaced. The result is the address of the copy, the
history and the heap. -/
def executeRecordH (malloc : Heap → Addr) (env : Environ) (VA : LocalVariableArray)
    (h : Heap) (Hist : HistoryH) (p : Addr) : Except Fault (Addr × HistoryH × Heap) :=
  match getCommandCopyH malloc h p with
  | .error e => .error e
  | .ok (CmdCpy, h1) =>
    match addHistoryH malloc h1 Hist CmdCpy with
    | .error e => .error e
    | .ok (_, Hist1, h2) =>
      match stripRedirectionH h2 p with
      | .error e => .error e
      | .ok h3 =>
        match replaceVariablesH malloc env VA h3 p 0 with
        | .error e => .error e
        | .ok (_, _, h4) => .ok (CmdCpy, Hist1, h4)

/-- The addresses at which a command lies on the heap: the struct, the array with its
cells, the tokens in the first `TokenCount` cells, the `Redirect` and its file name. -/
structure Shape where
  self : Addr
  arr : Addr
  cells : List (Option Addr)
  toks : List Addr
  red : Option Addr
  file : Option Addr
  deriving DecidableEq, Repr

/-- All addresses of a shape. -/
def Shape.addrs (S : Shape) : List Addr :=
  S.self :: S.arr :: (S.toks ++ S.red.toList ++ S.file.toList)

/-- The heap holds the command `Cmd` at the addresses of `S`: the struct points to the
array and to the `Redirect`, the first `TokenCount` cells of the array point to strings
with the texts of the tokens, the `Redirect` has the mode, the descriptor and the file name
of the command, and no address is used twice. -/
def Holds (h : Heap) (S : Shape) (Cmd : Command) : Prop :=
  h.obj S.self = some (Obj.command (some S.arr) S.toks.length S.red) ∧
  h.obj S.arr = some (Obj.tokens S.cells) ∧
  S.cells.take S.toks.length = S.toks.map some ∧
  S.toks.map h.obj = Cmd.Tokens.map (fun t => some (Obj.str t)) ∧
  S.red.map h.obj = Cmd.Redirection.map (fun R => some (Obj.redirect R.Mode S.file R.FD)) ∧
  S.file.map h.obj = (Cmd.Redirection.bind (fun R => R.File)).map (fun s => some (Obj.str s)) ∧
  S.addrs.Nodup

instance (h : Heap) (S : Shape) (Cmd : Command) : Decidable (Holds h S Cmd) := by
  unfold Holds
  infer_instance

/-- The history holds, oldest first, the commands `es` at the shapes `Ss`: its first
`Count` cells point to them, the array has `Capacity` cells, each command lies on the heap
at its shape, and no two of them share an address. -/
def HistoryH.Stores (Hist : HistoryH) (h : Heap) (Ss : List Shape) (es : List Command) : Prop :=
  Hist.Count = Ss.length ∧
  Hist.Entries.take Hist.Count = Ss.map (fun S => PSlot.entry S.self) ∧
  Hist.Entries.length = Hist.Capacity ∧
  List.Forall₂ (Holds h) Ss es ∧
  Ss.Pairwise (fun S T => ∀ a ∈ S.addrs, a ∉ T.addrs)

/-- The allocator returns only addresses that are free. -/
def Fresh (malloc : Heap → Addr) : Prop := ∀ h : Heap, h.obj (malloc h) = none

/-- An allocator: the first free address. -/
def firstFree (h : Heap) : Addr := h.cells.findIdx (fun o => o.isNone)

/-! ## Sample data on the heap -/

/-- A heap on which the command of the line `echo $x >out` lies, at the address 0. -/
def sampleHeap : Heap :=
  { cells := [some (Obj.command (some 1) 3 (some 5)),
              some (Obj.tokens ([some 2, some 3, some 4] ++ List.replicate 125 none)),
              some (Obj.str "echo".toList), some (Obj.str "$x".toList),
              some (Obj.str ">out".toList),
              some (Obj.redirect (Cell.val RedirectMode.RedirectOutput) (some 6) (Cell.val (-1))),
              some (Obj.str "out".toList)] }

/-- The addresses of the command on `sampleHeap`. -/
def sampleShape : Shape :=
  { self := 0, arr := 1, cells := [some 2, some 3, some 4] ++ List.replicate 125 none,
    toks := [2, 3, 4], red := some 5, file := some 6 }

/-- The empty history of capacity 5, with its pointers. -/
def sampleHistoryH : HistoryH :=
  { Entries := List.replicate 5 PSlot.null, Count := 0, Capacity := 5 }

/-- The heap after `echo $x >out` was recorded and prepared on `sampleHeap`, with the
allocator `firstFree`, where `$x` expands to `1`: the command at the address 0 has become
`echo 1`, the copy at the address 7 is `echo $x >out`. -/
def sampleHeapAfter : Heap :=
  { cells := [some (Obj.command (some 1) 2 (some 5)),
              some (Obj.tokens ([some 2, some 4, none] ++ List.replicate 125 none)),
              some (Obj.str "echo".toList), none, some (Obj.str "1".toList),
              some (Obj.redirect (Cell.val RedirectMode.RedirectOutput) (some 6) (Cell.val (-1))),
              some (Obj.str "out".toList),
              some (Obj.command (some 10) 3 (some 8)),
              some (Obj.redirect (Cell.val RedirectMode.RedirectOutput) (some 9) Cell.uninit),
              some (Obj.str "out".toList),
              some (Obj.tokens [some 11, some 12, some 13]),
              some (Obj.str "echo".toList), some (Obj.str "$x".toList),
              some (Obj.str ">out".toList)] }

/-- The addresses of the copy on `sampleHeapAfter`. -/
def sampleShapeCopy : Shape :=
  { self := 7, arr := 10, cells := [some 11, some 12, some 13], toks := [11, 12, 13],
    red := some 8, file := some 9 }

/-- The addresses of the command itself on `sampleHeapAfter`. -/
def sampleShapeLive : Shape :=
  { self := 0, arr := 1, cells := [some 2, some 4, none] ++ List.replicate 125 none,
    toks := [2, 4], red := some 5, file := some 6 }

end Wsh

namespace Wsh

/-! ## The history manager -/

theorem compareTokens_eq_zero_iff (as bs : List CStr) (h : as.length = bs.length) :
    compareTokens as bs = 0 ↔ as = bs := by
  induction as generalizing bs with
  | nil =>
    cases bs with
    | nil => simp [compareTokens]
    | cons b bs => simp at h
  | cons a as ih =>
    cases bs with
    | nil => simp at h
    | cons b bs =>
      simp only [List.length_cons, Nat.add_right_cancel_iff] at h
      by_cases hab : a = b
      · simp [compareTokens, hab, ih bs h]
      · simp [compareTokens, hab]

theorem compareHistory_eq_zero_iff (A B : Command) :
    compareHistory A B = 0 ↔ A.Tokens = B.Tokens := by
  unfold compareHistory Command.TokenCount
  by_cases h : A.Tokens.length = B.Tokens.length
  · simp [h, compareTokens_eq_zero_iff _ _ h]
  · have : A.Tokens ≠ B.Tokens := fun e => h (by rw [e])
    simp [h, this]

theorem getHistory_of_slot (Hist : History) (n : Nat) (s : Slot) (h1 : 1 ≤ n)
    (h2 : n ≤ Hist.Count) (hs : Hist.Entries[Hist.Count - n]? = some s) :
    getHistory (n : Int) Hist =
      match s with
      | Slot.null => .ok none
      | Slot.entry c => .ok (some (getCommandCopy c))
      | Slot.uninit => .error .undefined := by
  have hidx : ((Hist.Count : Int) - (n : Int)).toNat = Hist.Count - n := by omega
  have hcond : ¬ ((n : Int) < 1 ∨ (n : Int) > (Hist.Count : Int)) := by omega
  cases s <;> simp only [getHistory, readSlot, if_neg hcond, hidx, hs]

theorem getHistory_out_of_range (Hist : History) (n : Int)
    (h : n < 1 ∨ n > (Hist.Count : Int)) : getHistory n Hist = .ok none := by
  unfold getHistory
  rw [if_pos h]

theorem History.Stores.count_le {Hist : History} {es : List Command} (h : Hist.Stores es) :
    Hist.Count ≤ Hist.Capacity := by
  obtain ⟨h1, h2, h3⟩ := h
  have := congrArg List.length h2
  simp at this
  omega

theorem History.Stores.slot {Hist : History} {es : List Command} (h : Hist.Stores es) (i : Nat)
    (hi : i < es.length) : Hist.Entries[i]? = some (Slot.entry (es.get ⟨i, hi⟩)) := by
  obtain ⟨h1, h2, _⟩ := h
  have h4 : (Hist.Entries.take Hist.Count)[i]? = (es.map Slot.entry)[i]? := by rw [h2]
  rw [List.getElem?_take_of_lt (by omega)] at h4
  rw [h4]
  simp

theorem shiftLoop_spec (rest : List Slot) : ∀ (pre : List Slot) (x : Slot),
    ∃ y, shiftLoop rest.length pre.length (pre ++ x :: rest) = .ok (pre ++ rest ++ [y]) := by
  induction rest with
  | nil => intro pre x; exact ⟨x, by simp [shiftLoop]⟩
  | cons r rest ih =>
    intro pre x
    obtain ⟨y, hy⟩ := ih (pre ++ [r]) r
    refine ⟨y, ?_⟩
    have hget : (pre ++ x :: r :: rest)[pre.length + 1]? = some r := by
      rw [List.getElem?_append_right (by omega)]
      simp
    have hread : readSlot (pre ++ x :: r :: rest) (pre.length + 1) = .ok r := by
      simp only [readSlot, hget]
    have hwrite : writeSlot (pre ++ x :: r :: rest) pre.length r
        = .ok ((pre ++ [r]) ++ r :: rest) := by
      simp [writeSlot, List.set_append]
    simp only [List.length_cons, shiftLoop, hread, hwrite]
    simpa using hy

theorem copyLoop_spec (Old : List Slot) (off : Nat) (src : List Slot) :
    ∀ (done fill1 fill2 tl : List Slot), fill1.length = src.length →
      Old.drop (off + done.length) = src ++ tl →
      copyLoop Old off src.length done.length (done ++ fill1 ++ fill2)
        = .ok (done ++ src ++ fill2) := by
  induction src with
  | nil =>
    intro done fill1 fill2 tl hf _
    have : fill1 = [] := List.eq_nil_of_length_eq_zero (by simpa using hf)
    simp [copyLoop, this]
  | cons s src ih =>
    intro done fill1 fill2 tl hf hdrop
    cases fill1 with
    | nil => simp at hf
    | cons f fill1 =>
      simp only [List.length_cons, Nat.add_right_cancel_iff] at hf
      have hget : Old[off + done.length]? = some s := by
        have := congrArg (fun l => l[0]?) hdrop
        simpa using this
      have hread : readSlot Old (off + done.length) = .ok s := by
        simp [readSlot, hget]
      have hwrite : writeSlot (done ++ f :: fill1 ++ fill2) done.length s
          = .ok ((done ++ [s]) ++ fill1 ++ fill2) := by
        simp [writeSlot, List.set_append]
      have hdrop2 : Old.drop (off + (done ++ [s]).length) = src ++ tl := by
        have := congrArg List.tail hdrop
        simpa [List.tail_drop, Nat.add_assoc] using this
      have := ih (done ++ [s]) fill1 fill2 tl hf hdrop2
      simp only [List.length_cons, copyLoop, hread, hwrite]
      simpa using this

theorem History.Stores.entries_of_full {Hist : History} {es : List Command} (h : Hist.Stores es)
    (hfull : es.length = Hist.Capacity) : Hist.Entries = es.map Slot.entry := by
  obtain ⟨h1, h2, h3⟩ := h
  rw [← h2, List.take_of_length_le (by omega)]

theorem getHistory_stores {Hist : History} {es : List Command} (h : Hist.Stores es) (n : Nat)
    (h1 : 1 ≤ n) (h2 : n ≤ es.length) :
    getHistory (n : Int) Hist = .ok ((es.reverse[n - 1]?).map getCommandCopy) := by
  have hc : Hist.Count = es.length := h.1
  have hi : es.length - n < es.length := by omega
  have hslot : Hist.Entries[Hist.Count - n]? = some (Slot.entry (es.get ⟨es.length - n, hi⟩)) := by
    rw [hc]
    exact h.slot (es.length - n) hi
  rw [getHistory_of_slot Hist n _ h1 (by omega) hslot]
  rw [List.getElem?_reverse (by omega)]
  have : es.length - 1 - (n - 1) = es.length - n := by omega
  rw [this, List.getElem?_eq_getElem hi]
  rfl

theorem getHistory_one_stores {Hist : History} {es : List Command} (h : Hist.Stores es) :
    getHistory 1 Hist = .ok (es.getLast?.map getCommandCopy) := by
  cases hes : es.length with
  | zero =>
    have : es = [] := List.eq_nil_of_length_eq_zero hes
    subst this
    have hc : Hist.Count = 0 := h.1
    rw [getHistory_out_of_range Hist 1 (by omega)]
    rfl
  | succ k =>
    have := getHistory_stores h 1 (by omega) (by omega)
    simp only [Nat.cast_one] at this
    rw [this]
    simp [List.getLast?_eq_head?_reverse, List.head?_eq_getElem?]

theorem addHistory_dup (Hist : History) (Cmd Last : Command) (hpos : 0 < Hist.Count)
    (hlast : Hist.Entries[Hist.Count - 1]? = some (Slot.entry Last))
    (htok : Cmd.Tokens = Last.Tokens) : addHistory Hist Cmd = .ok (1, Hist) := by
  have hget := getHistory_of_slot Hist 1 _ (by omega) (by omega) hlast
  simp only [Nat.cast_one] at hget
  have hcmp : compareHistory Cmd (getCommandCopy Last) = 0 :=
    (compareHistory_eq_zero_iff _ _).2 (by simpa [getCommandCopy] using htok)
  simp [addHistory, hget, hcmp]

theorem addHistory_fresh (Hist : History) (Cmd : Command) (es : List Command)
    (h : Hist.Stores es)
    (hne : ∀ Last, es.getLast? = some Last → Cmd.Tokens ≠ Last.Tokens) :
    addHistory Hist Cmd =
      if Hist.Count = Hist.Capacity then
        match readSlot Hist.Entries 0 with
        | .error e => .error e
        | .ok s0 =>
          match freeSlot s0 with
          | .error e => .error e
          | .ok _ =>
            match shiftLoop (Hist.Capacity - 1) 0 Hist.Entries with
            | .error e => .error e
            | .ok E1 =>
              if Hist.Count = 0 then .error .undefined
              else
                match writeSlot E1 (Hist.Count - 1) (Slot.entry Cmd) with
                | .error e => .error e
                | .ok E2 => .ok (0, { Entries := E2, Count := Hist.Count - 1 + 1, Capacity := Hist.Capacity })
      else
        match writeSlot Hist.Entries Hist.Count (Slot.entry Cmd) with
        | .error e => .error e
        | .ok E2 => .ok (0, { Entries := E2, Count := Hist.Count + 1, Capacity := Hist.Capacity }) := by
  have hget := getHistory_one_stores h
  have hcond : (match es.getLast?.map getCommandCopy with
        | some P => decide (compareHistory Cmd P = 0)
        | none => false) = false := by
    cases hl : es.getLast? with
    | none => rfl
    | some Last =>
      have := hne Last hl
      have hcmp : ¬ compareHistory Cmd (getCommandCopy Last) = 0 := by
        rw [compareHistory_eq_zero_iff]
        simpa [getCommandCopy] using this
      simp [hcmp]
  unfold addHistory
  rw [hget]
  simp only [hcond]
  rfl

theorem addHistory_append (Hist : History) (Cmd : Command) (es : List Command)
    (h : Hist.Stores es) (hroom : es.length < Hist.Capacity)
    (hne : ∀ Last, es.getLast? = some Last → Cmd.Tokens ≠ Last.Tokens) :
    ∃ H1, addHistory Hist Cmd = .ok (0, H1) ∧ H1.Stores (es ++ [Cmd]) ∧
      H1.Capacity = Hist.Capacity := by
  obtain ⟨h1, h2, h3⟩ := h
  have hlt : Hist.Count < Hist.Entries.length := by omega
  refine ⟨{ Entries := Hist.Entries.set Hist.Count (Slot.entry Cmd), Count := Hist.Count + 1,
            Capacity := Hist.Capacity }, ?_, ?_, rfl⟩
  · rw [addHistory_fresh Hist Cmd es ⟨h1, h2, h3⟩ hne]
    have hnf : Hist.Count ≠ Hist.Capacity := by omega
    simp [hnf, writeSlot, hlt]
  · refine ⟨by simp [h1], ?_, by simpa using h3⟩
    show ((Hist.Entries.set Hist.Count (Slot.entry Cmd)).take (Hist.Count + 1)) = _
    rw [List.take_succ]
    have htk : (Hist.Entries.set Hist.Count (Slot.entry Cmd)).take Hist.Count
        = Hist.Entries.take Hist.Count := by
      rw [List.set_take]
      exact List.set_eq_of_length_le (by simp)
    simp [htk, h2, hlt]

theorem addHistory_evict (Hist : History) (Cmd : Command) (es : List Command)
    (h : Hist.Stores es) (hfull : es.length = Hist.Capacity) (hcap : 1 ≤ Hist.Capacity)
    (hne : ∀ Last, es.getLast? = some Last → Cmd.Tokens ≠ Last.Tokens) :
    addHistory Hist Cmd =
      .ok (0, { Entries := (es.drop 1 ++ [Cmd]).map Slot.entry, Count := Hist.Capacity,
                Capacity := Hist.Capacity }) := by
  have hE := h.entries_of_full hfull
  have hc : Hist.Count = es.length := h.1
  rw [addHistory_fresh Hist Cmd es h hne]
  cases es with
  | nil => simp at hfull; omega
  | cons e es =>
    have hlen : Hist.Capacity - 1 = (es.map Slot.entry).length := by
      simp at hfull ⊢; omega
    obtain ⟨y, hy⟩ := shiftLoop_spec (es.map Slot.entry) [] (Slot.entry e)
    simp only [List.length_nil, List.nil_append] at hy
    have hcf : Hist.Count = Hist.Capacity := by omega
    have hc0 : Hist.Count ≠ 0 := by omega
    have hidx : Hist.Count - 1 = (es.map Slot.entry).length := by omega
    rw [if_pos hcf, hE]
    simp only [List.map_cons, readSlot, List.getElem?_cons_zero, freeSlot, hlen, hy, if_neg hc0,
      hidx, writeSlot]
    simp
    simpa using hfull

theorem lastN_length {α : Type} (n : Nat) (l : List α) (h : n ≤ l.length) :
    (lastN n l).length = n := by
  simp [lastN]; omega

theorem lastN_of_length_le {α : Type} (n : Nat) (l : List α) (h : l.length ≤ n) :
    lastN n l = l := by
  simp [lastN, Nat.sub_eq_zero_of_le h]

theorem reallocEntries_grow (E : List Slot) (n : Nat) (h : E.length ≤ n) :
    reallocEntries E n = E ++ List.replicate (n - E.length) Slot.uninit := by
  unfold reallocEntries
  apply List.take_of_length_le
  simp; omega

theorem setHistoryCapacity_grow (Hist : History) (n : Int) (hn : n > (Hist.Capacity : Int))
    (hlen : Hist.Entries.length = Hist.Capacity) :
    setHistoryCapacity n Hist =
      .ok (0, { Entries := Hist.Entries ++ List.replicate (n.toNat - Hist.Capacity) Slot.uninit
                Count := Hist.Count
                Capacity := n.toNat }) := by
  unfold setHistoryCapacity
  rw [if_pos hn, reallocEntries_grow _ _ (by omega), hlen]

theorem setHistoryCapacity_shrink_cells (Hist : History) (n : Nat)
    (hlen : Hist.Entries.length = Hist.Capacity) (hfull : Hist.Count = Hist.Capacity)
    (hn : n ≤ Hist.Capacity) :
    setHistoryCapacity (n : Int) Hist =
      .ok (0, { Entries := lastN n Hist.Entries, Count := n, Capacity := n }) := by
  have hng : ¬ ((n : Int) > (Hist.Capacity : Int)) := by omega
  have hnn : ¬ ((n : Int) < 0) := by omega
  have hcount : (if Hist.Count < n then Hist.Count else n) = n := by
    split <;> omega
  have hsrc : (lastN n Hist.Entries).length = n := lastN_length n Hist.Entries (by omega)
  have hdrop : Hist.Entries.drop (Hist.Capacity - n + ([] : List Slot).length)
      = lastN n Hist.Entries ++ [] := by
    simp [lastN, hlen]
  have hfill : (List.replicate n Slot.null).length = (lastN n Hist.Entries).length := by
    rw [hsrc]; simp
  have hloop := copyLoop_spec Hist.Entries (Hist.Capacity - n) (lastN n Hist.Entries)
    [] (List.replicate n Slot.null) [] [] hfill hdrop
  rw [hsrc] at hloop
  simp only [List.length_nil, List.nil_append, List.append_nil] at hloop
  unfold setHistoryCapacity
  rw [if_neg hng, if_neg hnn]
  simp only [Int.toNat_ofNat, hcount, hloop]

theorem lastN_map {α β : Type} (f : α → β) (n : Nat) (l : List α) :
    lastN n (l.map f) = (lastN n l).map f := by
  simp [lastN, List.map_drop]

theorem stores_lastN (Hist : History) (es : List Command) (n : Nat) (h : Hist.Stores es)
    (hfull : Hist.Count = Hist.Capacity) (hn : n ≤ Hist.Capacity) :
    History.Stores { Entries := lastN n Hist.Entries, Count := n, Capacity := n }
      (lastN n es) := by
  have hlenE : es.length = Hist.Capacity := by rw [← h.1, hfull]
  have hE := h.entries_of_full hlenE
  have hl : (lastN n es).length = n := lastN_length n es (by omega)
  refine ⟨hl.symm, ?_, ?_⟩
  · show (lastN n Hist.Entries).take n = _
    rw [hE, lastN_map]
    apply List.take_of_length_le
    simp [hl]
  · show (lastN n Hist.Entries).length = n
    rw [hE, lastN_map]
    simp [hl]

/-! ## The parser -/

theorem strstr_isSome_iff (hay needle : CStr) :
    (strstr hay needle).isSome ↔ needle <:+: hay := by
  induction hay with
  | nil =>
    cases needle <;> simp [strstr]
  | cons c cs ih =>
    rw [List.infix_cons_iff]
    by_cases hp : needle <+: c :: cs
    · have : needle.isPrefixOf (c :: cs) = true := List.isPrefixOf_iff_prefix.2 hp
      simp [strstr, this, hp]
    · have : ¬ needle.isPrefixOf (c :: cs) = true := fun h => hp (List.isPrefixOf_iff_prefix.1 h)
      simp [strstr, this, hp, ih]

theorem strchr_isSome_iff (hay : CStr) (x : Char) : (strchr hay x).isSome ↔ x ∈ hay := by
  induction hay with
  | nil => simp [strchr]
  | cons c cs ih =>
    by_cases h : c = x
    · simp [strchr, h]
    · have : ¬ x = c := fun e => h e.symm
      simp [strchr, h, ih, this]

theorem splitOn_space (s : CStr) :
    s.splitOn ' ' = s.takeWhile (fun c => c != ' ') ::
      (if s.dropWhile (fun c => c != ' ') = [] then []
       else ((s.dropWhile (fun c => c != ' ')).drop 1).splitOn ' ') := by
  induction s with
  | nil => simp [List.splitOn, List.splitOnP_nil]
  | cons c s ih =>
    unfold List.splitOn at ih ⊢
    rw [List.splitOnP_cons]
    by_cases h : c = ' '
    · subst h
      simp
    · have hb : (c == ' ') = false := by simpa using h
      rw [if_neg (by simp [hb]), ih]
      simp [List.modifyHead, List.takeWhile_cons, List.dropWhile_cons, hb, h]

theorem strtok_nil (delim : CStr) : strtok [] delim = none := rfl

theorem strtok_cons_delim (c : Char) (s delim : CStr) (h : delim.contains c = true) :
    strtok (c :: s) delim = strtok s delim := by
  unfold strtok
  simp only [List.dropWhile_cons, h, if_true]

theorem strtok_cons_other (c : Char) (s delim : CStr) (h : delim.contains c = false) :
    strtok (c :: s) delim =
      some (c :: s.takeWhile (fun x => !delim.contains x),
            (s.dropWhile (fun x => !delim.contains x)).drop 1) := by
  unfold strtok
  simp only [List.dropWhile_cons, List.takeWhile_cons, h, List.isEmpty_cons, Bool.not_false,
    if_true, Bool.false_eq_true, if_false]

theorem strtok_some (s delim t rest : CStr) (h : strtok s delim = some (t, rest)) :
    t ≠ [] ∧ rest.length < s.length ∧ ∀ c ∈ t, delim.contains c = false := by
  induction s with
  | nil => rw [strtok_nil] at h; exact absurd h (by simp)
  | cons c s ih =>
    cases hc : delim.contains c with
    | true =>
      rw [strtok_cons_delim _ _ _ hc] at h
      obtain ⟨h1, h2, h3⟩ := ih h
      exact ⟨h1, by simp only [List.length_cons]; omega, h3⟩
    | false =>
      rw [strtok_cons_other _ _ _ hc] at h
      simp only [Option.some.injEq, Prod.mk.injEq] at h
      obtain ⟨ht, hr⟩ := h
      refine ⟨by rw [← ht]; exact List.cons_ne_nil _ _, ?_, ?_⟩
      · have : (s.dropWhile (fun x => !delim.contains x)).length ≤ s.length :=
          (List.dropWhile_sublist _).length_le
        rw [← hr]
        simp only [List.length_drop, List.length_cons]
        omega
      · intro x hx
        rw [← ht] at hx
        rcases List.mem_cons.1 hx with hx | hx
        · rw [hx]; exact hc
        · have := List.mem_takeWhile_imp hx
          cases hx2 : delim.contains x with
          | true => rw [hx2] at this; exact absurd this (by decide)
          | false => rfl

theorem spaceFreeRuns_nil : spaceFreeRuns [] = [] := by
  simp [spaceFreeRuns, List.splitOn, List.splitOnP_nil]

theorem spaceFreeRuns_cons_space (s : CStr) : spaceFreeRuns (' ' :: s) = spaceFreeRuns s := by
  simp [spaceFreeRuns, List.splitOn, List.splitOnP_cons]

theorem contains_space (x : Char) : [' '].contains x = (x == ' ') := by
  cases h : x == ' ' <;> simp [List.contains, List.elem, h]

theorem spaceFreeRuns_strtok (s : CStr) :
    spaceFreeRuns s =
      match strtok s [' '] with
      | none => []
      | some (t, rest) => t :: spaceFreeRuns rest := by
  induction s with
  | nil => rw [spaceFreeRuns_nil, strtok_nil]
  | cons c s ih =>
    by_cases h : c = ' '
    · subst h
      rw [spaceFreeRuns_cons_space, strtok_cons_delim _ _ _ (by decide), ih]
    · have hd : [' '].contains c = false := by
        rw [contains_space]; simpa using h
      have hb : (c != ' ') = true := by simpa using h
      rw [strtok_cons_other _ _ _ hd]
      have hfun : (fun x : Char => !([' '].contains x)) = (fun x => x != ' ') := by
        funext x; rw [contains_space]; rfl
      rw [hfun]
      show spaceFreeRuns (c :: s) = _ :: spaceFreeRuns _
      unfold spaceFreeRuns
      rw [splitOn_space (c :: s)]
      simp only [List.takeWhile_cons, List.dropWhile_cons, hb, if_true]
      rw [List.filter_cons]
      simp only [List.isEmpty_cons, Bool.not_false, if_true]
      by_cases he : s.dropWhile (fun x => x != ' ') = []
      · rw [if_pos he, he]
        simp [List.splitOn, List.splitOnP_nil]
      · rw [if_neg he]

theorem tokenLoop_spec (fuel : Nat) : ∀ (s : CStr) (acc : List CStr), s.length < fuel →
    acc.length ≤ MAX_NUM_TOKENS →
    tokenLoop fuel (strtok s [' ']) acc = (acc ++ spaceFreeRuns s).take MAX_NUM_TOKENS := by
  induction fuel with
  | zero => intro s acc h; omega
  | succ fuel ih =>
    intro s acc hs hacc
    rw [spaceFreeRuns_strtok s]
    cases htok : strtok s [' '] with
    | none =>
      simp only [tokenLoop, List.append_nil]
      exact (List.take_of_length_le hacc).symm
    | some p =>
      obtain ⟨t, rest⟩ := p
      have hrest := (strtok_some s [' '] t rest htok).2.1
      simp only [tokenLoop]
      by_cases hlt : acc.length < MAX_NUM_TOKENS
      · rw [if_pos hlt, ih rest (acc ++ [t]) (by omega) (by simp; omega)]
        simp
      · rw [if_neg hlt]
        have : acc.length = MAX_NUM_TOKENS := by omega
        rw [List.take_append_of_le_length (by omega), List.take_of_length_le (by omega)]

theorem getCommand_eq (Input : CStr) (VA : LocalVariableArray) :
    getCommand Input VA =
      if ((spaceFreeRuns Input).take MAX_NUM_TOKENS).length = 0 then none
      else
        match (spaceFreeRuns Input).take MAX_NUM_TOKENS with
        | ('#' :: _) :: _ => none
        | _ => some
          { Tokens := (spaceFreeRuns Input).take MAX_NUM_TOKENS
            Redirection :=
              if ((spaceFreeRuns Input).take MAX_NUM_TOKENS).length > 1 then
                some (parseRedirect (((spaceFreeRuns Input).take MAX_NUM_TOKENS).getLast?.getD []))
              else none } := by
  unfold getCommand
  rw [tokenLoop_spec (Input.length + 1) Input [] (by omega) (by simp)]
  rfl

theorem getCommand_tokens (Input : CStr) (VA : LocalVariableArray) (Cmd : Command)
    (h : getCommand Input VA = some Cmd) :
    Cmd.Tokens = (spaceFreeRuns Input).take MAX_NUM_TOKENS ∧
      Cmd.Redirection =
        (if Cmd.Tokens.length > 1 then some (parseRedirect (Cmd.Tokens.getLast?.getD []))
         else none) := by
  rw [getCommand_eq] at h
  split at h
  · exact absurd h (by simp)
  · split at h
    · exact absurd h (by simp)
    · simp only [Option.some.injEq] at h
      subst h
      exact ⟨rfl, rfl⟩

theorem strtok_eq_none_iff (s : CStr) : strtok s [' '] = none ↔ ∀ c ∈ s, c = ' ' := by
  induction s with
  | nil => simp [strtok_nil]
  | cons c s ih =>
    by_cases h : c = ' '
    · subst h
      rw [strtok_cons_delim _ _ _ (by decide), ih]
      simp
    · have hd : [' '].contains c = false := by
        rw [contains_space]; simpa using h
      rw [strtok_cons_other _ _ _ hd]
      simp [h]

theorem strtok_head (s t rest : CStr) (h : strtok s [' '] = some (t, rest)) :
    t.head? = (s.dropWhile (fun c => c == ' ')).head? := by
  induction s with
  | nil => rw [strtok_nil] at h; exact absurd h (by simp)
  | cons c s ih =>
    by_cases hc : c = ' '
    · subst hc
      rw [strtok_cons_delim _ _ _ (by decide)] at h
      rw [ih h]
      simp [List.dropWhile_cons]
    · have hd : [' '].contains c = false := by
        rw [contains_space]; simpa using hc
      rw [strtok_cons_other _ _ _ hd] at h
      simp only [Option.some.injEq, Prod.mk.injEq] at h
      rw [← h.1]
      simp [List.dropWhile_cons, hc]

theorem spaceFreeRuns_eq_nil_iff (s : CStr) : spaceFreeRuns s = [] ↔ ∀ c ∈ s, c = ' ' := by
  rw [spaceFreeRuns_strtok, ← strtok_eq_none_iff]
  cases strtok s [' '] with
  | none => simp
  | some p => simp

theorem spaceFreeRuns_head (s t : CStr) (ts : List CStr) (h : spaceFreeRuns s = t :: ts) :
    t.head? = (s.dropWhile (fun c => c == ' ')).head? := by
  rw [spaceFreeRuns_strtok] at h
  cases htok : strtok s [' '] with
  | none => rw [htok] at h; exact absurd h (by simp)
  | some p =>
    obtain ⟨t1, rest⟩ := p
    rw [htok] at h
    simp only [List.cons.injEq] at h
    rw [← h.1]
    exact strtok_head s t1 rest htok

theorem spaceFreeRuns_mem (s t : CStr) : t ∈ spaceFreeRuns s → t ≠ [] ∧ ' ' ∉ t := by
  generalize hn : s.length = n
  induction n using Nat.strong_induction_on generalizing s with
  | _ n ih =>
    intro ht
    rw [spaceFreeRuns_strtok] at ht
    cases htok : strtok s [' '] with
    | none => rw [htok] at ht; exact absurd ht (by simp)
    | some p =>
      obtain ⟨t1, rest⟩ := p
      rw [htok] at ht
      obtain ⟨h1, h2, h3⟩ := strtok_some s [' '] t1 rest htok
      rcases List.mem_cons.1 ht with e | hmem
      · subst e
        refine ⟨h1, fun hsp => ?_⟩
        have := h3 ' ' hsp
        exact absurd this (by decide)
      · exact ih rest.length (by omega) rest rfl hmem

theorem redirectOperator_mode (Last : CStr) :
    (redirectOperator Last).1 =
      if ['&', '>', '>'] <:+: Last then RedirectMode.RedirectAppendError
      else if ['>', '>'] <:+: Last then RedirectMode.RedirectAppend
      else if ['&', '>'] <:+: Last then RedirectMode.RedirectOuputError
      else if '>' ∈ Last then RedirectMode.RedirectOutput
      else if '<' ∈ Last then RedirectMode.RedirectInput
      else RedirectMode.RedirectNone := by
  simp only [redirectOperator, strstr_isSome_iff, strchr_isSome_iff]
  split_ifs <;> rfl

theorem getCommand_tokenCount_pos (Input : CStr) (VA : LocalVariableArray) (Cmd : Command)
    (h : getCommand Input VA = some Cmd) : 1 ≤ Cmd.TokenCount := by
  rw [getCommand_eq] at h
  split at h
  · exact absurd h (by simp)
  · rename_i hlen
    split at h
    · exact absurd h (by simp)
    · simp only [Option.some.injEq] at h
      subst h
      simp only [Command.TokenCount]
      omega

/-! ## Dispatch -/

theorem getCommand_wellFormed (Input : CStr) (VA : LocalVariableArray) (Cmd : Command)
    (h : getCommand Input VA = some Cmd) : Cmd.WellFormed := by
  have hcount := getCommand_tokenCount_pos Input VA Cmd h
  have hr := (getCommand_tokens Input VA Cmd h).2
  simp only [Command.TokenCount] at hcount
  refine ⟨fun e => by rw [e] at hcount; simp at hcount, ?_⟩
  intro R hR
  rw [hR] at hr
  by_cases hlen : Cmd.Tokens.length > 1
  · rw [if_pos hlen] at hr
    simp only [Option.some.injEq] at hr
    subst hr
    unfold parseRedirect
    simp only
    refine ⟨?_, ?_, fun _ => hlen⟩
    · split <;> exact ⟨_, rfl⟩
    · split
      · split <;> exact ⟨_, rfl⟩
      · exact ⟨_, rfl⟩
  · rw [if_neg hlen] at hr
    exact absurd hr (by simp)

theorem stripRedirection_wellFormed (Cmd : Command) (h : Cmd.WellFormed) :
    ∃ Cmd1, stripRedirection Cmd = .ok Cmd1 ∧ Cmd1.Tokens ≠ [] ∧
      Cmd1.Redirection = Cmd.Redirection := by
  obtain ⟨hne, hR⟩ := h
  cases hred : Cmd.Redirection with
  | none => exact ⟨Cmd, by simp only [stripRedirection, hred], hne, hred⟩
  | some R =>
    obtain ⟨⟨m, hm⟩, _, hfile⟩ := hR R hred
    cases hf : R.File with
    | none => exact ⟨Cmd, by simp only [stripRedirection, hred, hf], hne, hred⟩
    | some f =>
      have h2 : 2 ≤ Cmd.TokenCount := hfile (by rw [hf]; simp)
      by_cases hmode : m ≠ RedirectMode.RedirectNone
      · have h0 : ¬ Cmd.TokenCount = 0 := by omega
        refine ⟨{ Cmd with Tokens := Cmd.Tokens.dropLast }, ?_, ?_, hred⟩
        · simp only [stripRedirection, hred, hf, hm, if_pos hmode, if_neg h0]
        · intro e
          have := congrArg List.length e
          simp only [List.length_dropLast, List.length_nil, Command.TokenCount] at this h2
          omega
      · exact ⟨Cmd, by simp only [stripRedirection, hred, hf, hm, if_neg hmode], hne, hred⟩

theorem redirect_defined (os : OS) (R : Option Redirect)
    (h : ∀ R1, R = some R1 → (∃ m, R1.Mode = Cell.val m) ∧ (∃ fd, R1.FD = Cell.val fd)) :
    ∃ r, redirect os R = .ok r := by
  unfold redirect
  cases R with
  | none => exact ⟨_, rfl⟩
  | some R1 =>
    obtain ⟨⟨m, hm⟩, ⟨fd, hfd⟩⟩ := h R1 rfl
    simp only [hm, hfd]
    split
    · exact ⟨_, rfl⟩
    · split
      · exact ⟨_, rfl⟩
      · split
        · exact ⟨_, rfl⟩
        · split
          · exact ⟨_, rfl⟩
          · split <;> first | exact ⟨_, rfl⟩ | (split <;> exact ⟨_, rfl⟩)

theorem childProcess_defined (os : OS) (env : Environ) (Cmd : Command) (hne : Cmd.Tokens ≠ [])
    (h : ∀ R1, Cmd.Redirection = some R1 →
      (∃ m, R1.Mode = Cell.val m) ∧ (∃ fd, R1.FD = Cell.val fd)) :
    ∃ r, childProcess os env Cmd = .ok r := by
  unfold childProcess
  obtain ⟨r, hr⟩ := redirect_defined os Cmd.Redirection h
  cases htok : Cmd.Tokens with
  | nil => exact absurd htok hne
  | cons Exe rest =>
    simp only [hr]
    split
    · exact ⟨_, rfl⟩
    · obtain ⟨b, acts⟩ := r
      cases b with
      | false => exact ⟨_, rfl⟩
      | true =>
        simp only
        split <;> exact ⟨_, rfl⟩

theorem replaceVariables_zero (env : Environ) (Cmd : Command) (VA : LocalVariableArray) :
    replaceVariables env Cmd VA 0 =
      (0, { Cmd with Tokens := Cmd.Tokens.map (replaceToken env VA) }, []) := by
  unfold replaceVariables
  split
  · simp
  · rfl

theorem execute_external (fuel : Nat) (os : OS) (Cmd : Command) (P : Proc) (c : Int)
    (H1 : History) (hext : getBuiltinCommandInfo Cmd = none) (hwf : Cmd.WellFormed)
    (hadd : addHistory P.S.Hist (getCommandCopy Cmd) = .ok (c, H1)) :
    ∃ code Cmd2 out, execute (fuel + 1) os Cmd P =
      .ok (Result.returned code (some Cmd2)
        { S := { P.S with Hist := H1 }, Env := P.Env, Out := out }) := by
  obtain ⟨Cmd1, hstrip, hne1, hred1⟩ := stripRedirection_wellFormed Cmd hwf
  have hcount : ¬ Cmd.TokenCount = 0 := by
    intro e
    exact hwf.1 (List.eq_nil_of_length_eq_zero e)
  have hchild := childProcess_defined os P.Env
    { Cmd1 with Tokens := Cmd1.Tokens.map (replaceToken P.Env P.S.VA) }
    (by simpa using hne1)
    (by
      intro R1 hR1
      have hR : Cmd.Redirection = some R1 := by rw [← hred1]; exact hR1
      exact ⟨(hwf.2 R1 hR).1, (hwf.2 R1 hR).2.1⟩)
  obtain ⟨⟨acts, status⟩, hch⟩ := hchild
  simp only [execute, if_neg hcount, hext, hadd, hstrip, replaceVariables_zero]
  by_cases hfork : os.forkOk = true
  · simp only [hfork, not_true_eq_false, if_false, hch]
    cases status with
    | exited code => exact ⟨_, _, _, rfl⟩
    | signaled => exact ⟨_, _, _, rfl⟩
  · simp only [hfork, not_false_eq_true, if_true]
    exact ⟨_, _, _, rfl⟩

theorem lastN_lastN_append {α : Type} (n : Nat) (l r : List α) :
    lastN n (lastN n l ++ r) = lastN n (l ++ r) := by
  unfold lastN
  have h1 : l.drop (l.length - n) ++ r = (l ++ r).drop (l.length - n) := by
    rw [List.drop_append_of_le_length (by omega)]
  rw [h1, List.drop_drop]
  congr 1
  simp only [List.length_drop, List.length_append]
  omega

theorem addHistory_push (Hist : History) (Cmd : Command) (es : List Command)
    (h : Hist.Stores es) (hcap : 1 ≤ Hist.Capacity)
    (hne : ∀ Last, es.getLast? = some Last → Cmd.Tokens ≠ Last.Tokens) :
    ∃ H1, addHistory Hist Cmd = .ok (0, H1) ∧ H1.Stores (lastN Hist.Capacity (es ++ [Cmd])) ∧
      H1.Capacity = Hist.Capacity := by
  have hle : es.length ≤ Hist.Capacity := by
    have := h.count_le
    rw [h.1] at this
    exact this
  by_cases hfull : es.length = Hist.Capacity
  · refine ⟨_, addHistory_evict Hist Cmd es h hfull hcap hne, ?_, rfl⟩
    have hl : lastN Hist.Capacity (es ++ [Cmd]) = es.drop 1 ++ [Cmd] := by
      unfold lastN
      have : (es ++ [Cmd]).length - Hist.Capacity = 1 := by simp; omega
      rw [this, List.drop_append_of_le_length (by omega)]
    rw [hl]
    refine ⟨?_, ?_, ?_⟩
    · simp; omega
    · apply List.take_of_length_le
      simp; omega
    · simp; omega
  · obtain ⟨H1, h1, h2, h3⟩ := addHistory_append Hist Cmd es h (by omega) hne
    refine ⟨H1, h1, ?_, h3⟩
    rw [lastN_of_length_le _ _ (by simp; omega)]
    exact h2

theorem runCommands_external (fuel C : Nat) (hC : 1 ≤ C) :
    ∀ (cmds : List (OS × Command)) (P : Proc) (es : List Command),
      (∀ p ∈ cmds, getBuiltinCommandInfo p.2 = none ∧ p.2.WellFormed) →
      (cmds.map (fun p => p.2.Tokens)).Pairwise (fun a b => a ≠ b) →
      (∀ e ∈ es, ∀ p ∈ cmds, p.2.Tokens ≠ e.Tokens) →
      P.S.Hist.Stores es → P.S.Hist.Capacity = C →
      ∃ code P1, runCommands (fuel + 1) cmds P = .ok (Result.returned code none P1) ∧
        P1.S.Hist.Stores (lastN C (es ++ cmds.map (fun p => getCommandCopy p.2))) ∧
        P1.S.Hist.Capacity = C := by
  intro cmds
  induction cmds with
  | nil =>
    intro P es _ _ _ hst hcap
    refine ⟨P.S.Error, P, rfl, ?_, hcap⟩
    have hle : es.length ≤ C := by
      have := hst.count_le
      rw [hst.1, hcap] at this
      exact this
    simpa [lastN_of_length_le _ _ hle] using hst
  | cons p rest ih =>
    intro P es hall hpw hdis hst hcap
    obtain ⟨os, Cmd⟩ := p
    obtain ⟨hext, hwf⟩ := hall (os, Cmd) (List.mem_cons_self _ _)
    have hfresh : ∀ Last, es.getLast? = some Last →
        (getCommandCopy Cmd).Tokens ≠ Last.Tokens := by
      intro Last hl
      exact hdis Last (List.mem_of_getLast?_eq_some hl) (os, Cmd) (List.mem_cons_self _ _)
    obtain ⟨H1, hadd, hst1, hcap1⟩ :=
      addHistory_push P.S.Hist (getCommandCopy Cmd) es hst (by omega) hfresh
    obtain ⟨code, Cmd2, out, hex⟩ := execute_external fuel os Cmd P 0 H1 hext hwf hadd
    rw [hcap] at hst1
    simp only [List.map_cons, List.pairwise_cons] at hpw
    have hdis1 : ∀ e ∈ lastN C (es ++ [getCommandCopy Cmd]), ∀ q ∈ rest,
        q.2.Tokens ≠ e.Tokens := by
      intro e he q hq
      have he1 : e ∈ es ++ [getCommandCopy Cmd] := List.mem_of_mem_drop he
      rcases List.mem_append.1 he1 with he2 | he2
      · exact hdis e he2 q (List.mem_cons_of_mem _ hq)
      · simp only [List.mem_singleton] at he2
        subst he2
        exact fun e => hpw.1 q.2.Tokens (List.mem_map.2 ⟨q, hq, rfl⟩) e.symm
    obtain ⟨code1, P1, hrun, hst2, hcap2⟩ :=
      ih { S := { VA := P.S.VA, Hist := H1, Error := code }, Env := P.Env, Out := out }
        (lastN C (es ++ [getCommandCopy Cmd]))
        (fun q hq => hall q (List.mem_cons_of_mem _ hq)) hpw.2 hdis1 hst1
        (by rw [← hcap]; exact hcap1)
    refine ⟨code1, P1, ?_, ?_, hcap2⟩
    · simp only [runCommands, hex]
      exact hrun
    · rw [lastN_lastN_append] at hst2
      simpa using hst2

theorem stores_of_empty (Hist : History) (h0 : Hist.Count = 0)
    (hlen : Hist.Entries.length = Hist.Capacity) : Hist.Stores [] :=
  ⟨by simpa using h0, by simp [h0], hlen⟩

theorem listLoop_spec (Hist : History) (es : List Command) (h : Hist.Stores es) :
    ∀ (k i : Nat) (out : List Action), 1 ≤ i → i + k = es.length + 1 →
      listLoop Hist k i out = .ok (out ++ historyListing i (es.reverse.drop (i - 1))) := by
  intro k
  induction k with
  | zero =>
    intro i out hi hik
    have : es.reverse.drop (i - 1) = [] := by
      apply List.drop_eq_nil_of_le
      simp; omega
    simp [listLoop, this, historyListing]
  | succ k ih =>
    intro i out hi hik
    have hget := getHistory_stores h i hi (by omega)
    have hlt : i - 1 < es.reverse.length := by simp; omega
    have hdrop : es.reverse.drop (i - 1) = es.reverse[i - 1] :: es.reverse.drop i := by
      have := List.drop_eq_getElem_cons hlt
      rw [this]
      congr 2
      omega
    rw [List.getElem?_eq_getElem hlt] at hget
    simp only [listLoop, hget, Option.map_some', printCommand, hdrop, historyListing]
    rw [ih (i + 1) _ (by omega) (by omega)]
    simp [entryLabel, getCommandCopy]

theorem Proc.emit_nil (P : Proc) : P.emit [] = P := by
  cases P; simp [Proc.emit]

theorem stripRedirection_nofile (Cmd : Command)
    (h : ∀ R, Cmd.Redirection = some R → R.File = none) : stripRedirection Cmd = .ok Cmd := by
  cases hred : Cmd.Redirection with
  | none => simp only [stripRedirection, hred]
  | some R => simp only [stripRedirection, hred, h R hred]

theorem redirect_nofile (os : OS) (R : Option Redirect)
    (h : ∀ R1, R = some R1 → R1.File = none) : redirect os R = .ok (true, []) := by
  cases R with
  | none => rfl
  | some R1 => simp only [redirect, h R1 rfl]

theorem replaceToken_history : ∀ (env : Environ) (VA : LocalVariableArray),
    replaceToken env VA "history".toList = "history".toList := by
  intro env VA; rfl

theorem execute_history_nofile (fuel : Nat) (os : OS) (Cmd : Command) (P : Proc)
    (args : List CStr) (htok : Cmd.Tokens = "history".toList :: args)
    (hfile : ∀ R, Cmd.Redirection = some R → R.File = none) :
    execute (fuel + 1) os Cmd P =
      executeHistoryCommand (execute fuel os)
        { Cmd with Tokens := "history".toList :: args.map (replaceToken P.Env P.S.VA) }
        { P with Out := P.Out ++ [Event.builtin "history".toList
            ("history".toList :: args.map (replaceToken P.Env P.S.VA))] } := by
  have hcount : ¬ Cmd.TokenCount = 0 := by
    simp [Command.TokenCount, htok]
  have hbc : getBuiltinCommandInfo Cmd = some ("history".toList, BuiltinCommandFunc.Hist) := by
    simp only [getBuiltinCommandInfo, htok]
    rfl
  have hrep : (replaceVariables P.Env Cmd P.S.VA 0) =
      (0, { Cmd with Tokens := "history".toList :: args.map (replaceToken P.Env P.S.VA) }, []) := by
    rw [replaceVariables_zero, htok]
    rfl
  have hfile1 : ∀ R, ({ Cmd with Tokens := "history".toList :: args.map (replaceToken P.Env P.S.VA) } : Command).Redirection = some R → R.File = none := hfile
  simp only [execute, if_neg hcount, hbc]
  have h1 : ("history".toList = "local".toList) = False := by simp
  have h2 : ("history".toList = "export".toList) = False := by simp
  simp only [h1, h2, if_false, hrep, Proc.emit_nil, ne_eq, not_true_eq_false, false_and,
    stripRedirection_nofile _ hfile1, redirect_nofile os _ hfile1]

theorem executeHistoryCommand_set_reject (exec : Command → Proc → Except Fault Result)
    (Cmd : Command) (P : Proc) (t : CStr)
    (htok : Cmd.Tokens = ["history".toList, "set".toList, t])
    (hlt : toInt32 (strtol t 0).1 < 1) :
    ∃ P1, executeHistoryCommand exec Cmd P = .ok (Result.returned 1 (some Cmd) P1) ∧
      P1.S = P.S ∧ P1.Env = P.Env := by
  have h1 : ((3 : Nat) = 1) = False := eq_false (by decide)
  have h2 : ((3 : Nat) = 2) = False := eq_false (by decide)
  have h3 : Cmd.TokenCount = 3 := by simp [Command.TokenCount, htok]
  have hset : Cmd.Tokens.getD 1 [] = "set".toList := by rw [htok]; rfl
  have harg : Cmd.Tokens.getD 2 [] = t := by rw [htok]; rfl
  simp only [executeHistoryCommand, h3, h1, h2, if_true, hset, harg, ne_eq,
    not_true_eq_false, if_false]
  by_cases hconv : (strtol t 0).2 = 0
  · rw [if_pos hconv]
    exact ⟨_, rfl, rfl, rfl⟩
  · rw [if_neg hconv, if_pos hlt]
    exact ⟨_, rfl, rfl, rfl⟩

theorem executeHistoryCommand_set_accept (exec : Command → Proc → Except Fault Result)
    (Cmd : Command) (P : Proc) (t : CStr)
    (htok : Cmd.Tokens = ["history".toList, "set".toList, t])
    (hconv : (strtol t 0).2 ≠ 0) (hge : 1 ≤ toInt32 (strtol t 0).1) :
    executeHistoryCommand exec Cmd P =
      match setHistoryCapacity (toInt32 (strtol t 0).1) P.S.Hist with
      | .error e => .error e
      | .ok (code, Hist1) =>
        .ok (Result.returned code (some Cmd) { P with S := { P.S with Hist := Hist1 } }) := by
  have h1 : ((3 : Nat) = 1) = False := eq_false (by decide)
  have h2 : ((3 : Nat) = 2) = False := eq_false (by decide)
  have h3 : Cmd.TokenCount = 3 := by simp [Command.TokenCount, htok]
  have hset : Cmd.Tokens.getD 1 [] = "set".toList := by rw [htok]; rfl
  have harg : Cmd.Tokens.getD 2 [] = t := by rw [htok]; rfl
  have hlt : ¬ toInt32 (strtol t 0).1 < 1 := by omega
  simp only [executeHistoryCommand, h3, h1, h2, if_true, hset, harg, ne_eq,
    not_true_eq_false, if_false, if_neg hconv, if_neg hlt]

theorem replaceToken_set : ∀ (env : Environ) (VA : LocalVariableArray),
    replaceToken env VA "set".toList = "set".toList := by
  intro env VA; rfl

theorem writeSlot_length (E : List Slot) (i : Nat) (s : Slot) (E1 : List Slot)
    (h : writeSlot E i s = .ok E1) : E1.length = E.length := by
  unfold writeSlot at h
  split at h
  · simp only [Except.ok.injEq] at h
    rw [← h, List.length_set]
  · exact absurd h (by simp)

theorem shiftLoop_length (k : Nat) : ∀ (i : Nat) (E E1 : List Slot),
    shiftLoop k i E = .ok E1 → E1.length = E.length := by
  induction k with
  | zero =>
    intro i E E1 h
    simp only [shiftLoop, Except.ok.injEq] at h
    rw [h]
  | succ k ih =>
    intro i E E1 h
    simp only [shiftLoop] at h
    split at h
    · exact absurd h (by simp)
    · split at h
      · exact absurd h (by simp)
      · rename_i s _ E2 hw
        rw [ih _ _ _ h, writeSlot_length _ _ _ _ hw]

theorem copyLoop_length (Old : List Slot) (off k : Nat) : ∀ (i : Nat) (New N1 : List Slot),
    copyLoop Old off k i New = .ok N1 → N1.length = New.length := by
  induction k with
  | zero =>
    intro i New N1 h
    simp only [copyLoop, Except.ok.injEq] at h
    rw [h]
  | succ k ih =>
    intro i New N1 h
    simp only [copyLoop] at h
    split at h
    · exact absurd h (by simp)
    · split at h
      · exact absurd h (by simp)
      · rename_i s _ E2 hw
        rw [ih _ _ _ h, writeSlot_length _ _ _ _ hw]

theorem addHistory_bounded (Hist : History) (Cmd : Command) (r : Int) (H1 : History)
    (hb : Hist.Bounded) (h : addHistory Hist Cmd = .ok (r, H1)) : H1.Bounded := by
  obtain ⟨hlen, hcap, hle⟩ := hb
  unfold addHistory at h
  split at h
  · exact absurd h (by simp)
  · split at h
    · simp only [Except.ok.injEq, Prod.mk.injEq] at h
      rw [← h.2]
      exact ⟨hlen, hcap, hle⟩
    · split at h
      · rename_i hfull
        split at h
        · exact absurd h (by simp)
        · split at h
          · exact absurd h (by simp)
          · split at h
            · exact absurd h (by simp)
            · rename_i E1 hshift
              split at h
              · exact absurd h (by simp)
              · split at h
                · exact absurd h (by simp)
                · rename_i E2 hw
                  simp only [Except.ok.injEq, Prod.mk.injEq] at h
                  rw [← h.2]
                  have h1 := shiftLoop_length _ _ _ _ hshift
                  have h2 := writeSlot_length _ _ _ _ hw
                  refine ⟨?_, hcap, ?_⟩
                  · show E2.length = Hist.Capacity
                    omega
                  · show Hist.Count - 1 + 1 ≤ Hist.Capacity
                    omega
      · rename_i hnf
        split at h
        · exact absurd h (by simp)
        · rename_i E2 hw
          simp only [Except.ok.injEq, Prod.mk.injEq] at h
          rw [← h.2]
          have h2 := writeSlot_length _ _ _ _ hw
          refine ⟨?_, hcap, ?_⟩
          · show E2.length = Hist.Capacity
            omega
          · show Hist.Count + 1 ≤ Hist.Capacity
            omega

theorem setHistoryCapacity_bounded (Hist : History) (n r : Int) (H1 : History)
    (hb : Hist.Bounded) (hn : 1 ≤ n) (h : setHistoryCapacity n Hist = .ok (r, H1)) :
    H1.Bounded := by
  obtain ⟨hlen, hcap, hle⟩ := hb
  by_cases hgt : n > (Hist.Capacity : Int)
  · rw [setHistoryCapacity_grow Hist n hgt hlen] at h
    simp only [Except.ok.injEq, Prod.mk.injEq] at h
    rw [← h.2]
    refine ⟨?_, ?_, ?_⟩
    · show (Hist.Entries ++ List.replicate (n.toNat - Hist.Capacity) Slot.uninit).length = n.toNat
      simp only [List.length_append, List.length_replicate, hlen]
      omega
    · show 1 ≤ n.toNat
      omega
    · show Hist.Count ≤ n.toNat
      omega
  · unfold setHistoryCapacity at h
    rw [if_neg hgt, if_neg (by omega)] at h
    simp only at h
    split at h
    · exact absurd h (by simp)
    · rename_i N1 hcopy
      simp only [Except.ok.injEq, Prod.mk.injEq] at h
      rw [← h.2]
      have h1 := copyLoop_length _ _ _ _ _ _ hcopy
      refine ⟨?_, ?_, ?_⟩
      · show N1.length = n.toNat
        rw [h1]; simp
      · show 1 ≤ n.toNat
        omega
      · show (if Hist.Count < n.toNat then Hist.Count else n.toNat) ≤ n.toNat
        split <;> omega

theorem executeCdCommand_shell (os : OS) (Cmd : Command) (P : Proc) (code : Int)
    (C1 : Option Command) (P1 : Proc)
    (h : executeCdCommand os Cmd P = .ok (Result.returned code C1 P1)) : P1.S = P.S := by
  unfold executeCdCommand at h
  split at h
  · simp only [Except.ok.injEq, Result.returned.injEq] at h
    obtain ⟨-, -, rfl⟩ := h
    rfl
  · simp only at h
    split at h
    · simp only [Except.ok.injEq, Result.returned.injEq] at h
      obtain ⟨-, -, rfl⟩ := h
      rfl
    · simp only [Except.ok.injEq, Result.returned.injEq] at h
      obtain ⟨-, -, rfl⟩ := h
      rfl

theorem executeExportCommand_hist (Cmd : Command) (P : Proc) (code : Int)
    (C1 : Option Command) (P1 : Proc)
    (h : executeExportCommand Cmd P = .ok (Result.returned code C1 P1)) : P1.S = P.S := by
  unfold executeExportCommand at h
  split at h
  · simp only [Except.ok.injEq, Result.returned.injEq] at h
    obtain ⟨-, -, rfl⟩ := h
    rfl
  · simp only at h
    split at h
    · simp only [Except.ok.injEq, Result.returned.injEq] at h
      obtain ⟨-, -, rfl⟩ := h
      rfl
    · split at h
      · simp only [Except.ok.injEq, Result.returned.injEq] at h
        obtain ⟨-, -, rfl⟩ := h
        rfl
      · split at h
        · simp only [Except.ok.injEq, Result.returned.injEq] at h
          obtain ⟨-, -, rfl⟩ := h
          rfl
        · simp only [Except.ok.injEq, Result.returned.injEq] at h
          obtain ⟨-, -, rfl⟩ := h
          rfl

theorem executeLocalCommand_hist (Cmd : Command) (P : Proc) (code : Int)
    (C1 : Option Command) (P1 : Proc)
    (h : executeLocalCommand Cmd P = .ok (Result.returned code C1 P1)) :
    P1.S.Hist = P.S.Hist := by
  unfold executeLocalCommand at h
  split at h
  · simp only [Except.ok.injEq, Result.returned.injEq] at h
    obtain ⟨-, -, rfl⟩ := h
    rfl
  · split at h
    · simp only [Except.ok.injEq, Result.returned.injEq] at h
      obtain ⟨-, -, rfl⟩ := h
      rfl
    · simp only at h
      split at h
      · split at h
        · exact absurd h (by simp)
        · simp only [Except.ok.injEq, Result.returned.injEq] at h
          obtain ⟨-, -, rfl⟩ := h
          rfl
      · simp only [Except.ok.injEq, Result.returned.injEq] at h
        obtain ⟨-, -, rfl⟩ := h
        rfl

theorem executeVarsCommand_shell (Cmd : Command) (P : Proc) (code : Int)
    (C1 : Option Command) (P1 : Proc)
    (h : executeVarsCommand Cmd P = .ok (Result.returned code C1 P1)) : P1.S = P.S := by
  unfold executeVarsCommand at h
  split at h <;>
  · simp only [Except.ok.injEq, Result.returned.injEq] at h
    obtain ⟨-, -, rfl⟩ := h
    rfl

theorem executeLsCommand_shell (os : OS) (Cmd : Command) (P : Proc) (code : Int)
    (C1 : Option Command) (P1 : Proc)
    (h : executeLsCommand os Cmd P = .ok (Result.returned code C1 P1)) : P1.S = P.S := by
  unfold executeLsCommand at h
  split at h
  · simp only [Except.ok.injEq, Result.returned.injEq] at h
    obtain ⟨-, -, rfl⟩ := h
    rfl
  · split at h <;>
    · simp only [Except.ok.injEq, Result.returned.injEq] at h
      obtain ⟨-, -, rfl⟩ := h
      rfl

theorem executeExitCommand_no_return (Cmd : Command) (P : Proc) (code : Int)
    (C1 : Option Command) (P1 : Proc) :
    executeExitCommand Cmd P ≠ .ok (Result.returned code C1 P1) := by
  simp [executeExitCommand]

theorem executeHistoryCommand_bounded (exec : Command → Proc → Except Fault Result)
    (hexec : ∀ C Q code C1 Q1, exec C Q = .ok (Result.returned code C1 Q1) →
      Q.S.Hist.Bounded → Q1.S.Hist.Bounded)
    (Cmd : Command) (P : Proc) (code : Int) (C1 : Option Command) (P1 : Proc)
    (h : executeHistoryCommand exec Cmd P = .ok (Result.returned code C1 P1))
    (hb : P.S.Hist.Bounded) : P1.S.Hist.Bounded := by
  unfold executeHistoryCommand at h
  simp only at h
  split at h
  · split at h
    · exact absurd h (by simp)
    · simp only [Except.ok.injEq, Result.returned.injEq] at h
      obtain ⟨-, -, rfl⟩ := h
      exact hb
  · split at h
    · split at h
      · simp only [Except.ok.injEq, Result.returned.injEq] at h
        obtain ⟨-, -, rfl⟩ := h
        exact hb
      · split at h
        · exact absurd h (by simp)
        · simp only [Except.ok.injEq, Result.returned.injEq] at h
          obtain ⟨-, -, rfl⟩ := h
          exact hb
        · split at h
          · exact absurd h (by simp)
          · rename_i hex
            simp only [Except.ok.injEq, Result.returned.injEq] at h
            obtain ⟨-, -, rfl⟩ := h
            exact hexec _ _ _ _ _ hex hb
          · exact absurd h (by simp)
    · split at h
      · split at h
        · simp only [Except.ok.injEq, Result.returned.injEq] at h
          obtain ⟨-, -, rfl⟩ := h
          exact hb
        · split at h
          · simp only [Except.ok.injEq, Result.returned.injEq] at h
            obtain ⟨-, -, rfl⟩ := h
            exact hb
          · split at h
            · simp only [Except.ok.injEq, Result.returned.injEq] at h
              obtain ⟨-, -, rfl⟩ := h
              exact hb
            · rename_i hge
              split at h
              · exact absurd h (by simp)
              · rename_i hset
                simp only [Except.ok.injEq, Result.returned.injEq] at h
                obtain ⟨-, -, rfl⟩ := h
                exact setHistoryCapacity_bounded _ _ _ _ hb (by omega) hset
      · simp only [Except.ok.injEq, Result.returned.injEq] at h
        obtain ⟨-, -, rfl⟩ := h
        exact hb

theorem Proc.emit_S (P : Proc) (as : List Action) : (P.emit as).S = P.S := rfl

theorem execute_bounded (fuel : Nat) : ∀ (os : OS) (Cmd : Command) (P : Proc) (code : Int)
    (C1 : Option Command) (P1 : Proc),
    execute fuel os Cmd P = .ok (Result.returned code C1 P1) →
    P.S.Hist.Bounded → P1.S.Hist.Bounded := by
  induction fuel with
  | zero =>
    intro os Cmd P code C1 P1 h
    simp [execute] at h
  | succ fuel ih =>
    intro os Cmd P code C1 P1 h hb
    simp only [execute] at h
    split at h
    · simp only [Except.ok.injEq, Result.returned.injEq] at h
      obtain ⟨-, -, rfl⟩ := h
      exact hb
    · split at h
      · -- external command
        split at h
        · exact absurd h (by simp)
        · rename_i r Hist1 hadd
          have hb1 := addHistory_bounded _ _ _ _ hb hadd
          split at h
          · exact absurd h (by simp)
          · split at h
            · simp only [Except.ok.injEq, Result.returned.injEq] at h
              obtain ⟨-, -, rfl⟩ := h
              exact hb1
            · split at h
              · exact absurd h (by simp)
              · split at h <;>
                · simp only [Except.ok.injEq, Result.returned.injEq] at h
                  obtain ⟨-, -, rfl⟩ := h
                  exact hb1
      · -- builtin
        rename_i BC hBC
        generalize (if BC.1 = "local".toList then (1 : Int)
          else if BC.1 = "export".toList then 2 else 0) = chk at h
        generalize replaceVariables P.Env Cmd P.S.VA chk = rep at h
        split at h
        · simp only [Except.ok.injEq, Result.returned.injEq] at h
          obtain ⟨-, -, rfl⟩ := h
          exact hb
        · split at h
          · exact absurd h (by simp)
          · split at h
            · exact absurd h (by simp)
            · simp only [Except.ok.injEq, Result.returned.injEq] at h
              obtain ⟨-, -, rfl⟩ := h
              exact hb
            · split at h
              · exact absurd h (executeExitCommand_no_return _ _ _ _ _)
              · have := executeCdCommand_shell _ _ _ _ _ _ h
                rw [this]; exact hb
              · have := executeExportCommand_hist _ _ _ _ _ h
                rw [this]; exact hb
              · have := executeLocalCommand_hist _ _ _ _ _ h
                rw [this]; exact hb
              · have := executeVarsCommand_shell _ _ _ _ _ h
                rw [this]; exact hb
              · exact executeHistoryCommand_bounded (execute fuel os) (ih os) _ _ _ _ _ h hb
              · have := executeLsCommand_shell _ _ _ _ _ _ h
                rw [this]; exact hb

theorem initShell_bounded (env0 : Environ) (P : Proc) (h : initShell env0 = some P) :
    P.S.Hist.Bounded := by
  unfold initShell at h
  split at h
  · exact absurd h (by simp)
  · simp only [Option.some.injEq] at h
    rw [← h]
    exact ⟨by simp [initHistory], by simp [initHistory, INITIAL_HISTORY_CAPACITY],
      by simp [initHistory]⟩

theorem reachable_bounded (P : Proc) (h : Reachable P) : P.S.Hist.Bounded := by
  induction h with
  | init env0 P h => exact initShell_bounded env0 P h
  | step fuel os Cmd P P1 code Cmd1 _ h ih => exact execute_bounded fuel os Cmd P code Cmd1 P1 h ih

theorem replaceVariables_zero_tokens (env : Environ) (Cmd : Command) (VA : LocalVariableArray)
    (i : Nat) :
    (replaceVariables env Cmd VA 0).2.1.Tokens[i]? = (Cmd.Tokens[i]?).map (replaceToken env VA) := by
  rw [replaceVariables_zero]
  simp

theorem builtin_name_no_dollar (Cmd : Command) (BC : CStr × BuiltinCommandFunc)
    (h : getBuiltinCommandInfo Cmd = some BC) :
    ∃ rest, Cmd.Tokens = BC.1 :: rest ∧ BC.1.head? ≠ some '$' ∧ BC ∈ BuiltinCommandInfoMap := by
  unfold getBuiltinCommandInfo at h
  split at h
  · exact absurd h (by simp)
  · rename_i Token rest htok
    have hp := List.find?_some h
    have hmem := List.mem_of_find?_eq_some h
    have heq : Token = BC.1 := by simpa using hp
    refine ⟨rest, by rw [htok, heq], ?_, hmem⟩
    simp only [BuiltinCommandInfoMap, List.mem_cons, List.mem_singleton, List.not_mem_nil,
      or_false] at hmem
    rcases hmem with h | h | h | h | h | h | h <;> rw [h] <;> decide

theorem replaceVariables_builtin (env : Environ) (Cmd : Command) (VA : LocalVariableArray)
    (chk : Int) (BC : CStr × BuiltinCommandFunc) (h : getBuiltinCommandInfo Cmd = some BC) :
    replaceVariables env Cmd VA chk =
      (0, { Cmd with Tokens := Cmd.Tokens.map (replaceToken env VA) }, []) := by
  obtain ⟨rest, htok, hhead, _⟩ := builtin_name_no_dollar Cmd BC h
  unfold replaceVariables
  split
  · rename_i heq
    rw [htok] at heq
    simp only [List.cons.injEq] at heq
    rw [heq.1] at hhead
    exact absurd rfl hhead
  · rfl

/-! ## Variables and the environment -/

theorem strtok_piece (delim t rest : CStr) (hne : t ≠ [])
    (ht : ∀ c ∈ t, delim.contains c = false)
    (hrest : ∀ d rest1, rest = d :: rest1 → delim.contains d = true) :
    strtok (t ++ rest) delim = some (t, rest.drop 1) := by
  cases t with
  | nil => exact absurd rfl hne
  | cons c t1 =>
    have hc : delim.contains c = false := ht c (List.mem_cons_self _ _)
    have hall : ∀ a ∈ t1, (!delim.contains a) = true := by
      intro a ha
      rw [ht a (List.mem_cons_of_mem _ ha)]
      rfl
    rw [List.cons_append, strtok_cons_other _ _ _ hc, List.takeWhile_append_of_pos hall,
      List.dropWhile_append_of_pos hall]
    cases rest with
    | nil => simp
    | cons d rest1 =>
      have hd : delim.contains d = true := hrest d rest1 rfl
      rw [List.takeWhile_cons, List.dropWhile_cons]
      simp only [hd, Bool.not_true, Bool.false_eq_true, if_false, List.append_nil,
        List.drop_succ_cons, List.drop_zero]

theorem contains_equals (c : Char) : ['='].contains c = (c == '=') := by
  cases h : c == '=' <;> simp [List.contains, List.elem, h]

theorem strtok_name_value (name value : CStr) (hne : name ≠ []) (hn : '=' ∉ name) :
    strtok (name ++ '=' :: value) ['='] = some (name, value) := by
  have := strtok_piece ['='] name ('=' :: value) hne
    (by
      intro c hc
      rw [contains_equals]
      have : c ≠ '=' := fun e => hn (e ▸ hc)
      simpa using this)
    (by
      intro d rest1 h
      simp only [List.cons.injEq] at h
      rw [← h.1]
      decide)
  simpa using this

theorem strtok_whole (t : CStr) (hne : t ≠ []) (hn : '=' ∉ t) :
    strtok t ['='] = some (t, []) := by
  have := strtok_piece ['='] t [] hne
    (by
      intro c hc
      rw [contains_equals]
      have : c ≠ '=' := fun e => hn (e ▸ hc)
      simpa using this)
    (by intro d rest1 h; exact absurd h (by simp))
  simpa using this

theorem strtok_value (value : CStr) (hn : '=' ∉ value) :
    (strtok value ['='] = none ∧ value = []) ∨ (∃ r2, strtok value ['='] = some (value, r2)) := by
  cases value with
  | nil => exact Or.inl ⟨rfl, rfl⟩
  | cons c cs => exact Or.inr ⟨[], strtok_whole (c :: cs) (by simp) hn⟩

theorem updateVars_names (l : List LocalVariable) (Var : LocalVariable) :
    (updateVars l Var).map (fun V => V.Name) = l.map (fun V => V.Name) := by
  induction l with
  | nil => rfl
  | cons V rest ih =>
    unfold updateVars
    split
    · rfl
    · simp only [List.map_cons, ih]

theorem getLocalVariable_eq_none_iff (Name : CStr) (VA : LocalVariableArray) :
    getLocalVariable Name VA = none ↔ Name ∉ VA.Vars.map (fun V => V.Name) := by
  unfold getLocalVariable
  rw [List.find?_eq_none]
  simp only [decide_eq_true_eq, List.mem_map, not_exists, not_and]
  constructor
  · intro h V hV e
    exact h V hV e.symm
  · intro h V hV e
    exact h V hV e.symm

theorem find_updateVars_same (l : List LocalVariable) (Var : LocalVariable)
    (h : Var.Name ∈ l.map (fun V => V.Name)) :
    (updateVars l Var).find? (fun V => decide (Var.Name = V.Name)) = some Var := by
  induction l with
  | nil => simp at h
  | cons V rest ih =>
    unfold updateVars
    by_cases hV : V.Name = Var.Name
    · rw [if_pos hV]
      have : ({ V with Value := Var.Value } : LocalVariable) = Var := by
        cases Var; cases V; simp_all
      rw [this]
      simp
    · rw [if_neg hV]
      have hne : ¬ Var.Name = V.Name := fun e => hV e.symm
      rw [List.find?_cons_of_neg _ (by simpa using hne)]
      apply ih
      simp only [List.map_cons, List.mem_cons] at h
      rcases h with h | h
      · exact absurd h hne
      · exact h

theorem find_updateVars_other (l : List LocalVariable) (Var : LocalVariable) (other : CStr)
    (h : other ≠ Var.Name) :
    (updateVars l Var).find? (fun V => decide (other = V.Name)) =
      l.find? (fun V => decide (other = V.Name)) := by
  induction l with
  | nil => rfl
  | cons V rest ih =>
    unfold updateVars
    by_cases hV : V.Name = Var.Name
    · rw [if_pos hV]
      have hne : ¬ other = V.Name := fun e => h (e.trans hV)
      rw [List.find?_cons_of_neg _ (by simpa using hne),
        List.find?_cons_of_neg _ (by simpa using hne)]
    · rw [if_neg hV]
      by_cases ho : other = V.Name
      · rw [List.find?_cons_of_pos _ (by simpa using ho),
          List.find?_cons_of_pos _ (by simpa using ho)]
      · rw [List.find?_cons_of_neg _ (by simpa using ho),
          List.find?_cons_of_neg _ (by simpa using ho), ih]

theorem addLocalVariable_ok (VA : LocalVariableArray) (Var : LocalVariable)
    (hcap : 1 ≤ VA.Capacity) (hcount : VA.Count ≤ VA.Capacity) :
    ∃ cap, addLocalVariable VA Var = .ok { Vars := VA.Vars ++ [Var], Capacity := cap } ∧
      1 ≤ cap ∧ VA.Count + 1 ≤ cap := by
  unfold addLocalVariable
  by_cases hfull : VA.Count ≥ VA.Capacity
  · simp only [hfull, if_true]
    have : VA.Count < VA.Capacity * 2 := by omega
    rw [if_pos this]
    exact ⟨_, rfl, by omega, by omega⟩
  · simp only [hfull, if_false]
    have : VA.Count < VA.Capacity := by omega
    rw [if_pos this]
    exact ⟨_, rfl, by omega, by omega⟩

/-- The effect of `executeLocalCommand` once its argument was split into a name and a
value. -/
theorem executeLocalCommand_split (Cmd : Command) (P : Proc) (arg Name rest Value : CStr)
    (htok : Cmd.Tokens = ["local".toList, arg])
    (hsplit : strtok arg ['='] = some (Name, rest))
    (hval : (strtok rest ['='] = none ∧ Value = []) ∨
      (∃ r2, strtok rest ['='] = some (Value, r2)))
    (hcap : 1 ≤ P.S.VA.Capacity) (hcount : P.S.VA.Count ≤ P.S.VA.Capacity) :
    ∃ VA1, executeLocalCommand Cmd P =
        .ok (Result.returned 0 (some Cmd) { P with S := { P.S with VA := VA1 } }) ∧
      getLocalVariable Name VA1 = some { Name := Name, Value := Value } ∧
      (∀ other, other ≠ Name → getLocalVariable other VA1 = getLocalVariable other P.S.VA) ∧
      (getLocalVariable Name P.S.VA ≠ none →
        VA1.Vars.map (fun V => V.Name) = P.S.VA.Vars.map (fun V => V.Name)) ∧
      (getLocalVariable Name P.S.VA = none →
        VA1.Vars.map (fun V => V.Name) = P.S.VA.Vars.map (fun V => V.Name) ++ [Name]) ∧
      1 ≤ VA1.Capacity ∧ VA1.Count ≤ VA1.Capacity := by
  have h2 : ¬ Cmd.TokenCount ≠ 2 := by simp [Command.TokenCount, htok]
  have harg : Cmd.Tokens.getD 1 [] = arg := by rw [htok]; rfl
  cases hget : getLocalVariable Name P.S.VA with
  | none =>
    obtain ⟨cap, hadd, hc1, hc2⟩ := addLocalVariable_ok P.S.VA
      { Name := Name, Value := Value } hcap hcount
    have hexec : executeLocalCommand Cmd P =
        .ok (Result.returned 0 (some Cmd)
          { P with S := { P.S with VA := { Vars := P.S.VA.Vars ++ [{ Name := Name, Value := Value }]
                                           Capacity := cap } } }) := by
      rcases hval with ⟨h1, hV⟩ | ⟨r2, h1⟩
      · subst hV
        simp only [executeLocalCommand, if_neg h2, harg, hsplit, h1, hget, hadd]
      · simp only [executeLocalCommand, if_neg h2, harg, hsplit, h1, hget, hadd]
    refine ⟨_, hexec, ?_, ?_, fun h => absurd rfl h, fun _ => by simp, hc1, ?_⟩
    · unfold getLocalVariable at hget ⊢
      simp only [List.find?_append, hget, Option.none_or]
      simp
    · intro other hother
      unfold getLocalVariable
      simp only [List.find?_append]
      have : ([({ Name := Name, Value := Value } : LocalVariable)].find?
            (fun V => decide (other = V.Name))) = none := by
        simp [hother]
      rw [this, Option.or_none]
    · simp only [LocalVariableArray.Count, List.length_append, List.length_singleton] at hc2 ⊢
      exact hc2
  | some V0 =>
    have hmem : Name ∈ P.S.VA.Vars.map (fun V => V.Name) := by
      by_contra hcon
      rw [(getLocalVariable_eq_none_iff Name P.S.VA).2 hcon] at hget
      exact absurd hget (by simp)
    have hexec : executeLocalCommand Cmd P =
        .ok (Result.returned 0 (some Cmd)
          { P with S := { P.S with
              VA := updateLocalVariable P.S.VA { Name := Name, Value := Value } } }) := by
      rcases hval with ⟨h1, hV⟩ | ⟨r2, h1⟩
      · subst hV
        simp only [executeLocalCommand, if_neg h2, harg, hsplit, h1, hget]
      · simp only [executeLocalCommand, if_neg h2, harg, hsplit, h1, hget]
    refine ⟨_, hexec, ?_, ?_, fun _ => ?_, fun h => absurd h (by simp), hcap, ?_⟩
    · exact find_updateVars_same P.S.VA.Vars { Name := Name, Value := Value } hmem
    · intro other hother
      exact find_updateVars_other P.S.VA.Vars { Name := Name, Value := Value } other hother
    · exact updateVars_names _ _
    · have := congrArg List.length (updateVars_names P.S.VA.Vars { Name := Name, Value := Value })
      simp only [List.length_map] at this
      simp only [LocalVariableArray.Count, updateLocalVariable, this]
      exact hcount

theorem envMatch_self (Name Value : CStr) : envMatch Name (Name, Value) = true := by
  unfold envMatch envString
  rw [List.isPrefixOf_iff_prefix]
  exact ⟨Value, by simp⟩

theorem envString_drop (Name Value : CStr) :
    (envString (Name, Value)).drop (Name.length + 1) = Value := by
  unfold envString
  have : Name ++ '=' :: Value = (Name ++ ['=']) ++ Value := by simp
  rw [this]
  have hl : Name.length + 1 = (Name ++ ['=']).length := by simp
  rw [hl, List.drop_left]

theorem getenv_envUpdate_same (env : Environ) (Name Value : CStr) (hne : Name ≠ []) :
    getenv (envUpdate env Name Value) Name = some Value := by
  induction env with
  | nil =>
    simp only [envUpdate, getenv, envMatch_self, hne, ne_eq, not_false_eq_true, and_self,
      if_true, envString_drop]
  | cons p rest ih =>
    unfold envUpdate
    by_cases h : envMatch Name p = true
    · rw [if_pos h]
      simp only [getenv, envMatch_self, hne, ne_eq, not_false_eq_true, and_self, if_true,
        envString_drop]
    · rw [if_neg h]
      unfold getenv
      rw [if_neg (fun hh => h hh.2)]
      exact ih

theorem setenv_ok (env : Environ) (Name Value : CStr) (hne : Name ≠ []) (hn : '=' ∉ Name) :
    setenv env Name Value = some (envUpdate env Name Value) := by
  unfold setenv
  have : ¬ (Name.isEmpty = true ∨ '=' ∈ Name) := by
    intro h
    rcases h with h | h
    · exact hne (List.isEmpty_iff.1 h)
    · exact hn h
  rw [if_neg this]

theorem executeExportCommand_split (Cmd : Command) (P : Proc) (arg Name rest Value r2 : CStr)
    (htok : Cmd.Tokens = ["export".toList, arg])
    (hsplit : strtok arg ['='] = some (Name, rest))
    (hval : strtok rest ['='] = some (Value, r2))
    (hne : Name ≠ []) (hn : '=' ∉ Name) :
    executeExportCommand Cmd P =
      .ok (Result.returned 0
        (some { Cmd with
          Tokens := Cmd.Tokens.set 1 (arg.takeWhile (fun c => c = '=') ++ Name) })
        { P with Env := envUpdate P.Env Name Value }) := by
  have h2 : ¬ (Cmd.TokenCount ≠ 2) := by
    simp [Command.TokenCount, htok]
  have harg : Cmd.Tokens.getD 1 [] = arg := by rw [htok]; rfl
  simp only [executeExportCommand, if_neg h2, harg, hsplit, hval, setenv_ok P.Env Name Value hne hn]

theorem executeExportCommand_missing (Cmd : Command) (P : Proc) (arg : CStr)
    (htok : Cmd.Tokens = ["export".toList, arg])
    (hval : strtok arg ['='] = none ∨ ∃ Name, strtok arg ['='] = some (Name, [])) :
    ∃ Cmd1 P1, executeExportCommand Cmd P = .ok (Result.returned 1 (some Cmd1) P1) ∧
      P1.Env = P.Env ∧ P1.S = P.S := by
  have h2 : ¬ (Cmd.TokenCount ≠ 2) := by
    simp [Command.TokenCount, htok]
  have harg : Cmd.Tokens.getD 1 [] = arg := by rw [htok]; rfl
  rcases hval with h | ⟨Name, h⟩
  · have hexec : executeExportCommand Cmd P = .ok (Result.returned 1 (some Cmd) P) := by
      simp only [executeExportCommand, if_neg h2, harg, h]
    exact ⟨_, _, hexec, rfl, rfl⟩
  · have hexec : executeExportCommand Cmd P = .ok (Result.returned 1
        (some { Cmd with
          Tokens := Cmd.Tokens.set 1 (arg.takeWhile (fun c => c = '=') ++ Name) })
        (P.emit [Action.stderr "export: variable must have definition\n".toList])) := by
      simp only [executeExportCommand, if_neg h2, harg, h, strtok_nil]
    exact ⟨_, _, hexec, rfl, rfl⟩

theorem updateVars_length (l : List LocalVariable) (Var : LocalVariable) :
    (updateVars l Var).length = l.length := by
  have h := congrArg List.length (updateVars_names l Var)
  simpa only [List.length_map] using h

theorem addLocalVariable_eq_ok (VA : LocalVariableArray) (Var : LocalVariable)
    (VA1 : LocalVariableArray) (h : addLocalVariable VA Var = .ok VA1) :
    VA1.Vars = VA.Vars ++ [Var] ∧ VA.Count < VA1.Capacity ∧
      (1 ≤ VA.Capacity → 1 ≤ VA1.Capacity) := by
  unfold addLocalVariable at h
  by_cases hfull : VA.Count ≥ VA.Capacity
  · simp only [hfull, if_true] at h
    split at h
    · rename_i hlt
      simp only [Except.ok.injEq] at h
      subst h
      exact ⟨rfl, hlt, fun _ => by show 1 ≤ VA.Capacity * 2; omega⟩
    · exact absurd h (by simp)
  · simp only [hfull, if_false] at h
    split at h
    · rename_i hlt
      simp only [Except.ok.injEq] at h
      subst h
      exact ⟨rfl, hlt, fun h1 => h1⟩
    · exact absurd h (by simp)

theorem executeLocalCommand_store (Cmd : Command) (P : Proc) (code : Int)
    (C1 : Option Command) (P1 : Proc)
    (h : executeLocalCommand Cmd P = .ok (Result.returned code C1 P1)) :
    P.S.VA.Count ≤ P1.S.VA.Count ∧ (P.S.VA.Sound → P1.S.VA.Sound) := by
  unfold executeLocalCommand at h
  split at h
  · simp only [Except.ok.injEq, Result.returned.injEq] at h
    obtain ⟨-, -, rfl⟩ := h
    exact ⟨le_refl _, id⟩
  · split at h
    · simp only [Except.ok.injEq, Result.returned.injEq] at h
      obtain ⟨-, -, rfl⟩ := h
      exact ⟨le_refl _, id⟩
    · rename_i Name rest hsplit
      simp only at h
      split at h
      · rename_i hget
        split at h
        · exact absurd h (by simp)
        · rename_i VA hadd
          simp only [Except.ok.injEq, Result.returned.injEq] at h
          obtain ⟨-, -, rfl⟩ := h
          obtain ⟨hvars, hlt, hcap1⟩ := addLocalVariable_eq_ok _ _ _ hadd
          refine ⟨?_, ?_⟩
          · show P.S.VA.Vars.length ≤ VA.Vars.length
            rw [hvars]
            simp
          · rintro ⟨hnd, hcap, hcount⟩
            refine ⟨?_, hcap1 hcap, ?_⟩
            · have hnot := (getLocalVariable_eq_none_iff Name P.S.VA).1 hget
              show (VA.Vars.map (fun V => V.Name)).Nodup
              rw [hvars]
              simp only [List.map_append, List.map_cons, List.map_nil]
              rw [List.nodup_append]
              refine ⟨hnd, List.nodup_singleton _, ?_⟩
              intro a ha hb
              rw [List.mem_singleton] at hb
              exact hnot (hb ▸ ha)
            · show VA.Vars.length ≤ VA.Capacity
              rw [hvars]
              simp only [LocalVariableArray.Count, List.length_append, List.length_singleton]
                at hlt ⊢
              omega
      · simp only [Except.ok.injEq, Result.returned.injEq] at h
        obtain ⟨-, -, rfl⟩ := h
        refine ⟨?_, ?_⟩
        · simp only [LocalVariableArray.Count, updateLocalVariable, updateVars_length]
          exact le_refl _
        · rintro ⟨hnd, hcap, hcount⟩
          refine ⟨?_, hcap, ?_⟩
          · simp only [LocalVariableArray.Names, updateLocalVariable]
            rw [updateVars_names]
            exact hnd
          · simp only [LocalVariableArray.Count, updateLocalVariable, updateVars_length]
              at hcount ⊢
            exact hcount

theorem executeHistoryCommand_store (exec : Command → Proc → Except Fault Result)
    (hexec : ∀ C Q code C1 Q1, exec C Q = .ok (Result.returned code C1 Q1) →
      Q.S.VA.Count ≤ Q1.S.VA.Count ∧ (Q.S.VA.Sound → Q1.S.VA.Sound))
    (Cmd : Command) (P : Proc) (code : Int) (C1 : Option Command) (P1 : Proc)
    (h : executeHistoryCommand exec Cmd P = .ok (Result.returned code C1 P1)) :
    P.S.VA.Count ≤ P1.S.VA.Count ∧ (P.S.VA.Sound → P1.S.VA.Sound) := by
  unfold executeHistoryCommand at h
  simp only at h
  split at h
  · split at h
    · exact absurd h (by simp)
    · simp only [Except.ok.injEq, Result.returned.injEq] at h
      obtain ⟨-, -, rfl⟩ := h
      exact ⟨le_refl _, id⟩
  · split at h
    · split at h
      · simp only [Except.ok.injEq, Result.returned.injEq] at h
        obtain ⟨-, -, rfl⟩ := h
        exact ⟨le_refl _, id⟩
      · split at h
        · exact absurd h (by simp)
        · simp only [Except.ok.injEq, Result.returned.injEq] at h
          obtain ⟨-, -, rfl⟩ := h
          exact ⟨le_refl _, id⟩
        · split at h
          · exact absurd h (by simp)
          · rename_i hex
            simp only [Except.ok.injEq, Result.returned.injEq] at h
            obtain ⟨-, -, rfl⟩ := h
            exact hexec _ _ _ _ _ hex
          · exact absurd h (by simp)
    · split at h
      · split at h
        · simp only [Except.ok.injEq, Result.returned.injEq] at h
          obtain ⟨-, -, rfl⟩ := h
          exact ⟨le_refl _, id⟩
        · split at h
          · simp only [Except.ok.injEq, Result.returned.injEq] at h
            obtain ⟨-, -, rfl⟩ := h
            exact ⟨le_refl _, id⟩
          · split at h
            · simp only [Except.ok.injEq, Result.returned.injEq] at h
              obtain ⟨-, -, rfl⟩ := h
              exact ⟨le_refl _, id⟩
            · split at h
              · exact absurd h (by simp)
              · simp only [Except.ok.injEq, Result.returned.injEq] at h
                obtain ⟨-, -, rfl⟩ := h
                exact ⟨le_refl _, id⟩
      · simp only [Except.ok.injEq, Result.returned.injEq] at h
        obtain ⟨-, -, rfl⟩ := h
        exact ⟨le_refl _, id⟩

theorem execute_store (fuel : Nat) : ∀ (os : OS) (Cmd : Command) (P : Proc) (code : Int)
    (C1 : Option Command) (P1 : Proc),
    execute fuel os Cmd P = .ok (Result.returned code C1 P1) →
    P.S.VA.Count ≤ P1.S.VA.Count ∧ (P.S.VA.Sound → P1.S.VA.Sound) := by
  induction fuel with
  | zero =>
    intro os Cmd P code C1 P1 h
    simp [execute] at h
  | succ fuel ih =>
    intro os Cmd P code C1 P1 h
    simp only [execute] at h
    split at h
    · simp only [Except.ok.injEq, Result.returned.injEq] at h
      obtain ⟨-, -, rfl⟩ := h
      exact ⟨le_refl _, id⟩
    · split at h
      · -- external command
        split at h
        · exact absurd h (by simp)
        · split at h
          · exact absurd h (by simp)
          · split at h
            · simp only [Except.ok.injEq, Result.returned.injEq] at h
              obtain ⟨-, -, rfl⟩ := h
              exact ⟨le_refl _, id⟩
            · split at h
              · exact absurd h (by simp)
              · split at h <;>
                · simp only [Except.ok.injEq, Result.returned.injEq] at h
                  obtain ⟨-, -, rfl⟩ := h
                  exact ⟨le_refl _, id⟩
      · -- builtin
        rename_i BC hBC
        generalize (if BC.1 = "local".toList then (1 : Int)
          else if BC.1 = "export".toList then 2 else 0) = chk at h
        generalize replaceVariables P.Env Cmd P.S.VA chk = rep at h
        split at h
        · simp only [Except.ok.injEq, Result.returned.injEq] at h
          obtain ⟨-, -, rfl⟩ := h
          exact ⟨le_refl _, id⟩
        · split at h
          · exact absurd h (by simp)
          · split at h
            · exact absurd h (by simp)
            · simp only [Except.ok.injEq, Result.returned.injEq] at h
              obtain ⟨-, -, rfl⟩ := h
              exact ⟨le_refl _, id⟩
            · split at h
              · exact absurd h (executeExitCommand_no_return _ _ _ _ _)
              · have := executeCdCommand_shell _ _ _ _ _ _ h
                rw [this]; exact ⟨le_refl _, id⟩
              · have := executeExportCommand_hist _ _ _ _ _ h
                rw [this]; exact ⟨le_refl _, id⟩
              · have := executeLocalCommand_store _ _ _ _ _ h
                exact this
              · have := executeVarsCommand_shell _ _ _ _ _ h
                rw [this]; exact ⟨le_refl _, id⟩
              · have := executeHistoryCommand_store (execute fuel os) (ih os) _ _ _ _ _ h
                exact this
              · have := executeLsCommand_shell _ _ _ _ _ _ h
                rw [this]; exact ⟨le_refl _, id⟩

theorem initShell_sound (env0 : Environ) (P : Proc) (h : initShell env0 = some P) :
    P.S.VA.Sound := by
  unfold initShell at h
  split at h
  · exact absurd h (by simp)
  · simp only [Option.some.injEq] at h
    rw [← h]
    exact ⟨by simp [LocalVariableArray.Names, initLocalVariables],
      by simp [initLocalVariables, INITIAL_LOCAL_VARS_CAPACITY],
      by simp [initLocalVariables, LocalVariableArray.Count]⟩

theorem reachable_sound (P : Proc) (h : Reachable P) : P.S.VA.Sound := by
  induction h with
  | init env0 P h => exact initShell_sound env0 P h
  | step fuel os Cmd P P1 code Cmd1 _ h ih =>
    exact (execute_store fuel os Cmd P code Cmd1 P1 h).2 ih

/-! ## The live command and the history entry -/

theorem lastN_getLast {α : Type} (n : Nat) (l : List α) (a : α) (hn : 1 ≤ n) :
    (lastN n (l ++ [a])).getLast? = some a := by
  unfold lastN
  rw [List.getLast?_drop]
  have : ¬ (l ++ [a]).length ≤ (l ++ [a]).length - n := by
    simp only [List.length_append, List.length_singleton]
    omega
  rw [if_neg this]
  simp

theorem execute_external_live (fuel : Nat) (os : OS) (Cmd : Command) (P : Proc) (c : Int)
    (H1 : History) (hext : getBuiltinCommandInfo Cmd = none) (hwf : Cmd.WellFormed)
    (hadd : addHistory P.S.Hist (getCommandCopy Cmd) = .ok (c, H1)) :
    ∃ Cmd1, stripRedirection Cmd = .ok Cmd1 ∧ Cmd1.Tokens ≠ [] ∧
      Cmd1.Redirection = Cmd.Redirection ∧
      ∃ code out, execute (fuel + 1) os Cmd P =
        .ok (Result.returned code
          (some { Cmd1 with Tokens := Cmd1.Tokens.map (replaceToken P.Env P.S.VA) })
          { S := { P.S with Hist := H1 }, Env := P.Env, Out := out }) := by
  obtain ⟨Cmd1, hstrip, hne1, hred1⟩ := stripRedirection_wellFormed Cmd hwf
  refine ⟨Cmd1, hstrip, hne1, hred1, ?_⟩
  have hcount : ¬ Cmd.TokenCount = 0 := by
    intro e
    exact hwf.1 (List.eq_nil_of_length_eq_zero e)
  have hchild := childProcess_defined os P.Env
    { Cmd1 with Tokens := Cmd1.Tokens.map (replaceToken P.Env P.S.VA) }
    (by simpa using hne1)
    (by
      intro R1 hR1
      have hR : Cmd.Redirection = some R1 := by rw [← hred1]; exact hR1
      exact ⟨(hwf.2 R1 hR).1, (hwf.2 R1 hR).2.1⟩)
  obtain ⟨⟨acts, status⟩, hch⟩ := hchild
  simp only [execute, if_neg hcount, hext, hadd, hstrip, replaceVariables_zero]
  by_cases hfork : os.forkOk = true
  · simp only [hfork, not_true_eq_false, if_false, hch]
    cases status with
    | exited code => exact ⟨_, _, rfl⟩
    | signaled => exact ⟨_, _, rfl⟩
  · simp only [hfork, not_false_eq_true, if_true]
    exact ⟨_, _, rfl⟩

/-! ## The argument list -/

theorem parseRedirect_shape (tok : CStr) :
    ((redirectOperator tok).1 ≠ RedirectMode.RedirectNone →
      ∃ File FD, parseRedirect tok =
        { Mode := Cell.val (redirectOperator tok).1, File := some File, FD := Cell.val FD }) ∧
    ((redirectOperator tok).1 = RedirectMode.RedirectNone →
      parseRedirect tok =
        { Mode := Cell.val RedirectMode.RedirectNone, File := none, FD := Cell.val (-1) }) := by
  constructor
  · intro h
    unfold parseRedirect
    simp only [h, ne_eq, not_false_eq_true, if_true]
    by_cases hd : startsWithDigit tok = true
    · exact ⟨_, _, by rw [if_pos hd]⟩
    · exact ⟨_, _, by rw [if_neg hd]⟩
  · intro h
    unfold parseRedirect
    simp only [h, ne_eq, not_true_eq_false, if_false]

theorem stripRedirection_parsed (Cmd : Command)
    (h : ∀ R, Cmd.Redirection = some R → (∃ tok, R = parseRedirect tok) ∧ 2 ≤ Cmd.TokenCount) :
    stripRedirection Cmd =
      .ok { Cmd with Tokens := if Cmd.redirects then Cmd.Tokens.dropLast else Cmd.Tokens } := by
  obtain ⟨Tokens, Red⟩ := Cmd
  cases Red with
  | none => rfl
  | some R =>
    obtain ⟨⟨tok, htok⟩, h2⟩ := h R rfl
    subst htok
    by_cases hm : (redirectOperator tok).1 = RedirectMode.RedirectNone
    · have hp := (parseRedirect_shape tok).2 hm
      simp only [stripRedirection, Command.redirects, hp, ne_eq, not_true_eq_false,
        decide_False, Bool.false_eq_true, if_false]
    · obtain ⟨File, FD, hp⟩ := (parseRedirect_shape tok).1 hm
      have h0 : ¬ Command.TokenCount { Tokens := Tokens, Redirection := some (parseRedirect tok) }
          = 0 := by omega
      simp only [Command.TokenCount] at h0
      simp only [stripRedirection, Command.redirects, hp, ne_eq, hm, not_false_eq_true,
        decide_True, if_true, Command.TokenCount, h0, if_false]

theorem parsed_redirection (Input : CStr) (VA : LocalVariableArray) (Cmd : Command)
    (h : getCommand Input VA = some Cmd) :
    ∀ R, Cmd.Redirection = some R → (∃ tok, R = parseRedirect tok) ∧ 2 ≤ Cmd.TokenCount := by
  intro R hR
  have hr := (getCommand_tokens Input VA Cmd h).2
  rw [hR] at hr
  by_cases hlen : Cmd.Tokens.length > 1
  · rw [if_pos hlen] at hr
    simp only [Option.some.injEq] at hr
    exact ⟨⟨_, hr⟩, hlen⟩
  · rw [if_neg hlen] at hr
    exact absurd hr (by simp)

theorem redirects_map (Cmd : Command) (f : CStr → CStr) :
    Command.redirects { Cmd with Tokens := Cmd.Tokens.map f } = Cmd.redirects := rfl

theorem execute_builtin_call (fuel : Nat) (os : OS) (Cmd : Command) (P : Proc)
    (BC : CStr × BuiltinCommandFunc) (acts : List Action)
    (hparsed : ∀ R, Cmd.Redirection = some R →
      (∃ tok, R = parseRedirect tok) ∧ 2 ≤ Cmd.TokenCount)
    (hne : Cmd.Tokens ≠ []) (hBC : getBuiltinCommandInfo Cmd = some BC)
    (hred : redirect os Cmd.Redirection = .ok (true, acts)) :
    execute (fuel + 1) os Cmd P =
      callBuiltin (execute fuel os) os BC.2
        { Cmd with Tokens := Cmd.argumentList P.Env P.S.VA }
        { (P.emit acts) with
          Out := (P.emit acts).Out ++
            [Event.builtin BC.1 (Cmd.argumentList P.Env P.S.VA)] } := by
  have hcount : ¬ Cmd.TokenCount = 0 := by
    intro e
    exact hne (List.eq_nil_of_length_eq_zero e)
  have hstrip := stripRedirection_parsed
    { Cmd with Tokens := Cmd.Tokens.map (replaceToken P.Env P.S.VA) }
    (by
      intro R hR
      obtain ⟨h1, h2⟩ := hparsed R hR
      exact ⟨h1, by simpa [Command.TokenCount] using h2⟩)
  have hargs : (if Command.redirects { Cmd with Tokens := Cmd.Tokens.map (replaceToken P.Env P.S.VA) }
      then (Cmd.Tokens.map (replaceToken P.Env P.S.VA)).dropLast
      else Cmd.Tokens.map (replaceToken P.Env P.S.VA)) = Cmd.argumentList P.Env P.S.VA := by
    rw [redirects_map]
    unfold Command.argumentList
    split
    · rw [List.map_dropLast]
    · rfl
  simp only [hargs] at hstrip
  simp only [execute, if_neg hcount, hBC, replaceVariables_builtin P.Env Cmd P.S.VA _ BC hBC,
    ne_eq, not_true_eq_false, and_false, if_false, hstrip, hred, Proc.emit_nil]
  cases BC.2 <;> rfl

theorem openRedirect_no_execv (os : OS) (File : CStr) (Mode : RedirectMode) :
    ∀ a ∈ (openRedirect os File Mode).2, ∀ p v s, a ≠ Action.execv p v s := by
  intro a ha p v s
  unfold openRedirect at ha
  split at ha <;> simp at ha <;> rcases ha with rfl | rfl <;> simp

theorem redirect_no_execv (os : OS) (R : Option Redirect) (b : Bool) (acts : List Action)
    (h : redirect os R = .ok (b, acts)) : ∀ a ∈ acts, ∀ p v s, a ≠ Action.execv p v s := by
  have hopen := openRedirect_no_execv os
  unfold redirect at h
  intro a ha p v s
  dsimp only at h
  repeat' split at h
  all_goals cases h
  all_goals first
    | exact absurd ha (List.not_mem_nil _)
    | exact hopen _ _ a ha p v s
    | (simp only [List.mem_append, List.mem_cons, List.mem_singleton, List.mem_nil_iff,
         or_false] at ha
       rcases ha with ha | ha
       · exact hopen _ _ a ha p v s
       · first
           | (subst ha; exact fun e => Action.noConfusion e)
           | (rcases ha with rfl | rfl <;> exact fun e => Action.noConfusion e))

theorem childProcess_argv (os : OS) (env : Environ) (Cmd : Command) (acts : List Action)
    (status : WaitStatus) (h : childProcess os env Cmd = .ok (acts, status)) :
    ∀ path argv started, Action.execv path argv started ∈ acts → argv = Cmd.Tokens := by
  intro path argv started hmem
  unfold childProcess at h
  split at h
  · exact absurd h (by simp)
  · split at h
    · simp only [Except.ok.injEq, Prod.mk.injEq] at h
      obtain ⟨rfl, -⟩ := h
      simp at hmem
    · split at h
      · exact absurd h (by simp)
      · rename_i acts0 hr
        simp only [Except.ok.injEq, Prod.mk.injEq] at h
        obtain ⟨rfl, -⟩ := h
        exact absurd rfl (redirect_no_execv os _ _ _ hr _ hmem path argv started)
      · rename_i acts0 hr
        have hno := redirect_no_execv os _ _ _ hr
        split at h
        · simp only [Except.ok.injEq, Prod.mk.injEq] at h
          obtain ⟨rfl, -⟩ := h
          rw [List.mem_append] at hmem
          rcases hmem with hmem | hmem
          · exact absurd rfl (hno _ hmem path argv started)
          · simp only [List.mem_singleton, Action.execv.injEq] at hmem
            exact hmem.2.1
        · simp only [Except.ok.injEq, Prod.mk.injEq] at h
          obtain ⟨rfl, -⟩ := h
          rw [List.mem_append] at hmem
          rcases hmem with hmem | hmem
          · exact absurd rfl (hno _ hmem path argv started)
          · simp only [List.mem_cons, Action.execv.injEq, List.mem_singleton,
              List.mem_nil_iff, or_false] at hmem
            rcases hmem with hmem | hmem
            · exact hmem.2.1
            · exact absurd hmem (by simp)

theorem execute_external_spawn (fuel : Nat) (os : OS) (Cmd : Command) (P : Proc) (c : Int)
    (H1 : History) (acts : List Action) (status : WaitStatus)
    (hparsed : ∀ R, Cmd.Redirection = some R →
      (∃ tok, R = parseRedirect tok) ∧ 2 ≤ Cmd.TokenCount)
    (hne : Cmd.Tokens ≠ []) (hext : getBuiltinCommandInfo Cmd = none)
    (hadd : addHistory P.S.Hist (getCommandCopy Cmd) = .ok (c, H1))
    (hfork : os.forkOk = true)
    (hchild : childProcess os P.Env { Cmd with Tokens := Cmd.argumentList P.Env P.S.VA } =
      .ok (acts, status)) :
    execute (fuel + 1) os Cmd P =
      .ok (Result.returned status.code
        (some { Cmd with Tokens := Cmd.argumentList P.Env P.S.VA })
        { S := { P.S with Hist := H1 }, Env := P.Env,
          Out := P.Out ++ [Event.fork true] ++ acts.map Event.child }) := by
  have hcount : ¬ Cmd.TokenCount = 0 := by
    intro e
    exact hne (List.eq_nil_of_length_eq_zero e)
  have hstrip := stripRedirection_parsed Cmd hparsed
  unfold Command.argumentList at hchild ⊢
  simp only [execute, if_neg hcount, hext, hadd, hstrip, replaceVariables_zero, hfork,
    not_true_eq_false, if_false, hchild]
  cases status <;> rfl

theorem argumentList_ne_nil (Cmd : Command) (env : Environ) (VA : LocalVariableArray)
    (hparsed : ∀ R, Cmd.Redirection = some R →
      (∃ tok, R = parseRedirect tok) ∧ 2 ≤ Cmd.TokenCount)
    (hne : Cmd.Tokens ≠ []) : Cmd.argumentList env VA ≠ [] := by
  unfold Command.argumentList
  intro h
  rw [List.map_eq_nil_iff] at h
  split at h
  · rename_i hr
    have h2 : 2 ≤ Cmd.TokenCount := by
      unfold Command.redirects at hr
      split at hr
      · rename_i R hR
        exact (hparsed R hR).2
      · exact absurd hr (by simp)
    have := congrArg List.length h
    simp only [List.length_dropLast, List.length_nil] at this
    simp only [Command.TokenCount] at h2
    omega
  · exact hne h

/-! ## The redirection target -/

theorem redirectOperator_length (tok : CStr) :
    (redirectOperator tok).2 = (operatorText (redirectOperator tok).1).length := by
  unfold redirectOperator
  split_ifs <;> rfl

theorem isdigit_not_isspace (c : Char) (h : isdigit c = true) : isspace c = false := by
  have h1 : '0' ≤ c := by
    unfold isdigit at h
    exact (of_decide_eq_true h).1
  unfold isspace
  simp only [Bool.or_eq_false_iff, decide_eq_false_iff_not]
  refine ⟨⟨⟨⟨⟨?_, ?_⟩, ?_⟩, ?_⟩, ?_⟩, ?_⟩ <;>
  · rintro rfl
    exact absurd h1 (by decide)

theorem isdigit_isDigitOf (c : Char) : isDigitOf 10 c = isdigit c := by
  unfold isDigitOf digitValue isdigit
  by_cases h : '0' ≤ c ∧ c ≤ '9'
  · simp only [h, and_self, if_true, decide_True, decide_eq_true_eq]
    have h1 : c.toNat ≤ '9'.toNat := h.2
    have : ('9' : Char).toNat = 57 := rfl
    have : ('0' : Char).toNat = 48 := rfl
    omega
  · rw [if_neg h]
    have hd : decide ('0' ≤ c ∧ c ≤ '9') = false := decide_eq_false h
    rw [hd]
    have h2 : ∀ v, (if 'a' ≤ c ∧ c ≤ 'z' then some (c.toNat - 'a'.toNat + 10)
        else if 'A' ≤ c ∧ c ≤ 'Z' then some (c.toNat - 'A'.toNat + 10) else none) = some v →
        10 ≤ v := by
      intro v hv
      split at hv
      · simp only [Option.some.injEq] at hv; omega
      · split at hv
        · simp only [Option.some.injEq] at hv; omega
        · exact absurd hv (by simp)
    split
    · rename_i v hv
      have := h2 v hv
      simp only [decide_eq_false_iff_not]
      omega
    · rfl

theorem strtol_digits (d : Char) (tl : CStr) (hd : isdigit d = true) :
    strtol (d :: tl) 10 =
      (min ((((d :: tl).takeWhile (isDigitOf 10)).foldl
          (fun acc c => acc * 10 + (digitValue c).getD 0) 0 : Nat) : Int) LONG_MAX,
        ((d :: tl).takeWhile (isDigitOf 10)).length) := by
  have hsp := isdigit_not_isspace d hd
  have hdig : isDigitOf 10 d = true := by rw [isdigit_isDigitOf]; exact hd
  have h1 : '0' ≤ d := by
    unfold isdigit at hd
    exact (of_decide_eq_true hd).1
  unfold strtol
  lift_lets
  intro ws s1 sign s2 radix digits
  have hws : ws = 0 := by
    simp only [ws, List.takeWhile_cons, hsp, Bool.false_eq_true, if_false, List.length_nil]
  have hs1 : s1 = d :: tl := by simp only [s1, hws, List.drop_zero]
  have hsign : sign = (false, 0) := by
    simp only [sign, hs1]
    split
    · rename_i heq
      simp only [List.cons.injEq] at heq
      exact absurd h1 (by rw [heq.1]; decide)
    · rename_i heq
      simp only [List.cons.injEq] at heq
      exact absurd h1 (by rw [heq.1]; decide)
    · rfl
  have hs2 : s2 = d :: tl := by simp only [s2, hsign, hs1, List.drop_zero]
  have hradix : radix = (10, 0) := by
    simp only [radix, hs2, OfNat.ofNat_ne_zero, Nat.reduceEqDiff, false_or, false_and, or_self,
      if_false, ite_self]
    split <;> rfl
  have hdigits : digits = (d :: tl).takeWhile (isDigitOf 10) := by
    simp only [digits, hradix, hs2, List.drop_zero]
  have hne : digits.isEmpty = false := by
    rw [hdigits, List.takeWhile_cons, hdig]
    rfl
  simp only [hne, Bool.false_eq_true, if_false, hsign, hradix, hws, hdigits, Nat.zero_add,
    Nat.add_zero]
  rw [hdigits] at hne
  rw [if_neg (by rw [hne]; simp)]

theorem takeWhile_digits (D rest : CStr) (hD : ∀ c ∈ D, isdigit c = true)
    (hrest : ∀ c r, rest = c :: r → isdigit c = false) :
    (D ++ rest).takeWhile (isDigitOf 10) = D := by
  induction D with
  | nil =>
    cases rest with
    | nil => rfl
    | cons c r =>
      rw [List.nil_append, List.takeWhile_cons, isdigit_isDigitOf, hrest c r rfl]
      rfl
  | cons c D ih =>
    rw [List.cons_append, List.takeWhile_cons, isdigit_isDigitOf, hD c (List.mem_cons_self _ _)]
    simp only [if_true, List.cons.injEq, true_and]
    exact ih (fun x hx => hD x (List.mem_cons_of_mem _ hx))

theorem digitValue_digit (c : Char) (h : isdigit c = true) :
    (digitValue c).getD 0 = c.toNat - '0'.toNat := by
  unfold isdigit at h
  unfold digitValue
  rw [if_pos (of_decide_eq_true h)]
  rfl

theorem foldl_digits (D : CStr) (hD : ∀ c ∈ D, isdigit c = true) : ∀ acc : Nat,
    D.foldl (fun acc c => acc * 10 + (digitValue c).getD 0) acc =
      D.foldl (fun acc c => acc * 10 + (c.toNat - '0'.toNat)) acc := by
  induction D with
  | nil => intro acc; rfl
  | cons c D ih =>
    intro acc
    simp only [List.foldl_cons]
    rw [digitValue_digit c (hD c (List.mem_cons_self _ _))]
    exact ih (fun x hx => hD x (List.mem_cons_of_mem _ hx)) _

theorem strtol_digit_run (D rest : CStr) (hne : D ≠ []) (hD : ∀ c ∈ D, isdigit c = true)
    (hrest : ∀ c r, rest = c :: r → isdigit c = false) :
    strtol (D ++ rest) 10 = (min (decimalValue D : Int) LONG_MAX, D.length) := by
  cases D with
  | nil => exact absurd rfl hne
  | cons d D1 =>
    rw [List.cons_append, strtol_digits d (D1 ++ rest) (hD d (List.mem_cons_self _ _))]
    rw [← List.cons_append, takeWhile_digits (d :: D1) rest hD hrest, foldl_digits (d :: D1) hD]
    rfl

theorem toInt32_small (n : Nat) (h : n < 2 ^ 31) : toInt32 (min (n : Int) LONG_MAX) = n := by
  have h1 : (n : Int) < 2147483648 := by
    have : (2 : Nat) ^ 31 = 2147483648 := by norm_num
    omega
  have hL : LONG_MAX = 9223372036854775807 := by unfold LONG_MAX; norm_num
  unfold toInt32
  rw [hL, min_eq_left (by omega)]
  have e1 : (2 : Int) ^ 31 = 2147483648 := by norm_num
  have e2 : (2 : Int) ^ 32 = 4294967296 := by norm_num
  rw [e1, e2]
  omega

theorem operatorText_head (m : RedirectMode) (hm : m ≠ RedirectMode.RedirectNone) :
    ∃ c r, operatorText m = c :: r ∧ isdigit c = false := by
  cases m
  · exact absurd rfl hm
  all_goals exact ⟨_, _, rfl, by decide⟩

theorem parseRedirect_target (D T : CStr) (m : RedirectMode)
    (hD : ∀ c ∈ D, isdigit c = true)
    (hm : (redirectOperator (D ++ operatorText m ++ T)).1 = m)
    (hmode : m ≠ RedirectMode.RedirectNone) :
    ∃ FD, parseRedirect (D ++ operatorText m ++ T) =
        { Mode := Cell.val m, File := some T, FD := Cell.val FD } ∧
      (D = [] → FD = -1) ∧
      (D ≠ [] → decimalValue D < 2 ^ 31 → FD = decimalValue D) := by
  obtain ⟨c, r, hop, hc⟩ := operatorText_head m hmode
  have hlen : (redirectOperator (D ++ operatorText m ++ T)).2 = (operatorText m).length := by
    rw [redirectOperator_length, hm]
  have hrest : ∀ c1 r1, operatorText m ++ T = c1 :: r1 → isdigit c1 = false := by
    intro c1 r1 h
    rw [hop, List.cons_append, List.cons.injEq] at h
    rw [← h.1]
    exact hc
  have hmode1 : (redirectOperator (D ++ operatorText m ++ T)).1 ≠ RedirectMode.RedirectNone := by
    rw [hm]; exact hmode
  cases D with
  | nil =>
    have hsd : startsWithDigit ([] ++ operatorText m ++ T) = false := by
      rw [List.nil_append, hop, List.cons_append]
      exact hc
    refine ⟨-1, ?_, fun _ => rfl, fun h => absurd rfl h⟩
    simp only [List.nil_append] at hm hlen hsd ⊢
    unfold parseRedirect filePathOffset
    simp only [hm, hsd, hlen, Bool.false_eq_true, if_false, List.drop_left, ne_eq]
    rw [if_pos hmode]
  | cons d D1 =>
    have hsd : startsWithDigit (d :: D1 ++ operatorText m ++ T) = true :=
      hD d (List.mem_cons_self _ _)
    have hst := strtol_digit_run (d :: D1) (operatorText m ++ T) (by simp) hD hrest
    rw [← List.append_assoc] at hst
    refine ⟨toInt32 (min (decimalValue (d :: D1) : Int) LONG_MAX), ?_, fun h => absurd h (by simp),
      fun _ h => toInt32_small _ h⟩
    unfold parseRedirect filePathOffset
    simp only [ne_eq, if_true, hsd, hlen, hm, hst]
    have hdrop : (d :: D1 ++ operatorText m ++ T).drop ((d :: D1).length + (operatorText m).length)
        = T := by
      rw [← List.length_append, List.drop_left]
    rw [hdrop, if_pos hmode]

/-! ## The offset of the file path -/

theorem infix_of_mem_char (c : Char) (l : CStr) (h : c ∈ l) : [c] <:+: l := by
  obtain ⟨s, t, rfl⟩ := List.append_of_mem h
  exact ⟨s, t, by simp⟩

theorem operatorText_infix (tok : CStr) :
    operatorText (redirectOperator tok).1 <:+: tok := by
  rw [redirectOperator_mode]
  split_ifs with h1 h2 h3 h4 h5
  · exact h1
  · exact h2
  · exact h3
  · exact infix_of_mem_char _ _ h4
  · exact infix_of_mem_char _ _ h5
  · exact List.nil_infix

theorem infix_after_digits (D rest op r : CStr) (c : Char) (hop : op = c :: r)
    (hc : isdigit c = false) (hD : ∀ x ∈ D, isdigit x = true) (h : op <:+: D ++ rest) :
    op <:+: rest := by
  induction D with
  | nil => exact h
  | cons d D ih =>
    rw [List.cons_append, List.infix_cons_iff] at h
    rcases h with h | h
    · rw [hop] at h
      have hd := hD d (List.mem_cons_self _ _)
      have : c = d := by
        obtain ⟨t, ht⟩ := h
        rw [List.cons_append, List.cons.injEq] at ht
        exact ht.1
      rw [this, hd] at hc
      exact absurd hc (by simp)
    · exact ih (fun x hx => hD x (List.mem_cons_of_mem _ hx)) h

theorem isDigitOf_ten : isDigitOf 10 = isdigit := funext isdigit_isDigitOf

theorem strtol_offset (tok : CStr) (h : startsWithDigit tok = true) :
    (strtol tok 10).2 = (tok.takeWhile isdigit).length := by
  cases tok with
  | nil => exact absurd h (by simp [startsWithDigit])
  | cons d tl =>
    rw [strtol_digits d tl h, isDigitOf_ten]

theorem filePathOffset_eq (tok : CStr) :
    filePathOffset tok =
      (if startsWithDigit tok then (tok.takeWhile isdigit).length else 0) +
        (operatorText (redirectOperator tok).1).length := by
  unfold filePathOffset
  rw [redirectOperator_length]
  by_cases h : startsWithDigit tok = true
  · rw [if_pos h, if_pos h, strtol_offset tok h]
  · rw [if_neg h, if_neg h, Nat.zero_add]

theorem filePathOffset_le (tok : CStr)
    (hm : (redirectOperator tok).1 ≠ RedirectMode.RedirectNone) :
    filePathOffset tok ≤ tok.length := by
  rw [filePathOffset_eq]
  obtain ⟨c, r, hop, hc⟩ := operatorText_head _ hm
  have hin := operatorText_infix tok
  by_cases h : startsWithDigit tok = true
  · rw [if_pos h]
    have hsplit : tok = tok.takeWhile isdigit ++ tok.dropWhile isdigit :=
      (List.takeWhile_append_dropWhile _ _).symm
    have hrest := infix_after_digits (tok.takeWhile isdigit) (tok.dropWhile isdigit) _ r c hop hc
      (fun x hx => List.mem_takeWhile_imp hx) (by rw [← hsplit]; exact hin)
    have hl := hrest.length_le
    have hlen := congrArg List.length hsplit
    rw [List.length_append] at hlen
    omega
  · rw [if_neg h, Nat.zero_add]
    exact hin.length_le

/-! ## A file that cannot be opened -/

theorem addHistory_defined (Hist : History) (Cmd : Command) (es : List Command)
    (h : Hist.Stores es) (hcap : 1 ≤ Hist.Capacity) :
    ∃ c H1, addHistory Hist Cmd = .ok (c, H1) := by
  by_cases hne : ∀ Last, es.getLast? = some Last → Cmd.Tokens ≠ Last.Tokens
  · obtain ⟨H1, h1, -, -⟩ := addHistory_push Hist Cmd es h hcap hne
    exact ⟨0, H1, h1⟩
  · push_neg at hne
    obtain ⟨Last, hlast, htok⟩ := hne
    have hnil : es ≠ [] := by
      intro e; rw [e] at hlast; simp at hlast
    have hpos : 0 < es.length := List.length_pos.2 hnil
    have hc : Hist.Count = es.length := h.1
    have hslot := h.slot (es.length - 1) (by omega)
    have hL : es.get ⟨es.length - 1, by omega⟩ = Last := by
      rw [List.getLast?_eq_getLast _ hnil, Option.some.injEq] at hlast
      rw [← hlast, List.getLast_eq_getElem]
      rfl
    rw [hL] at hslot
    refine ⟨1, Hist, addHistory_dup Hist Cmd Last (by omega) ?_ htok⟩
    rw [hc]
    exact hslot

theorem redirect_open_fails (os : OS) (R : Redirect) (File : CStr) (Mode : RedirectMode)
    (hF : R.File = some File) (hM : R.Mode = Cell.val Mode)
    (hne : Mode ≠ RedirectMode.RedirectNone) (hopen : os.openOk File Mode = false) :
    redirect os (some R) =
      .ok (false, [Action.openFile File Mode false,
        Action.stderr (File ++ ": no such file or directory\n".toList)]) := by
  simp only [redirect, hF, hM, if_neg hne, openRedirect, hopen, Bool.false_eq_true, if_false,
    not_false_eq_true, if_true]

theorem stripRedirection_file (Cmd : Command) (R : Redirect) (File : CStr)
    (Mode : RedirectMode) (hR : Cmd.Redirection = some R) (hF : R.File = some File)
    (hM : R.Mode = Cell.val Mode) (hne : Mode ≠ RedirectMode.RedirectNone)
    (htok : Cmd.Tokens ≠ []) :
    stripRedirection Cmd = .ok { Cmd with Tokens := Cmd.Tokens.dropLast } := by
  have h0 : ¬ Cmd.TokenCount = 0 := by
    intro e
    exact htok (List.eq_nil_of_length_eq_zero e)
  simp only [stripRedirection, hR, hF, hM, ne_eq, hne, not_false_eq_true, if_true, h0, if_false]

theorem execute_builtin_open_fails (fuel : Nat) (os : OS) (Cmd : Command) (P : Proc)
    (R : Redirect) (File : CStr) (Mode : RedirectMode) (BC : CStr × BuiltinCommandFunc)
    (hR : Cmd.Redirection = some R) (hF : R.File = some File)
    (hM : R.Mode = Cell.val Mode) (hne : Mode ≠ RedirectMode.RedirectNone)
    (hopen : os.openOk File Mode = false) (hBC : getBuiltinCommandInfo Cmd = some BC) :
    execute (fuel + 1) os Cmd P =
      .ok (Result.returned 1 none
        (P.emit [Action.openFile File Mode false,
          Action.stderr (File ++ ": no such file or directory\n".toList)])) := by
  have htok : Cmd.Tokens ≠ [] := by
    intro e
    simp [getBuiltinCommandInfo, e] at hBC
  have hcount : ¬ Cmd.TokenCount = 0 := by
    intro e
    exact htok (List.eq_nil_of_length_eq_zero e)
  have hstrip := stripRedirection_file
    { Cmd with Tokens := Cmd.Tokens.map (replaceToken P.Env P.S.VA) } R File Mode hR hF hM hne
    (by simpa using htok)
  have hred : redirect os Cmd.Redirection =
      .ok (false, [Action.openFile File Mode false,
        Action.stderr (File ++ ": no such file or directory\n".toList)]) := by
    rw [hR]
    exact redirect_open_fails os R File Mode hF hM hne hopen
  simp only [execute, if_neg hcount, hBC, replaceVariables_builtin P.Env Cmd P.S.VA _ BC hBC,
    ne_eq, not_true_eq_false, and_false, if_false, hstrip, hred, Proc.emit_nil]

theorem childProcess_open_fails (os : OS) (env : Environ) (Cmd : Command) (R : Redirect)
    (File : CStr) (Mode : RedirectMode) (hR : Cmd.Redirection = some R)
    (hF : R.File = some File) (hM : R.Mode = Cell.val Mode)
    (hne : Mode ≠ RedirectMode.RedirectNone) (hopen : os.openOk File Mode = false)
    (htok : Cmd.Tokens ≠ []) :
    ∃ acts, childProcess os env Cmd = .ok (acts, WaitStatus.exited 1) ∧
      ∀ path argv started, Action.execv path argv started ∉ acts := by
  have hred : redirect os Cmd.Redirection =
      .ok (false, [Action.openFile File Mode false,
        Action.stderr (File ++ ": no such file or directory\n".toList)]) := by
    rw [hR]
    exact redirect_open_fails os R File Mode hF hM hne hopen
  cases hT : Cmd.Tokens with
  | nil => exact absurd hT htok
  | cons Exe rest =>
    cases hfind : findExecutable os env Exe with
    | none =>
      refine ⟨[Action.stderr ("command not found: ".toList ++ Exe ++ ['\n'])], ?_, ?_⟩
      · simp only [childProcess, hT, hfind]
      · intro path argv started hmem
        simp at hmem
    | some ExecutablePath =>
      refine ⟨[Action.openFile File Mode false,
        Action.stderr (File ++ ": no such file or directory\n".toList)], ?_, ?_⟩
      · simp only [childProcess, hT, hfind, hred]
      · intro path argv started hmem
        simp at hmem

theorem execute_external_open_fails (fuel : Nat) (os : OS) (Cmd : Command) (P : Proc)
    (R : Redirect) (File : CStr) (Mode : RedirectMode) (c : Int) (H1 : History)
    (hR : Cmd.Redirection = some R) (hF : R.File = some File)
    (hM : R.Mode = Cell.val Mode) (hne : Mode ≠ RedirectMode.RedirectNone)
    (hopen : os.openOk File Mode = false) (hext : getBuiltinCommandInfo Cmd = none)
    (h2 : 2 ≤ Cmd.TokenCount)
    (hadd : addHistory P.S.Hist (getCommandCopy Cmd) = .ok (c, H1)) :
    ∃ out, execute (fuel + 1) os Cmd P =
        .ok (Result.returned 1
          (some { Cmd with Tokens := Cmd.Tokens.dropLast.map (replaceToken P.Env P.S.VA) })
          { S := { P.S with Hist := H1 }, Env := P.Env, Out := P.Out ++ out }) ∧
      (∀ path argv started, Event.child (Action.execv path argv started) ∉ out) ∧
      (os.forkOk = true → out.head? = some (Event.fork true)) := by
  have htok : Cmd.Tokens ≠ [] := by
    intro e
    simp only [Command.TokenCount, e, List.length_nil] at h2
    omega
  have hcount : ¬ Cmd.TokenCount = 0 := by omega
  have hstrip := stripRedirection_file Cmd R File Mode hR hF hM hne htok
  have htok2 : Cmd.Tokens.dropLast.map (replaceToken P.Env P.S.VA) ≠ [] := by
    intro e
    have := congrArg List.length e
    simp only [List.length_map, List.length_dropLast, List.length_nil] at this
    simp only [Command.TokenCount] at h2
    omega
  obtain ⟨acts, hch, hno⟩ := childProcess_open_fails os P.Env
    { Cmd with Tokens := Cmd.Tokens.dropLast.map (replaceToken P.Env P.S.VA) }
    R File Mode hR hF hM hne hopen htok2
  by_cases hfork : os.forkOk = true
  · refine ⟨[Event.fork true] ++ acts.map Event.child, ?_, ?_, fun _ => rfl⟩
    · simp only [execute, if_neg hcount, hext, hadd, hstrip, replaceVariables_zero, hfork,
        not_true_eq_false, if_false, hch, List.append_assoc]
    · intro path argv started hmem
      simp only [List.mem_append, List.mem_singleton, List.mem_map] at hmem
      rcases hmem with hmem | ⟨a, ha, hae⟩
      · exact absurd hmem (by simp)
      · simp only [Event.child.injEq] at hae
        rw [hae] at ha
        exact hno path argv started ha
  · refine ⟨[Event.fork false, Event.shell (Action.perror "fork".toList)], ?_, ?_,
      fun h => absurd h hfork⟩
    · simp only [execute, if_neg hcount, hext, hadd, hstrip, replaceVariables_zero, hfork,
        Bool.false_eq_true, not_false_eq_true, if_true, Proc.emit, List.map_cons, List.map_nil,
        List.append_assoc, List.singleton_append]
    · intro path argv started hmem
      simp at hmem

/-! ## The commands in the history -/

theorem readSlot_mem (E : List Slot) (i : Nat) (s : Slot) (h : readSlot E i = .ok s) :
    s ∈ E := by
  unfold readSlot at h
  split at h
  · rename_i s1 hs
    simp only [Except.ok.injEq] at h
    subst h
    obtain ⟨hlt, hget⟩ := List.getElem?_eq_some_iff.1 hs
    rw [← hget]
    exact List.getElem_mem _
  · exact absurd h (by simp)

theorem writeSlot_mem (E : List Slot) (i : Nat) (s : Slot) (E1 : List Slot)
    (h : writeSlot E i s = .ok E1) : ∀ x ∈ E1, x ∈ E ∨ x = s := by
  unfold writeSlot at h
  split at h
  · simp only [Except.ok.injEq] at h
    subst h
    intro x hx
    exact List.mem_or_eq_of_mem_set hx
  · exact absurd h (by simp)

theorem shiftLoop_mem : ∀ (k i : Nat) (E E1 : List Slot), shiftLoop k i E = .ok E1 →
    ∀ x ∈ E1, x ∈ E := by
  intro k
  induction k with
  | zero =>
    intro i E E1 h x hx
    simp only [shiftLoop, Except.ok.injEq] at h
    rw [h]; exact hx
  | succ k ih =>
    intro i E E1 h x hx
    simp only [shiftLoop] at h
    split at h
    · exact absurd h (by simp)
    · rename_i s hs
      split at h
      · exact absurd h (by simp)
      · rename_i E2 hw
        rcases writeSlot_mem E i s E2 hw x (ih (i + 1) E2 E1 h x hx) with hx2 | hx2
        · exact hx2
        · rw [hx2]; exact readSlot_mem E (i + 1) s hs

theorem copyLoop_mem (Old : List Slot) (n : Nat) : ∀ (k i : Nat) (New New1 : List Slot),
    copyLoop Old n k i New = .ok New1 → ∀ x ∈ New1, x ∈ New ∨ x ∈ Old := by
  intro k
  induction k with
  | zero =>
    intro i New New1 h x hx
    simp only [copyLoop, Except.ok.injEq] at h
    rw [h]; exact Or.inl hx
  | succ k ih =>
    intro i New New1 h x hx
    simp only [copyLoop] at h
    split at h
    · exact absurd h (by simp)
    · rename_i s hs
      split at h
      · exact absurd h (by simp)
      · rename_i New2 hw
        rcases ih (i + 1) New2 New1 h x hx with hx2 | hx2
        · rcases writeSlot_mem New i s New2 hw x hx2 with hx3 | hx3
          · exact Or.inl hx3
          · rw [hx3]; exact Or.inr (readSlot_mem Old (n + i) s hs)
        · exact Or.inr hx2

theorem reallocEntries_mem (E : List Slot) (n : Nat) :
    ∀ x ∈ reallocEntries E n, x ∈ E ∨ x = Slot.uninit := by
  intro x hx
  unfold reallocEntries at hx
  have := List.mem_of_mem_take hx
  rw [List.mem_append] at this
  rcases this with h | h
  · exact Or.inl h
  · exact Or.inr (List.eq_of_mem_replicate h)

theorem addHistory_mem (Hist : History) (Cmd : Command) (c : Int) (H1 : History)
    (h : addHistory Hist Cmd = .ok (c, H1)) :
    ∀ x ∈ H1.Entries, x ∈ Hist.Entries ∨ x = Slot.entry Cmd := by
  unfold addHistory at h
  split at h
  · exact absurd h (by simp)
  · split at h
    · simp only [Except.ok.injEq, Prod.mk.injEq] at h
      obtain ⟨-, rfl⟩ := h
      exact fun x hx => Or.inl hx
    · split at h
      · split at h
        · exact absurd h (by simp)
        · split at h
          · exact absurd h (by simp)
          · split at h
            · exact absurd h (by simp)
            · rename_i E1 hshift
              split at h
              · exact absurd h (by simp)
              · split at h
                · exact absurd h (by simp)
                · rename_i E2 hw
                  simp only [Except.ok.injEq, Prod.mk.injEq] at h
                  obtain ⟨-, rfl⟩ := h
                  intro x hx
                  rcases writeSlot_mem _ _ _ _ hw x hx with hx2 | hx2
                  · exact Or.inl (shiftLoop_mem _ _ _ _ hshift x hx2)
                  · exact Or.inr hx2
      · split at h
        · exact absurd h (by simp)
        · rename_i E2 hw
          simp only [Except.ok.injEq, Prod.mk.injEq] at h
          obtain ⟨-, rfl⟩ := h
          exact writeSlot_mem _ _ _ _ hw

theorem setHistoryCapacity_mem (Capacity : Int) (Hist : History) (c : Int) (H1 : History)
    (h : setHistoryCapacity Capacity Hist = .ok (c, H1)) :
    ∀ x ∈ H1.Entries, x ∈ Hist.Entries ∨ x = Slot.null ∨ x = Slot.uninit := by
  unfold setHistoryCapacity at h
  split at h
  · simp only [Except.ok.injEq, Prod.mk.injEq] at h
    obtain ⟨-, rfl⟩ := h
    intro x hx
    rcases reallocEntries_mem _ _ x hx with h1 | h1
    · exact Or.inl h1
    · exact Or.inr (Or.inr h1)
  · split at h
    · simp only [Except.ok.injEq, Prod.mk.injEq] at h
      obtain ⟨-, rfl⟩ := h
      exact fun x hx => Or.inl hx
    · simp only at h
      split at h
      · exact absurd h (by simp)
      · rename_i NewEntries hcopy
        simp only [Except.ok.injEq, Prod.mk.injEq] at h
        obtain ⟨-, rfl⟩ := h
        intro x hx
        rcases copyLoop_mem _ _ _ _ _ _ hcopy x hx with h1 | h1
        · exact Or.inr (Or.inl (List.eq_of_mem_replicate h1))
        · exact Or.inl h1

theorem addHistory_external (Hist : History) (Cmd : Command) (c : Int) (H1 : History)
    (h : addHistory Hist Cmd = .ok (c, H1)) (hinv : Hist.External)
    (hCmd : Cmd.Tokens ≠ [] ∧ getBuiltinCommandInfo Cmd = none) : H1.External := by
  intro e he
  rcases addHistory_mem Hist Cmd c H1 h _ he with h1 | h1
  · exact hinv e h1
  · simp only [Slot.entry.injEq] at h1
    rw [h1]; exact hCmd

theorem setHistoryCapacity_external (Capacity : Int) (Hist : History) (c : Int)
    (H1 : History) (h : setHistoryCapacity Capacity Hist = .ok (c, H1))
    (hinv : Hist.External) : H1.External := by
  intro e he
  rcases setHistoryCapacity_mem Capacity Hist c H1 h _ he with h1 | h1 | h1
  · exact hinv e h1
  · exact absurd h1 (by simp)
  · exact absurd h1 (by simp)

theorem getHistory_external (Hist : History) (n : Int) (E : Command)
    (h : getHistory n Hist = .ok (some E)) (hinv : Hist.External) :
    E.Tokens ≠ [] ∧ getBuiltinCommandInfo E = none := by
  unfold getHistory at h
  split at h
  · exact absurd h (by simp)
  · split at h
    · exact absurd h (by simp)
    · exact absurd h (by simp)
    · rename_i c hread
      simp only [Except.ok.injEq, Option.some.injEq] at h
      subst h
      exact hinv c (readSlot_mem _ _ _ hread)
    · exact absurd h (by simp)

theorem executeHistoryCommand_external (exec : Command → Proc → Except Fault Result)
    (hexec : ∀ C Q code C1 Q1, exec C Q = .ok (Result.returned code C1 Q1) →
      Q.S.Hist.External → Q1.S.Hist.External)
    (Cmd : Command) (P : Proc) (code : Int) (C1 : Option Command) (P1 : Proc)
    (h : executeHistoryCommand exec Cmd P = .ok (Result.returned code C1 P1))
    (hb : P.S.Hist.External) : P1.S.Hist.External := by
  unfold executeHistoryCommand at h
  simp only at h
  split at h
  · split at h
    · exact absurd h (by simp)
    · simp only [Except.ok.injEq, Result.returned.injEq] at h
      obtain ⟨-, -, rfl⟩ := h
      exact hb
  · split at h
    · split at h
      · simp only [Except.ok.injEq, Result.returned.injEq] at h
        obtain ⟨-, -, rfl⟩ := h
        exact hb
      · split at h
        · exact absurd h (by simp)
        · simp only [Except.ok.injEq, Result.returned.injEq] at h
          obtain ⟨-, -, rfl⟩ := h
          exact hb
        · split at h
          · exact absurd h (by simp)
          · rename_i hex
            simp only [Except.ok.injEq, Result.returned.injEq] at h
            obtain ⟨-, -, rfl⟩ := h
            exact hexec _ _ _ _ _ hex hb
          · exact absurd h (by simp)
    · split at h
      · split at h
        · simp only [Except.ok.injEq, Result.returned.injEq] at h
          obtain ⟨-, -, rfl⟩ := h
          exact hb
        · split at h
          · simp only [Except.ok.injEq, Result.returned.injEq] at h
            obtain ⟨-, -, rfl⟩ := h
            exact hb
          · split at h
            · simp only [Except.ok.injEq, Result.returned.injEq] at h
              obtain ⟨-, -, rfl⟩ := h
              exact hb
            · split at h
              · exact absurd h (by simp)
              · rename_i hset
                simp only [Except.ok.injEq, Result.returned.injEq] at h
                obtain ⟨-, -, rfl⟩ := h
                exact setHistoryCapacity_external _ _ _ _ hset hb
      · simp only [Except.ok.injEq, Result.returned.injEq] at h
        obtain ⟨-, -, rfl⟩ := h
        exact hb

theorem execute_external_inv (fuel : Nat) : ∀ (os : OS) (Cmd : Command) (P : Proc)
    (code : Int) (C1 : Option Command) (P1 : Proc),
    execute fuel os Cmd P = .ok (Result.returned code C1 P1) →
    P.S.Hist.External → P1.S.Hist.External := by
  induction fuel with
  | zero =>
    intro os Cmd P code C1 P1 h
    simp [execute] at h
  | succ fuel ih =>
    intro os Cmd P code C1 P1 h hb
    simp only [execute] at h
    split at h
    · simp only [Except.ok.injEq, Result.returned.injEq] at h
      obtain ⟨-, -, rfl⟩ := h
      exact hb
    · rename_i hcount
      split at h
      · -- external command
        rename_i hext
        split at h
        · exact absurd h (by simp)
        · rename_i r Hist1 hadd
          have hne : Cmd.Tokens ≠ [] := by
            intro e
            exact hcount (by simp [Command.TokenCount, e])
          have hb1 : Hist1.External :=
            addHistory_external _ _ _ _ hadd hb ⟨hne, hext⟩
          split at h
          · exact absurd h (by simp)
          · split at h
            · simp only [Except.ok.injEq, Result.returned.injEq] at h
              obtain ⟨-, -, rfl⟩ := h
              exact hb1
            · split at h
              · exact absurd h (by simp)
              · split at h <;>
                · simp only [Except.ok.injEq, Result.returned.injEq] at h
                  obtain ⟨-, -, rfl⟩ := h
                  exact hb1
      · -- builtin
        rename_i BC hBC
        generalize (if BC.1 = "local".toList then (1 : Int)
          else if BC.1 = "export".toList then 2 else 0) = chk at h
        generalize replaceVariables P.Env Cmd P.S.VA chk = rep at h
        split at h
        · simp only [Except.ok.injEq, Result.returned.injEq] at h
          obtain ⟨-, -, rfl⟩ := h
          exact hb
        · split at h
          · exact absurd h (by simp)
          · split at h
            · exact absurd h (by simp)
            · simp only [Except.ok.injEq, Result.returned.injEq] at h
              obtain ⟨-, -, rfl⟩ := h
              exact hb
            · split at h
              · exact absurd h (executeExitCommand_no_return _ _ _ _ _)
              · have := executeCdCommand_shell _ _ _ _ _ _ h
                rw [this]; exact hb
              · have := executeExportCommand_hist _ _ _ _ _ h
                rw [this]; exact hb
              · have := executeLocalCommand_hist _ _ _ _ _ h
                rw [this]; exact hb
              · have := executeVarsCommand_shell _ _ _ _ _ h
                rw [this]; exact hb
              · exact executeHistoryCommand_external (execute fuel os) (ih os) _ _ _ _ _ h hb
              · have := executeLsCommand_shell _ _ _ _ _ _ h
                rw [this]; exact hb

theorem initShell_external (env0 : Environ) (P : Proc) (h : initShell env0 = some P) :
    P.S.Hist.External := by
  unfold initShell at h
  split at h
  · exact absurd h (by simp)
  · simp only [Option.some.injEq] at h
    rw [← h]
    intro c hc
    simp only [initHistory] at hc
    exact absurd (List.eq_of_mem_replicate hc) (by simp)

theorem reachable_external (P : Proc) (h : Reachable P) : P.S.Hist.External := by
  induction h with
  | init env0 P h => exact initShell_external env0 P h
  | step fuel os Cmd P P1 code Cmd1 _ h ih =>
    exact execute_external_inv fuel os Cmd P code Cmd1 P1 h ih

theorem execute_fuel_external (fuel : Nat) (os : OS) (Cmd : Command) (P : Proc)
    (hext : getBuiltinCommandInfo Cmd = none) :
    execute (fuel + 1) os Cmd P = execute 1 os Cmd P := by
  simp only [execute, hext]

theorem executeHistoryCommand_congr (exec1 exec2 : Command → Proc → Except Fault Result)
    (Cmd : Command) (P : Proc)
    (h : ∀ n NextCmd, getHistory n P.S.Hist = .ok (some NextCmd) →
      exec1 NextCmd P = exec2 NextCmd P) :
    executeHistoryCommand exec1 Cmd P = executeHistoryCommand exec2 Cmd P := by
  unfold executeHistoryCommand
  simp only
  split
  · rfl
  · split
    · split
      · rfl
      · split
        · rfl
        · rfl
        · rename_i NextCmd hget
          rw [h _ NextCmd hget]
    · rfl

theorem execute_fuel (fuel : Nat) (os : OS) (Cmd : Command) (P : Proc)
    (hinv : P.S.Hist.External) :
    execute (fuel + 1 + 1) os Cmd P = execute (1 + 1) os Cmd P := by
  cases hB : getBuiltinCommandInfo Cmd with
  | none =>
    rw [execute_fuel_external (fuel + 1) os Cmd P hB, execute_fuel_external 1 os Cmd P hB]
  | some BC =>
    have key : ∀ (Cmd1 : Command) (P2 : Proc), P2.S.Hist = P.S.Hist →
        executeHistoryCommand (execute (fuel + 1) os) Cmd1 P2 =
          executeHistoryCommand (execute 1 os) Cmd1 P2 := by
      intro Cmd1 P2 hP2
      apply executeHistoryCommand_congr
      intro n NextCmd hget
      rw [hP2] at hget
      have hext := (getHistory_external _ _ _ hget hinv).2
      rw [execute_fuel_external fuel os NextCmd P2 hext, execute_fuel_external 0 os NextCmd P2 hext]
    simp only [execute, hB]
    split
    · rfl
    · generalize (if BC.1 = "local".toList then (1 : Int)
        else if BC.1 = "export".toList then 2 else 0) = chk
      generalize replaceVariables P.Env Cmd P.S.VA chk = rep
      split
      · rfl
      · split
        · rfl
        · split
          · rfl
          · rfl
          · split
            · rfl
            · rfl
            · rfl
            · rfl
            · rfl
            · exact key _ _ rfl
            · rfl

theorem executeHistoryCommand_shell (exec : Command → Proc → Except Fault Result)
    (Cmd : Command) (P : Proc) (code : Int) (C1 : Option Command) (P1 : Proc)
    (h : executeHistoryCommand exec Cmd P = .ok (Result.returned code C1 P1))
    (h2 : Cmd.TokenCount ≠ 2) (h3 : Cmd.TokenCount ≠ 3) : P1.S = P.S := by
  unfold executeHistoryCommand at h
  simp only [if_neg h2, if_neg h3] at h
  split at h
  · split at h
    · exact absurd h (by simp)
    · simp only [Except.ok.injEq, Result.returned.injEq] at h
      obtain ⟨-, -, rfl⟩ := h
      rfl
  · simp only [Except.ok.injEq, Result.returned.injEq] at h
    obtain ⟨-, -, rfl⟩ := h
    rfl

theorem stripRedirection_map (Cmd : Command) (f : CStr → CStr) :
    stripRedirection { Cmd with Tokens := Cmd.Tokens.map f } =
      (stripRedirection Cmd).map (fun C => { C with Tokens := C.Tokens.map f }) := by
  obtain ⟨Tokens, Red⟩ := Cmd
  cases Red with
  | none => rfl
  | some R =>
    cases hF : R.File with
    | none => simp only [stripRedirection, hF]; rfl
    | some File =>
      cases hM : R.Mode with
      | uninit => simp only [stripRedirection, hF, hM]; rfl
      | val Mode =>
        by_cases hne : Mode ≠ RedirectMode.RedirectNone
        · by_cases h0 : Tokens.length = 0
          · simp only [stripRedirection, hF, hM, if_pos hne, Command.TokenCount,
              List.length_map, h0, if_true]
            rfl
          · simp only [stripRedirection, hF, hM, if_pos hne, Command.TokenCount,
              List.length_map, h0, if_false, Except.map, List.map_dropLast]
        · simp only [stripRedirection, hF, hM, if_neg hne]
          rfl

theorem execute_builtin_hist (fuel : Nat) (os : OS) (Cmd : Command) (P : Proc)
    (BC : CStr × BuiltinCommandFunc) (code : Int) (C1 : Option Command) (P1 : Proc)
    (hBC : getBuiltinCommandInfo Cmd = some BC)
    (h : execute fuel os Cmd P = .ok (Result.returned code C1 P1))
    (hnot : BC.2 = BuiltinCommandFunc.Hist → ∀ Cmd0, stripRedirection Cmd = .ok Cmd0 →
      Cmd0.TokenCount ≠ 2 ∧ Cmd0.TokenCount ≠ 3) :
    P1.S.Hist = P.S.Hist := by
  cases fuel with
  | zero => simp [execute] at h
  | succ fuel =>
    by_cases hcount : Cmd.TokenCount = 0
    · simp only [execute, if_pos hcount, Except.ok.injEq, Result.returned.injEq] at h
      obtain ⟨-, -, rfl⟩ := h
      rfl
    · simp only [execute, if_neg hcount, hBC, replaceVariables_builtin P.Env Cmd P.S.VA _ BC hBC,
        ne_eq, not_true_eq_false, and_false, if_false, Proc.emit_nil, stripRedirection_map] at h
      cases hs : stripRedirection Cmd with
      | error e =>
        rw [hs] at h
        exact absurd h (by simp [Except.map])
      | ok Cmd0 =>
        rw [hs] at h
        simp only [Except.map] at h
        split at h
        · exact absurd h (by simp)
        · simp only [Except.ok.injEq, Result.returned.injEq] at h
          obtain ⟨-, -, rfl⟩ := h
          rfl
        · split at h
          · exact absurd h (executeExitCommand_no_return _ _ _ _ _)
          · have := executeCdCommand_shell _ _ _ _ _ _ h
            rw [this]; rfl
          · have := executeExportCommand_hist _ _ _ _ _ h
            rw [this]; rfl
          · have := executeLocalCommand_hist _ _ _ _ _ h
            rw [this]; rfl
          · have := executeVarsCommand_shell _ _ _ _ _ h
            rw [this]; rfl
          · rename_i hfun
            obtain ⟨h2, h3⟩ := hnot hfun Cmd0 hs
            have := executeHistoryCommand_shell _ _ _ _ _ _ h
              (by simpa [Command.TokenCount] using h2)
              (by simpa [Command.TokenCount] using h3)
            rw [this]; rfl
          · have := executeLsCommand_shell _ _ _ _ _ _ h
            rw [this]; rfl

/-! ## Faults and fuel -/

theorem readSlot_fault (E : List Slot) (i : Nat) (e : Fault) (h : readSlot E i = .error e) :
    e = Fault.undefined := by
  unfold readSlot at h
  repeat' split at h
  all_goals (cases h <;> rfl)

theorem writeSlot_fault (E : List Slot) (i : Nat) (s : Slot) (e : Fault)
    (h : writeSlot E i s = .error e) : e = Fault.undefined := by
  unfold writeSlot at h
  repeat' split at h
  all_goals (cases h <;> rfl)

theorem freeSlot_fault (s : Slot) (e : Fault) (h : freeSlot s = .error e) : e = Fault.undefined := by
  unfold freeSlot at h
  repeat' split at h
  all_goals (cases h <;> rfl)

theorem getHistory_fault (n : Int) (Hist : History) (e : Fault)
    (h : getHistory n Hist = .error e) : e = Fault.undefined := by
  unfold getHistory at h
  repeat' split at h
  all_goals (cases h <;> first | rfl | (apply readSlot_fault; assumption))

theorem shiftLoop_fault : ∀ (k i : Nat) (E : List Slot) (e : Fault),
    shiftLoop k i E = .error e → e = Fault.undefined := by
  intro k
  induction k with
  | zero => intro i E e h; simp [shiftLoop] at h
  | succ k ih =>
    intro i E e h
    simp only [shiftLoop] at h
    split at h
    · cases h; apply readSlot_fault; assumption
    · split at h
      · cases h; apply writeSlot_fault; assumption
      · exact ih _ _ _ h

theorem copyLoop_fault (Old : List Slot) (n : Nat) : ∀ (k i : Nat) (New : List Slot)
    (e : Fault), copyLoop Old n k i New = .error e → e = Fault.undefined := by
  intro k
  induction k with
  | zero => intro i New e h; simp [copyLoop] at h
  | succ k ih =>
    intro i New e h
    simp only [copyLoop] at h
    split at h
    · cases h; apply readSlot_fault; assumption
    · split at h
      · cases h; apply writeSlot_fault; assumption
      · exact ih _ _ _ h

theorem listLoop_fault (Hist : History) : ∀ (k i : Nat) (out : List Action) (e : Fault),
    listLoop Hist k i out = .error e → e = Fault.undefined := by
  intro k
  induction k with
  | zero => intro i out e h; simp [listLoop] at h
  | succ k ih =>
    intro i out e h
    simp only [listLoop] at h
    split at h
    · cases h; apply getHistory_fault; assumption
    · exact ih _ _ _ h

theorem addHistory_fault (Hist : History) (Cmd : Command) (e : Fault)
    (h : addHistory Hist Cmd = .error e) : e = Fault.undefined := by
  unfold addHistory at h
  repeat' split at h
  all_goals (cases h <;> first | rfl | (apply getHistory_fault; assumption) | (apply readSlot_fault; assumption) | (apply freeSlot_fault; assumption) | (apply shiftLoop_fault; assumption) | (apply writeSlot_fault; assumption))

theorem setHistoryCapacity_fault (Capacity : Int) (Hist : History) (e : Fault)
    (h : setHistoryCapacity Capacity Hist = .error e) : e = Fault.undefined := by
  unfold setHistoryCapacity at h
  dsimp only at h
  repeat' split at h
  all_goals (cases h <;> (apply copyLoop_fault; assumption))

theorem stripRedirection_fault (Cmd : Command) (e : Fault)
    (h : stripRedirection Cmd = .error e) : e = Fault.undefined := by
  unfold stripRedirection at h
  repeat' split at h
  all_goals (cases h <;> rfl)

theorem redirect_fault (os : OS) (R : Option Redirect) (e : Fault)
    (h : redirect os R = .error e) : e = Fault.undefined := by
  unfold redirect at h
  dsimp only at h
  repeat' split at h
  all_goals (cases h <;> rfl)

theorem childProcess_fault (os : OS) (env : Environ) (Cmd : Command) (e : Fault)
    (h : childProcess os env Cmd = .error e) : e = Fault.undefined := by
  unfold childProcess at h
  repeat' split at h
  all_goals (cases h <;> first | rfl | (apply redirect_fault; assumption))

theorem addLocalVariable_fault (VA : LocalVariableArray) (Var : LocalVariable) (e : Fault)
    (h : addLocalVariable VA Var = .error e) : e = Fault.undefined := by
  unfold addLocalVariable at h
  dsimp only at h
  repeat' split at h
  all_goals (cases h <;> rfl)

theorem executeLocalCommand_fault (Cmd : Command) (P : Proc) (e : Fault)
    (h : executeLocalCommand Cmd P = .error e) : e = Fault.undefined := by
  unfold executeLocalCommand at h
  dsimp only at h
  repeat' split at h
  all_goals (cases h <;> (apply addLocalVariable_fault; assumption))

theorem executeExportCommand_fault (Cmd : Command) (P : Proc) (e : Fault)
    (h : executeExportCommand Cmd P = .error e) : e = Fault.undefined := by
  unfold executeExportCommand at h
  dsimp only at h
  repeat' split at h
  all_goals cases h

theorem executeCdCommand_fault (os : OS) (Cmd : Command) (P : Proc) (e : Fault)
    (h : executeCdCommand os Cmd P = .error e) : e = Fault.undefined := by
  unfold executeCdCommand at h
  dsimp only at h
  repeat' split at h
  all_goals cases h

theorem executeVarsCommand_fault (Cmd : Command) (P : Proc) (e : Fault)
    (h : executeVarsCommand Cmd P = .error e) : e = Fault.undefined := by
  unfold executeVarsCommand at h
  repeat' split at h
  all_goals cases h

theorem executeLsCommand_fault (os : OS) (Cmd : Command) (P : Proc) (e : Fault)
    (h : executeLsCommand os Cmd P = .error e) : e = Fault.undefined := by
  unfold executeLsCommand at h
  dsimp only at h
  repeat' split at h
  all_goals cases h

theorem execute_external_fault (fuel : Nat) (os : OS) (Cmd : Command) (P : Proc) (e : Fault)
    (hext : getBuiltinCommandInfo Cmd = none) (h : execute (fuel + 1) os Cmd P = .error e) :
    e = Fault.undefined := by
  simp only [execute, hext] at h
  repeat' split at h
  all_goals
    cases h <;> first
      | (apply addHistory_fault; assumption)
      | (apply stripRedirection_fault; assumption)
      | (apply childProcess_fault; assumption)

theorem executeHistoryCommand_fault (exec : Command → Proc → Except Fault Result)
    (Cmd : Command) (P : Proc) (e : Fault)
    (hexec : ∀ n NextCmd e1, getHistory n P.S.Hist = .ok (some NextCmd) →
      exec NextCmd P = .error e1 → e1 = Fault.undefined)
    (h : executeHistoryCommand exec Cmd P = .error e) : e = Fault.undefined := by
  unfold executeHistoryCommand at h
  dsimp only at h
  repeat' split at h
  all_goals
    cases h <;> first
      | (apply listLoop_fault; assumption)
      | (apply getHistory_fault; assumption)
      | (apply setHistoryCapacity_fault; assumption)
      | (apply hexec <;> assumption)

theorem execute_fault (n : Nat) (os : OS) (Cmd : Command) (P : Proc) (e : Fault)
    (hn : 0 < n) (hinv : P.S.Hist.External) (h : execute (n + 1) os Cmd P = .error e) :
    e = Fault.undefined := by
  cases hB : getBuiltinCommandInfo Cmd with
  | none => exact execute_external_fault n os Cmd P e hB h
  | some BC =>
    have key : ∀ (Cmd1 : Command) (P2 : Proc) (e1 : Fault), P2.S.Hist = P.S.Hist →
        executeHistoryCommand (execute n os) Cmd1 P2 = .error e1 →
        e1 = Fault.undefined := by
      intro Cmd1 P2 e1 hP2 h1
      apply executeHistoryCommand_fault _ _ _ _ _ h1
      intro k NextCmd e2 hget hex
      rw [hP2] at hget
      obtain ⟨m, rfl⟩ : ∃ m, n = m + 1 := ⟨n - 1, by omega⟩
      exact execute_external_fault m os NextCmd P2 e2
        (getHistory_external _ _ _ hget hinv).2 hex
    simp only [execute, hB] at h
    split at h
    · cases h
    · generalize (if BC.1 = "local".toList then (1 : Int)
        else if BC.1 = "export".toList then 2 else 0) = chk at h
      generalize replaceVariables P.Env Cmd P.S.VA chk = rep at h
      split at h
      · cases h
      · split at h
        · cases h; apply stripRedirection_fault; assumption
        · split at h
          · cases h; apply redirect_fault; assumption
          · cases h
          · split at h
            · simp [executeExitCommand] at h
            · exact executeCdCommand_fault _ _ _ _ h
            · exact executeExportCommand_fault _ _ _ h
            · exact executeLocalCommand_fault _ _ _ h
            · exact executeVarsCommand_fault _ _ _ h
            · refine key _ _ _ ?_ h
              rfl
            · exact executeLsCommand_fault _ _ _ _ h

theorem builtinNames_eq : builtinNames = BuiltinCommandInfoMap.map (fun BC => BC.1) := rfl

theorem first_token_not_builtin (c : Command) (hne : c.Tokens ≠ [])
    (h : getBuiltinCommandInfo c = none) :
    ∃ t rest, c.Tokens = t :: rest ∧ t ∉ builtinNames := by
  cases hT : c.Tokens with
  | nil => exact absurd hT hne
  | cons t rest =>
    refine ⟨t, rest, rfl, ?_⟩
    simp only [getBuiltinCommandInfo, hT, List.find?_eq_none, decide_eq_true_eq] at h
    intro hmem
    rw [builtinNames_eq, List.mem_map] at hmem
    obtain ⟨BC, hBC, rfl⟩ := hmem
    exact h BC hBC rfl

/-! ## The environment and the store by content -/

/-- A string begins with a name without `=` followed by `=` exactly when it holds a `=` and
the text before the first one is the name. -/
theorem isPrefixOf_name_iff (Name s : CStr) (hName : '=' ∉ Name) :
    (Name ++ ['=']).isPrefixOf s = true ↔ (envName s = Name ∧ '=' ∈ s) := by
  induction Name generalizing s with
  | nil =>
    cases s with
    | nil => simp [envName]
    | cons c cs =>
      by_cases hc : c = '='
      · subst hc
        simp [envName, List.isPrefixOf]
      · simp [envName, List.isPrefixOf, hc, Ne.symm hc]
  | cons a as ih =>
    have ha : a ≠ '=' := fun h => hName (h ▸ List.mem_cons_self _ _)
    have has : '=' ∉ as := fun h => hName (List.mem_cons_of_mem _ h)
    cases s with
    | nil => simp [envName]
    | cons c cs =>
      by_cases hc : c = '='
      · subst hc
        simp [envName, List.isPrefixOf, ha]
      · have hb : (c != '=') = true := by simp [hc]
        have e : (a :: as ++ ['=']).isPrefixOf (c :: cs) =
            (a == c && (as ++ ['=']).isPrefixOf cs) := rfl
        have e2 : envName (c :: cs) = c :: envName cs := by
          simp only [envName, List.takeWhile_cons, hb, if_true]
        rw [e, Bool.and_eq_true, beq_iff_eq, ih cs has, e2, List.cons.injEq, List.mem_cons]
        constructor
        · rintro ⟨h0, h1, h2⟩
          exact ⟨⟨h0.symm, h1⟩, Or.inr h2⟩
        · rintro ⟨⟨h0, h1⟩, h2⟩
          refine ⟨h0.symm, h1, ?_⟩
          rcases h2 with h2 | h2
          · exact absurd h2.symm hc
          · exact h2

/-- The text behind the name and the `=` is the value of the string. -/
theorem drop_envName (s : CStr) : s.drop ((envName s).length + 1) = envValue s := by
  induction s with
  | nil => rfl
  | cons c cs ih =>
    by_cases hc : c = '='
    · subst hc
      simp [envName, envValue]
    · have hb : (c != '=') = true := by simp [hc]
      simp only [envName, envValue] at ih ⊢
      simp only [List.takeWhile_cons, List.dropWhile_cons, hb, if_true, List.length_cons,
        List.drop_succ_cons]
      exact ih

/-- For a name without `=`, the test of `getenv` succeeds on an entry exactly when the name
of its string is that name. -/
theorem envMatch_iff (Name : CStr) (p : CStr × CStr) (hName : '=' ∉ Name) :
    envMatch Name p = true ↔ envName (envString p) = Name := by
  unfold envMatch
  rw [isPrefixOf_name_iff Name (envString p) hName]
  have : '=' ∈ envString p := by simp [envString]
  simp [this]

/-- The name of an entry whose own name holds no `=` is that name, and its value is its
value. -/
theorem envName_envString (p : CStr × CStr) (hp : '=' ∉ p.1) :
    envName (envString p) = p.1 ∧ envValue (envString p) = p.2 := by
  have h1 : envName (envString p) = p.1 :=
    (envMatch_iff p.1 p hp).1 (by simp [envMatch, envString])
  refine ⟨h1, ?_⟩
  rw [← drop_envName, h1]
  simp [envString]

/-- For a non-empty name without `=`, `getenv` gives the value of the first string of the
environment that has this name. -/
theorem getenv_eq_find (env : Environ) (Name : CStr) (hne : Name ≠ []) (hName : '=' ∉ Name) :
    getenv env Name =
      (env.find? (fun p => decide (envName (envString p) = Name))).map
        (fun p => envValue (envString p)) := by
  induction env with
  | nil => rfl
  | cons p rest ih =>
    by_cases hpn : envName (envString p) = Name
    · have hm : envMatch Name p = true := (envMatch_iff Name p hName).2 hpn
      have hdrop : (envString p).drop (Name.length + 1) = envValue (envString p) := by
        rw [← hpn]; exact drop_envName _
      simp [getenv, hm, hne, hpn, hdrop]
    · have hm : ¬ envMatch Name p = true := fun h => hpn ((envMatch_iff Name p hName).1 h)
      simp [getenv, hm, hpn, ih]

/-- The first string of a name is what `getenv` reads. -/
theorem getenv_first (env pre post : Environ) (Name : CStr) (p : CStr × CStr)
    (hne : Name ≠ []) (hName : '=' ∉ Name)
    (hsplit : env = pre ++ p :: post) (hp : envName (envString p) = Name)
    (hpre : ∀ q ∈ pre, envName (envString q) ≠ Name) :
    getenv env Name = some (envValue (envString p)) := by
  rw [getenv_eq_find env Name hne hName, hsplit]
  have : pre.find? (fun q => decide (envName (envString q) = Name)) = none := by
    simpa using hpre
  simp [List.find?_append, this, hp]

/-- The empty name, and a name that no string of the environment has, is not found by
`getenv`. -/
theorem getenv_absent (env : Environ) (Name : CStr) (hName : '=' ∉ Name)
    (hno : Name = [] ∨ ∀ p ∈ env, envName (envString p) ≠ Name) : getenv env Name = none := by
  by_cases hne : Name = []
  · subst hne
    induction env with
    | nil => rfl
    | cons p rest ih => simp [getenv, ih]
  · have hno := hno.resolve_left hne
    rw [getenv_eq_find env Name hne hName]
    have : env.find? (fun p => decide (envName (envString p) = Name)) = none := by
      simpa using hno
    simp [this]

/-- The first variable of a name is what `getLocalVariable` returns. -/
theorem getLocalVariable_first (VA : LocalVariableArray) (pre post : List LocalVariable)
    (Var : LocalVariable) (hsplit : VA.Vars = pre ++ Var :: post)
    (hpre : ∀ V ∈ pre, V.Name ≠ Var.Name) : getLocalVariable Var.Name VA = some Var := by
  unfold getLocalVariable
  rw [hsplit]
  have : pre.find? (fun V => decide (Var.Name = V.Name)) = none := by
    simp only [List.find?_eq_none, decide_eq_true_eq]
    exact fun V hV h => hpre V hV h.symm
  simp [List.find?_append, this]

/-- A name that no variable bears is not found by `getLocalVariable`. -/
theorem getLocalVariable_absent (VA : LocalVariableArray) (Name : CStr)
    (hno : ∀ V ∈ VA.Vars, V.Name ≠ Name) : getLocalVariable Name VA = none := by
  unfold getLocalVariable
  simp only [List.find?_eq_none, decide_eq_true_eq]
  exact fun V hV h => hno V hV h.symm

/-! ## The history after a shrink, and the conversion to `int` -/

/-- The conversion to `int` keeps a value that an `int` can hold. -/
theorem toInt32_id (v : Int) (hlo : -2147483648 ≤ v) (hhi : v < 2147483648) :
    toInt32 v = v := by
  unfold toInt32
  have e1 : (2 : Int) ^ 31 = 2147483648 := by norm_num
  have e2 : (2 : Int) ^ 32 = 4294967296 := by norm_num
  rw [e1, e2]
  omega

/-- Indexing in a history that stores the entries `es`: `getHistory n` finds nothing
exactly when `n < 1` or `n > Count`; for the other `n` it returns a copy of the `n`-th entry
counted from the newest, with the same tokens; and the listing of `history` prints the
entries numbered `1..Count` from the newest to the oldest. -/
theorem getHistory_indexing_stores (Hist : History) (es : List Command) (h : Hist.Stores es) :
    (∀ n : Int, getHistory n Hist = .ok none ↔ (n < 1 ∨ n > (Hist.Count : Int))) ∧
    (∀ n : Int, 1 ≤ n → n ≤ (Hist.Count : Int) →
      ∃ e, es.reverse[(n - 1).toNat]? = some e ∧
        getHistory n Hist = .ok (some (getCommandCopy e)) ∧
        (getCommandCopy e).Tokens = e.Tokens) ∧
    (∀ (exec : Command → Proc → Except Fault Result) (Cmd : Command) (P : Proc),
      P.S.Hist = Hist → Cmd.TokenCount = 1 →
      executeHistoryCommand exec Cmd P =
        .ok (Result.returned 0 (some Cmd) (P.emit (historyListing 1 es.reverse)))) := by
  have hc : Hist.Count = es.length := h.1
  have hin : ∀ n : Int, 1 ≤ n → n ≤ (Hist.Count : Int) →
      ∃ e, es.reverse[(n - 1).toNat]? = some e ∧
        getHistory n Hist = .ok (some (getCommandCopy e)) ∧
        (getCommandCopy e).Tokens = e.Tokens := by
    intro n h1 h2
    have hn : n = ((n.toNat : Nat) : Int) := by omega
    have hget := getHistory_stores h n.toNat (by omega) (by omega)
    rw [← hn] at hget
    have hlt : n.toNat - 1 < es.reverse.length := by simp; omega
    have hidx : (n - 1).toNat = n.toNat - 1 := by omega
    refine ⟨es.reverse[n.toNat - 1], ?_, ?_, rfl⟩
    · rw [hidx, List.getElem?_eq_getElem hlt]
    · rw [hget, List.getElem?_eq_getElem hlt]
      rfl
  refine ⟨?_, hin, ?_⟩
  · intro n
    constructor
    · intro hnone
      by_contra hcon
      obtain ⟨e, _, hsome, _⟩ := hin n (by omega) (by omega)
      rw [hsome] at hnone
      exact absurd hnone (by simp)
    · exact getHistory_out_of_range Hist n
  · intro exec Cmd P hP hcount
    subst hP
    have hloop := listLoop_spec P.S.Hist es h P.S.Hist.Count 1 [] (by omega) (by omega)
    simp only [executeHistoryCommand, hcount, if_true, hloop]
    rfl

/-! ## The trace of a failed redirection -/

/-- The trace of an external command whose redirection file cannot be opened, in each of
the three courses that `execute` can take after the history took the copy. -/
theorem execute_external_open_trace (fuel : Nat) (os : OS) (Cmd : Command) (P : Proc)
    (R : Redirect) (File : CStr) (Mode : RedirectMode) (c : Int) (H1 : History)
    (Exe : CStr) (rest : List CStr)
    (hR : Cmd.Redirection = some R) (hF : R.File = some File)
    (hM : R.Mode = Cell.val Mode) (hne : Mode ≠ RedirectMode.RedirectNone)
    (hopen : os.openOk File Mode = false) (hext : getBuiltinCommandInfo Cmd = none)
    (hargs : Cmd.Tokens.dropLast.map (replaceToken P.Env P.S.VA) = Exe :: rest)
    (hadd : addHistory P.S.Hist (getCommandCopy Cmd) = .ok (c, H1)) :
    execute (fuel + 1) os Cmd P =
      .ok (Result.returned 1
        (some { Cmd with Tokens := Cmd.Tokens.dropLast.map (replaceToken P.Env P.S.VA) })
        { S := { P.S with Hist := H1 }, Env := P.Env,
          Out := P.Out ++
            (if os.forkOk = false then
              [Event.fork false, Event.shell (Action.perror "fork".toList)]
            else if findExecutable os P.Env Exe = none then
              [Event.fork true,
                Event.child (Action.stderr ("command not found: ".toList ++ Exe ++ ['\n']))]
            else
              [Event.fork true, Event.child (Action.openFile File Mode false),
                Event.child (Action.stderr (File ++ ": no such file or directory\n".toList))]) }) := by
  have htok : Cmd.Tokens ≠ [] := by
    intro e
    rw [e] at hargs
    simp at hargs
  have hcount : ¬ Cmd.TokenCount = 0 := by
    intro e
    exact htok (List.eq_nil_of_length_eq_zero e)
  have hstrip := stripRedirection_file Cmd R File Mode hR hF hM hne htok
  have hred : redirect os (some R) =
      .ok (false, [Action.openFile File Mode false,
        Action.stderr (File ++ ": no such file or directory\n".toList)]) :=
    redirect_open_fails os R File Mode hF hM hne hopen
  by_cases hfork : os.forkOk = true
  · have hf2 : ¬ os.forkOk = false := by simp [hfork]
    cases hfind : findExecutable os P.Env Exe with
    | none =>
      simp only [execute, if_neg hcount, hext, hadd, hstrip, replaceVariables_zero, hfork,
        not_true_eq_false, if_false, childProcess, hargs, hfind, Bool.true_eq_false,
        if_true, List.map_cons, List.map_nil, List.append_assoc, List.singleton_append]
    | some path =>
      simp only [execute, if_neg hcount, hext, hadd, hstrip, replaceVariables_zero, hfork,
        not_true_eq_false, if_false, childProcess, hargs, hfind, hR, hred,
        Bool.true_eq_false, List.map_cons, List.map_nil, List.append_assoc,
        List.singleton_append, reduceCtorEq]
  · have hf2 : os.forkOk = false := by simpa using hfork
    simp only [execute, if_neg hcount, hext, hadd, hstrip, replaceVariables_zero, hf2,
      Bool.false_eq_true, not_false_eq_true, if_true, Proc.emit, List.map_cons, List.map_nil,
      List.append_assoc, List.singleton_append]

/-! ## The argument vector -/

theorem argvOf_terminated (l : List CStr) (tail : List (Option CStr)) :
    argvOf (l.map some ++ none :: tail) = .ok l := by
  induction l with
  | nil => rfl
  | cons t l ih =>
    show (match argvOf (l.map some ++ none :: tail) with
      | .ok l => Except.ok (t :: l)
      | .error e => .error e) = _
    rw [ih]

theorem argvOf_unterminated (l : List CStr) : argvOf (l.map some) = .error .undefined := by
  induction l with
  | nil => rfl
  | cons t l ih => simp only [List.map_cons, argvOf, ih]

/-- The array of a command with fewer than `MAX_NUM_TOKENS` tokens ends with `NULL`; the
array of a command with `MAX_NUM_TOKENS` tokens has no `NULL` cell. -/
theorem argvOf_tokenArray (Cmd : Command) :
    (Cmd.TokenCount < MAX_NUM_TOKENS → argvOf Cmd.tokenArray = .ok Cmd.Tokens) ∧
    (MAX_NUM_TOKENS ≤ Cmd.TokenCount → argvOf Cmd.tokenArray = .error .undefined) := by
  constructor
  · intro hlt
    obtain ⟨k, hk⟩ : ∃ k, MAX_NUM_TOKENS - Cmd.TokenCount = k + 1 :=
      ⟨MAX_NUM_TOKENS - Cmd.TokenCount - 1, by omega⟩
    rw [Command.tokenArray, hk, List.replicate_succ]
    exact argvOf_terminated _ _
  · intro hle
    have hk : MAX_NUM_TOKENS - Cmd.TokenCount = 0 := by omega
    rw [Command.tokenArray, hk, List.replicate_zero, List.append_nil]
    exact argvOf_unterminated _

/-- For every command that `getCommand` builds, the argument list is the token sequence
without its last token when the redirection has a mode other than `RedirectNone`, and the
whole token sequence when there is no redirection (a command of one token has none) or its
mode is `RedirectNone`, each token after variable substitution; it is never empty. A builtin
command whose `redirect` succeeds is run as the call of its function on the command with
exactly that argument list. An external command, once the history took its copy and `fork`
succeeded, is run as the child process on the command with that argument list; when the
redirection token was removed or the command has fewer than `MAX_NUM_TOKENS` tokens, the
array ends with `NULL`, `execv` reads exactly the argument list from it, and every `execv`
of the child is recorded with it. -/
theorem execute_argument_list_terminated (fuel : Nat) (os : OS) (Input : CStr)
    (VA0 : LocalVariableArray) (Cmd : Command) (P : Proc)
    (hparse : getCommand Input VA0 = some Cmd) :
    Cmd.argumentList P.Env P.S.VA ≠ [] ∧
    (∀ R Mode, Cmd.Redirection = some R → R.Mode = Cell.val Mode →
      Mode ≠ RedirectMode.RedirectNone →
      Cmd.argumentList P.Env P.S.VA = Cmd.Tokens.dropLast.map (replaceToken P.Env P.S.VA)) ∧
    ((Cmd.Redirection = none ∨
        ∃ R, Cmd.Redirection = some R ∧ R.Mode = Cell.val RedirectMode.RedirectNone) →
      Cmd.argumentList P.Env P.S.VA = Cmd.Tokens.map (replaceToken P.Env P.S.VA)) ∧
    (Cmd.TokenCount = 1 → Cmd.Redirection = none) ∧
    (∀ BC acts, getBuiltinCommandInfo Cmd = some BC →
      redirect os Cmd.Redirection = .ok (true, acts) →
      execute (fuel + 1) os Cmd P =
        callBuiltin (execute fuel os) os BC.2
          { Cmd with Tokens := Cmd.argumentList P.Env P.S.VA }
          { (P.emit acts) with
            Out := (P.emit acts).Out ++
              [Event.builtin BC.1 (Cmd.argumentList P.Env P.S.VA)] }) ∧
    (∀ c H1, getBuiltinCommandInfo Cmd = none → os.forkOk = true →
      addHistory P.S.Hist (getCommandCopy Cmd) = .ok (c, H1) →
      (Cmd.redirects = true ∨ Cmd.TokenCount < MAX_NUM_TOKENS) →
      argvOf (Command.tokenArray { Cmd with Tokens := Cmd.argumentList P.Env P.S.VA }) =
        .ok (Cmd.argumentList P.Env P.S.VA) ∧
      ∃ acts status,
        childProcess os P.Env { Cmd with Tokens := Cmd.argumentList P.Env P.S.VA } =
          .ok (acts, status) ∧
        execute (fuel + 1) os Cmd P =
          .ok (Result.returned status.code
            (some { Cmd with Tokens := Cmd.argumentList P.Env P.S.VA })
            { S := { P.S with Hist := H1 }, Env := P.Env,
              Out := P.Out ++ [Event.fork true] ++ acts.map Event.child }) ∧
        ∀ path argv started, Action.execv path argv started ∈ acts →
          argv = Cmd.argumentList P.Env P.S.VA) := by
  have hparsed := parsed_redirection Input VA0 Cmd hparse
  have hwf := getCommand_wellFormed Input VA0 Cmd hparse
  have hargs := argumentList_ne_nil Cmd P.Env P.S.VA hparsed hwf.1
  refine ⟨hargs, ?_, ?_, ?_, ?_, ?_⟩
  · intro R Mode hR hM hne
    simp only [Command.argumentList, Command.redirects, hR, hM, ne_eq, hne, not_false_eq_true,
      decide_True, if_true]
  · rintro (hR | ⟨R, hR, hM⟩)
    · simp only [Command.argumentList, Command.redirects, hR, Bool.false_eq_true, if_false]
    · simp only [Command.argumentList, Command.redirects, hR, hM, ne_eq, not_true_eq_false,
        decide_False, Bool.false_eq_true, if_false]
  · intro h1
    have hr := (getCommand_tokens Input VA0 Cmd hparse).2
    have : ¬ Cmd.Tokens.length > 1 := by
      simp only [Command.TokenCount] at h1
      omega
    rw [if_neg this] at hr
    exact hr
  · intro BC acts hBC hred
    exact execute_builtin_call fuel os Cmd P BC acts hparsed hwf.1 hBC hred
  · intro c H1 hext hfork hadd hterm
    refine ⟨?_, ?_⟩
    · refine (argvOf_tokenArray { Cmd with Tokens := Cmd.argumentList P.Env P.S.VA }).1 ?_
      have hle : Cmd.Tokens.length ≤ MAX_NUM_TOKENS := by
        rw [(getCommand_tokens Input VA0 Cmd hparse).1, List.length_take]
        exact Nat.min_le_left _ _
      have hpos : 0 < Cmd.Tokens.length := List.length_pos.2 hwf.1
      simp only [Command.TokenCount, Command.argumentList] at hterm ⊢
      rcases hterm with hr | hlt
      · simp only [hr, if_true, List.length_map, List.length_dropLast]
        omega
      · by_cases hr : Cmd.redirects = true
        · simp only [hr, if_true, List.length_map, List.length_dropLast]
          omega
        · simp only [hr, Bool.false_eq_true, if_false, List.length_map]
          exact hlt
    obtain ⟨⟨acts, status⟩, hch⟩ := childProcess_defined os P.Env
      { Cmd with Tokens := Cmd.argumentList P.Env P.S.VA } hargs
      (fun R1 hR1 => ⟨(hwf.2 R1 hR1).1, (hwf.2 R1 hR1).2.1⟩)
    exact ⟨acts, status, hch,
      execute_external_spawn fuel os Cmd P c H1 acts status hparsed hwf.1 hext hadd hfork hch,
      childProcess_argv os P.Env _ acts status hch⟩

/-! ## The commands on the heap -/

theorem getD_set_none (l : List (Option Obj)) (a b : Nat) (o : Option Obj)
    (ha : a < l.length) : (l.set a o).getD b none = if b = a then o else l.getD b none := by
  simp only [List.getD_eq_getElem?_getD, List.getElem?_set]
  by_cases hb : b = a
  · subst hb; simp [ha]
  · have : ¬ a = b := fun e => hb e.symm
    simp [hb, this]

theorem getD_pad_none (l : List (Option Obj)) (a b : Nat) (o : Option Obj)
    (ha : ¬ a < l.length) :
    (l ++ List.replicate (a - l.length) none ++ [o]).getD b none =
      if b = a then o else l.getD b none := by
  simp only [List.getD_eq_getElem?_getD]
  have hlen : (l ++ List.replicate (a - l.length) (none : Option Obj)).length = a := by
    simp; omega
  by_cases hb : b = a
  · subst hb
    have hle : (l ++ List.replicate (b - l.length) (none : Option Obj)).length ≤ b := by omega
    rw [if_pos rfl, List.getElem?_append_right hle, hlen]
    simp
  · rw [if_neg hb]
    by_cases hb2 : b < a
    · have hlt : b < (l ++ List.replicate (a - l.length) (none : Option Obj)).length := by omega
      rw [List.getElem?_append_left hlt]
      by_cases hb1 : b < l.length
      · rw [List.getElem?_append_left hb1]
      · have hle : l.length ≤ b := by omega
        rw [List.getElem?_append_right hle, List.getElem?_eq_none hle]
        simp only [List.getElem?_replicate]
        split <;> rfl
    · have h1 : (l ++ List.replicate (a - l.length) (none : Option Obj) ++ [o]).length ≤ b := by
        simp; omega
      have h2 : l.length ≤ b := by omega
      rw [List.getElem?_eq_none h1, List.getElem?_eq_none h2]

theorem Heap.obj_put (h : Heap) (a b : Addr) (o : Option Obj) :
    (h.put a o).obj b = if b = a then o else h.obj b := by
  unfold Heap.put Heap.obj
  by_cases ha : a < h.cells.length
  · rw [if_pos ha]
    exact getD_set_none h.cells a b o ha
  · rw [if_neg ha]
    exact getD_pad_none h.cells a b o ha

theorem Heap.obj_put_same (h : Heap) (a : Addr) (o : Option Obj) : (h.put a o).obj a = o := by
  rw [Heap.obj_put, if_pos rfl]

theorem Heap.obj_put_ne {h : Heap} {a b : Addr} {o : Option Obj} (hne : b ≠ a) :
    (h.put a o).obj b = h.obj b := by
  rw [Heap.obj_put, if_neg hne]

theorem Heap.free_ok (h : Heap) (a : Addr) (o : Obj) (ha : h.obj a = some o) :
    h.free a = .ok (h.put a none) := by
  simp only [Heap.free, ha]

theorem firstFree_fresh : Fresh firstFree := by
  intro h
  unfold firstFree Heap.obj
  rw [List.getD_eq_getElem?_getD]
  by_cases hlt : h.cells.findIdx (fun o => o.isNone) < h.cells.length
  · have := List.findIdx_getElem (w := hlt)
    rw [List.getElem?_eq_getElem hlt]
    simpa using this
  · rw [List.getElem?_eq_none (by omega)]
    rfl

/-- An address at which the allocator's choice differs from every live object. -/
theorem Fresh.ne {malloc : Heap → Addr} (hf : Fresh malloc) (h : Heap) (a : Addr) (o : Obj)
    (ha : h.obj a = some o) : a ≠ malloc h := by
  intro e
  rw [e, hf h] at ha
  exact absurd ha (by simp)

theorem map_obj_mem {h : Heap} {as : List Addr} {strs : List CStr}
    (hm : as.map h.obj = strs.map (fun t => some (Obj.str t))) (a : Addr) (ha : a ∈ as) :
    ∃ t, h.obj a = some (Obj.str t) := by
  have : h.obj a ∈ as.map h.obj := List.mem_map_of_mem _ ha
  rw [hm] at this
  obtain ⟨t, _, ht⟩ := List.mem_map.1 this
  exact ⟨t, ht.symm⟩

theorem map_obj_congr {h h1 : Heap} (as : List Addr)
    (hs : ∀ a ∈ as, h1.obj a = h.obj a) : as.map h1.obj = as.map h.obj :=
  List.map_congr_left hs

theorem Holds.length {h : Heap} {S : Shape} {Cmd : Command} (hS : Holds h S Cmd) :
    S.toks.length = Cmd.Tokens.length := by
  have := congrArg List.length hS.2.2.2.1
  simpa using this

theorem Shape.mem_addrs (S : Shape) (a : Addr) : a ∈ S.addrs ↔
    a = S.self ∨ a = S.arr ∨ a ∈ S.toks ∨ S.red = some a ∨ S.file = some a := by
  simp [Shape.addrs]

theorem Holds.live {h : Heap} {S : Shape} {Cmd : Command} (hS : Holds h S Cmd) (a : Addr)
    (ha : a ∈ S.addrs) : ∃ o, h.obj a = some o := by
  obtain ⟨h1, h2, -, h4, h5, h6, -⟩ := hS
  rw [Shape.mem_addrs] at ha
  rcases ha with rfl | rfl | ha | ha | ha
  · exact ⟨_, h1⟩
  · exact ⟨_, h2⟩
  · obtain ⟨t, ht⟩ := map_obj_mem h4 a ha
    exact ⟨_, ht⟩
  · rw [ha] at h5
    cases hR : Cmd.Redirection with
    | none => rw [hR] at h5; simp at h5
    | some R =>
      rw [hR] at h5
      simp only [Option.map_some', Option.some.injEq] at h5
      exact ⟨_, h5⟩
  · rw [ha] at h6
    cases hF : Cmd.Redirection.bind (fun R => R.File) with
    | none => rw [hF] at h6; simp at h6
    | some s =>
      rw [hF] at h6
      simp only [Option.map_some', Option.some.injEq] at h6
      exact ⟨_, h6⟩

theorem Holds.frame {h h1 : Heap} {S : Shape} {Cmd : Command} (hS : Holds h S Cmd)
    (hs : ∀ a ∈ S.addrs, h1.obj a = h.obj a) : Holds h1 S Cmd := by
  obtain ⟨h1', h2, h3, h4, h5, h6, h7⟩ := hS
  have hmem := S.mem_addrs
  refine ⟨?_, ?_, h3, ?_, ?_, ?_, h7⟩
  · rw [hs _ ((hmem _).2 (Or.inl rfl))]; exact h1'
  · rw [hs _ ((hmem _).2 (Or.inr (Or.inl rfl)))]; exact h2
  · rw [← h4]
    exact map_obj_congr _ (fun a ha => hs a ((hmem a).2 (Or.inr (Or.inr (Or.inl ha)))))
  · rw [← h5]
    cases hr : S.red with
    | none => rfl
    | some r =>
      simp only [Option.map_some']
      rw [hs r ((hmem r).2 (Or.inr (Or.inr (Or.inr (Or.inl hr)))))]
  · rw [← h6]
    cases hf : S.file with
    | none => rfl
    | some f =>
      simp only [Option.map_some']
      rw [hs f ((hmem f).2 (Or.inr (Or.inr (Or.inr (Or.inr hf)))))]

theorem take_drop_cons {α : Type} (l : List α) (d n : Nat) (x : α) (xs : List α)
    (h : (l.drop d).take (n + 1) = x :: xs) :
    l[d]? = some x ∧ (l.drop (d + 1)).take n = xs := by
  cases hd : l.drop d with
  | nil => rw [hd] at h; simp at h
  | cons y r =>
    rw [hd, List.take_succ_cons] at h
    simp only [List.cons.injEq] at h
    constructor
    · have := congrArg (fun l => l[0]?) hd
      simp only [List.getElem?_drop, Nat.add_zero, List.getElem?_cons_zero] at this
      rw [this, h.1]
    · have : l.drop (d + 1) = r := by
        rw [← List.tail_drop, hd]
        rfl
      rw [this]
      exact h.2

theorem set_append_replicate {α : Type} (done : List α) (k : Nat) (x y : α) :
    (done ++ List.replicate (k + 1) x).set done.length y =
      (done ++ [y]) ++ List.replicate k x := by
  rw [List.set_append_right _ _ (le_refl _)]
  simp [List.replicate_succ]

theorem copyTokensH_spec {malloc : Heap → Addr} (hf : Fresh malloc) (src dst : Addr)
    (srcCells : List (Option Addr)) (hne : src ≠ dst) :
    ∀ (as : List Addr) (strs : List CStr) (done : List Addr) (h : Heap),
      h.obj src = some (Obj.tokens srcCells) →
      (srcCells.drop done.length).take as.length = as.map some →
      as.map h.obj = strs.map (fun t => some (Obj.str t)) →
      h.obj dst = some (Obj.tokens (done.map some ++ List.replicate as.length none)) →
      ∃ h1 new, copyTokensH malloc src dst as.length done.length h = .ok h1 ∧
        h1.obj dst = some (Obj.tokens ((done ++ new).map some)) ∧
        new.map h1.obj = strs.map (fun t => some (Obj.str t)) ∧
        (∀ b ∈ new, h.obj b = none) ∧ new.Nodup ∧
        (∀ a, a ≠ dst → a ∉ new → h1.obj a = h.obj a) := by
  intro as
  induction as with
  | nil =>
    intro strs done h hsrc hcells hstr hdst
    refine ⟨h, [], rfl, ?_, ?_, by simp, List.nodup_nil, fun _ _ _ => rfl⟩
    · simpa using hdst
    · simpa using hstr
  | cons a as ih =>
    intro strs done h hsrc hcells hstr hdst
    cases strs with
    | nil => simp at hstr
    | cons t strs =>
      simp only [List.map_cons, List.cons.injEq] at hstr
      obtain ⟨ha, hrest⟩ := hstr
      simp only [List.length_cons, List.map_cons] at hcells
      obtain ⟨hcell, hcells1⟩ := take_drop_cons srcCells done.length as.length _ _ hcells
      have hb : h.obj (malloc h) = none := hf h
      have hdb : dst ≠ malloc h := hf.ne h dst _ hdst
      have hsb : src ≠ malloc h := hf.ne h src _ hsrc
      have hdst1 : (h.put (malloc h) (some (Obj.str t))).obj dst =
          some (Obj.tokens (done.map some ++ List.replicate (as.length + 1) none)) := by
        rw [Heap.obj_put_ne hdb]; exact hdst
      have hlt : done.length <
          (done.map some ++ List.replicate (as.length + 1) (none : Option Addr)).length := by
        simp
      have hset : (done.map some ++ List.replicate (as.length + 1) (none : Option Addr)).set
          done.length (some (malloc h)) =
          (done ++ [malloc h]).map some ++ List.replicate as.length none := by
        have := set_append_replicate (done.map some) as.length (none : Option Addr)
          (some (malloc h))
        simp only [List.length_map] at this
        rw [this]
        simp
      obtain ⟨h1, new, hrun, hd1, hn1, hfresh1, hnd1, hframe1⟩ :=
        ih strs (done ++ [malloc h])
          ((h.put (malloc h) (some (Obj.str t))).put dst
            (some (Obj.tokens ((done ++ [malloc h]).map some ++ List.replicate as.length none))))
          (by rw [Heap.obj_put_ne hne, Heap.obj_put_ne hsb]; exact hsrc)
          (by simpa using hcells1)
          (by
            rw [← hrest]
            apply map_obj_congr
            intro a1 ha1
            obtain ⟨t1, ht1⟩ := map_obj_mem hrest a1 ha1
            have e1 : a1 ≠ dst := by
              intro e; rw [e, hdst] at ht1; simp at ht1
            rw [Heap.obj_put_ne e1, Heap.obj_put_ne (hf.ne h a1 _ ht1)])
          (by rw [Heap.obj_put_same])
      have hbnew : malloc h ∉ new := by
        intro hm
        have := hfresh1 _ hm
        rw [Heap.obj_put_ne hdb.symm, Heap.obj_put_same] at this
        simp at this
      refine ⟨h1, malloc h :: new, ?_, ?_, ?_, ?_, ?_, ?_⟩
      · simp only [List.length_cons, copyTokensH, hsrc, hcell, strdupH, ha, hdst1, hlt, if_true,
          hset]
        simpa using hrun
      · simpa using hd1
      · simp only [List.map_cons, List.cons.injEq]
        refine ⟨?_, hn1⟩
        rw [hframe1 _ hdb.symm hbnew, Heap.obj_put_ne hdb.symm, Heap.obj_put_same]
      · intro b hbm
        rcases List.mem_cons.1 hbm with rfl | hbm
        · exact hb
        · have h2 := hfresh1 b hbm
          have e1 : b ≠ dst := by
            intro e; rw [e, Heap.obj_put_same] at h2; simp at h2
          have e2 : b ≠ malloc h := fun e => hbnew (e ▸ hbm)
          rwa [Heap.obj_put_ne e1, Heap.obj_put_ne e2] at h2
      · exact List.nodup_cons.2 ⟨hbnew, hnd1⟩
      · intro a1 e1 e2
        rw [List.mem_cons, not_or] at e2
        rw [hframe1 a1 e1 e2.2, Heap.obj_put_ne e1, Heap.obj_put_ne e2.1]

theorem Heap.put_some_none {h : Heap} {a b : Addr} {o : Obj}
    (hn : (h.put b (some o)).obj a = none) : a ≠ b ∧ h.obj a = none := by
  rw [Heap.obj_put] at hn
  by_cases e : a = b
  · rw [if_pos e] at hn; simp at hn
  · rw [if_neg e] at hn; exact ⟨e, hn⟩

theorem copyRedirectH_spec {malloc : Heap → Addr} (hf : Fresh malloc) (h2 : Heap) (S : Shape)
    (Cmd : Command) (r : Addr)
    (h5 : S.red.map h2.obj =
      Cmd.Redirection.map (fun R => some (Obj.redirect R.Mode S.file R.FD)))
    (h6 : S.file.map h2.obj =
      (Cmd.Redirection.bind (fun R => R.File)).map (fun s => some (Obj.str s)))
    (hr : h2.obj r = some (Obj.redirect Cell.uninit none Cell.uninit)) :
    ∃ h3 file1, copyRedirectH malloc h2 S.red r = .ok h3 ∧
      some (h3.obj r) = (getCommandCopy Cmd).Redirection.map
        (fun R => some (Obj.redirect R.Mode file1 R.FD)) ∧
      file1.map h3.obj = ((getCommandCopy Cmd).Redirection.bind (fun R => R.File)).map
        (fun s => some (Obj.str s)) ∧
      (∀ f, file1 = some f → h2.obj f = none) ∧
      (∀ a, a ≠ r → file1 ≠ some a → h3.obj a = h2.obj a) := by
  cases hR : Cmd.Redirection with
  | none =>
    rw [hR] at h5
    have hred : S.red = none := by
      cases hq : S.red with
      | none => rfl
      | some x => rw [hq] at h5; simp at h5
    refine ⟨h2, none, ?_, ?_, ?_, ?_, ?_⟩
    · rw [hred]; rfl
    · simp [getCommandCopy, hR, hr]
    · simp [getCommandCopy, hR]
    · intro f hf1; cases hf1
    · intro a _ _; rfl
  | some R =>
    rw [hR] at h5 h6
    cases hq : S.red with
    | none => rw [hq] at h5; simp at h5
    | some r0 =>
      rw [hq] at h5
      simp only [Option.map_some', Option.some.injEq] at h5
      cases hfile : S.file with
      | none =>
        rw [hfile] at h5 h6
        have hRF : R.File = none := by
          cases hx : R.File with
          | none => rfl
          | some s => simp [hx] at h6
        refine ⟨h2.put r (some (Obj.redirect R.Mode none Cell.uninit)), none, ?_, ?_, ?_, ?_, ?_⟩
        · simp only [copyRedirectH, h5]
        · simp [getCommandCopy, hR, Heap.obj_put_same]
        · simp [getCommandCopy, hR, hRF]
        · intro f hf1; cases hf1
        · intro a ha _; exact Heap.obj_put_ne ha
      | some f =>
        rw [hfile] at h5 h6
        cases hx : R.File with
        | none => simp [hx] at h6
        | some s =>
          simp only [hx, Option.some_bind, Option.map_some', Option.some.injEq] at h6
          have hrf : r ≠ malloc h2 := hf.ne h2 r _ hr
          refine ⟨(h2.put (malloc h2) (some (Obj.str s))).put r
            (some (Obj.redirect R.Mode (some (malloc h2)) Cell.uninit)), some (malloc h2),
            ?_, ?_, ?_, ?_, ?_⟩
          · simp only [copyRedirectH, h5, strdupH, h6]
          · simp [getCommandCopy, hR, Heap.obj_put_same]
          · simp only [getCommandCopy, hR, hx, Option.map_some', Option.some_bind,
              Option.some.injEq]
            rw [Heap.obj_put_ne hrf.symm, Heap.obj_put_same]
          · intro f1 hf1
            cases hf1
            exact hf h2
          · intro a ha ha2
            have : a ≠ malloc h2 := fun e => ha2 (by rw [e])
            rw [Heap.obj_put_ne ha, Heap.obj_put_ne this]

theorem getCommandCopyH_spec {malloc : Heap → Addr} (hf : Fresh malloc) (h : Heap) (S : Shape)
    (Cmd : Command) (hS : Holds h S Cmd) :
    ∃ h5 S1, getCommandCopyH malloc h S.self = .ok (S1.self, h5) ∧
      Holds h5 S1 (getCommandCopy Cmd) ∧ S1.cells = S1.toks.map some ∧
      (∀ a ∈ S1.addrs, h.obj a = none) ∧ (∀ a, a ∉ S1.addrs → h5.obj a = h.obj a) := by
  have hlive := hS.live
  obtain ⟨q, hq⟩ : ∃ q, q = malloc h := ⟨_, rfl⟩
  obtain ⟨h1, hh1⟩ : ∃ h1, h1 = h.put q (some (Obj.command none 0 none)) := ⟨_, rfl⟩
  obtain ⟨r, hr⟩ : ∃ r, r = malloc h1 := ⟨_, rfl⟩
  obtain ⟨h2, hh2⟩ : ∃ h2, h2 = (h1.put r (some (Obj.redirect Cell.uninit none Cell.uninit))).put q
      (some (Obj.command none 0 (some r))) := ⟨_, rfl⟩
  have hqn : h.obj q = none := hq ▸ hf h
  have hrn1 : h1.obj r = none := hr ▸ hf h1
  obtain ⟨hrq, hrn⟩ : r ≠ q ∧ h.obj r = none := by
    rw [hh1] at hrn1; exact Heap.put_some_none hrn1
  have h2r : h2.obj r = some (Obj.redirect Cell.uninit none Cell.uninit) := by
    rw [hh2, Heap.obj_put_ne hrq, Heap.obj_put_same]
  have h2q : h2.obj q = some (Obj.command none 0 (some r)) := by
    rw [hh2, Heap.obj_put_same]
  have h2frame : ∀ a, a ≠ q → a ≠ r → h2.obj a = h.obj a := by
    intro a e1 e2
    rw [hh2, Heap.obj_put_ne e1, Heap.obj_put_ne e2, hh1, Heap.obj_put_ne e1]
  have hSq : ∀ a ∈ S.addrs, a ≠ q := by
    intro a ha e
    obtain ⟨o, ho⟩ := hlive a ha
    rw [e, hqn] at ho; simp at ho
  have hSr : ∀ a ∈ S.addrs, a ≠ r := by
    intro a ha e
    obtain ⟨o, ho⟩ := hlive a ha
    rw [e, hrn] at ho; simp at ho
  have hS2 : Holds h2 S Cmd := hS.frame (fun a ha => h2frame a (hSq a ha) (hSr a ha))
  obtain ⟨h3, file1, hcr, h3r, h3file, hfilefresh, h3frame⟩ :=
    copyRedirectH_spec hf h2 S Cmd r hS2.2.2.2.2.1 hS2.2.2.2.2.2.1 h2r
  have hfq : file1 ≠ some q := by
    intro e
    have := hfilefresh q e
    rw [h2q] at this; simp at this
  have hfS : ∀ a ∈ S.addrs, file1 ≠ some a := by
    intro a ha e
    obtain ⟨o, ho⟩ := hS2.live a ha
    rw [hfilefresh a e] at ho; simp at ho
  have h3q : h3.obj q = some (Obj.command none 0 (some r)) := by
    rw [h3frame q hrq.symm hfq, h2q]
  obtain ⟨ro, h3ro⟩ : ∃ ro, h3.obj r = some ro := by
    simp only [getCommandCopy, Option.map_some', Option.some.injEq] at h3r
    exact ⟨_, h3r⟩
  obtain ⟨arr, harr⟩ : ∃ arr, arr = malloc h3 := ⟨_, rfl⟩
  have harrn : h3.obj arr = none := harr ▸ hf h3
  obtain ⟨h4, hh4⟩ : ∃ h4, h4 = (h3.put arr
      (some (Obj.tokens (List.replicate S.toks.length none)))).put q
      (some (Obj.command (some arr) S.toks.length (some r))) := ⟨_, rfl⟩
  have haq : arr ≠ q := by
    intro e; rw [e, h3q] at harrn; simp at harrn
  have har : arr ≠ r := by
    intro e; rw [e, h3ro] at harrn; simp at harrn
  have haf : file1 ≠ some arr := by
    intro e
    rw [e] at h3file
    simp only [Option.map_some'] at h3file
    rw [harrn] at h3file
    cases hx : (getCommandCopy Cmd).Redirection.bind (fun R => R.File) with
    | none => rw [hx] at h3file; simp at h3file
    | some s => rw [hx] at h3file; simp at h3file
  have h4frame : ∀ a, a ≠ q → a ≠ arr → h4.obj a = h3.obj a := by
    intro a e1 e2
    rw [hh4, Heap.obj_put_ne e1, Heap.obj_put_ne e2]
  have hS3 : Holds h3 S Cmd :=
    hS2.frame (fun a ha => h3frame a (hSr a ha) (hfS a ha))
  have hSa : ∀ a ∈ S.addrs, a ≠ arr := by
    intro a ha e
    obtain ⟨o, ho⟩ := hS3.live a ha
    rw [e, harrn] at ho; simp at ho
  have hS4 : Holds h4 S Cmd := hS3.frame (fun a ha => h4frame a (hSq a ha) (hSa a ha))
  have h4arr : h4.obj arr = some (Obj.tokens (([] : List Addr).map some ++
      List.replicate S.toks.length none)) := by
    rw [hh4, Heap.obj_put_ne haq, Heap.obj_put_same]
    rfl
  have h4q : h4.obj q = some (Obj.command (some arr) S.toks.length (some r)) := by
    rw [hh4, Heap.obj_put_same]
  have hSarr : S.arr ≠ arr := hSa _ ((S.mem_addrs _).2 (Or.inr (Or.inl rfl)))
  obtain ⟨h5, new, hct, h5arr, h5new, hnewfresh, hnewnd, h5frame⟩ :=
    copyTokensH_spec hf S.arr arr S.cells hSarr S.toks Cmd.Tokens [] h4 hS4.2.1
      (by simpa using hS4.2.2.1) hS4.2.2.2.1 h4arr
  have hnewlen : new.length = S.toks.length := by
    have := congrArg List.length h5new
    simp only [List.length_map] at this
    rw [this, hS.length]
  have hqnew : q ∉ new := by
    intro hm
    have := hnewfresh q hm
    rw [h4q] at this; simp at this
  have hrnew : r ∉ new := by
    intro hm
    have := hnewfresh r hm
    rw [h4frame r hrq har.symm, h3ro] at this; simp at this
  have hfnew : ∀ f, file1 = some f → f ∉ new := by
    intro f e hm
    have h1 := hnewfresh f hm
    have e1 : f ≠ q := fun e2 => hfq (e2 ▸ e)
    have e2 : f ≠ arr := fun e2 => haf (e2 ▸ e)
    rw [h4frame f e1 e2] at h1
    rw [e] at h3file
    simp only [Option.map_some'] at h3file
    rw [h1] at h3file
    cases hx : (getCommandCopy Cmd).Redirection.bind (fun R => R.File) with
    | none => rw [hx] at h3file; simp at h3file
    | some s => rw [hx] at h3file; simp at h3file
  have hanew : arr ∉ new := by
    intro hm
    have := hnewfresh arr hm
    rw [h4arr] at this; simp at this
  have hfr : file1 ≠ some r := by
    intro e
    have := hfilefresh r e
    rw [h2r] at this; simp at this
  have h5other : ∀ a, a ≠ arr → a ∉ new → h5.obj a = h4.obj a := h5frame
  simp only [List.length_nil] at hct
  have hback : ∀ a, a ≠ q → a ≠ r → a ≠ arr → file1 ≠ some a → h4.obj a = h.obj a := by
    intro a e1 e2 e3 e4
    rw [h4frame a e1 e3, h3frame a e2 e4, h2frame a e1 e2]
  refine ⟨h5, { self := q, arr := arr, cells := new.map some, toks := new, red := some r,
                file := file1 }, ?_, ?_, rfl, ?_, ?_⟩
  · simp only [getCommandCopyH, hS.1, ← hq, ← hh1, ← hr, ← hh2, hcr, ← harr, ← hh4, hct]
  · refine ⟨?_, ?_, ?_, ?_, ?_, ?_, ?_⟩
    · show h5.obj q = some (Obj.command (some arr) new.length (some r))
      rw [h5other q haq.symm hqnew, h4q, hnewlen]
    · show h5.obj arr = some (Obj.tokens (new.map some))
      simpa using h5arr
    · show (new.map some).take new.length = new.map some
      apply List.take_of_length_le
      simp
    · show new.map h5.obj = _
      rw [h5new]
      rfl
    · show (some r).map h5.obj = _
      simp only [Option.map_some']
      rw [h5other r har.symm hrnew, h4frame r hrq har.symm]
      exact h3r
    · show file1.map h5.obj = _
      rw [← h3file]
      cases hfl : file1 with
      | none => rfl
      | some f =>
        simp only [Option.map_some', Option.some.injEq]
        have e1 : f ≠ q := fun e2 => hfq (e2 ▸ hfl)
        have e2 : f ≠ arr := fun e2 => haf (e2 ▸ hfl)
        rw [h5other f e2 (hfnew f hfl), h4frame f e1 e2]
    · show (q :: arr :: (new ++ (some r).toList ++ file1.toList)).Nodup
      simp only [Option.toList_some, List.nodup_cons, List.mem_cons, List.mem_append,
        List.mem_singleton, Option.mem_toList, Option.mem_def, not_or]
      refine ⟨⟨haq.symm, ⟨hqnew, hrq.symm, List.not_mem_nil _⟩, fun e => hfq e⟩,
        ⟨⟨hanew, har, List.not_mem_nil _⟩, fun e => haf e⟩, ?_⟩
      rw [List.nodup_append]
      refine ⟨?_, ?_, ?_⟩
      · rw [List.nodup_append]
        refine ⟨hnewnd, List.nodup_singleton _, ?_⟩
        intro a ha hb
        rw [List.mem_singleton] at hb
        exact hrnew (hb ▸ ha)
      · cases file1 <;> simp
      · intro a ha hb
        rw [Option.mem_toList, Option.mem_def] at hb
        rcases List.mem_append.1 ha with ha | ha
        · exact hfnew a hb ha
        · rw [List.mem_singleton] at ha
          exact hfr (ha ▸ hb)
  · intro a ha
    simp only [Shape.mem_addrs] at ha
    rcases ha with rfl | rfl | ha | ha | ha
    · exact hqn
    · rw [← h2frame _ haq har, ← h3frame _ har haf]
      exact harrn
    · have e1 : a ≠ q := fun e => hqnew (e ▸ ha)
      have e2 : a ≠ r := fun e => hrnew (e ▸ ha)
      have e3 : a ≠ arr := fun e => hanew (e ▸ ha)
      have e4 : file1 ≠ some a := fun e => hfnew a e ha
      rw [← hback a e1 e2 e3 e4]
      exact hnewfresh a ha
    · cases ha
      exact hrn
    · have e1 : a ≠ q := fun e => hfq (e ▸ ha)
      have e2 : a ≠ r := fun e => hfr (e ▸ ha)
      rw [← h2frame a e1 e2]
      exact hfilefresh a ha
  · intro a ha
    simp only [Shape.mem_addrs, not_or] at ha
    obtain ⟨e1, e2, e3, e4, e5⟩ := ha
    have e4' : a ≠ r := fun e => e4 (by rw [e])
    have e5' : file1 ≠ some a := e5
    rw [h5other a e2 e3, hback a e1 e4' e2 e5']

theorem freeTokensH_spec (arr : Addr) (cells : List (Option Addr)) :
    ∀ (as : List Addr) (i : Nat) (h : Heap),
      h.obj arr = some (Obj.tokens cells) →
      (cells.drop i).take as.length = as.map some →
      (∀ a ∈ as, ∃ o, h.obj a = some o) → as.Nodup → arr ∉ as →
      ∃ h1, freeTokensH arr as.length i h = .ok h1 ∧ (∀ a ∈ as, h1.obj a = none) ∧
        (∀ a, a ∉ as → h1.obj a = h.obj a) := by
  intro as
  induction as with
  | nil =>
    intro i h _ _ _ _ _
    exact ⟨h, rfl, by simp, fun _ _ => rfl⟩
  | cons a as ih =>
    intro i h harr hcells hlive hnd hna
    simp only [List.length_cons, List.map_cons] at hcells
    obtain ⟨hcell, hcells1⟩ := take_drop_cons cells i as.length _ _ hcells
    obtain ⟨o, ho⟩ := hlive a (List.mem_cons_self _ _)
    rw [List.nodup_cons] at hnd
    rw [List.mem_cons, not_or] at hna
    obtain ⟨h1, hrun, hfreed, hframe⟩ := ih (i + 1) (h.put a none)
      (by rw [Heap.obj_put_ne hna.1]; exact harr) hcells1
      (by
        intro a1 ha1
        have : a1 ≠ a := fun e => hnd.1 (e ▸ ha1)
        rw [Heap.obj_put_ne this]
        exact hlive a1 (List.mem_cons_of_mem _ ha1))
      hnd.2 hna.2
    refine ⟨h1, ?_, ?_, ?_⟩
    · simp only [List.length_cons, freeTokensH, harr, hcell, Heap.free_ok h a o ho]
      exact hrun
    · intro a1 ha1
      rcases List.mem_cons.1 ha1 with rfl | ha1
      · rw [hframe _ hnd.1, Heap.obj_put_same]
      · exact hfreed a1 ha1
    · intro a1 ha1
      rw [List.mem_cons, not_or] at ha1
      rw [hframe a1 ha1.2, Heap.obj_put_ne ha1.1]

theorem Holds.nodup_facts {h : Heap} {S : Shape} {Cmd : Command} (hS : Holds h S Cmd) :
    S.self ≠ S.arr ∧ S.self ∉ S.toks ∧ S.red ≠ some S.self ∧ S.file ≠ some S.self ∧
    S.arr ∉ S.toks ∧ S.red ≠ some S.arr ∧ S.file ≠ some S.arr ∧ S.toks.Nodup ∧
    (∀ r, S.red = some r → r ∉ S.toks) ∧ (∀ f, S.file = some f → f ∉ S.toks) ∧
    (∀ r f, S.red = some r → S.file = some f → r ≠ f) := by
  have hnd := hS.2.2.2.2.2.2
  simp only [Shape.addrs, List.nodup_cons, List.mem_cons, List.mem_append, Option.mem_toList,
    Option.mem_def, not_or, List.nodup_append] at hnd
  obtain ⟨⟨h1, ⟨h2, h3⟩, h4⟩, ⟨⟨h5, h6⟩, h7⟩, ⟨h8, -, h9⟩, -, h10⟩ := hnd
  refine ⟨h1, h2, h3, h4, h5, h6, h7, h8, ?_, ?_, ?_⟩
  · intro r hr hm
    exact h9 hm ((Option.mem_toList).2 hr)
  · intro f hfl hm
    exact h10 (List.mem_append.2 (Or.inl hm)) ((Option.mem_toList).2 hfl)
  · intro r f hr hfl e
    exact h10 (List.mem_append.2 (Or.inr ((Option.mem_toList).2 hr))) ((Option.mem_toList).2 (e ▸ hfl))

theorem freeRedirectH_spec (h2 : Heap) (S : Shape) (Cmd : Command)
    (hred : S.red.map h2.obj =
      Cmd.Redirection.map (fun R => some (Obj.redirect R.Mode S.file R.FD)))
    (hfile : S.file.map h2.obj =
      (Cmd.Redirection.bind (fun R => R.File)).map (fun s => some (Obj.str s)))
    (hne : ∀ r f, S.red = some r → S.file = some f → r ≠ f) :
    ∃ h3, freeRedirectH h2 S.red = .ok h3 ∧
      (∀ a, S.red = some a ∨ S.file = some a → h3.obj a = none) ∧
      (∀ a, S.red ≠ some a → S.file ≠ some a → h3.obj a = h2.obj a) := by
  cases hR : Cmd.Redirection with
  | none =>
    rw [hR] at hred hfile
    have hr0 : S.red = none := by
      cases hq : S.red with
      | none => rfl
      | some x => rw [hq] at hred; simp at hred
    have hf0 : S.file = none := by
      cases hq : S.file with
      | none => rfl
      | some x => rw [hq] at hfile; simp at hfile
    refine ⟨h2, by rw [hr0]; rfl, ?_, fun _ _ _ => rfl⟩
    intro a ha
    rw [hr0, hf0] at ha
    simp at ha
  | some R =>
    rw [hR] at hred hfile
    cases hq : S.red with
    | none => rw [hq] at hred; simp at hred
    | some r =>
      rw [hq] at hred
      simp only [Option.map_some', Option.some.injEq] at hred
      cases hfl : S.file with
      | none =>
        rw [hfl] at hred
        refine ⟨h2.put r none, ?_, ?_, ?_⟩
        · simp only [freeRedirectH, hred, Heap.free_ok h2 r _ hred]
        · intro a ha
          simp only [Option.some.injEq] at ha
          rcases ha with rfl | ha
          · rw [Heap.obj_put_same]
          · cases ha
        · intro a e1 _
          have : a ≠ r := fun e => e1 (by rw [e])
          exact Heap.obj_put_ne this
      | some f =>
        rw [hfl] at hred hfile
        have hrf : r ≠ f := hne r f hq hfl
        obtain ⟨o, ho⟩ : ∃ o, h2.obj f = some o := by
          cases hx : Option.bind (some R) (fun R => R.File) with
          | none => rw [hx] at hfile; simp at hfile
          | some s =>
            rw [hx] at hfile
            simp only [Option.map_some', Option.some.injEq] at hfile
            exact ⟨_, hfile⟩
        have hr2 : (h2.put f none).obj r = some (Obj.redirect R.Mode (some f) R.FD) := by
          rw [Heap.obj_put_ne hrf]; exact hred
        refine ⟨(h2.put f none).put r none, ?_, ?_, ?_⟩
        · simp only [freeRedirectH, hred, Heap.free_ok h2 f _ ho, Heap.free_ok _ r _ hr2]
        · intro a ha
          simp only [Option.some.injEq] at ha
          rcases ha with rfl | rfl
          · rw [Heap.obj_put_same]
          · rw [Heap.obj_put_ne hrf.symm, Heap.obj_put_same]
        · intro a e1 e2
          have e1' : a ≠ r := fun e => e1 (by rw [e])
          have e2' : a ≠ f := fun e => e2 (by rw [e])
          rw [Heap.obj_put_ne e1', Heap.obj_put_ne e2']

theorem freeCommandH_spec (h : Heap) (S : Shape) (Cmd : Command) (hS : Holds h S Cmd) :
    ∃ h1, freeCommandH h S.self = .ok h1 ∧ (∀ a ∈ S.addrs, h1.obj a = none) ∧
      (∀ a, a ∉ S.addrs → h1.obj a = h.obj a) := by
  obtain ⟨n1, n2, n3, n4, n5, n6, n7, n8, n9, n10, n11⟩ := hS.nodup_facts
  obtain ⟨hself, harr, hcells, htoks, hred, hfile, -⟩ := hS
  obtain ⟨h1, hrun1, hfreed1, hframe1⟩ := freeTokensH_spec S.arr S.cells S.toks 0 h harr
    (by simpa using hcells)
    (fun a ha => by obtain ⟨t, ht⟩ := map_obj_mem htoks a ha; exact ⟨_, ht⟩) n8 n5
  have h1arr : h1.obj S.arr = some (Obj.tokens S.cells) := by
    rw [hframe1 _ n5]; exact harr
  have hframe2 : ∀ a, a ≠ S.arr → a ∉ S.toks → (h1.put S.arr none).obj a = h.obj a := by
    intro a e1 e2
    rw [Heap.obj_put_ne e1, hframe1 a e2]
  have hred2 : S.red.map (h1.put S.arr none).obj =
      Cmd.Redirection.map (fun R => some (Obj.redirect R.Mode S.file R.FD)) := by
    rw [← hred]
    cases hq : S.red with
    | none => rfl
    | some r =>
      simp only [Option.map_some']
      rw [hframe2 r (fun e => n6 (by rw [hq, e])) (n9 r hq)]
  have hfile2 : S.file.map (h1.put S.arr none).obj =
      (Cmd.Redirection.bind (fun R => R.File)).map (fun s => some (Obj.str s)) := by
    rw [← hfile]
    cases hq : S.file with
    | none => rfl
    | some f =>
      simp only [Option.map_some']
      rw [hframe2 f (fun e => n7 (by rw [hq, e])) (n10 f hq)]
  obtain ⟨h3, hrun3, hfreed3, hframe3⟩ :=
    freeRedirectH_spec (h1.put S.arr none) S Cmd hred2 hfile2 n11
  have h3self : h3.obj S.self =
      some (Obj.command (some S.arr) S.toks.length S.red) := by
    rw [hframe3 _ n3 n4, hframe2 _ n1 n2]; exact hself
  refine ⟨h3.put S.self none, ?_, ?_, ?_⟩
  · simp only [freeCommandH, hself, freeArrayH, hrun1, Heap.free_ok h1 _ _ h1arr, hrun3,
      Heap.free_ok h3 _ _ h3self]
  · intro a ha
    rw [Shape.mem_addrs] at ha
    by_cases e0 : a = S.self
    · rw [e0, Heap.obj_put_same]
    · rw [Heap.obj_put_ne e0]
      by_cases e1 : S.red = some a ∨ S.file = some a
      · exact hfreed3 a e1
      · rw [not_or] at e1
        rw [hframe3 a e1.1 e1.2]
        by_cases e2 : a = S.arr
        · rw [e2, Heap.obj_put_same]
        · rw [Heap.obj_put_ne e2]
          rcases ha with ha | ha | ha | ha | ha
          · exact absurd ha e0
          · exact absurd ha e2
          · exact hfreed1 a ha
          · exact absurd ha e1.1
          · exact absurd ha e1.2
  · intro a ha
    simp only [Shape.mem_addrs, not_or] at ha
    obtain ⟨e1, e2, e3, e4, e5⟩ := ha
    rw [Heap.obj_put_ne e1, hframe3 a e4 e5, hframe2 a e2 e3]

theorem compareTokensH_spec (h : Heap) (A B : Addr) (ca cb : List (Option Addr))
    (hA : h.obj A = some (Obj.tokens ca)) (hB : h.obj B = some (Obj.tokens cb)) :
    ∀ (as bs : List Addr) (sa sb : List CStr) (i : Nat),
      (ca.drop i).take as.length = as.map some →
      (cb.drop i).take bs.length = bs.map some → as.length = bs.length →
      as.map h.obj = sa.map (fun t => some (Obj.str t)) →
      bs.map h.obj = sb.map (fun t => some (Obj.str t)) →
      compareTokensH h A B as.length i = .ok (compareTokens sa sb) := by
  intro as
  induction as with
  | nil =>
    intro bs sa sb i _ _ hlen hsa hsb
    have hbs : bs = [] := List.eq_nil_of_length_eq_zero (by simpa using hlen.symm)
    subst hbs
    have h1 : sa = [] := by simpa using hsa
    subst h1
    simp [compareTokensH, compareTokens]
  | cons a as ih =>
    intro bs sa sb i hca hcb hlen hsa hsb
    cases bs with
    | nil => simp at hlen
    | cons b bs =>
      cases sa with
      | nil => simp at hsa
      | cons s sa =>
        cases sb with
        | nil => simp at hsb
        | cons t sb =>
          simp only [List.length_cons, List.map_cons, Nat.add_right_cancel_iff,
            List.cons.injEq] at hca hcb hlen hsa hsb
          obtain ⟨hcella, hca1⟩ := take_drop_cons ca i as.length _ _ hca
          obtain ⟨hcellb, hcb1⟩ := take_drop_cons cb i bs.length _ _ hcb
          simp only [List.length_cons, compareTokensH, hA, hB, hcella, hcellb, hsa.1, hsb.1,
            compareTokens]
          by_cases hst : s = t
          · simp only [hst, ne_eq, not_true_eq_false, if_false]
            exact ih bs sa sb (i + 1) hca1 hcb1 hlen hsa.2 hsb.2
          · simp only [ne_eq, hst, not_false_eq_true, if_true]

theorem compareHistoryH_spec (h : Heap) (Sa Sb : Shape) (A B : Command) (hSa : Holds h Sa A)
    (hSb : Holds h Sb B) :
    compareHistoryH h Sa.self Sb.self = .ok (compareHistory A B) := by
  have hla := hSa.length
  have hlb := hSb.length
  simp only [compareHistoryH, hSa.1, hSb.1, compareHistory, Command.TokenCount, hla, hlb]
  by_cases hlen : A.Tokens.length = B.Tokens.length
  · simp only [ne_eq, hlen, not_true_eq_false, if_false]
    have := compareTokensH_spec h Sa.arr Sb.arr Sa.cells Sb.cells hSa.2.1 hSb.2.1 Sa.toks
      Sb.toks A.Tokens B.Tokens 0 (by simpa using hSa.2.2.1) (by simpa using hSb.2.2.1)
      (by rw [hla, hlb, hlen]) hSa.2.2.2.1 hSb.2.2.2.1
    rw [hla, hlen] at this
    exact this
  · simp only [ne_eq, hlen, not_false_eq_true, if_true]

theorem map_obj_append_inj {h : Heap} {init : List Addr} {last : Addr} {tinit : List CStr}
    {tlast : CStr}
    (hm : (init ++ [last]).map h.obj = (tinit ++ [tlast]).map (fun t => some (Obj.str t))) :
    init.map h.obj = tinit.map (fun t => some (Obj.str t)) ∧ h.obj last = some (Obj.str tlast) := by
  rw [List.map_append, List.map_append] at hm
  have := List.append_inj' hm (by simp)
  simpa using this

theorem stripRedirectionH_spec (h : Heap) (S : Shape) (Cmd Cmd1 : Command)
    (hS : Holds h S Cmd) (hstrip : stripRedirection Cmd = .ok Cmd1) :
    ∃ h1 S1, stripRedirectionH h S.self = .ok h1 ∧ S1.self = S.self ∧ Holds h1 S1 Cmd1 ∧
      (∀ a ∈ S1.addrs, a ∈ S.addrs) ∧ (∀ a, a ∉ S.addrs → h1.obj a = h.obj a) := by
  obtain ⟨n1, n2, n3, n4, n5, n6, n7, n8, n9, n10, n11⟩ := hS.nodup_facts
  have hlen := hS.length
  obtain ⟨hself, harr, hcells, htoks, hred, hfile, hnd⟩ := id hS
  cases hR : Cmd.Redirection with
  | none =>
    rw [hR] at hred
    have hr0 : S.red = none := by
      cases hq : S.red with
      | none => rfl
      | some x => rw [hq] at hred; simp at hred
    have e1 : Cmd1 = Cmd := by
      simp only [stripRedirection, hR, Except.ok.injEq] at hstrip
      exact hstrip.symm
    rw [hr0] at hself
    exact ⟨h, S, by simp only [stripRedirectionH, hself], rfl, e1 ▸ hS, fun a ha => ha,
      fun _ _ => rfl⟩
  | some R =>
    rw [hR] at hred hfile
    cases hq : S.red with
    | none => rw [hq] at hred; simp at hred
    | some r =>
      rw [hq] at hred hself
      simp only [Option.map_some', Option.some.injEq, Option.some_bind] at hred hfile
      cases hF : R.File with
      | none =>
        rw [hF] at hfile
        have hf0 : S.file = none := by
          cases hx : S.file with
          | none => rfl
          | some x => rw [hx] at hfile; simp at hfile
        have e1 : Cmd1 = Cmd := by
          simp only [stripRedirection, hR, hF, Except.ok.injEq] at hstrip
          exact hstrip.symm
        rw [hf0] at hred
        exact ⟨h, S, by simp only [stripRedirectionH, hself, hred], rfl, e1 ▸ hS,
          fun a ha => ha, fun _ _ => rfl⟩
      | some s =>
        rw [hF] at hfile
        cases hx : S.file with
        | none => rw [hx] at hfile; simp at hfile
        | some f =>
          rw [hx] at hred hfile
          simp only [Option.map_some', Option.some.injEq] at hfile
          cases hM : R.Mode with
          | uninit =>
            simp only [stripRedirection, hR, hF, hM] at hstrip
            cases hstrip
          | val M =>
            rw [hM] at hred
            by_cases hne : M = RedirectMode.RedirectNone
            · have e1 : Cmd1 = Cmd := by
                simp only [stripRedirection, hR, hF, hM, hne, ne_eq, not_true_eq_false,
                  if_false, Except.ok.injEq] at hstrip
                exact hstrip.symm
              exact ⟨h, S, by simp only [stripRedirectionH, hself, hred, hne, ne_eq,
                  not_true_eq_false, if_false], rfl, e1 ▸ hS, fun a ha => ha, fun _ _ => rfl⟩
            · by_cases h0 : Cmd.TokenCount = 0
              · simp only [stripRedirection, hR, hF, hM, ne_eq, hne, not_false_eq_true,
                  if_true, h0] at hstrip
                cases hstrip
              · have e1 : Cmd1 = { Cmd with Tokens := Cmd.Tokens.dropLast } := by
                  simp only [stripRedirection, hR, hF, hM, ne_eq, hne, not_false_eq_true,
                    if_true, h0, if_false, Except.ok.injEq] at hstrip
                  rw [← hstrip, hR]
                have hn0 : S.toks.length ≠ 0 := by
                  rw [hlen]; exact h0
                obtain ⟨init, last, htk⟩ : ∃ init last, S.toks = init ++ [last] := by
                  rcases List.eq_nil_or_concat S.toks with e | ⟨L, b, e⟩
                  · rw [e] at hn0; simp at hn0
                  · exact ⟨L, b, by rw [e, List.concat_eq_append]⟩
                obtain ⟨tinit, tlast, hct⟩ : ∃ tinit tlast, Cmd.Tokens = tinit ++ [tlast] := by
                  rcases List.eq_nil_or_concat Cmd.Tokens with e | ⟨L, b, e⟩
                  · rw [Command.TokenCount, e] at h0; simp at h0
                  · exact ⟨L, b, by rw [e, List.concat_eq_append]⟩
                rw [htk] at hcells htoks hself n2 n5 n8 n9 n10
                rw [hct] at htoks
                obtain ⟨hinit, hlast⟩ := map_obj_append_inj htoks
                simp only [List.length_append, List.length_singleton, List.map_append,
                  List.map_cons, List.map_nil] at hcells hself
                have hcell : S.cells[init.length + 1 - 1]? = some (some last) := by
                  have := congrArg (fun l => l[init.length]?) hcells
                  simp only [List.getElem?_take, Nat.lt_add_one, if_true] at this
                  rw [Nat.add_sub_cancel, this,
                    List.getElem?_append_right (by simp)]
                  simp
                have hla : last ≠ S.arr := by
                  intro e; rw [e, harr] at hlast; simp at hlast
                have hls : last ≠ S.self := by
                  intro e; rw [e, hself] at hlast; simp at hlast
                have h1arr : (h.put last none).obj S.arr = some (Obj.tokens S.cells) := by
                  rw [Heap.obj_put_ne hla.symm]; exact harr
                have hk0 : ¬ (init.length + 1 = 0) := by omega
                have hk : init.length + 1 - 1 = init.length := Nat.add_sub_cancel _ _
                have hinitS : ∀ a ∈ init, a ≠ S.self ∧ a ≠ S.arr ∧ a ≠ last := by
                  intro a ha
                  refine ⟨fun e => n2 (e ▸ List.mem_append_left _ ha),
                    fun e => n5 (e ▸ List.mem_append_left _ ha), ?_⟩
                  intro e
                  rw [List.nodup_append] at n8
                  exact n8.2.2 ha (by rw [e]; exact List.mem_singleton_self _)
                have hrS : r ≠ S.self ∧ r ≠ S.arr ∧ r ≠ last :=
                  ⟨fun e => n3 (by rw [hq, e]), fun e => n6 (by rw [hq, e]),
                    fun e => n9 r hq (by rw [e]; simp)⟩
                have hfS : f ≠ S.self ∧ f ≠ S.arr ∧ f ≠ last :=
                  ⟨fun e => n4 (by rw [hx, e]), fun e => n7 (by rw [hx, e]),
                    fun e => n10 f hx (by rw [e]; simp)⟩
                have hfin : ∀ a, a ≠ S.self → a ≠ S.arr → a ≠ last →
                    (((h.put last none).put S.arr (some (Obj.tokens
                      (S.cells.set (init.length + 1 - 1) none)))).put S.self
                      (some (Obj.command (some S.arr) (init.length + 1 - 1) (some r)))).obj a =
                    h.obj a := by
                  intro a e1 e2 e3
                  rw [Heap.obj_put_ne e1, Heap.obj_put_ne e2, Heap.obj_put_ne e3]
                refine ⟨((h.put last none).put S.arr (some (Obj.tokens
                    (S.cells.set (init.length + 1 - 1) none)))).put S.self
                    (some (Obj.command (some S.arr) (init.length + 1 - 1) (some r))),
                  { S with cells := S.cells.set (init.length + 1 - 1) none, toks := init },
                  ?_, rfl, ?_, ?_, ?_⟩
                · simp only [stripRedirectionH, hself, hred, ne_eq, hne, not_false_eq_true,
                    if_true, hk0, if_false, harr, hcell, freeCellH,
                    Heap.free_ok h last _ hlast, h1arr]
                · rw [e1]
                  refine ⟨?_, ?_, ?_, ?_, ?_, ?_, ?_⟩
                  · show Heap.obj _ S.self = some (Obj.command (some S.arr) init.length S.red)
                    rw [Heap.obj_put_same, hk, hq]
                  · show Heap.obj _ S.arr = some (Obj.tokens (S.cells.set (init.length + 1 - 1) none))
                    rw [Heap.obj_put_ne n1.symm, Heap.obj_put_same]
                  · show (S.cells.set (init.length + 1 - 1) none).take init.length = init.map some
                    rw [hk, List.set_take, List.set_eq_of_length_le (by simp)]
                    have := congrArg (List.take init.length) hcells
                    rw [List.take_take, Nat.min_eq_left (Nat.le_succ _)] at this
                    rw [this, List.take_append_of_le_length (by simp)]
                    apply List.take_of_length_le
                    simp
                  · show init.map (Heap.obj _) = (Cmd.Tokens.dropLast).map _
                    rw [hct, List.dropLast_concat, ← hinit]
                    apply map_obj_congr
                    intro a ha
                    obtain ⟨e1, e2, e3⟩ := hinitS a ha
                    exact hfin a e1 e2 e3
                  · show S.red.map (Heap.obj _) = Cmd.Redirection.map _
                    rw [hq, hR, hx]
                    simp only [Option.map_some', Option.some.injEq]
                    rw [hfin r hrS.1 hrS.2.1 hrS.2.2, hM]
                    exact hred
                  · show S.file.map (Heap.obj _) = (Cmd.Redirection.bind _).map _
                    rw [hx, hR]
                    simp only [Option.map_some', Option.some_bind, hF, Option.some.injEq]
                    rw [hfin f hfS.1 hfS.2.1 hfS.2.2]
                    exact hfile
                  · show (S.self :: S.arr :: (init ++ S.red.toList ++ S.file.toList)).Nodup
                    refine List.Nodup.sublist ?_ hnd
                    rw [Shape.addrs, htk]
                    refine List.Sublist.cons₂ _ (List.Sublist.cons₂ _ ?_)
                    exact List.Sublist.append (List.Sublist.append
                      (List.sublist_append_left _ _) (List.Sublist.refl _)) (List.Sublist.refl _)
                · intro a ha
                  rw [Shape.mem_addrs] at ha ⊢
                  rcases ha with ha | ha | ha | ha | ha
                  · exact Or.inl ha
                  · exact Or.inr (Or.inl ha)
                  · exact Or.inr (Or.inr (Or.inl (by
                      rw [htk]; exact List.mem_append_left _ ha)))
                  · exact Or.inr (Or.inr (Or.inr (Or.inl ha)))
                  · exact Or.inr (Or.inr (Or.inr (Or.inr ha)))
                · intro a ha
                  simp only [Shape.mem_addrs, not_or] at ha
                  obtain ⟨e1, e2, e3, -, -⟩ := ha
                  have e4 : a ≠ last := by
                    intro e
                    exact e3 (by rw [htk, e]; simp)
                  exact hfin a e1 e2 e4

theorem writeTokenH_ok (h : Heap) (arr : Addr) (cells : List (Option Addr)) (i : Nat)
    (b : Addr) (harr : h.obj arr = some (Obj.tokens cells)) (hi : i < cells.length) :
    writeTokenH h arr i b = .ok (h.put arr (some (Obj.tokens (cells.set i (some b))))) := by
  simp only [writeTokenH, harr, hi, if_true]

theorem replaceTokenH_spec {malloc : Heap → Addr} (hf : Fresh malloc) (env : Environ)
    (VA : LocalVariableArray) (h : Heap) (arr : Addr) (cells : List (Option Addr)) (i : Nat)
    (a : Addr) (Name : CStr) (harr : h.obj arr = some (Obj.tokens cells))
    (hi : i < cells.length) (ha : h.obj a = some (Obj.str ('$' :: Name))) :
    ∃ h1 b, replaceTokenH malloc env VA h arr i a Name = .ok h1 ∧
      h1.obj arr = some (Obj.tokens (cells.set i (some b))) ∧
      h1.obj b = some (Obj.str (replaceToken env VA ('$' :: Name))) ∧
      (b = a ∨ h.obj b = none) ∧ b ≠ arr ∧
      (∀ a1, a1 ≠ arr → a1 ≠ a → a1 ≠ b → h1.obj a1 = h.obj a1) := by
  have haa : a ≠ arr := by
    intro e; rw [e, harr] at ha; simp at ha
  cases hg : getenv env Name with
  | some Value =>
    have hb : h.obj (malloc h) = none := hf h
    have hba : malloc h ≠ a := (hf.ne h a _ ha).symm
    have hbarr : malloc h ≠ arr := (hf.ne h arr _ harr).symm
    have h1a : (h.put (malloc h) (some (Obj.str Value))).obj a = some (Obj.str ('$' :: Name)) := by
      rw [Heap.obj_put_ne hba.symm]; exact ha
    have h2arr : ((h.put (malloc h) (some (Obj.str Value))).put a none).obj arr =
        some (Obj.tokens cells) := by
      rw [Heap.obj_put_ne haa.symm, Heap.obj_put_ne hbarr.symm]; exact harr
    refine ⟨((h.put (malloc h) (some (Obj.str Value))).put a none).put arr
      (some (Obj.tokens (cells.set i (some (malloc h))))), malloc h, ?_, ?_, ?_, Or.inr hb,
      hbarr, ?_⟩
    · simp only [replaceTokenH, hg, Heap.free_ok _ a _ h1a, writeTokenH_ok _ arr cells i _ h2arr hi]
    · rw [Heap.obj_put_same]
    · rw [Heap.obj_put_ne hbarr, Heap.obj_put_ne hba, Heap.obj_put_same]
      simp [replaceToken, hg]
    · intro a1 e1 e2 e3
      rw [Heap.obj_put_ne e1, Heap.obj_put_ne e2, Heap.obj_put_ne e3]
  | none =>
    have hb1 : (h.put a none).obj (malloc (h.put a none)) = none := hf _
    have hbarr : malloc (h.put a none) ≠ arr := by
      intro e
      rw [e, Heap.obj_put_ne haa.symm, harr] at hb1
      simp at hb1
    have hbor : malloc (h.put a none) = a ∨ h.obj (malloc (h.put a none)) = none := by
      by_cases e : malloc (h.put a none) = a
      · exact Or.inl e
      · rw [Heap.obj_put_ne e] at hb1
        exact Or.inr hb1
    have key : ∀ v : CStr,
        writeTokenH ((h.put a none).put (malloc (h.put a none)) (some (Obj.str v))) arr i
          (malloc (h.put a none)) =
        .ok (((h.put a none).put (malloc (h.put a none)) (some (Obj.str v))).put arr
          (some (Obj.tokens (cells.set i (some (malloc (h.put a none))))))) := by
      intro v
      apply writeTokenH_ok _ _ cells _ _ _ hi
      rw [Heap.obj_put_ne hbarr.symm, Heap.obj_put_ne haa.symm]
      exact harr
    cases hl : getLocalVariable Name VA with
    | none =>
      refine ⟨((h.put a none).put (malloc (h.put a none)) (some (Obj.str []))).put arr
        (some (Obj.tokens (cells.set i (some (malloc (h.put a none)))))),
        malloc (h.put a none), ?_, ?_, ?_, hbor, hbarr, ?_⟩
      · simp only [replaceTokenH, hg, Heap.free_ok h a _ ha, hl, key]
      · rw [Heap.obj_put_same]
      · rw [Heap.obj_put_ne hbarr, Heap.obj_put_same]
        simp [replaceToken, hg, hl]
      · intro a1 e1 e2 e3
        rw [Heap.obj_put_ne e1, Heap.obj_put_ne e3, Heap.obj_put_ne e2]
    | some Var =>
      refine ⟨((h.put a none).put (malloc (h.put a none)) (some (Obj.str Var.Value))).put arr
        (some (Obj.tokens (cells.set i (some (malloc (h.put a none)))))),
        malloc (h.put a none), ?_, ?_, ?_, hbor, hbarr, ?_⟩
      · simp only [replaceTokenH, hg, Heap.free_ok h a _ ha, hl, key]
      · rw [Heap.obj_put_same]
      · rw [Heap.obj_put_ne hbarr, Heap.obj_put_same]
        simp [replaceToken, hg, hl]
      · intro a1 e1 e2 e3
        rw [Heap.obj_put_ne e1, Heap.obj_put_ne e3, Heap.obj_put_ne e2]

theorem getElem?_mid {α : Type} (pre rest tail : List α) (x : α) :
    (pre ++ x :: rest ++ tail)[pre.length]? = some x := by
  rw [List.append_assoc, List.getElem?_append_right (le_refl _)]
  simp

theorem set_mid {α : Type} (pre rest tail : List α) (x y : α) :
    (pre ++ x :: rest ++ tail).set pre.length y = (pre ++ [y]) ++ rest ++ tail := by
  rw [List.append_assoc, List.set_append_right _ _ (le_refl _)]
  simp

theorem replaceToken_other (env : Environ) (VA : LocalVariableArray) (s : CStr)
    (hs : ∀ Name, s ≠ '$' :: Name) : replaceToken env VA s = s := by
  unfold replaceToken
  split
  · rename_i Name
    exact absurd rfl (hs Name)
  · rfl

theorem replaceLoopH_spec {malloc : Heap → Addr} (hf : Fresh malloc) (env : Environ)
    (VA : LocalVariableArray) (arr : Addr) (tail : List (Option Addr)) :
    ∀ (rest : List Addr) (strs : List CStr) (pre : List (Option Addr)) (h : Heap),
      h.obj arr = some (Obj.tokens (pre ++ rest.map some ++ tail)) →
      rest.map h.obj = strs.map (fun t => some (Obj.str t)) → rest.Nodup →
      ∃ (h1 : Heap) (new : List Addr),
        replaceLoopH malloc env VA arr 0 rest.length pre.length h = .ok (0, [], h1) ∧
        h1.obj arr = some (Obj.tokens (pre ++ new.map some ++ tail)) ∧
        new.map h1.obj = (strs.map (replaceToken env VA)).map (fun t => some (Obj.str t)) ∧
        (∀ b ∈ new, b ∈ rest ∨ h.obj b = none) ∧ new.Nodup ∧ arr ∉ new ∧
        (∀ a, a ≠ arr → a ∉ rest → a ∉ new → h1.obj a = h.obj a) := by
  intro rest
  induction rest with
  | nil =>
    intro strs pre h harr hstr _
    have : strs = [] := by simpa using hstr.symm
    subst this
    exact ⟨h, [], rfl, harr, rfl, fun b hb => absurd hb (List.not_mem_nil _), List.nodup_nil,
      List.not_mem_nil _, fun _ _ _ _ => rfl⟩
  | cons a rest ih =>
    intro strs pre h harr hstr hnd
    cases strs with
    | nil => simp at hstr
    | cons s strs =>
      simp only [List.map_cons, List.cons.injEq] at hstr
      obtain ⟨ha, hrest⟩ := hstr
      rw [List.nodup_cons] at hnd
      simp only [List.map_cons] at harr
      have hcell := getElem?_mid pre (rest.map some) tail (some a)
      have haarr : a ≠ arr := by
        intro e; rw [e, harr] at ha; simp at ha
      have hrestarr : ∀ a1 ∈ rest, a1 ≠ arr := by
        intro a1 ha1 e
        obtain ⟨t, ht⟩ := map_obj_mem hrest a1 ha1
        rw [e, harr] at ht; simp at ht
      by_cases hdollar : ∃ Name, s = '$' :: Name
      · obtain ⟨Name, rfl⟩ := hdollar
        have hi : pre.length < (pre ++ some a :: rest.map some ++ tail).length := by
          simp
        obtain ⟨h', b, hrun, h'arr, h'b, hbor, hbarr, hframe'⟩ :=
          replaceTokenH_spec hf env VA h arr _ pre.length a Name harr hi ha
        rw [set_mid] at h'arr
        have hbrest : b ∉ rest := by
          intro hm
          rcases hbor with e | e
          · exact hnd.1 (e ▸ hm)
          · obtain ⟨t, ht⟩ := map_obj_mem hrest b hm
            rw [e] at ht; simp at ht
        have hrest' : rest.map h'.obj = strs.map (fun t => some (Obj.str t)) := by
          rw [← hrest]
          apply map_obj_congr
          intro a1 ha1
          exact hframe' a1 (hrestarr a1 ha1) (fun e => hnd.1 (e ▸ ha1))
            (fun e => hbrest (e ▸ ha1))
        obtain ⟨h1, new, hrun1, h1arr, h1new, hnewin, hnewnd, harrnew, hframe1⟩ :=
          ih strs (pre ++ [some b]) h' h'arr hrest' hnd.2
        have hbnew : b ∉ new := by
          intro hm
          rcases hnewin b hm with e | e
          · exact hbrest e
          · rw [h'b] at e; simp at e
        refine ⟨h1, b :: new, ?_, ?_, ?_, ?_, ?_, ?_, ?_⟩
        · have hc1 : ¬ (pre.length = 0 ∧ (0 : Int) = 1) := by simp
          have hc2 : ¬ (pre.length = 0 ∧ (0 : Int) = 2) := by simp
          simp only [List.length_cons, replaceLoopH, harr, hcell, ha, hc1, hc2, if_false, hrun]
          simpa using hrun1
        · simpa using h1arr
        · simp only [List.map_cons, List.cons.injEq]
          exact ⟨by rw [hframe1 b hbarr hbrest hbnew, h'b], h1new⟩
        · intro b1 hb1
          rcases List.mem_cons.1 hb1 with rfl | hb1
          · rcases hbor with e | e
            · exact Or.inl (e ▸ List.mem_cons_self _ _)
            · exact Or.inr e
          · rcases hnewin b1 hb1 with e | e
            · exact Or.inl (List.mem_cons_of_mem _ e)
            · by_cases e1 : b1 = a
              · exact Or.inl (e1 ▸ List.mem_cons_self _ _)
              · have e2 : b1 ≠ arr := fun e3 => harrnew (e3 ▸ hb1)
                have e3 : b1 ≠ b := fun e4 => hbnew (e4 ▸ hb1)
                rw [hframe' b1 e2 e1 e3] at e
                exact Or.inr e
        · exact List.nodup_cons.2 ⟨hbnew, hnewnd⟩
        · rw [List.mem_cons, not_or]
          exact ⟨hbarr.symm, harrnew⟩
        · intro a1 e1 e2 e3
          rw [List.mem_cons, not_or] at e2 e3
          rw [hframe1 a1 e1 e2.2 e3.2, hframe' a1 e1 e2.1 e3.1]
      · have hs : ∀ Name, s ≠ '$' :: Name := fun Name e => hdollar ⟨Name, e⟩
        have harr' : h.obj arr = some (Obj.tokens ((pre ++ [some a]) ++ rest.map some ++ tail)) := by
          rw [harr]; simp
        obtain ⟨h1, new, hrun1, h1arr, h1new, hnewin, hnewnd, harrnew, hframe1⟩ :=
          ih strs (pre ++ [some a]) h harr' hrest hnd.2
        have hanew : a ∉ new := by
          intro hm
          rcases hnewin a hm with e | e
          · exact hnd.1 e
          · rw [ha] at e; simp at e
        refine ⟨h1, a :: new, ?_, ?_, ?_, ?_, ?_, ?_, ?_⟩
        · have hstep : replaceLoopH malloc env VA arr 0 (rest.length + 1) pre.length h =
              replaceLoopH malloc env VA arr 0 rest.length (pre.length + 1) h := by
            simp only [replaceLoopH, harr, hcell, ha]
          rw [List.length_cons, hstep]
          simpa using hrun1
        · simpa using h1arr
        · simp only [List.map_cons, List.cons.injEq]
          exact ⟨by rw [hframe1 a haarr hnd.1 hanew, ha, replaceToken_other env VA s hs], h1new⟩
        · intro b1 hb1
          rcases List.mem_cons.1 hb1 with rfl | hb1
          · exact Or.inl (List.mem_cons_self _ _)
          · rcases hnewin b1 hb1 with e | e
            · exact Or.inl (List.mem_cons_of_mem _ e)
            · exact Or.inr e
        · exact List.nodup_cons.2 ⟨hanew, hnewnd⟩
        · rw [List.mem_cons, not_or]
          exact ⟨haarr.symm, harrnew⟩
        · intro a1 e1 e2 e3
          rw [List.mem_cons, not_or] at e2 e3
          exact hframe1 a1 e1 e2.2 e3.2

theorem replaceVariablesH_spec {malloc : Heap → Addr} (hf : Fresh malloc) (env : Environ)
    (VA : LocalVariableArray) (h : Heap) (S : Shape) (Cmd : Command) (hS : Holds h S Cmd) :
    ∃ h1 S1, replaceVariablesH malloc env VA h S.self 0 = .ok (0, [], h1) ∧ S1.self = S.self ∧
      Holds h1 S1 { Cmd with Tokens := Cmd.Tokens.map (replaceToken env VA) } ∧
      (∀ a ∈ S1.addrs, a ∈ S.addrs ∨ h.obj a = none) ∧
      (∀ a, a ∉ S.addrs → (∃ o, h.obj a = some o) → h1.obj a = h.obj a) := by
  obtain ⟨n1, n2, n3, n4, n5, n6, n7, n8, n9, n10, n11⟩ := hS.nodup_facts
  have hlive := hS.live
  obtain ⟨hself, harr, hcells, htoks, hred, hfile, hnd⟩ := id hS
  have hsplit : S.cells = [] ++ S.toks.map some ++ S.cells.drop S.toks.length := by
    rw [List.nil_append, ← hcells, List.take_append_drop]
  rw [hsplit] at harr
  obtain ⟨h1, new, hrun, h1arr, h1new, hnewin, hnewnd, harrnew, hframe⟩ :=
    replaceLoopH_spec hf env VA S.arr (S.cells.drop S.toks.length) S.toks Cmd.Tokens [] h harr
      htoks n8
  simp only [List.length_nil, List.nil_append] at hrun h1arr
  have hnewlen : new.length = S.toks.length := by
    have := congrArg List.length h1new
    simp only [List.length_map] at this
    rw [this, hS.length]
  have hout : ∀ a, (∃ o, h.obj a = some o) → a ∉ S.toks → a ∉ new := by
    intro a ⟨o, ho⟩ hnt hm
    rcases hnewin a hm with e | e
    · exact hnt e
    · rw [e] at ho; simp at ho
  have hselfnew : S.self ∉ new := hout _ ⟨_, hself⟩ n2
  have hkeep : ∀ a, a ≠ S.arr → (∃ o, h.obj a = some o) → a ∉ S.toks → h1.obj a = h.obj a :=
    fun a e1 e2 e3 => hframe a e1 e3 (hout a e2 e3)
  refine ⟨h1, { S with cells := new.map some ++ S.cells.drop S.toks.length, toks := new }, ?_,
    rfl, ?_, ?_, ?_⟩
  · simp only [replaceVariablesH, hself]
    exact hrun
  · refine ⟨?_, ?_, ?_, ?_, ?_, ?_, ?_⟩
    · show h1.obj S.self = some (Obj.command (some S.arr) new.length S.red)
      rw [hkeep _ n1 ⟨_, hself⟩ n2, hself, hnewlen]
    · exact h1arr
    · show (new.map some ++ S.cells.drop S.toks.length).take new.length = new.map some
      rw [List.take_append_of_le_length (by simp)]
      apply List.take_of_length_le
      simp
    · exact h1new
    · show S.red.map h1.obj = _
      rw [← hred]
      cases hq : S.red with
      | none => rfl
      | some r =>
        simp only [Option.map_some', Option.some.injEq]
        exact hkeep r (fun e => n6 (by rw [hq, e]))
          (hlive r ((S.mem_addrs r).2 (Or.inr (Or.inr (Or.inr (Or.inl hq)))))) (n9 r hq)
    · show S.file.map h1.obj = _
      rw [← hfile]
      cases hq : S.file with
      | none => rfl
      | some f =>
        simp only [Option.map_some', Option.some.injEq]
        exact hkeep f (fun e => n7 (by rw [hq, e]))
          (hlive f ((S.mem_addrs f).2 (Or.inr (Or.inr (Or.inr (Or.inr hq)))))) (n10 f hq)
    · show (S.self :: S.arr :: (new ++ S.red.toList ++ S.file.toList)).Nodup
      have hrn : ∀ r, S.red = some r → r ∉ new := fun r hq =>
        hout r (hlive r ((S.mem_addrs r).2 (Or.inr (Or.inr (Or.inr (Or.inl hq)))))) (n9 r hq)
      have hfn : ∀ f, S.file = some f → f ∉ new := fun f hq =>
        hout f (hlive f ((S.mem_addrs f).2 (Or.inr (Or.inr (Or.inr (Or.inr hq)))))) (n10 f hq)
      simp only [Shape.addrs, List.nodup_cons, List.mem_cons, List.mem_append,
        Option.mem_toList, Option.mem_def, not_or, List.nodup_append] at hnd ⊢
      obtain ⟨⟨h1', ⟨h2', h3'⟩, h4'⟩, ⟨⟨h5', h6'⟩, h7'⟩, ⟨h8', h8'', h9'⟩, h10', h11'⟩ := hnd
      refine ⟨⟨h1', ⟨hselfnew, h3'⟩, h4'⟩, ⟨⟨harrnew, h6'⟩, h7'⟩, ⟨hnewnd, h8'', ?_⟩, h10', ?_⟩
      · intro a ha hb
        exact hrn a ((Option.mem_toList).1 hb) ha
      · intro a ha hb
        rcases List.mem_append.1 ha with ha | ha
        · exact hfn a ((Option.mem_toList).1 hb) ha
        · exact h11' (List.mem_append.2 (Or.inr ha)) hb
  · intro a ha
    rw [Shape.mem_addrs] at ha ⊢
    rcases ha with ha | ha | ha | ha | ha
    · exact Or.inl (Or.inl ha)
    · exact Or.inl (Or.inr (Or.inl ha))
    · rcases hnewin a ha with e | e
      · exact Or.inl (Or.inr (Or.inr (Or.inl e)))
      · exact Or.inr e
    · exact Or.inl (Or.inr (Or.inr (Or.inr (Or.inl ha))))
    · exact Or.inl (Or.inr (Or.inr (Or.inr (Or.inr ha))))
  · intro a ha hl
    simp only [Shape.mem_addrs, not_or] at ha
    exact hkeep a ha.2.1 hl ha.2.2.1

theorem forall₂_holds_frame {h h1 : Heap} {Ss : List Shape} {es : List Command}
    (hall : List.Forall₂ (Holds h) Ss es)
    (hs : ∀ S ∈ Ss, ∀ a ∈ S.addrs, h1.obj a = h.obj a) : List.Forall₂ (Holds h1) Ss es := by
  induction hall with
  | nil => exact List.Forall₂.nil
  | cons hab _ ih =>
    exact List.Forall₂.cons (hab.frame (hs _ (List.mem_cons_self _ _)))
      (ih (fun S hS => hs S (List.mem_cons_of_mem _ hS)))

theorem forall₂_holds_mem {h : Heap} {Ss : List Shape} {es : List Command}
    (hall : List.Forall₂ (Holds h) Ss es) (S : Shape) (hS : S ∈ Ss) : ∃ e, Holds h S e := by
  induction hall with
  | nil => exact absurd hS (List.not_mem_nil _)
  | cons hab _ ih =>
    rcases List.mem_cons.1 hS with rfl | hS
    · exact ⟨_, hab⟩
    · exact ih hS

theorem HistoryH.Stores.transfer {Hist : HistoryH} {h h1 : Heap} {Ss : List Shape}
    {es : List Command} (hst : Hist.Stores h Ss es)
    (hs : ∀ S ∈ Ss, ∀ a ∈ S.addrs, h1.obj a = h.obj a) : Hist.Stores h1 Ss es :=
  ⟨hst.1, hst.2.1, hst.2.2.1, forall₂_holds_frame hst.2.2.2.1 hs, hst.2.2.2.2⟩

theorem shiftLoopH_spec (rest : List PSlot) : ∀ (pre : List PSlot) (x : PSlot),
    ∃ y, shiftLoopH rest.length pre.length (pre ++ x :: rest) = .ok (pre ++ rest ++ [y]) := by
  induction rest with
  | nil => intro pre x; exact ⟨x, by simp [shiftLoopH]⟩
  | cons r rest ih =>
    intro pre x
    obtain ⟨y, hy⟩ := ih (pre ++ [r]) r
    refine ⟨y, ?_⟩
    have hget : (pre ++ x :: r :: rest)[pre.length + 1]? = some r := by
      rw [List.getElem?_append_right (by omega)]
      simp
    have hread : readSlotH (pre ++ x :: r :: rest) (pre.length + 1) = .ok r := by
      simp only [readSlotH, hget]
    have hwrite : writeSlotH (pre ++ x :: r :: rest) pre.length r
        = .ok ((pre ++ [r]) ++ r :: rest) := by
      simp [writeSlotH, List.set_append]
    simp only [List.length_cons, shiftLoopH, hread, hwrite]
    simpa using hy

theorem storeHistoryH_append (h : Heap) (Hist : HistoryH) (ps : List PSlot) (q : Addr)
    (hcount : Hist.Count = ps.length) (htake : Hist.Entries.take Hist.Count = ps)
    (hlen : Hist.Entries.length = Hist.Capacity) (hroom : ps.length < Hist.Capacity) :
    ∃ Hist1, storeHistoryH h Hist q = .ok (0, Hist1, h) ∧ Hist1.Count = ps.length + 1 ∧
      Hist1.Entries.take Hist1.Count = ps ++ [PSlot.entry q] ∧
      Hist1.Entries.length = Hist.Capacity ∧ Hist1.Capacity = Hist.Capacity := by
  have hlt : Hist.Count < Hist.Entries.length := by omega
  have hnf : Hist.Count ≠ Hist.Capacity := by omega
  refine ⟨{ Entries := Hist.Entries.set Hist.Count (PSlot.entry q), Count := Hist.Count + 1,
            Capacity := Hist.Capacity }, ?_, by simp [hcount], ?_, by simpa using hlen, rfl⟩
  · simp [storeHistoryH, hnf, writeSlotH, hlt]
  · show ((Hist.Entries.set Hist.Count (PSlot.entry q)).take (Hist.Count + 1)) = _
    rw [List.take_succ]
    have htk : (Hist.Entries.set Hist.Count (PSlot.entry q)).take Hist.Count
        = Hist.Entries.take Hist.Count := by
      rw [List.set_take]
      exact List.set_eq_of_length_le (by simp)
    simp [htk, htake, hlt]

theorem storeHistoryH_evict (h : Heap) (Hist : HistoryH) (p0 : PSlot) (ps : List PSlot)
    (q : Addr) (hcount : Hist.Count = (p0 :: ps).length)
    (htake : Hist.Entries.take Hist.Count = p0 :: ps)
    (hlen : Hist.Entries.length = Hist.Capacity) (hfull : (p0 :: ps).length = Hist.Capacity) :
    storeHistoryH h Hist q =
      match freeSlotH h p0 with
      | .error e => .error e
      | .ok h1 =>
        .ok (0, { Entries := ps ++ [PSlot.entry q], Count := Hist.Capacity,
                  Capacity := Hist.Capacity }, h1) := by
  have hE : Hist.Entries = p0 :: ps := by
    rw [← htake, List.take_of_length_le (by omega)]
  have hcf : Hist.Count = Hist.Capacity := by omega
  have hc0 : Hist.Count ≠ 0 := by rw [hcount]; simp
  obtain ⟨y, hy⟩ := shiftLoopH_spec ps [] p0
  simp only [List.length_nil, List.nil_append] at hy
  have hlen1 : Hist.Capacity - 1 = ps.length := by
    rw [← hfull]; simp
  have hidx : Hist.Count - 1 = ps.length := by rw [hcf]; exact hlen1
  simp only [storeHistoryH, if_pos hcf, hE, readSlotH, List.getElem?_cons_zero, hlen1, hy,
    if_neg hc0, hidx, writeSlotH]
  cases freeSlotH h p0 with
  | error e => rfl
  | ok h1 =>
    simp only [List.length_append, List.length_singleton, Nat.lt_add_one, if_true,
      Except.ok.injEq, Prod.mk.injEq, true_and, and_true]
    have hs : (ps ++ [y]).set ps.length (PSlot.entry q) = ps ++ [PSlot.entry q] := by
      rw [List.set_append_right _ _ (le_refl _)]
      simp
    rw [hs]
    have : ps.length + 1 = Hist.Capacity := by rw [← hfull]; simp
    rw [this]

theorem lastN_snoc_full {α : Type} (C : Nat) (l : List α) (x : α) (hfull : l.length = C)
    (hC : 1 ≤ C) : lastN C (l ++ [x]) = l.drop 1 ++ [x] := by
  unfold lastN
  have : (l ++ [x]).length - C = 1 := by simp; omega
  rw [this, List.drop_append_of_le_length (by omega)]

theorem lastN_snoc_room {α : Type} (C : Nat) (l : List α) (x : α) (hroom : l.length < C) :
    lastN C (l ++ [x]) = l ++ [x] := by
  unfold lastN
  have : (l ++ [x]).length - C = 0 := by simp; omega
  rw [this, List.drop_zero]

theorem HistoryH.Stores.length_le {Hist : HistoryH} {h : Heap} {Ss : List Shape}
    {es : List Command} (hst : Hist.Stores h Ss es) : Ss.length ≤ Hist.Capacity := by
  obtain ⟨h1, h2, h3, -, -⟩ := hst
  have := congrArg List.length h2
  simp at this
  omega

theorem storeHistoryH_spec (h : Heap) (Hist : HistoryH) (Ss : List Shape) (es : List Command)
    (Sq : Shape) (Cq : Command) (hst : Hist.Stores h Ss es) (hSq : Holds h Sq Cq)
    (hdisj : ∀ S ∈ Ss, ∀ a ∈ S.addrs, a ∉ Sq.addrs) (hcap : 1 ≤ Hist.Capacity) :
    ∃ Hist1 h1, storeHistoryH h Hist Sq.self = .ok (0, Hist1, h1) ∧
      Hist1.Stores h1 (lastN Hist.Capacity (Ss ++ [Sq])) (lastN Hist.Capacity (es ++ [Cq])) ∧
      Hist1.Capacity = Hist.Capacity ∧
      (∀ a, (∀ S ∈ Ss, a ∉ S.addrs) → h1.obj a = h.obj a) := by
  have hle := hst.length_le
  obtain ⟨hcount, htake, hlen, hall, hpw⟩ := id hst
  have hlenes : Ss.length = es.length := hall.length_eq
  by_cases hfull : Ss.length = Hist.Capacity
  · cases hall with
    | nil => simp at hfull; omega
    | @cons S0 e0 Ss' es' h0 hrest =>
      rw [List.pairwise_cons] at hpw
      obtain ⟨h1, hfree, hfreed, hframe⟩ := freeCommandH_spec h S0 e0 h0
      have hev := storeHistoryH_evict h Hist (PSlot.entry S0.self)
        (Ss'.map (fun S => PSlot.entry S.self)) Sq.self (by simpa using hcount)
        (by simpa using htake) hlen (by simpa using hfull)
      rw [lastN_snoc_full _ _ _ hfull hcap, lastN_snoc_full _ _ _ (hlenes ▸ hfull) hcap]
      simp only [List.drop_succ_cons, List.drop_zero]
      refine ⟨{ Entries := Ss'.map (fun S => PSlot.entry S.self) ++ [PSlot.entry Sq.self],
                Count := Hist.Capacity, Capacity := Hist.Capacity }, h1, ?_, ?_, rfl, ?_⟩
      · rw [hev]
        simp only [freeSlotH, hfree]
      · refine ⟨?_, ?_, ?_, ?_, ?_⟩
        · show Hist.Capacity = (Ss' ++ [Sq]).length
          rw [← hfull]; simp
        · show (Ss'.map (fun S => PSlot.entry S.self) ++ [PSlot.entry Sq.self]).take Hist.Capacity
            = (Ss' ++ [Sq]).map (fun S => PSlot.entry S.self)
          rw [List.take_of_length_le (by rw [← hfull]; simp)]
          simp
        · show (Ss'.map (fun S => PSlot.entry S.self) ++ [PSlot.entry Sq.self]).length
            = Hist.Capacity
          rw [← hfull]; simp
        · apply List.rel_append
          · exact forall₂_holds_frame hrest (fun S hS a ha =>
              hframe a (fun hm => hpw.1 S hS a hm ha))
          · exact List.Forall₂.cons (hSq.frame (fun a ha =>
              hframe a (fun hm => hdisj S0 (List.mem_cons_self _ _) a hm ha))) List.Forall₂.nil
        · rw [List.pairwise_append]
          refine ⟨hpw.2, List.pairwise_singleton _ _, ?_⟩
          intro S hS T hT
          rw [List.mem_singleton] at hT
          rw [hT]
          exact hdisj S (List.mem_cons_of_mem _ hS)
      · intro a ha
        exact hframe a (ha S0 (List.mem_cons_self _ _))
  · have hroom : Ss.length < Hist.Capacity := by omega
    obtain ⟨Hist1, hrun, hc1, ht1, hl1, hcap1⟩ := storeHistoryH_append h Hist
      (Ss.map (fun S => PSlot.entry S.self)) Sq.self (by simpa using hcount) htake hlen
      (by simpa using hroom)
    rw [lastN_snoc_room _ _ _ hroom, lastN_snoc_room _ _ _ (hlenes ▸ hroom)]
    refine ⟨Hist1, h, hrun, ⟨?_, ?_, ?_, ?_, ?_⟩, hcap1, fun _ _ => rfl⟩
    · simpa using hc1
    · simpa using ht1
    · rw [hl1, hcap1]
    · exact List.rel_append hall (List.Forall₂.cons hSq List.Forall₂.nil)
    · rw [List.pairwise_append]
      refine ⟨hpw, List.pairwise_singleton _ _, ?_⟩
      intro S hS T hT
      rw [List.mem_singleton] at hT
      rw [hT]
      exact hdisj S hS

theorem forall₂_concat_inv {α β : Type} {R : α → β → Prop} :
    ∀ (l : List α) (a : α) (es : List β), List.Forall₂ R (l ++ [a]) es →
      ∃ es0 e, es = es0 ++ [e] ∧ List.Forall₂ R l es0 ∧ R a e := by
  intro l
  induction l with
  | nil =>
    intro a es hall
    cases hall with
    | cons hab hrest =>
      cases hrest
      exact ⟨[], _, rfl, List.Forall₂.nil, hab⟩
  | cons x l ih =>
    intro a es hall
    cases hall with
    | cons hab hrest =>
      obtain ⟨es0, e, he, h0, hR⟩ := ih a _ hrest
      exact ⟨_ :: es0, e, by rw [he]; rfl, List.Forall₂.cons hab h0, hR⟩

theorem addHistoryH_spec {malloc : Heap → Addr} (hf : Fresh malloc) (h : Heap)
    (Hist : HistoryH) (Ss : List Shape) (es : List Command) (Sq : Shape) (Cq : Command)
    (hst : Hist.Stores h Ss es) (hSq : Holds h Sq Cq)
    (hdisj : ∀ S ∈ Ss, ∀ a ∈ S.addrs, a ∉ Sq.addrs) (hcap : 1 ≤ Hist.Capacity)
    (hne : ∀ Last, es.getLast? = some Last → Cq.Tokens ≠ Last.Tokens) :
    ∃ Hist1 h1, addHistoryH malloc h Hist Sq.self = .ok (0, Hist1, h1) ∧
      Hist1.Stores h1 (lastN Hist.Capacity (Ss ++ [Sq])) (lastN Hist.Capacity (es ++ [Cq])) ∧
      Hist1.Capacity = Hist.Capacity ∧
      (∀ a, (∀ S ∈ Ss, a ∉ S.addrs) → h1.obj a = h.obj a) := by
  obtain ⟨hcount, htake, hlen, hall, hpw⟩ := id hst
  rcases List.eq_nil_or_concat Ss with hnil | ⟨Ss0, SL, hcat⟩
  · subst hnil
    have hc0 : Hist.Count = 0 := by simpa using hcount
    obtain ⟨Hist1, h1, hrun, hst1, hcap1, hframe⟩ :=
      storeHistoryH_spec h Hist [] es Sq Cq hst hSq hdisj hcap
    refine ⟨Hist1, h1, ?_, hst1, hcap1, hframe⟩
    have hcond : (1 : Int) < 1 ∨ (1 : Int) > (Hist.Count : Int) := by
      right; rw [hc0]; decide
    simp only [addHistoryH, getHistoryH, if_pos hcond]
    exact hrun
  · rw [List.concat_eq_append] at hcat
    subst hcat
    obtain ⟨es0, L, hes, hall0, hSL⟩ := forall₂_concat_inv Ss0 SL es hall
    subst hes
    have hc : Hist.Count = Ss0.length + 1 := by simpa using hcount
    have hslot : Hist.Entries[Ss0.length]? = some (PSlot.entry SL.self) := by
      have := congrArg (fun l => l[Ss0.length]?) htake
      simp only [List.getElem?_take, hc, Nat.lt_add_one, if_true] at this
      rw [this, List.map_append, List.getElem?_append_right (by simp)]
      simp
    obtain ⟨h1, S', hcopy, hS', -, hfresh', hframe'⟩ := getCommandCopyH_spec hf h SL L hSL
    have hout : ∀ a o, h.obj a = some o → a ∉ S'.addrs := by
      intro a o ho hm
      rw [hfresh' a hm] at ho
      simp at ho
    have hSq1 : Holds h1 Sq Cq := hSq.frame (fun a ha => by
      obtain ⟨o, ho⟩ := hSq.live a ha
      exact hframe' a (hout a o ho))
    have hcmp := compareHistoryH_spec h1 Sq S' Cq (getCommandCopy L) hSq1 hS'
    have hnz : compareHistory Cq (getCommandCopy L) ≠ 0 := by
      rw [ne_eq, compareHistory_eq_zero_iff]
      have := hne L (by simp)
      simpa [getCommandCopy] using this
    obtain ⟨h2, hfree, hfreed, hframe2⟩ := freeCommandH_spec h1 S' _ hS'
    have heq : ∀ a, h2.obj a = h.obj a := by
      intro a
      by_cases hm : a ∈ S'.addrs
      · rw [hfreed a hm, hfresh' a hm]
      · rw [hframe2 a hm, hframe' a hm]
    have hst2 : Hist.Stores h2 (Ss0 ++ [SL]) (es0 ++ [L]) := hst.transfer (fun _ _ a _ => heq a)
    have hSq2 : Holds h2 Sq Cq := hSq.frame (fun a _ => heq a)
    obtain ⟨Hist1, h3, hrun, hst3, hcap3, hframe3⟩ :=
      storeHistoryH_spec h2 Hist (Ss0 ++ [SL]) (es0 ++ [L]) Sq Cq hst2 hSq2 hdisj hcap
    refine ⟨Hist1, h3, ?_, hst3, hcap3, fun a ha => by rw [hframe3 a ha, heq a]⟩
    have hcond : ¬ ((1 : Int) < 1 ∨ (1 : Int) > (Hist.Count : Int)) := by
      have : (Hist.Count : Int) = (Ss0.length : Int) + 1 := by rw [hc]; push_cast; rfl
      omega
    have hidx : ((Hist.Count : Int) - 1).toNat = Ss0.length := by
      have : (Hist.Count : Int) = (Ss0.length : Int) + 1 := by rw [hc]; push_cast; rfl
      omega
    simp only [addHistoryH, getHistoryH, if_neg hcond, hidx, readSlotH, hslot, hcopy, hcmp,
      hfree, if_neg hnz]
    exact hrun

theorem mem_lastN {α : Type} {n : Nat} {l : List α} {x : α} (h : x ∈ lastN n l) : x ∈ l :=
  List.mem_of_mem_drop h

theorem executeRecordH_spec {malloc : Heap → Addr} (hf : Fresh malloc) (env : Environ)
    (VA : LocalVariableArray) (h : Heap) (Hist : HistoryH) (Ss : List Shape)
    (es : List Command) (Sp : Shape) (Cmd Cmd1 : Command) (hst : Hist.Stores h Ss es)
    (hSp : Holds h Sp Cmd) (hdisj : ∀ S ∈ Ss, ∀ a ∈ S.addrs, a ∉ Sp.addrs)
    (hcap : 1 ≤ Hist.Capacity)
    (hne : ∀ Last, es.getLast? = some Last → Cmd.Tokens ≠ Last.Tokens)
    (hstrip : stripRedirection Cmd = .ok Cmd1) :
    ∃ Sq Sp1 Hist1 h4,
      executeRecordH malloc env VA h Hist Sp.self = .ok (Sq.self, Hist1, h4) ∧
      Hist1.Stores h4 (lastN Hist.Capacity (Ss ++ [Sq]))
        (lastN Hist.Capacity (es ++ [getCommandCopy Cmd])) ∧
      Hist1.Capacity = Hist.Capacity ∧
      Holds h4 Sq (getCommandCopy Cmd) ∧
      Sp1.self = Sp.self ∧
      Holds h4 Sp1 { Cmd1 with Tokens := Cmd1.Tokens.map (replaceToken env VA) } ∧
      (∀ a ∈ Sq.addrs, h.obj a = none ∧ a ∉ Sp.addrs ∧ a ∉ Sp1.addrs) := by
  obtain ⟨h1, Sq, hcopy, hSq, -, hfreshq, hframe1⟩ := getCommandCopyH_spec hf h Sp Cmd hSp
  have hliveq : ∀ a o, h.obj a = some o → a ∉ Sq.addrs := by
    intro a o ho hm
    rw [hfreshq a hm] at ho
    simp at ho
  have hSsq : ∀ S ∈ Ss, ∀ a ∈ S.addrs, a ∉ Sq.addrs := by
    intro S hS a ha
    obtain ⟨e, he⟩ := forall₂_holds_mem hst.2.2.2.1 S hS
    obtain ⟨o, ho⟩ := he.live a ha
    exact hliveq a o ho
  have hSpq : ∀ a ∈ Sp.addrs, a ∉ Sq.addrs := by
    intro a ha
    obtain ⟨o, ho⟩ := hSp.live a ha
    exact hliveq a o ho
  have hst1 : Hist.Stores h1 Ss es := hst.transfer (fun S hS a ha => hframe1 a (hSsq S hS a ha))
  have hSp1 : Holds h1 Sp Cmd := hSp.frame (fun a ha => hframe1 a (hSpq a ha))
  obtain ⟨Hist1, h2, hadd, hst2, hcap2, hframe2⟩ :=
    addHistoryH_spec hf h1 Hist Ss es Sq (getCommandCopy Cmd) hst1 hSq hSsq hcap hne
  have hSp2 : Holds h2 Sp Cmd :=
    hSp1.frame (fun a ha => hframe2 a (fun S hS hm => hdisj S hS a hm ha))
  obtain ⟨h3, Sp', hrun3, hself3, hSp3, hsub3, hframe3⟩ :=
    stripRedirectionH_spec h2 Sp Cmd Cmd1 hSp2 hstrip
  have hkeep : ∀ S ∈ lastN Hist.Capacity (Ss ++ [Sq]), ∀ a ∈ S.addrs, a ∉ Sp.addrs := by
    intro S hS a ha hm
    rcases List.mem_append.1 (mem_lastN hS) with hS | hS
    · exact hdisj S hS a ha hm
    · rw [List.mem_singleton] at hS
      subst hS
      exact hSpq a hm ha
  have hst3 : Hist1.Stores h3 (lastN Hist.Capacity (Ss ++ [Sq]))
      (lastN Hist.Capacity (es ++ [getCommandCopy Cmd])) :=
    hst2.transfer (fun S hS a ha => hframe3 a (hkeep S hS a ha))
  obtain ⟨h4, Sp1, hrun4, hself4, hSp4, hin4, hframe4⟩ :=
    replaceVariablesH_spec hf env VA h3 Sp' Cmd1 hSp3
  have hst4 : Hist1.Stores h4 (lastN Hist.Capacity (Ss ++ [Sq]))
      (lastN Hist.Capacity (es ++ [getCommandCopy Cmd])) := by
    refine hst3.transfer (fun S hS a ha => ?_)
    obtain ⟨e, he⟩ := forall₂_holds_mem hst3.2.2.2.1 S hS
    exact hframe4 a (fun hm => hkeep S hS a ha (hsub3 a hm)) (he.live a ha)
  have hSq3 : Holds h3 Sq (getCommandCopy Cmd) := by
    have hSq2 : Holds h2 Sq (getCommandCopy Cmd) :=
      hSq.frame (fun a ha => hframe2 a (fun S hS hm => hSsq S hS a hm ha))
    exact hSq2.frame (fun a ha => hframe3 a (fun hm => hSpq a hm ha))
  have hSq4 : Holds h4 Sq (getCommandCopy Cmd) :=
    hSq3.frame (fun a ha =>
      hframe4 a (fun hm => hSpq a (hsub3 a hm) ha) (hSq3.live a ha))
  refine ⟨Sq, Sp1, Hist1, h4, ?_, hst4, hcap2, hSq4, by rw [hself4, hself3], hSp4, ?_⟩
  · rw [hself3] at hrun4
    simp only [executeRecordH, hcopy, hadd, hrun3, hrun4]
  · intro a ha
    refine ⟨hfreshq a ha, fun hm => hSpq a hm ha, ?_⟩
    intro hm
    rcases hin4 a hm with e | e
    · exact hSpq a (hsub3 a e) ha
    · obtain ⟨o, ho⟩ := hSq3.live a ha
      rw [e] at ho
      simp at ho

theorem writeSlot_stored (E E2 : List Slot) (i C : Nat) (Cmd : Command)
    (hw : writeSlot E i (Slot.entry Cmd) = .ok E2) :
    E2[i + 1 - 1]? = some (Slot.entry Cmd) ∧
      getHistory 1 { Entries := E2, Count := i + 1, Capacity := C } =
        .ok (some (getCommandCopy Cmd)) := by
  unfold writeSlot at hw
  split at hw
  · rename_i hlt
    simp only [Except.ok.injEq] at hw
    subst hw
    have hslot : (E.set i (Slot.entry Cmd))[i + 1 - 1]? = some (Slot.entry Cmd) := by
      simp [hlt]
    refine ⟨hslot, ?_⟩
    have hidx : (((i + 1 : Nat) : Int) - 1).toNat = i := by omega
    have hcond : ¬ ((1 : Int) < 1 ∨ (1 : Int) > ((i + 1 : Nat) : Int)) := by omega
    have hget : (E.set i (Slot.entry Cmd))[i]? = some (Slot.entry Cmd) := by simp [hlt]
    simp only [getHistory, if_neg hcond, hidx, readSlot, hget]
  · cases hw

/-- When `addHistory` returns 0 it has stored the command in the cell `Count - 1` of the
history it leaves, and `getHistory 1` gives a copy of it. -/
theorem addHistory_stored (Hist H1 : History) (Cmd : Command)
    (h : addHistory Hist Cmd = .ok (0, H1)) :
    0 < H1.Count ∧ H1.Entries[H1.Count - 1]? = some (Slot.entry Cmd) ∧
      getHistory 1 H1 = .ok (some (getCommandCopy Cmd)) := by
  unfold addHistory at h
  split at h
  · cases h
  · rename_i PrevCmd hprev
    split at h
    · simp only [Except.ok.injEq, Prod.mk.injEq] at h
      exact absurd h.1 (by decide)
    · split at h
      · rename_i hfull
        split at h
        · cases h
        · split at h
          · cases h
          · split at h
            · cases h
            · rename_i E1 hshift
              split at h
              · cases h
              · rename_i hc0
                split at h
                · cases h
                · rename_i E2 hw
                  simp only [Except.ok.injEq, Prod.mk.injEq, true_and] at h
                  subst h
                  obtain ⟨h1, h2⟩ := writeSlot_stored E1 E2 (Hist.Count - 1) Hist.Capacity Cmd hw
                  exact ⟨Nat.succ_pos _, h1, h2⟩
      · split at h
        · cases h
        · rename_i E2 hw
          simp only [Except.ok.injEq, Prod.mk.injEq, true_and] at h
          subst h
          obtain ⟨h1, h2⟩ := writeSlot_stored Hist.Entries E2 Hist.Count Hist.Capacity Cmd hw
          exact ⟨Nat.succ_pos _, h1, h2⟩

/-! ## The claims -/

set_option maxRecDepth 100000

/-- C1. Deduplication: when the tokens of a command equal those of the entry stored last,
`addHistory` returns 1 and leaves the history as it was; so running the same external
command twice on an empty history leaves exactly one entry, the copy of that command. -/
theorem addHistory_dedup :
    (∀ (Hist : History) (Cmd Last : Command), 0 < Hist.Count →
      Hist.Entries[Hist.Count - 1]? = some (Slot.entry Last) → Cmd.Tokens = Last.Tokens →
      addHistory Hist Cmd = .ok (1, Hist)) ∧
    (∀ (fuel : Nat) (os1 os2 : OS) (Cmd : Command) (P : Proc),
      getBuiltinCommandInfo Cmd = none → Cmd.WellFormed →
      P.S.Hist.Count = 0 → P.S.Hist.Bounded →
      ∃ code P1, runCommands (fuel + 1) [(os1, Cmd), (os2, Cmd)] P
          = .ok (Result.returned code none P1) ∧
        P1.S.Hist.Stores [getCommandCopy Cmd] ∧ P1.S.Hist.Count = 1 ∧
        P1.S.Hist.Capacity = P.S.Hist.Capacity) := by
  refine ⟨addHistory_dup, ?_⟩
  intro fuel os1 os2 Cmd P hext hwf h0 hb
  obtain ⟨hlen, hcap, _⟩ := hb
  have hst := stores_of_empty P.S.Hist h0 hlen
  obtain ⟨H1, hadd1, hst1, hcap1⟩ :=
    addHistory_push P.S.Hist (getCommandCopy Cmd) [] hst hcap (by simp)
  rw [lastN_of_length_le _ _ (by simpa using hcap)] at hst1
  simp only [List.nil_append] at hst1
  have hc1 : H1.Count = 1 := hst1.1
  have hslot := hst1.slot 0 (by simp)
  have hadd2 : addHistory H1 (getCommandCopy Cmd) = .ok (1, H1) :=
    addHistory_dup H1 (getCommandCopy Cmd) (getCommandCopy Cmd) (by omega)
      (by rw [hc1]; exact hslot) rfl
  obtain ⟨code1, Cmd1, out1, hex1⟩ := execute_external fuel os1 Cmd P 0 H1 hext hwf hadd1
  obtain ⟨code2, Cmd2, out2, hex2⟩ := execute_external fuel os2 Cmd
    { S := { VA := P.S.VA, Hist := H1, Error := code1 }, Env := P.Env, Out := out1 } 1 H1
    hext hwf hadd2
  refine ⟨code2, (⟨⟨P.S.VA, H1, code2⟩, P.Env, out2⟩ : Proc), ?_, hst1, hc1, hcap1⟩
  simp only [runCommands, hex1, hex2]

/-- Witness of C1 on the line `echo a`: a history whose last entry is the copy of that
command, and two runs of the command in the shell that `initShell` creates. -/
theorem addHistory_dedup_witness :
    addHistory (historyOf 2 ["echo a"]) (entryOf "echo a")
      = .ok (1, historyOf 2 ["echo a"]) ∧
    ∃ code P1, runCommands 1 [(sampleOS, parseLine "echo a"), (sampleOS, parseLine "echo a")]
        sampleProc = .ok (Result.returned code none P1) ∧
      P1.S.Hist.Stores [entryOf "echo a"] ∧ P1.S.Hist.Count = 1 ∧
      P1.S.Hist.Capacity = sampleProc.S.Hist.Capacity :=
  ⟨addHistory_dedup.1 (historyOf 2 ["echo a"]) (entryOf "echo a") (entryOf "echo a")
      (by decide) (by decide) rfl,
    addHistory_dedup.2 0 sampleOS sampleOS (parseLine "echo a") sampleProc (by decide)
      (getCommand_wellFormed "echo a".toList sampleVA _ (by decide)) (by decide)
      ⟨by decide, by decide, by decide⟩⟩

/-- C2. Eviction: on a full history of capacity `C ≥ 1`, a command whose tokens differ from
those of the entry stored last replaces the oldest entry: the other `C - 1` entries keep
their order, the command becomes the last one and the count stays `C`; so `C + 1` external
commands with pairwise different tokens, run on an empty history of capacity `C`, leave
exactly the copies of the last `C` of them. -/
theorem addHistory_eviction :
    (∀ (Hist : History) (es : List Command) (Cmd : Command), Hist.Stores es →
      es.length = Hist.Capacity → 1 ≤ Hist.Capacity →
      (∀ Last, es.getLast? = some Last → Cmd.Tokens ≠ Last.Tokens) →
      addHistory Hist Cmd =
        .ok (0, { Entries := (es.drop 1 ++ [Cmd]).map Slot.entry, Count := Hist.Capacity,
                  Capacity := Hist.Capacity })) ∧
    (∀ (fuel C : Nat) (cmds : List (OS × Command)) (P : Proc), 1 ≤ C →
      cmds.length = C + 1 →
      (∀ p ∈ cmds, getBuiltinCommandInfo p.2 = none ∧ p.2.WellFormed) →
      (cmds.map (fun p => p.2.Tokens)).Pairwise (fun a b => a ≠ b) →
      P.S.Hist.Count = 0 → P.S.Hist.Entries.length = C → P.S.Hist.Capacity = C →
      ∃ code P1, runCommands (fuel + 1) cmds P = .ok (Result.returned code none P1) ∧
        P1.S.Hist.Stores ((cmds.drop 1).map (fun p => getCommandCopy p.2)) ∧
        P1.S.Hist.Count = C ∧ P1.S.Hist.Capacity = C) := by
  refine ⟨fun Hist es Cmd h hfull hcap hne => addHistory_evict Hist Cmd es h hfull hcap hne, ?_⟩
  intro fuel C cmds P hC hlen hall hpw h0 hEntries hcap
  have hst := stores_of_empty P.S.Hist h0 (by rw [hEntries, hcap])
  obtain ⟨code, P1, hrun, hst1, hcap1⟩ :=
    runCommands_external fuel C hC cmds P [] hall hpw (by simp) hst hcap
  have hl : lastN C ([] ++ cmds.map (fun p => getCommandCopy p.2))
      = (cmds.drop 1).map (fun p => getCommandCopy p.2) := by
    unfold lastN
    simp only [List.nil_append, List.length_map, hlen, List.map_drop]
    congr 1
    omega
  rw [hl] at hst1
  refine ⟨code, P1, hrun, hst1, ?_, hcap1⟩
  rw [hst1.1]
  simp [hlen]

/-- Witness of C2 with `C = 2`: the full history of `echo a`, `echo b` receives `echo c`,
and the three lines are run on an empty history of capacity 2. -/
theorem addHistory_eviction_witness :
    addHistory (historyOf 2 ["echo a", "echo b"]) (entryOf "echo c")
      = .ok (0, historyOf 2 ["echo b", "echo c"]) ∧
    ∃ code P1, runCommands 1
        [(sampleOS, parseLine "echo a"), (sampleOS, parseLine "echo b"),
         (sampleOS, parseLine "echo c")]
        { sampleProc with S := { sampleProc.S with Hist := initHistory 2 } }
          = .ok (Result.returned code none P1) ∧
      P1.S.Hist.Stores [entryOf "echo b", entryOf "echo c"] ∧
      P1.S.Hist.Count = 2 ∧ P1.S.Hist.Capacity = 2 :=
  ⟨addHistory_eviction.1 (historyOf 2 ["echo a", "echo b"])
      [entryOf "echo a", entryOf "echo b"] (entryOf "echo c") ⟨rfl, rfl, rfl⟩ rfl
      (by decide) (by intro Last h; cases h; decide),
    addHistory_eviction.2 0 2
      [(sampleOS, parseLine "echo a"), (sampleOS, parseLine "echo b"),
       (sampleOS, parseLine "echo c")]
      { sampleProc with S := { sampleProc.S with Hist := initHistory 2 } } (by decide) rfl
      (by
        intro p hp
        simp only [List.mem_cons, List.mem_singleton, List.not_mem_nil, or_false] at hp
        rcases hp with rfl | rfl | rfl
        · exact ⟨by decide, getCommand_wellFormed "echo a".toList sampleVA _ (by decide)⟩
        · exact ⟨by decide, getCommand_wellFormed "echo b".toList sampleVA _ (by decide)⟩
        · exact ⟨by decide, getCommand_wellFormed "echo c".toList sampleVA _ (by decide)⟩)
      (by decide) rfl rfl rfl⟩

/-- C3, evaluated where it fails. A history of capacity 5 that stores the two entries
`echo a`, `echo b` (as `addHistory` builds it from `initHistory 5`) is resized to capacity 2:
`setHistoryCapacity` returns 0 with count 2, but both cells are `NULL`, so the history no
longer stores the two most recent entries and `getHistory 1` finds nothing. -/
theorem setHistoryCapacity_shrink_partial :
    (match addHistory (initHistory 5) (entryOf "echo a") with
      | .ok (_, H) => addHistory H (entryOf "echo b")
      | .error e => .error e) = .ok (0, historyOf 5 ["echo a", "echo b"]) ∧
    (historyOf 5 ["echo a", "echo b"]).Stores [entryOf "echo a", entryOf "echo b"] ∧
    (historyOf 5 ["echo a", "echo b"]).Count ≤ (historyOf 5 ["echo a", "echo b"]).Capacity ∧
    setHistoryCapacity 2 (historyOf 5 ["echo a", "echo b"])
      = .ok (0, { Entries := [Slot.null, Slot.null], Count := 2, Capacity := 2 }) ∧
    ¬ History.Stores { Entries := [Slot.null, Slot.null], Count := 2, Capacity := 2 }
        (lastN (min 2 2) [entryOf "echo a", entryOf "echo b"]) ∧
    getHistory 1 { Entries := [Slot.null, Slot.null], Count := 2, Capacity := 2 } = .ok none := by
  refine ⟨by decide, ⟨rfl, rfl, rfl⟩, by decide, by decide, ?_, by decide⟩
  intro h
  exact absurd h.2.1 (by decide)

/-- C4. Shrinking a full history with `history set n`: when the count equals the capacity
and the argument reads as a number `n` with `1 ≤ n ≤ Capacity`, `execute` returns 0 and the
history then holds exactly the last `n` cells of the old array, in their order, with count
and capacity `n`; so a history that stored the entries `es` stores the last `n` of them.
Variables and environment are untouched. -/
theorem history_set_shrinks_full (fuel : Nat) (os : OS) (Cmd : Command) (P : Proc) (t : CStr)
    (n : Nat) (htok : Cmd.Tokens = ["history".toList, "set".toList, t])
    (hfile : ∀ R, Cmd.Redirection = some R → R.File = none)
    (hconv : (strtol (replaceToken P.Env P.S.VA t) 0).2 ≠ 0)
    (hn : toInt32 (strtol (replaceToken P.Env P.S.VA t) 0).1 = (n : Int))
    (h1 : 1 ≤ n) (hle : n ≤ P.S.Hist.Capacity)
    (hlen : P.S.Hist.Entries.length = P.S.Hist.Capacity)
    (hfull : P.S.Hist.Count = P.S.Hist.Capacity) :
    ∃ Cmd1 P1, execute (fuel + 1) os Cmd P = .ok (Result.returned 0 (some Cmd1) P1) ∧
      P1.S.Hist = { Entries := lastN n P.S.Hist.Entries, Count := n, Capacity := n } ∧
      (∀ es, P.S.Hist.Stores es → P1.S.Hist.Stores (lastN n es)) ∧
      P1.S.VA = P.S.VA ∧ P1.Env = P.Env := by
  rw [execute_history_nofile fuel os Cmd P ["set".toList, t] htok hfile]
  simp only [List.map_cons, List.map_nil, replaceToken_set]
  rw [executeHistoryCommand_set_accept _ _ _ (replaceToken P.Env P.S.VA t) rfl hconv
    (by rw [hn]; omega)]
  rw [hn]
  simp only [setHistoryCapacity_shrink_cells P.S.Hist n hlen hfull hle]
  exact ⟨_, _, rfl, rfl, fun es hst => stores_lastN P.S.Hist es n hst hfull hle, rfl, rfl⟩

/-- Witness of C4: capacity 5 holding five entries, `history set 2` keeps `echo d`,
`echo e`. -/
theorem history_set_shrinks_full_witness :
    (∃ Cmd1 P1, execute 1 sampleOS (parseLine "history set 2")
        { sampleProc with S := { sampleProc.S with
            Hist := historyOf 5 ["echo a", "echo b", "echo c", "echo d", "echo e"] } }
          = .ok (Result.returned 0 (some Cmd1) P1) ∧
      P1.S.Hist = { Entries := lastN 2
                      (historyOf 5 ["echo a", "echo b", "echo c", "echo d", "echo e"]).Entries
                    Count := 2
                    Capacity := 2 } ∧
      (∀ es, (historyOf 5 ["echo a", "echo b", "echo c", "echo d", "echo e"]).Stores es →
        P1.S.Hist.Stores (lastN 2 es)) ∧
      P1.S.VA = sampleProc.S.VA ∧ P1.Env = sampleProc.Env) ∧
    lastN 2 (historyOf 5 ["echo a", "echo b", "echo c", "echo d", "echo e"]).Entries
      = [Slot.entry (entryOf "echo d"), Slot.entry (entryOf "echo e")] :=
  ⟨history_set_shrinks_full 0 sampleOS (parseLine "history set 2")
    { sampleProc with S := { sampleProc.S with
        Hist := historyOf 5 ["echo a", "echo b", "echo c", "echo d", "echo e"] } }
    "2".toList 2 (by decide) (by decide) (by decide) (by decide) (by decide) (by decide)
    (by decide) (by decide),
   by decide⟩

/-- C5. Growing: a new capacity above the current one makes `setHistoryCapacity` return 0;
the count is unchanged, the capacity is the new one, every cell of the old array keeps its
content at its index, and a history that stored the entries `es` still stores them. -/
theorem setHistoryCapacity_grows (Hist : History) (n : Int) (hn : n > (Hist.Capacity : Int))
    (hlen : Hist.Entries.length = Hist.Capacity) :
    ∃ H1, setHistoryCapacity n Hist = .ok (0, H1) ∧ H1.Count = Hist.Count ∧
      (H1.Capacity : Int) = n ∧ H1.Entries.length = H1.Capacity ∧
      (∀ i, i < Hist.Capacity → H1.Entries[i]? = Hist.Entries[i]?) ∧
      (∀ es, Hist.Stores es → H1.Stores es) := by
  refine ⟨_, setHistoryCapacity_grow Hist n hn hlen, rfl, ?_, ?_, ?_, ?_⟩
  · show ((n.toNat : Nat) : Int) = n
    omega
  · show (Hist.Entries ++ List.replicate (n.toNat - Hist.Capacity) Slot.uninit).length = n.toNat
    simp only [List.length_append, List.length_replicate, hlen]
    omega
  · intro i hi
    show (Hist.Entries ++ List.replicate (n.toNat - Hist.Capacity) Slot.uninit)[i]? = _
    rw [List.getElem?_append_left (by omega)]
  · intro es hst
    obtain ⟨h1, h2, h3⟩ := hst
    have hle := History.Stores.count_le ⟨h1, h2, h3⟩
    refine ⟨h1, ?_, ?_⟩
    · show (Hist.Entries ++ List.replicate (n.toNat - Hist.Capacity) Slot.uninit).take Hist.Count = _
      rw [List.take_append_of_le_length (by omega)]
      exact h2
    · show (Hist.Entries ++ List.replicate (n.toNat - Hist.Capacity) Slot.uninit).length = n.toNat
      simp only [List.length_append, List.length_replicate, hlen]
      omega

/-- Witness of C5: capacity 2 holding `echo a`, `echo b`, resized to 10, also through
`history set 10`. -/
theorem setHistoryCapacity_grows_witness :
    (∃ H1, setHistoryCapacity 10 (historyOf 2 ["echo a", "echo b"]) = .ok (0, H1) ∧
      H1.Count = (historyOf 2 ["echo a", "echo b"]).Count ∧ (H1.Capacity : Int) = 10 ∧
      H1.Entries.length = H1.Capacity ∧
      (∀ i, i < (historyOf 2 ["echo a", "echo b"]).Capacity →
        H1.Entries[i]? = (historyOf 2 ["echo a", "echo b"]).Entries[i]?) ∧
      (∀ es, (historyOf 2 ["echo a", "echo b"]).Stores es → H1.Stores es)) ∧
    execute 1 sampleOS (parseLine "history set 10")
        { sampleProc with S := { sampleProc.S with Hist := historyOf 2 ["echo a", "echo b"] } }
      = .ok (Result.returned 0 (some (parseLine "history set 10"))
          { S := { VA := sampleVA
                   Hist := { Entries := [Slot.entry (entryOf "echo a"),
                               Slot.entry (entryOf "echo b")] ++ List.replicate 8 Slot.uninit
                             Count := 2
                             Capacity := 10 }
                   Error := 0 }
            Env := sampleProc.Env
            Out := [Event.builtin "history".toList
              ["history".toList, "set".toList, "10".toList]] }) :=
  ⟨setHistoryCapacity_grows (historyOf 2 ["echo a", "echo b"]) 10 (by decide) (by decide),
    by decide⟩

/-- C6, evaluated where it fails. After `echo a`, `echo b` and `history set 2` in the shell
that `initShell` creates, the history has count 2 and two `NULL` cells: `getHistory 1` and
`getHistory 2` find nothing although both numbers lie in `1..Count`, `history 1` returns 1
without a replay, and the listing of `history` prints the numbers `1) ` and `2) ` with no
entry behind them. -/
theorem getHistory_after_partial_shrink :
    initShell [] = some sampleProc ∧
    runCommands 1 [(sampleOS, parseLine "echo a"), (sampleOS, parseLine "echo b"),
        (sampleOS, parseLine "history set 2")] sampleProc =
      .ok (Result.returned 0 none sampleAfterShrink) ∧
    sampleAfterShrink.S.Hist = { Entries := [Slot.null, Slot.null], Count := 2, Capacity := 2 } ∧
    getHistory 1 sampleAfterShrink.S.Hist = .ok none ∧
    getHistory 2 sampleAfterShrink.S.Hist = .ok none ∧
    execute 1 sampleOS (parseLine "history 1") sampleAfterShrink =
      .ok (Result.returned 1 (some (parseLine "history 1"))
        { sampleAfterShrink with Out := sampleAfterShrink.Out ++
            [Event.builtin "history".toList ["history".toList, "1".toList]] }) ∧
    execute 1 sampleOS (parseLine "history") sampleAfterShrink =
      .ok (Result.returned 0 (some (parseLine "history"))
        { sampleAfterShrink with Out := sampleAfterShrink.Out ++
            [Event.builtin "history".toList ["history".toList],
             Event.shell (Action.stdout "1) ".toList),
             Event.shell (Action.stdout "2) ".toList)] }) := by
  refine ⟨by decide, by decide, by decide, by decide, by decide, by decide, by decide⟩

/-- Counterexample of C7. In the shell reached by `echo a`, whose history has capacity 5,
the line `history set -4294967295` names a number below 1, and yet it is not rejected: the
conversion of the `long` that `strtol` returns to `int` gives 1, `execute` returns 0 and the
history has capacity 1 afterwards. -/
theorem history_set_wraps :
    Reachable sampleAfterEcho ∧
    sampleAfterEcho.S.Hist.Capacity = 5 ∧
    (strtol "-4294967295".toList 0).1 = -4294967295 ∧
    (strtol "-4294967295".toList 0).1 < 1 ∧
    execute 1 sampleOS (parseLine "history set -4294967295") sampleAfterEcho =
      .ok (Result.returned 0 (some (parseLine "history set -4294967295"))
        { S := { sampleAfterEcho.S with
                 Hist := { Entries := [Slot.null], Count := 1, Capacity := 1 } }
          Env := sampleAfterEcho.Env
          Out := sampleAfterEcho.Out ++ [Event.builtin "history".toList
            ["history".toList, "set".toList, "-4294967295".toList]] }) :=
  ⟨Reachable.step 1 sampleOS (parseLine "echo a") sampleProc sampleAfterEcho 0
      (some (parseLine "echo a")) (Reachable.init [] sampleProc (by decide)) (by decide),
    by decide, by decide, by decide, by decide⟩

/-- C7, amended: the number that decides is the `int` the code compares with 1. In every
shell state that `execute` calls reach from `initShell`, the history has capacity at least
1, a count between 0 and the capacity, and an array of `Capacity` cells; and in such a state
`history set t`, with an argument whose value as `strtol` reads it, converted to `int`, is
below 1, returns 1 and leaves the shell (history, variables, last error) and the environment
as they were. Every value `n` with `-2147483648 ≤ n < 1` is below 1 after the
conversion. -/
theorem history_bounds (P : Proc) (h : Reachable P) :
    1 ≤ P.S.Hist.Capacity ∧ 0 ≤ P.S.Hist.Count ∧ P.S.Hist.Count ≤ P.S.Hist.Capacity ∧
    P.S.Hist.Entries.length = P.S.Hist.Capacity ∧
    (∀ (fuel : Nat) (os : OS) (Cmd : Command) (t : CStr),
      Cmd.Tokens = ["history".toList, "set".toList, t] →
      (∀ R, Cmd.Redirection = some R → R.File = none) →
      toInt32 (strtol (replaceToken P.Env P.S.VA t) 0).1 < 1 →
      ∃ Cmd1 P1, execute (fuel + 1) os Cmd P = .ok (Result.returned 1 (some Cmd1) P1) ∧
        P1.S = P.S ∧ P1.Env = P.Env) ∧
    (∀ n : Int, -2147483648 ≤ n → n < 1 → toInt32 n < 1) := by
  obtain ⟨hlen, hcap, hle⟩ := reachable_bounded P h
  refine ⟨hcap, Nat.zero_le _, hle, hlen, ?_, ?_⟩
  · intro fuel os Cmd t htok hfile hlt
    rw [execute_history_nofile fuel os Cmd P ["set".toList, t] htok hfile]
    simp only [List.map_cons, List.map_nil, replaceToken_set]
    obtain ⟨P1, hex, hS, hE⟩ := executeHistoryCommand_set_reject (execute fuel os)
      { Cmd with Tokens := ["history".toList, "set".toList, replaceToken P.Env P.S.VA t] }
      { P with Out := P.Out ++ [Event.builtin "history".toList
          ["history".toList, "set".toList, replaceToken P.Env P.S.VA t]] }
      (replaceToken P.Env P.S.VA t) rfl hlt
    exact ⟨_, P1, hex, hS, hE⟩
  · intro n hlo hhi
    rw [toInt32_id n hlo (by omega)]
    exact hhi

/-- Witness of C7: the shell after `echo a` and `history set 7` is reachable and within
the bounds, and `history set 0` and `history set -3` are rejected there. -/
theorem history_bounds_witness :
    Reachable sampleAfterGrow ∧
    (1 ≤ sampleAfterGrow.S.Hist.Capacity ∧ 0 ≤ sampleAfterGrow.S.Hist.Count ∧
      sampleAfterGrow.S.Hist.Count ≤ sampleAfterGrow.S.Hist.Capacity ∧
      sampleAfterGrow.S.Hist.Entries.length = sampleAfterGrow.S.Hist.Capacity ∧
      (∀ (fuel : Nat) (os : OS) (Cmd : Command) (t : CStr),
        Cmd.Tokens = ["history".toList, "set".toList, t] →
        (∀ R, Cmd.Redirection = some R → R.File = none) →
        toInt32 (strtol (replaceToken sampleAfterGrow.Env sampleAfterGrow.S.VA t) 0).1 < 1 →
        ∃ Cmd1 P1, execute (fuel + 1) os Cmd sampleAfterGrow
            = .ok (Result.returned 1 (some Cmd1) P1) ∧
          P1.S = sampleAfterGrow.S ∧ P1.Env = sampleAfterGrow.Env) ∧
      (∀ n : Int, -2147483648 ≤ n → n < 1 → toInt32 n < 1)) ∧
    execute 1 sampleOS (parseLine "history set 0") sampleAfterGrow =
      .ok (Result.returned 1 (some (parseLine "history set 0"))
        (Proc.emit { sampleAfterGrow with Out := sampleAfterGrow.Out ++
            [Event.builtin "history".toList ["history".toList, "set".toList, "0".toList]] }
          [Action.stderr "history: minimum history is 1\n".toList])) ∧
    (strtol "-3".toList 0).1 = -3 ∧
    execute 1 sampleOS (parseLine "history set -3") sampleAfterGrow =
      .ok (Result.returned 1 (some (parseLine "history set -3"))
        (Proc.emit { sampleAfterGrow with Out := sampleAfterGrow.Out ++
            [Event.builtin "history".toList ["history".toList, "set".toList, "-3".toList]] }
          [Action.stderr "history: minimum history is 1\n".toList])) :=
  have hr : Reachable sampleAfterGrow :=
    Reachable.step 1 sampleOS (parseLine "history set 7") sampleAfterEcho sampleAfterGrow 0
      (some (parseLine "history set 7"))
      (Reachable.step 1 sampleOS (parseLine "echo a") sampleProc sampleAfterEcho 0
        (some (parseLine "echo a")) (Reachable.init [] sampleProc (by decide)) (by decide))
      (by decide)
  ⟨hr, history_bounds sampleAfterGrow hr, by decide, by decide, by decide⟩

/-- C8. `getCommand` gives no command exactly when the line has no token (every character
is a space) or the first character that is not a space is `#`; a command it gives has at
least one token. -/
theorem getCommand_none_iff (Input : CStr) (VA : LocalVariableArray) :
    (getCommand Input VA = none ↔
      ((∀ c ∈ Input, c = ' ') ∨ (Input.dropWhile (fun c => c == ' ')).head? = some '#')) ∧
    (∀ Cmd, getCommand Input VA = some Cmd → 1 ≤ Cmd.TokenCount) := by
  constructor
  · rw [getCommand_eq]
    cases hr : spaceFreeRuns Input with
    | nil =>
      have hall := (spaceFreeRuns_eq_nil_iff Input).1 hr
      simp only [List.take_nil, List.length_nil, if_true, true_iff]
      exact Or.inl hall
    | cons t ts =>
      have hne : ¬ ∀ c ∈ Input, c = ' ' := by
        intro h
        have := (spaceFreeRuns_eq_nil_iff Input).2 h
        rw [hr] at this
        exact absurd this (by simp)
      have hhead := spaceFreeRuns_head Input t ts hr
      have htake : (t :: ts).take MAX_NUM_TOKENS = t :: ts.take (MAX_NUM_TOKENS - 1) := rfl
      rw [htake, ← hhead]
      simp only [List.length_cons, Nat.add_one_ne_zero, if_false, hne, false_or]
      cases t with
      | nil => simp
      | cons c cs =>
        by_cases hc : c = '#'
        · subst hc; simp
        · simp only [List.head?_cons, Option.some.injEq, hc, iff_false]
          split
          · rename_i heq
            simp only [List.cons.injEq] at heq
            exact absurd heq.1.1 hc
          · simp
  · exact getCommand_tokenCount_pos Input VA

/-- Witness of C8: a blank line and a comment line give no command, `ls -l` gives one. -/
theorem getCommand_none_iff_witness :
    getCommand "   ".toList sampleVA = none ∧ getCommand "  #ls -l".toList sampleVA = none ∧
    getCommand "ls -l".toList sampleVA ≠ none ∧
    (getCommand "#x >y".toList sampleVA = none ↔
      ((∀ c ∈ "#x >y".toList, c = ' ') ∨
        ("#x >y".toList.dropWhile (fun c => c == ' ')).head? = some '#')) :=
  ⟨by decide, by decide, by decide, (getCommand_none_iff "#x >y".toList sampleVA).1⟩

/-- C9. The tokens of a parsed command are the maximal non-empty space-free substrings of
the line, in order, cut to the first `MAX_NUM_TOKENS` = 128; each token is non-empty and has
no space, and there are at most 128. -/
theorem getCommand_tokenization (Input : CStr) (VA : LocalVariableArray) (Cmd : Command)
    (h : getCommand Input VA = some Cmd) :
    Cmd.Tokens = (spaceFreeRuns Input).take 128 ∧
      (∀ t ∈ Cmd.Tokens, t ≠ [] ∧ ' ' ∉ t) ∧ Cmd.TokenCount ≤ 128 := by
  have ht := (getCommand_tokens Input VA Cmd h).1
  refine ⟨ht, ?_, ?_⟩
  · intro t hmem
    rw [ht] at hmem
    exact spaceFreeRuns_mem Input t (List.mem_of_mem_take hmem)
  · simp only [Command.TokenCount, ht, MAX_NUM_TOKENS, List.length_take]
    omega

/-- Witness of C9: the line ` echo  hi 2>out ` has the three tokens `echo`, `hi`,
`2>out`. -/
theorem getCommand_tokenization_witness :
    getCommand " echo  hi 2>out ".toList sampleVA = some (parseLine " echo  hi 2>out ") ∧
    (parseLine " echo  hi 2>out ").Tokens = ["echo".toList, "hi".toList, "2>out".toList] ∧
    ((parseLine " echo  hi 2>out ").Tokens = (spaceFreeRuns " echo  hi 2>out ".toList).take 128 ∧
      (∀ t ∈ (parseLine " echo  hi 2>out ").Tokens, t ≠ [] ∧ ' ' ∉ t) ∧
      (parseLine " echo  hi 2>out ").TokenCount ≤ 128) :=
  ⟨by decide, by decide,
    getCommand_tokenization " echo  hi 2>out ".toList sampleVA (parseLine " echo  hi 2>out ")
      (by decide)⟩

/-- C10. A parsed command with fewer than 2 tokens has no redirection; one with at least 2
tokens has a redirection whose mode is decided by its last token alone, by the first
operator the token contains in the order `&>>`, `>>`, `&>`, `>`, `<`; when it contains none
the mode is `RedirectNone` and no file is set. -/
theorem getCommand_redirect_mode (Input : CStr) (VA : LocalVariableArray) (Cmd : Command)
    (h : getCommand Input VA = some Cmd) :
    (Cmd.TokenCount < 2 → Cmd.Redirection = none) ∧
    (2 ≤ Cmd.TokenCount → ∃ Last R, Cmd.Tokens.getLast? = some Last ∧
      Cmd.Redirection = some R ∧
      R.Mode = Cell.val
        (if ['&', '>', '>'] <:+: Last then RedirectMode.RedirectAppendError
         else if ['>', '>'] <:+: Last then RedirectMode.RedirectAppend
         else if ['&', '>'] <:+: Last then RedirectMode.RedirectOuputError
         else if '>' ∈ Last then RedirectMode.RedirectOutput
         else if '<' ∈ Last then RedirectMode.RedirectInput
         else RedirectMode.RedirectNone) ∧
      ((¬ ['&', '>', '>'] <:+: Last ∧ ¬ ['>', '>'] <:+: Last ∧ ¬ ['&', '>'] <:+: Last ∧
          '>' ∉ Last ∧ '<' ∉ Last) →
        R.Mode = Cell.val RedirectMode.RedirectNone ∧ R.File = none)) := by
  have hr := (getCommand_tokens Input VA Cmd h).2
  constructor
  · intro hlt
    rw [hr, if_neg (by simp only [Command.TokenCount] at hlt; omega)]
  · intro hge
    simp only [Command.TokenCount] at hge
    have hne : Cmd.Tokens ≠ [] := by
      intro e; rw [e] at hge; simp at hge
    refine ⟨Cmd.Tokens.getLast hne, parseRedirect (Cmd.Tokens.getLast hne),
      List.getLast?_eq_getLast _ hne, ?_, ?_, ?_⟩
    · rw [hr, if_pos (by omega), List.getLast?_eq_getLast _ hne]
      rfl
    · rw [← redirectOperator_mode]
      unfold parseRedirect
      simp only
      split <;> rfl
    · intro hnone
      obtain ⟨h1, h2, h3, h4, h5⟩ := hnone
      have hm : (redirectOperator (Cmd.Tokens.getLast hne)).1 = RedirectMode.RedirectNone := by
        rw [redirectOperator_mode, if_neg h1, if_neg h2, if_neg h3, if_neg h4, if_neg h5]
      unfold parseRedirect
      simp only [hm, ne_eq, not_true_eq_false, if_false, and_self]

/-- Witness of C10: in `cat a &>>log` the last token contains `&>>`, `>>`, `&>` and `>`,
and the mode is the one of `&>>`. -/
theorem getCommand_redirect_mode_witness :
    (parseLine "cat a &>>log").Redirection =
      some { Mode := Cell.val RedirectMode.RedirectAppendError, File := some "log".toList,
             FD := Cell.val (-1) } ∧
    (parseLine "cat").Redirection = none ∧
    (parseLine "cat a").Redirection =
      some { Mode := Cell.val RedirectMode.RedirectNone, File := none, FD := Cell.val (-1) } ∧
    ((parseLine "cat a &>>log").TokenCount < 2 → (parseLine "cat a &>>log").Redirection = none) ∧
    (2 ≤ (parseLine "cat a &>>log").TokenCount → ∃ Last R,
      (parseLine "cat a &>>log").Tokens.getLast? = some Last ∧
      (parseLine "cat a &>>log").Redirection = some R ∧
      R.Mode = Cell.val
        (if ['&', '>', '>'] <:+: Last then RedirectMode.RedirectAppendError
         else if ['>', '>'] <:+: Last then RedirectMode.RedirectAppend
         else if ['&', '>'] <:+: Last then RedirectMode.RedirectOuputError
         else if '>' ∈ Last then RedirectMode.RedirectOutput
         else if '<' ∈ Last then RedirectMode.RedirectInput
         else RedirectMode.RedirectNone) ∧
      ((¬ ['&', '>', '>'] <:+: Last ∧ ¬ ['>', '>'] <:+: Last ∧ ¬ ['&', '>'] <:+: Last ∧
          '>' ∉ Last ∧ '<' ∉ Last) →
        R.Mode = Cell.val RedirectMode.RedirectNone ∧ R.File = none)) :=
  ⟨by decide, by decide, by decide,
    getCommand_redirect_mode "cat a &>>log".toList sampleVA (parseLine "cat a &>>log")
      (by decide)⟩

/-- Counterexample of C11. In `cat a>b` the last token matches the operator `>` and does
not begin with a digit, but the file path is `>b`, not the text `b` after the operator: the
path is read at the length of the operator from the start of the token. In `cat >a>>b`
the token matches `>>` and the path is `>>b`, neither the text `b` after that operator nor
the text `a>>b` after the leading `>`. In `cat 4294967298>f` the leading digit run has
the value 4294967298, but the descriptor is 2. -/
theorem redirect_target_misread :
    (parseLine "cat a>b").Redirection =
      some { Mode := Cell.val RedirectMode.RedirectOutput, File := some ">b".toList,
             FD := Cell.val (-1) } ∧
    (parseLine "cat >a>>b").Redirection =
      some { Mode := Cell.val RedirectMode.RedirectAppend, File := some ">>b".toList,
             FD := Cell.val (-1) } ∧
    (parseLine "cat 4294967298>f").Redirection =
      some { Mode := Cell.val RedirectMode.RedirectOutput, File := some "f".toList,
             FD := Cell.val 2 } ∧
    decimalValue "4294967298".toList = 4294967298 := by
  decide

/-- C11, amended: the operator follows the leading digit run directly, and the value of the
run is below 2^31. For every command that `getCommand` builds with at least 2 tokens whose
last token is `D ++ OP ++ T`, where `D` is a run of decimal digits that may be empty and `OP`
is the text of the mode that the cascade assigns to the token, a mode other than
`RedirectNone`: the redirection has that mode and the file path `T`; without digits the
descriptor is -1, the mark of no explicit descriptor; with digits whose value is below 2^31
the descriptor is that value. -/
theorem getCommand_redirect_target (Input : CStr) (VA : LocalVariableArray) (Cmd : Command)
    (front : List CStr) (D T : CStr) (m : RedirectMode)
    (hparse : getCommand Input VA = some Cmd)
    (htok : Cmd.Tokens = front ++ [D ++ operatorText m ++ T]) (hfront : front ≠ [])
    (hD : ∀ c ∈ D, isdigit c = true)
    (hm : (redirectOperator (D ++ operatorText m ++ T)).1 = m)
    (hmode : m ≠ RedirectMode.RedirectNone) :
    ∃ FD, Cmd.Redirection = some { Mode := Cell.val m, File := some T, FD := Cell.val FD } ∧
      (D = [] → FD = -1) ∧
      (D ≠ [] → decimalValue D < 2 ^ 31 → FD = decimalValue D) := by
  obtain ⟨FD, hp, h1, h2⟩ := parseRedirect_target D T m hD hm hmode
  refine ⟨FD, ?_, h1, h2⟩
  have hr := (getCommand_tokens Input VA Cmd hparse).2
  have hlen : Cmd.Tokens.length > 1 := by
    rw [htok, List.length_append, List.length_singleton]
    have : 0 < front.length := List.length_pos.2 hfront
    omega
  have hl : (front ++ [D ++ operatorText m ++ T]).getLast? =
      some (D ++ operatorText m ++ T) := by simp
  rw [if_pos hlen, htok, hl] at hr
  rw [hr, Option.getD_some, hp]

/-- Witness of C11, amended: `cat 2>out` gives the path `out` and the descriptor 2;
`cat >>log` gives the path `log` and no explicit descriptor. -/
theorem getCommand_redirect_target_witness :
    (∃ FD, (parseLine "cat 2>out").Redirection =
        some { Mode := Cell.val RedirectMode.RedirectOutput, File := some "out".toList,
               FD := Cell.val FD } ∧
      ("2".toList = [] → FD = -1) ∧
      ("2".toList ≠ [] → decimalValue "2".toList < 2 ^ 31 → FD = decimalValue "2".toList)) ∧
    (parseLine "cat 2>out").Redirection =
      some { Mode := Cell.val RedirectMode.RedirectOutput, File := some "out".toList,
             FD := Cell.val 2 } ∧
    (parseLine "cat >>log").Redirection =
      some { Mode := Cell.val RedirectMode.RedirectAppend, File := some "log".toList,
             FD := Cell.val (-1) } :=
  ⟨getCommand_redirect_target "cat 2>out".toList sampleVA (parseLine "cat 2>out")
      ["cat".toList] "2".toList "out".toList RedirectMode.RedirectOutput
      (by decide) (by decide) (by decide) (by decide) (by decide) (by decide),
    by decide, by decide⟩

/-- Counterexample of C13. The shell started with the inherited environment `FOO=bar=baz`
has no variable named `FOO=bar`, neither in its environment, where the one name besides
`PATH` is `FOO`, nor in its store, and yet in `echo $FOO=bar` the token `$FOO=bar` is
replaced by `baz` and not by the empty string: `getenv` finds the string that begins with
`FOO=bar=`. The command then runs `echo baz`. -/
theorem dollar_name_with_equals :
    initShell [("FOO".toList, "bar=baz".toList)] = some sampleInherited ∧
    sampleInherited.Env.map (fun p => envName (envString p)) = ["FOO".toList, "PATH".toList] ∧
    (∀ p ∈ sampleInherited.Env, p.1 ≠ "FOO=bar".toList) ∧
    (∀ V ∈ sampleInherited.S.VA.Vars, V.Name ≠ "FOO=bar".toList) ∧
    (replaceVariables sampleInherited.Env (parseLine "echo $FOO=bar")
        sampleInherited.S.VA 0).2.1.Tokens = ["echo".toList, "baz".toList] ∧
    (execute 1 sampleOS (parseLine "echo $FOO=bar") sampleInherited).map Result.Out =
      .ok [Event.fork true,
        Event.child (Action.execv "/bin/echo".toList ["echo".toList, "baz".toList] true)] := by
  decide

/-- C13, amended: `replaceVariables` with the check of the first token off. For every
command, every variable store and every environment, `replaceVariables(Cmd, VA, 0)` returns 0,
prints nothing, and leaves the token count and the redirection as they were; a token that
does not begin with `$` is unchanged; and a token `$name` whose name contains no `=` becomes
the value of the first string of the environment that has the name `name`, where the name
of a string is the text before its first `=`, its value the text behind it, and the empty
name is bound by no string; otherwise the value of the first variable of the store named
`name` when there is one; otherwise the empty string. -/
theorem replaceVariables_unrestricted (env : Environ) (Cmd : Command)
    (VA : LocalVariableArray) :
    (replaceVariables env Cmd VA 0).1 = 0 ∧
    (replaceVariables env Cmd VA 0).2.2 = [] ∧
    (replaceVariables env Cmd VA 0).2.1.TokenCount = Cmd.TokenCount ∧
    (replaceVariables env Cmd VA 0).2.1.Redirection = Cmd.Redirection ∧
    ∀ (i : Nat) (t : CStr), Cmd.Tokens[i]? = some t →
      (t.head? ≠ some '$' → (replaceVariables env Cmd VA 0).2.1.Tokens[i]? = some t) ∧
      (∀ name : CStr, t = '$' :: name → '=' ∉ name →
        (∀ (pre post : Environ) (p : CStr × CStr), env = pre ++ p :: post → name ≠ [] →
          envName (envString p) = name → (∀ q ∈ pre, envName (envString q) ≠ name) →
          (replaceVariables env Cmd VA 0).2.1.Tokens[i]? = some (envValue (envString p))) ∧
        ((name = [] ∨ ∀ p ∈ env, envName (envString p) ≠ name) →
          ∀ (pre post : List LocalVariable) (Var : LocalVariable),
            VA.Vars = pre ++ Var :: post → Var.Name = name → (∀ V ∈ pre, V.Name ≠ name) →
            (replaceVariables env Cmd VA 0).2.1.Tokens[i]? = some Var.Value) ∧
        ((name = [] ∨ ∀ p ∈ env, envName (envString p) ≠ name) →
          (∀ V ∈ VA.Vars, V.Name ≠ name) →
          (replaceVariables env Cmd VA 0).2.1.Tokens[i]? = some [])) := by
  refine ⟨by rw [replaceVariables_zero], by rw [replaceVariables_zero],
    by rw [replaceVariables_zero]; simp [Command.TokenCount],
    by rw [replaceVariables_zero], ?_⟩
  intro i t ht
  rw [replaceVariables_zero_tokens, ht]
  refine ⟨?_, ?_⟩
  · intro hhead
    cases t with
    | nil => rfl
    | cons c cs =>
      have hc : c ≠ '$' := by simpa using hhead
      simp only [Option.map_some', Option.some.injEq]
      unfold replaceToken
      split
      · rename_i heq
        simp only [List.cons.injEq] at heq
        exact absurd heq.1 hc
      · rfl
  · intro name hname hfree
    subst hname
    refine ⟨?_, ?_, ?_⟩
    · intro pre post p hsplit hne hp hpre
      simp [replaceToken, getenv_first env pre post name p hne hfree hsplit hp hpre]
    · intro hno pre post Var hsplit hVar hpre
      subst hVar
      simp [replaceToken, getenv_absent env Var.Name hfree hno,
        getLocalVariable_first VA pre post Var hsplit hpre]
    · intro hno hnoV
      simp [replaceToken, getenv_absent env name hfree hno,
        getLocalVariable_absent VA name hnoV]

/-- Witness of C13: with the environment `PATH=/bin`, `x=1` and the store `x=2`, `y=5`, in
`echo $x $y $zzz` the token `$x` becomes `1`, the value in the environment, `$y` becomes
`5`, the value in the store, and `$zzz` becomes the empty string. -/
theorem replaceVariables_unrestricted_witness :
    runCommands 1 [(sampleOS, parseLine "export x=1"), (sampleOS, parseLine "local x=2")]
      sampleProc = .ok (Result.returned 0 none sampleAfterExportLocal) ∧
    sampleAfterExportLocal.Env =
      [("PATH".toList, "/bin".toList)] ++ ("x".toList, "1".toList) :: [] ∧
    envValue (envString ("x".toList, "1".toList)) = "1".toList ∧
    sampleStore.Vars =
      [{ Name := "x".toList, Value := "2".toList }] ++
        { Name := "y".toList, Value := "5".toList } :: [] ∧
    (replaceVariables sampleAfterExportLocal.Env (parseLine "echo $x $y $zzz")
        sampleStore 0).2.1.Tokens[1]? = some (envValue (envString ("x".toList, "1".toList))) ∧
    (replaceVariables sampleAfterExportLocal.Env (parseLine "echo $x $y $zzz")
        sampleStore 0).2.1.Tokens[2]? = some "5".toList ∧
    (replaceVariables sampleAfterExportLocal.Env (parseLine "echo $x $y $zzz")
        sampleStore 0).2.1.Tokens[3]? = some [] ∧
    (replaceVariables sampleAfterExportLocal.Env (parseLine "echo $x $y $zzz")
        sampleStore 0).2.1.Tokens =
      ["echo".toList, "1".toList, "5".toList, []] :=
  ⟨by decide, by decide, by decide, by decide,
    (((replaceVariables_unrestricted sampleAfterExportLocal.Env
      (parseLine "echo $x $y $zzz") sampleStore).2.2.2.2 1 "$x".toList (by decide)).2
      "x".toList rfl (by decide)).1
      [("PATH".toList, "/bin".toList)] [] ("x".toList, "1".toList) (by decide) (by decide)
      (by decide) (by decide),
    (((replaceVariables_unrestricted sampleAfterExportLocal.Env
      (parseLine "echo $x $y $zzz") sampleStore).2.2.2.2 2 "$y".toList (by decide)).2
      "y".toList rfl (by decide)).2.1 (Or.inr (by decide))
      [{ Name := "x".toList, Value := "2".toList }] []
      { Name := "y".toList, Value := "5".toList } (by decide) rfl (by decide),
    (((replaceVariables_unrestricted sampleAfterExportLocal.Env
      (parseLine "echo $x $y $zzz") sampleStore).2.2.2.2 3 "$zzz".toList (by decide)).2
      "zzz".toList rfl (by decide)).2.2 (Or.inr (by decide)) (by decide),
    by decide⟩

/-- C14, evaluated where it fails. In the shell that `initShell` creates, `export $x=1`
returns 1 and leaves variables and environment as they were, but writes nothing at all:
the trace gains only the mark of the call of the builtin, which received the empty string
in place of `$x=1`. `local $x=1` returns 1 with the usage message of `local`. The test of
`replaceVariables` that would write the two diagnostics looks at the token at index 0,
which for a builtin is its own name: for every builtin command and every value of
`CheckFirst` the result is 0 without a diagnostic. -/
theorem first_token_guard_missed :
    execute 1 sampleOS (parseLine "export $x=1") sampleProc =
      .ok (Result.returned 1
        (some { Tokens := ["export".toList, []]
                Redirection := (parseLine "export $x=1").Redirection })
        { sampleProc with
          Out := [Event.builtin "export".toList ["export".toList, []]] }) ∧
    execute 1 sampleOS (parseLine "local $x=1") sampleProc =
      .ok (Result.returned 1
        (some { Tokens := ["local".toList, []]
                Redirection := (parseLine "local $x=1").Redirection })
        { sampleProc with
          Out := [Event.builtin "local".toList ["local".toList, []],
            Event.shell (Action.stderr "local: usage: 'local S->VAR=<value>'\n".toList)] }) ∧
    (∀ (env : Environ) (Cmd : Command) (VA : LocalVariableArray) (chk : Int)
      (BC : CStr × BuiltinCommandFunc), getBuiltinCommandInfo Cmd = some BC →
      (replaceVariables env Cmd VA chk).1 = 0 ∧ (replaceVariables env Cmd VA chk).2.2 = []) := by
  refine ⟨by decide, by decide, ?_⟩
  intro env Cmd VA chk BC h
  rw [replaceVariables_builtin env Cmd VA chk BC h]
  exact ⟨rfl, rfl⟩

/-- Counterexample of C15. In the shell that `initShell` creates, `local a=b=c` succeeds and
binds `a` to `b`: the value ends at the second `=`, it is not the text `b=c` that follows
the first one. -/
theorem local_value_ends_at_equals :
    (parseLine "local a=b=c").Tokens = ["local".toList, "a=b=c".toList] ∧
    execute 1 sampleOS (parseLine "local a=b=c") sampleProc =
      .ok (Result.returned 0 (some (parseLine "local a=b=c"))
        { sampleProc with
          S := { sampleProc.S with
                 VA := { Vars := [{ Name := "a".toList, Value := "b".toList }]
                         Capacity := INITIAL_LOCAL_VARS_CAPACITY } }
          Out := [Event.builtin "local".toList ["local".toList, "a=b=c".toList]] }) ∧
    getLocalVariable "a".toList
        { Vars := [{ Name := "a".toList, Value := "b".toList }]
          Capacity := INITIAL_LOCAL_VARS_CAPACITY } ≠
      some { Name := "a".toList, Value := "b=c".toList } := by
  decide

/-- C15, amended: the value holds no `=`. For every variable store with room for growth
(capacity at least 1, count within the capacity), every non-empty name without `=` and every
value without `=`, `local` called with the single argument `name=value`, or with `name`
alone when the value is empty, returns 0 and changes only the store; afterwards the store
binds the name to the value, and the lookup of every other name gives what it gave
before. -/
theorem executeLocalCommand_binds (Cmd : Command) (P : Proc) (name value : CStr)
    (hne : name ≠ []) (hn : '=' ∉ name) (hv : '=' ∉ value)
    (htok : Cmd.Tokens = ["local".toList, name ++ '=' :: value] ∨
      (value = [] ∧ Cmd.Tokens = ["local".toList, name]))
    (hcap : 1 ≤ P.S.VA.Capacity) (hcount : P.S.VA.Count ≤ P.S.VA.Capacity) :
    ∃ VA1, executeLocalCommand Cmd P =
        .ok (Result.returned 0 (some Cmd) { P with S := { P.S with VA := VA1 } }) ∧
      getLocalVariable name VA1 = some { Name := name, Value := value } ∧
      ∀ other, other ≠ name → getLocalVariable other VA1 = getLocalVariable other P.S.VA := by
  rcases htok with htok | ⟨hempty, htok⟩
  · obtain ⟨VA1, h1, h2, h3, -⟩ := executeLocalCommand_split Cmd P _ name value value htok
      (strtok_name_value name value hne hn) (strtok_value value hv) hcap hcount
    exact ⟨VA1, h1, h2, h3⟩
  · subst hempty
    obtain ⟨VA1, h1, h2, h3, -⟩ := executeLocalCommand_split Cmd P _ name [] [] htok
      (strtok_whole name hne hn) (Or.inl ⟨rfl, rfl⟩) hcap hcount
    exact ⟨VA1, h1, h2, h3⟩

/-- Witness of C15, amended: `local x=3` in the sample shell that already binds `x`. -/
theorem executeLocalCommand_binds_witness :
    ∃ VA1, executeLocalCommand (parseLine "local x=3") sampleAfterExportLocal =
        .ok (Result.returned 0 (some (parseLine "local x=3"))
          { sampleAfterExportLocal with S := { sampleAfterExportLocal.S with VA := VA1 } }) ∧
      getLocalVariable "x".toList VA1 = some { Name := "x".toList, Value := "3".toList } ∧
      ∀ other, other ≠ "x".toList →
        getLocalVariable other VA1 = getLocalVariable other sampleAfterExportLocal.S.VA :=
  executeLocalCommand_binds (parseLine "local x=3") sampleAfterExportLocal "x".toList
    "3".toList (by decide) (by decide) (by decide) (Or.inl (by decide)) (by decide) (by decide)

/-- Counterexample of C16. In the shell that `initShell` creates, `export a=b=c` succeeds
and sets `a` to `b` in the environment: the value ends at the second `=`, it is not the
text `b=c` that follows the first one, and `$a` expands to `b`. -/
theorem export_value_ends_at_equals :
    (parseLine "export a=b=c").Tokens = ["export".toList, "a=b=c".toList] ∧
    execute 1 sampleOS (parseLine "export a=b=c") sampleProc =
      .ok (Result.returned 0
        (some { Tokens := ["export".toList, "a".toList]
                Redirection := (parseLine "export a=b=c").Redirection })
        { sampleProc with
          Env := [("PATH".toList, "/bin".toList), ("a".toList, "b".toList)]
          Out := [Event.builtin "export".toList ["export".toList, "a=b=c".toList]] }) ∧
    getenv [("PATH".toList, "/bin".toList), ("a".toList, "b".toList)] "a".toList ≠
      some "b=c".toList ∧
    replaceToken [("PATH".toList, "/bin".toList), ("a".toList, "b".toList)] sampleVA
      "$a".toList = "b".toList := by
  decide

/-- C16, amended: the value holds no `=`. For every environment, every non-empty name
without `=` and every value without `=`: when the value is not empty, `export` called with
the single argument `name=value` returns 0 and changes only the environment, which then
binds the name to the value, so that the token `$name` is replaced by the value whatever the
variable store holds; when the value is empty (the argument is `name=` or `name`), `export`
returns 1 and leaves the environment and the shell as they were. -/
theorem executeExportCommand_contract (Cmd : Command) (P : Proc) (name value : CStr)
    (hne : name ≠ []) (hn : '=' ∉ name) (hv : '=' ∉ value)
    (htok : Cmd.Tokens = ["export".toList, name ++ '=' :: value] ∨
      (value = [] ∧ Cmd.Tokens = ["export".toList, name])) :
    (value ≠ [] →
      (∃ Cmd1, executeExportCommand Cmd P =
        .ok (Result.returned 0 (some Cmd1) { P with Env := envUpdate P.Env name value })) ∧
      getenv (envUpdate P.Env name value) name = some value ∧
      ∀ VA, replaceToken (envUpdate P.Env name value) VA ('$' :: name) = value) ∧
    (value = [] →
      ∃ Cmd1 P1, executeExportCommand Cmd P = .ok (Result.returned 1 (some Cmd1) P1) ∧
        P1.Env = P.Env ∧ P1.S = P.S) := by
  constructor
  · intro hvalue
    have htok1 : Cmd.Tokens = ["export".toList, name ++ '=' :: value] := by
      rcases htok with h | ⟨h, -⟩
      · exact h
      · exact absurd h hvalue
    refine ⟨⟨_, executeExportCommand_split Cmd P _ name value value [] htok1
      (strtok_name_value name value hne hn) (strtok_whole value hvalue hv) hne hn⟩,
      getenv_envUpdate_same _ _ _ hne, ?_⟩
    intro VA
    simp only [replaceToken, getenv_envUpdate_same _ _ _ hne]
  · intro hvalue
    subst hvalue
    rcases htok with htok | ⟨-, htok⟩
    · exact executeExportCommand_missing Cmd P _ htok
        (Or.inr ⟨name, strtok_name_value name [] hne hn⟩)
    · exact executeExportCommand_missing Cmd P _ htok
        (Or.inr ⟨name, strtok_whole name hne hn⟩)

/-- Witness of C16, amended: `export x=1` in the shell that `initShell` creates. -/
theorem executeExportCommand_contract_witness :
    ("1".toList ≠ [] →
      (∃ Cmd1, executeExportCommand (parseLine "export x=1") sampleProc =
        .ok (Result.returned 0 (some Cmd1)
          { sampleProc with Env := envUpdate sampleProc.Env "x".toList "1".toList })) ∧
      getenv (envUpdate sampleProc.Env "x".toList "1".toList) "x".toList = some "1".toList ∧
      ∀ VA, replaceToken (envUpdate sampleProc.Env "x".toList "1".toList) VA
        ('$' :: "x".toList) = "1".toList) ∧
    ("1".toList = [] →
      ∃ Cmd1 P1, executeExportCommand (parseLine "export x=1") sampleProc =
          .ok (Result.returned 1 (some Cmd1) P1) ∧
        P1.Env = sampleProc.Env ∧ P1.S = sampleProc.S) :=
  executeExportCommand_contract (parseLine "export x=1") sampleProc "x".toList "1".toList
    (by decide) (by decide) (by decide) (Or.inl (by decide))

/-- C17. In every shell state that `execute` calls reach from `initShell`, whose variable
store is empty, no two entries of the store have the same name; every call of `execute`
that returns from such a state leaves a store with at least as many entries and again
without a repeated name; and `local` with the argument `name=text`, for a name that the
store already binds, returns 0 and leaves the names of the store, in their order, and the
number of entries as they were. -/
theorem variable_store_unique (P : Proc) (h : Reachable P) :
    P.S.VA.Names.Nodup ∧
    (∀ (fuel : Nat) (os : OS) (Cmd : Command) (code : Int) (C1 : Option Command) (P1 : Proc),
      execute fuel os Cmd P = .ok (Result.returned code C1 P1) →
      P.S.VA.Count ≤ P1.S.VA.Count ∧ P1.S.VA.Names.Nodup) ∧
    (∀ (Cmd : Command) (name text : CStr), name ≠ [] → '=' ∉ name →
      Cmd.Tokens = ["local".toList, name ++ '=' :: text] → name ∈ P.S.VA.Names →
      ∃ VA1, executeLocalCommand Cmd P =
          .ok (Result.returned 0 (some Cmd) { P with S := { P.S with VA := VA1 } }) ∧
        VA1.Names = P.S.VA.Names ∧ VA1.Count = P.S.VA.Count) := by
  obtain ⟨hnd, hcap, hcount⟩ := reachable_sound P h
  refine ⟨hnd, ?_, ?_⟩
  · intro fuel os Cmd code C1 P1 hex
    obtain ⟨h1, h2⟩ := execute_store fuel os Cmd P code C1 P1 hex
    exact ⟨h1, (h2 ⟨hnd, hcap, hcount⟩).1⟩
  · intro Cmd name text hne hn htok hmem
    have hbound : getLocalVariable name P.S.VA ≠ none := by
      intro hnone
      exact (getLocalVariable_eq_none_iff name P.S.VA).1 hnone hmem
    have hsplit := strtok_name_value name text hne hn
    have key : ∀ Value, ((strtok text ['='] = none ∧ Value = []) ∨
        (∃ r2, strtok text ['='] = some (Value, r2))) →
        ∃ VA1, executeLocalCommand Cmd P =
          .ok (Result.returned 0 (some Cmd) { P with S := { P.S with VA := VA1 } }) ∧
        VA1.Names = P.S.VA.Names ∧ VA1.Count = P.S.VA.Count := by
      intro Value hval
      obtain ⟨VA1, h1, -, -, h4, -, -, -⟩ :=
        executeLocalCommand_split Cmd P _ name text Value htok hsplit hval hcap hcount
      refine ⟨VA1, h1, h4 hbound, ?_⟩
      have := congrArg List.length (h4 hbound)
      simpa only [List.length_map] using this
    cases hs : strtok text ['='] with
    | none => exact key [] (Or.inl ⟨hs, rfl⟩)
    | some p => exact key p.1 (Or.inr ⟨p.2, hs⟩)

/-- Witness of C17: the shell after `export x=1` and `local x=2` is reachable; its store has
the one name `x`, and `local x=3` keeps it at one entry. -/
theorem variable_store_unique_witness :
    Reachable sampleAfterExportLocal ∧
    (sampleAfterExportLocal.S.VA.Names.Nodup ∧
      (∀ (fuel : Nat) (os : OS) (Cmd : Command) (code : Int) (C1 : Option Command)
        (P1 : Proc),
        execute fuel os Cmd sampleAfterExportLocal = .ok (Result.returned code C1 P1) →
        sampleAfterExportLocal.S.VA.Count ≤ P1.S.VA.Count ∧ P1.S.VA.Names.Nodup) ∧
      (∀ (Cmd : Command) (name text : CStr), name ≠ [] → '=' ∉ name →
        Cmd.Tokens = ["local".toList, name ++ '=' :: text] →
        name ∈ sampleAfterExportLocal.S.VA.Names →
        ∃ VA1, executeLocalCommand Cmd sampleAfterExportLocal =
            .ok (Result.returned 0 (some Cmd)
              { sampleAfterExportLocal with
                S := { sampleAfterExportLocal.S with VA := VA1 } }) ∧
          VA1.Names = sampleAfterExportLocal.S.VA.Names ∧
          VA1.Count = sampleAfterExportLocal.S.VA.Count)) ∧
    execute 1 sampleOS (parseLine "local x=3") sampleAfterExportLocal =
      .ok (Result.returned 0 (some (parseLine "local x=3"))
        { sampleAfterExportLocal with
          S := { sampleAfterExportLocal.S with
                 VA := { Vars := [{ Name := "x".toList, Value := "3".toList }]
                         Capacity := INITIAL_LOCAL_VARS_CAPACITY } }
          Out := sampleAfterExportLocal.Out ++
            [Event.builtin "local".toList ["local".toList, "x=3".toList]] }) :=
  have hr : Reachable sampleAfterExportLocal :=
    Reachable.step 1 sampleOS (parseLine "local x=2")
      { sampleProc with
        Env := [("PATH".toList, "/bin".toList), ("x".toList, "1".toList)]
        Out := [Event.builtin "export".toList ["export".toList, "x=1".toList]] }
      sampleAfterExportLocal 0 (some (parseLine "local x=2"))
      (Reachable.step 1 sampleOS (parseLine "export x=1") sampleProc
        { sampleProc with
          Env := [("PATH".toList, "/bin".toList), ("x".toList, "1".toList)]
          Out := [Event.builtin "export".toList ["export".toList, "x=1".toList]] }
        0 (some { Tokens := ["export".toList, "x".toList]
                  Redirection := (parseLine "export x=1").Redirection })
        (Reachable.init [] sampleProc (by decide)) (by decide))
      (by decide)
  ⟨hr, variable_store_unique sampleAfterExportLocal hr, by decide⟩

/-- C18. For every external command of the shape `getCommand` builds: whenever `addHistory`
stores the copy of the command (it returns 0, the command is no duplicate of the most
recent entry), `execute` returns, the live command it leaves has the tokens that remain
after the redirection token was dropped, each replaced by `replaceVariables`, and the most
recent entry of the history, as `getHistory` gives it, has exactly the tokens of the
command as it was passed in; on a history of capacity at least 1 that stores `es` and whose
most recent entry has other tokens `addHistory` does store the copy, after the last
`Capacity` of `es`. On the heap, with any allocator that returns free addresses, for a
command that lies at `Sp` apart from the entries of the history: the objects of the stored
entry are all new, none of them belongs to the live command before or after it is changed,
and after the redirection token was freed and the variables were replaced in the live
command the stored entry still holds the copy with the original tokens. -/
theorem history_snapshot (fuel : Nat) (os : OS) (Cmd : Command) (P : Proc)
    (hext : getBuiltinCommandInfo Cmd = none) (hwf : Cmd.WellFormed) :
    (∀ H1, addHistory P.S.Hist (getCommandCopy Cmd) = .ok (0, H1) →
      ∃ code Cmd1 P1, stripRedirection Cmd = .ok Cmd1 ∧
        execute (fuel + 1) os Cmd P =
          .ok (Result.returned code
            (some { Cmd1 with Tokens := Cmd1.Tokens.map (replaceToken P.Env P.S.VA) }) P1) ∧
        P1.S.Hist = H1 ∧
        ∃ E, getHistory 1 P1.S.Hist = .ok (some E) ∧ E.Tokens = Cmd.Tokens) ∧
    (∀ es, P.S.Hist.Stores es → 1 ≤ P.S.Hist.Capacity →
      (∀ Last, es.getLast? = some Last → Cmd.Tokens ≠ Last.Tokens) →
      ∃ H1, addHistory P.S.Hist (getCommandCopy Cmd) = .ok (0, H1) ∧
        H1.Stores (lastN P.S.Hist.Capacity (es ++ [getCommandCopy Cmd]))) ∧
    (∀ (malloc : Heap → Addr) (h : Heap) (HistH : HistoryH) (Ss : List Shape)
        (es : List Command) (Sp : Shape),
      Fresh malloc → HistH.Stores h Ss es → 1 ≤ HistH.Capacity →
      (∀ Last, es.getLast? = some Last → Cmd.Tokens ≠ Last.Tokens) →
      Holds h Sp Cmd → (∀ S ∈ Ss, ∀ a ∈ S.addrs, a ∉ Sp.addrs) →
      ∃ Cmd1 Sq Sp1 Hist1 h4, stripRedirection Cmd = .ok Cmd1 ∧
        executeRecordH malloc P.Env P.S.VA h HistH Sp.self = .ok (Sq.self, Hist1, h4) ∧
        Hist1.Stores h4 (lastN HistH.Capacity (Ss ++ [Sq]))
          (lastN HistH.Capacity (es ++ [getCommandCopy Cmd])) ∧
        Holds h4 Sq (getCommandCopy Cmd) ∧ (getCommandCopy Cmd).Tokens = Cmd.Tokens ∧
        Sp1.self = Sp.self ∧
        Holds h4 Sp1 { Cmd1 with Tokens := Cmd1.Tokens.map (replaceToken P.Env P.S.VA) } ∧
        (∀ a ∈ Sq.addrs, h.obj a = none ∧ a ∉ Sp.addrs ∧ a ∉ Sp1.addrs)) := by
  refine ⟨?_, ?_, ?_⟩
  · intro H1 hadd
    obtain ⟨Cmd1, hstrip, -, -, code, out, hex⟩ :=
      execute_external_live fuel os Cmd P 0 H1 hext hwf hadd
    obtain ⟨-, -, hget⟩ := addHistory_stored P.S.Hist H1 (getCommandCopy Cmd) hadd
    exact ⟨code, Cmd1, _, hstrip, hex, rfl, getCommandCopy (getCommandCopy Cmd), hget, rfl⟩
  · intro es hst hcap hne
    obtain ⟨H1, hadd, hstores, -⟩ := addHistory_push P.S.Hist (getCommandCopy Cmd) es hst hcap
      (by simpa [getCommandCopy] using hne)
    exact ⟨H1, hadd, hstores⟩
  · intro malloc h HistH Ss es Sp hf hst hcap hne hSp hdisj
    obtain ⟨Cmd1, hstrip, -, -⟩ := stripRedirection_wellFormed Cmd hwf
    obtain ⟨Sq, Sp1, Hist1, h4, hrun, hst4, -, hSq, hself, hSp1, hsep⟩ :=
      executeRecordH_spec hf P.Env P.S.VA h HistH Ss es Sp Cmd Cmd1 hst hSp hdisj hcap hne hstrip
    exact ⟨Cmd1, Sq, Sp1, Hist1, h4, hstrip, hrun, hst4, hSq, rfl, hself, hSp1, hsep⟩

/-- Witness of C18: `echo $x >out` in the sample shell where `$x` expands to `1`, with the
command on `sampleHeap` and the allocator that takes the first free address. The live
command ends as `echo 1`, in part at addresses that were freed on the way; the entry, at
the new addresses 7 to 13, keeps `echo $x >out`. -/
theorem history_snapshot_witness :
    (∃ Cmd1 Sq Sp1 Hist1 h4, stripRedirection (parseLine "echo $x >out") = .ok Cmd1 ∧
      executeRecordH firstFree sampleAfterExportLocal.Env sampleAfterExportLocal.S.VA
          sampleHeap sampleHistoryH sampleShape.self = .ok (Sq.self, Hist1, h4) ∧
      Hist1.Stores h4 (lastN sampleHistoryH.Capacity ([] ++ [Sq]))
        (lastN sampleHistoryH.Capacity ([] ++ [getCommandCopy (parseLine "echo $x >out")])) ∧
      Holds h4 Sq (getCommandCopy (parseLine "echo $x >out")) ∧
      (getCommandCopy (parseLine "echo $x >out")).Tokens = (parseLine "echo $x >out").Tokens ∧
      Sp1.self = sampleShape.self ∧
      Holds h4 Sp1 { Cmd1 with
        Tokens := Cmd1.Tokens.map
          (replaceToken sampleAfterExportLocal.Env sampleAfterExportLocal.S.VA) } ∧
      (∀ a ∈ Sq.addrs, sampleHeap.obj a = none ∧ a ∉ sampleShape.addrs ∧ a ∉ Sp1.addrs)) ∧
    Holds sampleHeap sampleShape (parseLine "echo $x >out") ∧
    executeRecordH firstFree sampleAfterExportLocal.Env sampleAfterExportLocal.S.VA
        sampleHeap sampleHistoryH 0 =
      .ok (7, { Entries := [PSlot.entry 7, PSlot.null, PSlot.null, PSlot.null, PSlot.null],
                Count := 1, Capacity := 5 }, sampleHeapAfter) ∧
    Holds sampleHeapAfter sampleShapeCopy (entryOf "echo $x >out") ∧
    (entryOf "echo $x >out").Tokens = ["echo".toList, "$x".toList, ">out".toList] ∧
    Holds sampleHeapAfter sampleShapeLive
      { Tokens := ["echo".toList, "1".toList]
        Redirection := (parseLine "echo $x >out").Redirection } ∧
    (∃ code Cmd1 P1, stripRedirection (parseLine "echo $x >out") = .ok Cmd1 ∧
      execute (0 + 1) sampleOS (parseLine "echo $x >out") sampleAfterExportLocal =
        .ok (Result.returned code
          (some { Cmd1 with
            Tokens := Cmd1.Tokens.map
              (replaceToken sampleAfterExportLocal.Env sampleAfterExportLocal.S.VA) }) P1) ∧
      P1.S.Hist = historyOf 5 ["echo $x >out"] ∧
      ∃ E, getHistory 1 P1.S.Hist = .ok (some E) ∧
        E.Tokens = (parseLine "echo $x >out").Tokens) :=
  have key := history_snapshot 0 sampleOS (parseLine "echo $x >out") sampleAfterExportLocal
    (by decide) (getCommand_wellFormed "echo $x >out".toList sampleVA _ (by decide))
  ⟨key.2.2 firstFree sampleHeap sampleHistoryH [] [] sampleShape firstFree_fresh
      ⟨rfl, rfl, rfl, List.Forall₂.nil, List.Pairwise.nil⟩ (by decide)
      (by intro Last h; cases h) (by decide) (by intro S hS; cases hS),
    by decide, by decide, by decide, by decide, by decide,
    key.1 (historyOf 5 ["echo $x >out"]) (by decide)⟩

/-- C19, evaluated where it fails. The command parsed from `echo hi 2>err` has the
redirection (output, `err`, descriptor 2); its copy has the same tokens, mode and file but
a descriptor that was never assigned, as the copy of every command has. After the command
was run, `history 1` re-executes the stored copy, whose `redirect` reads that descriptor:
the run has undefined behaviour. -/
theorem getCommandCopy_drops_descriptor :
    (parseLine "echo hi 2>err").Redirection =
      some { Mode := Cell.val RedirectMode.RedirectOutput, File := some "err".toList,
             FD := Cell.val 2 } ∧
    getCommandCopy (parseLine "echo hi 2>err") =
      { Tokens := ["echo".toList, "hi".toList, "2>err".toList]
        Redirection := some { Mode := Cell.val RedirectMode.RedirectOutput,
                              File := some "err".toList, FD := Cell.uninit } } ∧
    (getCommandCopy (parseLine "echo hi 2>err")).Redirection
      ≠ (parseLine "echo hi 2>err").Redirection ∧
    (∀ Cmd : Command, (getCommandCopy Cmd).Tokens = Cmd.Tokens ∧
      ∃ R, (getCommandCopy Cmd).Redirection = some R ∧ R.FD = Cell.uninit) ∧
    execute 1 sampleOS (parseLine "echo hi 2>err") sampleProc =
      .ok (Result.returned 0 (some { Tokens := ["echo".toList, "hi".toList]
                                     Redirection := (parseLine "echo hi 2>err").Redirection })
        sampleAfterRedirect) ∧
    execute 2 sampleOS (parseLine "history 1") sampleAfterRedirect = .error Fault.undefined := by
  refine ⟨by decide, by decide, by decide, ?_, by decide, by decide⟩
  intro Cmd
  exact ⟨rfl, _, rfl, rfl⟩

/-- C20, evaluated where it fails. In a directory with the names `b1`, `a2`, `.hidden`,
`aa`, `a-b`, the command `ls` prints `a-b`, `a2`, `aa`, `b1`: the names without a leading
dot, each once, in the order of `strcmp`. `compareStrs` is not used: it puts `aa` before
`a-b` (and `a2` before `aa`), `strcmp` puts `a-b` before `aa`. -/
theorem ls_orders_by_strcmp :
    execute 1 (sampleDir ["b1", "a2", ".hidden", "aa", "a-b"]) (parseLine "ls") sampleProc =
      .ok (Result.returned 0 (some (parseLine "ls"))
        { sampleProc with
          Out := [Event.builtin "ls".toList ["ls".toList],
            Event.shell (Action.stdout "a-b\n".toList),
            Event.shell (Action.stdout "a2\n".toList),
            Event.shell (Action.stdout "aa\n".toList),
            Event.shell (Action.stdout "b1\n".toList)] }) ∧
    compareStrs "aa".toList "a-b".toList < 0 ∧ compareStrs "a-b".toList "aa".toList > 0 ∧
    compareStrs "a2".toList "aa".toList < 0 ∧
    strcmp "a-b".toList "aa".toList < 0 := by
  refine ⟨by decide, by decide, by decide, by decide, by decide⟩

/-- Counterexample of C21. With a file that cannot be opened, the external command
`cat <missing` makes `execute` fork: the trace holds the successful `fork`, and it is the
child that fails to open the file, writes the diagnostic and exits with 1, the code
`execute` returns. The history has taken the entry before. -/
theorem redirect_failure_forks :
    getBuiltinCommandInfo (parseLine "cat <missing") = none ∧
    execute 1 sampleNoOpen (parseLine "cat <missing") sampleProc =
      .ok (Result.returned 1
        (some { Tokens := ["cat".toList]
                Redirection := (parseLine "cat <missing").Redirection })
        { S := { sampleProc.S with Hist := historyOf 5 ["cat <missing"] }
          Env := sampleProc.Env
          Out := [Event.fork true,
            Event.child (Action.openFile "missing".toList RedirectMode.RedirectInput false),
            Event.child (Action.stderr "missing: no such file or directory\n".toList)] }) := by
  decide

/-- C21, amended: an external command is recorded and a child is forked before the
redirection is attempted. For every command with a redirection that names a file, has a
mode other than `RedirectNone` and whose file cannot be opened, `execute` returns 1 with
the variables and the environment as they were, and no `execv` occurs. A builtin command
returns after the two actions of the failed `open` in the shell, without the call of the
builtin function and with the history as it was. An external command with at least two
tokens is first handed to `addHistory`; when that is undefined so is `execute`; otherwise
the history is the one `addHistory` leaves and the trace is: the failed `fork` and its
report when `fork` fails; the successful `fork` and the child's `command not found` when no
executable is found for the first token, in which case the file is not opened; the
successful `fork`, the child's failed `open` and its diagnostic naming the file
otherwise. -/
theorem redirect_failure_aborts (fuel : Nat) (os : OS) (Cmd : Command) (P : Proc)
    (R : Redirect) (File : CStr) (Mode : RedirectMode)
    (hR : Cmd.Redirection = some R) (hF : R.File = some File)
    (hM : R.Mode = Cell.val Mode) (hne : Mode ≠ RedirectMode.RedirectNone)
    (hopen : os.openOk File Mode = false) :
    (∀ BC, getBuiltinCommandInfo Cmd = some BC →
      execute (fuel + 1) os Cmd P =
        .ok (Result.returned 1 none
          { S := P.S, Env := P.Env,
            Out := P.Out ++ [Event.shell (Action.openFile File Mode false),
              Event.shell (Action.stderr (File ++ ": no such file or directory\n".toList))] })) ∧
    (getBuiltinCommandInfo Cmd = none → 2 ≤ Cmd.TokenCount →
      (∀ e, addHistory P.S.Hist (getCommandCopy Cmd) = .error e →
        execute (fuel + 1) os Cmd P = .error e) ∧
      (∀ c H1, addHistory P.S.Hist (getCommandCopy Cmd) = .ok (c, H1) →
        ∃ Exe rest out, Cmd.Tokens.dropLast.map (replaceToken P.Env P.S.VA) = Exe :: rest ∧
          execute (fuel + 1) os Cmd P =
            .ok (Result.returned 1
              (some { Cmd with Tokens := Cmd.Tokens.dropLast.map (replaceToken P.Env P.S.VA) })
              { S := { P.S with Hist := H1 }, Env := P.Env, Out := P.Out ++ out }) ∧
          (∀ path argv started, Event.child (Action.execv path argv started) ∉ out) ∧
          (os.forkOk = false →
            out = [Event.fork false, Event.shell (Action.perror "fork".toList)]) ∧
          (os.forkOk = true → findExecutable os P.Env Exe = none →
            out = [Event.fork true,
              Event.child (Action.stderr ("command not found: ".toList ++ Exe ++ ['\n']))]) ∧
          (os.forkOk = true → findExecutable os P.Env Exe ≠ none →
            out = [Event.fork true, Event.child (Action.openFile File Mode false),
              Event.child
                (Action.stderr (File ++ ": no such file or directory\n".toList))]))) := by
  constructor
  · intro BC hBC
    exact execute_builtin_open_fails fuel os Cmd P R File Mode BC hR hF hM hne hopen hBC
  · intro hext h2
    have hcount : ¬ Cmd.TokenCount = 0 := by omega
    constructor
    · intro e hadd
      simp only [execute, if_neg hcount, hext, hadd]
    · intro c H1 hadd
      obtain ⟨Exe, rest, hargs⟩ :
          ∃ Exe rest, Cmd.Tokens.dropLast.map (replaceToken P.Env P.S.VA) = Exe :: rest := by
        cases hl : Cmd.Tokens.dropLast.map (replaceToken P.Env P.S.VA) with
        | nil =>
          have := congrArg List.length hl
          simp only [List.length_map, List.length_dropLast, List.length_nil] at this
          simp only [Command.TokenCount] at h2
          omega
        | cons Exe rest => exact ⟨Exe, rest, rfl⟩
      have htrace := execute_external_open_trace fuel os Cmd P R File Mode c H1 Exe rest hR hF
        hM hne hopen hext hargs hadd
      refine ⟨Exe, rest, _, hargs, htrace, ?_, ?_, ?_, ?_⟩
      · intro path argv started hmem
        split at hmem
        · simp at hmem
        · split at hmem <;> simp at hmem
      · intro hf
        rw [if_pos hf]
      · intro hf hfind
        have : ¬ os.forkOk = false := by simp [hf]
        rw [if_neg this, if_pos hfind]
      · intro hf hfind
        have : ¬ os.forkOk = false := by simp [hf]
        rw [if_neg this, if_neg hfind]

/-- Witness of C21, amended: the external line `cat <missing` where no file can be opened,
run in the shell that `initShell` creates; the program is found and the child fails to open
the file. The line `nope <missing`, where no program is found either, ends with
`command not found` and without an attempt to open the file; the builtin line
`local x=1 >gone` ends in the shell. -/
theorem redirect_failure_aborts_witness :
    (∃ Exe rest out,
      (parseLine "cat <missing").Tokens.dropLast.map
          (replaceToken sampleProc.Env sampleProc.S.VA) = Exe :: rest ∧
      execute (0 + 1) sampleNoOpen (parseLine "cat <missing") sampleProc =
        .ok (Result.returned 1
          (some { (parseLine "cat <missing") with
            Tokens := (parseLine "cat <missing").Tokens.dropLast.map
              (replaceToken sampleProc.Env sampleProc.S.VA) })
          { S := { sampleProc.S with Hist := historyOf 5 ["cat <missing"] }
            Env := sampleProc.Env, Out := sampleProc.Out ++ out }) ∧
      (∀ path argv started, Event.child (Action.execv path argv started) ∉ out) ∧
      (sampleNoOpen.forkOk = false →
        out = [Event.fork false, Event.shell (Action.perror "fork".toList)]) ∧
      (sampleNoOpen.forkOk = true → findExecutable sampleNoOpen sampleProc.Env Exe = none →
        out = [Event.fork true,
          Event.child (Action.stderr ("command not found: ".toList ++ Exe ++ ['\n']))]) ∧
      (sampleNoOpen.forkOk = true → findExecutable sampleNoOpen sampleProc.Env Exe ≠ none →
        out = [Event.fork true,
          Event.child (Action.openFile "missing".toList RedirectMode.RedirectInput false),
          Event.child (Action.stderr
            ("missing".toList ++ ": no such file or directory\n".toList))])) ∧
    (execute 1 sampleNoOpen (parseLine "cat <missing") sampleProc).map Result.Out =
      .ok [Event.fork true,
        Event.child (Action.openFile "missing".toList RedirectMode.RedirectInput false),
        Event.child (Action.stderr "missing: no such file or directory\n".toList)] ∧
    (execute 1 sampleNoProgram (parseLine "nope <missing") sampleProc).map Result.Out =
      .ok [Event.fork true,
        Event.child (Action.stderr "command not found: nope\n".toList)] ∧
    execute 1 sampleNoOpen (parseLine "local x=1 >gone") sampleProc =
      .ok (Result.returned 1 none
        { S := sampleProc.S, Env := sampleProc.Env,
          Out := [Event.shell (Action.openFile "gone".toList RedirectMode.RedirectOutput false),
            Event.shell (Action.stderr "gone: no such file or directory\n".toList)] }) :=
  ⟨((redirect_failure_aborts 0 sampleNoOpen (parseLine "cat <missing") sampleProc
      { Mode := Cell.val RedirectMode.RedirectInput, File := some "missing".toList,
        FD := Cell.val (-1) }
      "missing".toList RedirectMode.RedirectInput (by decide) rfl rfl (by decide) rfl).2
      (by decide) (by decide)).2 0 (historyOf 5 ["cat <missing"]) (by decide),
    by decide, by decide, by decide⟩

/-- C22. In every shell state that `execute` calls reach from `initShell`: every command
held by a cell of the history has a first token, which is none of the builtin names; a
builtin command, unless it is `history` called with two or three tokens (the replay and
`history set`), leaves the history as it was when `execute` returns; every command that
`getHistory` gives has no builtin, so that `execute` takes the external branch for it, with
the same result for every amount of fuel; and `execute` on any command needs no more than
two levels of the recursion: its result with more fuel is the result with 2, and it never
runs out of fuel. -/
theorem history_external_only (P : Proc) (h : Reachable P) :
    (∀ (i : Nat) (c : Command), P.S.Hist.Entries[i]? = some (Slot.entry c) →
      ∃ t rest, c.Tokens = t :: rest ∧ t ∉ builtinNames) ∧
    (∀ (fuel : Nat) (os : OS) (Cmd : Command) (BC : CStr × BuiltinCommandFunc) (code : Int)
      (C1 : Option Command) (P1 : Proc), getBuiltinCommandInfo Cmd = some BC →
      execute fuel os Cmd P = .ok (Result.returned code C1 P1) →
      (BC.2 = BuiltinCommandFunc.Hist → ∀ Cmd0, stripRedirection Cmd = .ok Cmd0 →
        Cmd0.TokenCount ≠ 2 ∧ Cmd0.TokenCount ≠ 3) →
      P1.S.Hist = P.S.Hist) ∧
    (∀ (n : Int) (NextCmd : Command), getHistory n P.S.Hist = .ok (some NextCmd) →
      getBuiltinCommandInfo NextCmd = none ∧
      (∃ t rest, NextCmd.Tokens = t :: rest ∧ t ∉ builtinNames) ∧
      ∀ (fuel : Nat) (os : OS) (Q : Proc),
        execute (fuel + 1) os NextCmd Q = execute 1 os NextCmd Q) ∧
    (∀ (fuel : Nat) (os : OS) (Cmd : Command),
      execute (fuel + 2) os Cmd P = execute 2 os Cmd P ∧
      execute (fuel + 2) os Cmd P ≠ .error Fault.outOfFuel) := by
  have hinv := reachable_external P h
  refine ⟨?_, ?_, ?_, ?_⟩
  · intro i c hc
    obtain ⟨hlt, hget⟩ := List.getElem?_eq_some_iff.1 hc
    have hmem : Slot.entry c ∈ P.S.Hist.Entries := by
      rw [← hget]; exact List.getElem_mem _
    exact first_token_not_builtin c (hinv c hmem).1 (hinv c hmem).2
  · intro fuel os Cmd BC code C1 P1 hBC hex hnot
    exact execute_builtin_hist fuel os Cmd P BC code C1 P1 hBC hex hnot
  · intro n NextCmd hget
    obtain ⟨hne, hext⟩ := getHistory_external _ _ _ hget hinv
    exact ⟨hext, first_token_not_builtin NextCmd hne hext,
      fun fuel os Q => execute_fuel_external fuel os NextCmd Q hext⟩
  · intro fuel os Cmd
    refine ⟨execute_fuel fuel os Cmd P hinv, ?_⟩
    intro hout
    have := execute_fault (fuel + 1) os Cmd P _ (by omega) hinv hout
    exact absurd this (by decide)

/-- Witness of C22: the shell after `echo a` is reachable; its history holds `echo a`, and
`history 1` replays it through the external branch. -/
theorem history_external_only_witness :
    Reachable sampleAfterEcho ∧
    ((∀ (i : Nat) (c : Command), sampleAfterEcho.S.Hist.Entries[i]? = some (Slot.entry c) →
        ∃ t rest, c.Tokens = t :: rest ∧ t ∉ builtinNames) ∧
      (∀ (fuel : Nat) (os : OS) (Cmd : Command) (BC : CStr × BuiltinCommandFunc) (code : Int)
        (C1 : Option Command) (P1 : Proc), getBuiltinCommandInfo Cmd = some BC →
        execute fuel os Cmd sampleAfterEcho = .ok (Result.returned code C1 P1) →
        (BC.2 = BuiltinCommandFunc.Hist → ∀ Cmd0, stripRedirection Cmd = .ok Cmd0 →
          Cmd0.TokenCount ≠ 2 ∧ Cmd0.TokenCount ≠ 3) →
        P1.S.Hist = sampleAfterEcho.S.Hist) ∧
      (∀ (n : Int) (NextCmd : Command),
        getHistory n sampleAfterEcho.S.Hist = .ok (some NextCmd) →
        getBuiltinCommandInfo NextCmd = none ∧
        (∃ t rest, NextCmd.Tokens = t :: rest ∧ t ∉ builtinNames) ∧
        ∀ (fuel : Nat) (os : OS) (Q : Proc),
          execute (fuel + 1) os NextCmd Q = execute 1 os NextCmd Q) ∧
      (∀ (fuel : Nat) (os : OS) (Cmd : Command),
        execute (fuel + 2) os Cmd sampleAfterEcho = execute 2 os Cmd sampleAfterEcho ∧
        execute (fuel + 2) os Cmd sampleAfterEcho ≠ .error Fault.outOfFuel)) ∧
    getHistory 1 sampleAfterEcho.S.Hist = .ok (some (getCommandCopy (entryOf "echo a"))) ∧
    execute 2 sampleOS (parseLine "history 1") sampleAfterEcho =
      .ok (Result.returned 0 (some (parseLine "history 1"))
        { sampleAfterEcho with
          Out := sampleAfterEcho.Out ++
            [Event.builtin "history".toList ["history".toList, "1".toList],
             Event.fork true,
             Event.child (Action.execv "/bin/echo".toList ["echo".toList, "a".toList]
               true)] }) :=
  have hr : Reachable sampleAfterEcho :=
    Reachable.step 1 sampleOS (parseLine "echo a") sampleProc sampleAfterEcho 0
      (some (parseLine "echo a")) (Reachable.init [] sampleProc (by decide)) (by decide)
  ⟨hr, history_external_only sampleAfterEcho hr, by decide, by decide⟩

/-- C23. For every token to which the cascade of `getCommand` assigns a mode other than
`RedirectNone`: the offset at which the file path is read is the length of the operator when
the token does not begin with a digit, and the length of the leading digit run plus the
length of the operator when it does; it is at most the length of the token, so the path,
the rest of the token from that offset on, is a suffix of the token, of the remaining
length. And every file path of a command that `getCommand` builds is read in this way from
the last token of the command. -/
theorem filePathOffset_inside :
    (∀ tok : CStr, (redirectOperator tok).1 ≠ RedirectMode.RedirectNone →
      (startsWithDigit tok = false →
        filePathOffset tok = (operatorText (redirectOperator tok).1).length) ∧
      (startsWithDigit tok = true →
        filePathOffset tok =
          (tok.takeWhile isdigit).length + (operatorText (redirectOperator tok).1).length) ∧
      filePathOffset tok ≤ tok.length ∧
      (parseRedirect tok).File = some (tok.drop (filePathOffset tok)) ∧
      tok.drop (filePathOffset tok) <:+ tok ∧
      (tok.drop (filePathOffset tok)).length + filePathOffset tok = tok.length) ∧
    (∀ (Input : CStr) (VA : LocalVariableArray) (Cmd : Command) (R : Redirect) (File : CStr),
      getCommand Input VA = some Cmd → Cmd.Redirection = some R → R.File = some File →
      ∃ tok, Cmd.Tokens.getLast? = some tok ∧
        (redirectOperator tok).1 ≠ RedirectMode.RedirectNone ∧
        filePathOffset tok ≤ tok.length ∧ File = tok.drop (filePathOffset tok)) := by
  have hfile : ∀ tok : CStr, (redirectOperator tok).1 ≠ RedirectMode.RedirectNone →
      (parseRedirect tok).File = some (tok.drop (filePathOffset tok)) := by
    intro tok hm
    unfold parseRedirect
    simp only [ne_eq, hm, not_false_eq_true, if_true]
  constructor
  · intro tok hm
    have hle := filePathOffset_le tok hm
    refine ⟨?_, ?_, hle, hfile tok hm, List.drop_suffix _ _, ?_⟩
    · intro h
      rw [filePathOffset_eq, h]
      simp
    · intro h
      rw [filePathOffset_eq, h]
      simp
    · rw [List.length_drop]
      omega
  · intro Input VA Cmd R File hparse hR hF
    have hr := (getCommand_tokens Input VA Cmd hparse).2
    rw [hR] at hr
    by_cases hlen : Cmd.Tokens.length > 1
    · rw [if_pos hlen] at hr
      simp only [Option.some.injEq] at hr
      have hne : Cmd.Tokens ≠ [] := by
        intro e; rw [e] at hlen; simp at hlen
      have hlast := List.getLast?_eq_getLast _ hne
      rw [hlast, Option.getD_some] at hr
      have hm : (redirectOperator (Cmd.Tokens.getLast hne)).1 ≠ RedirectMode.RedirectNone := by
        intro e
        have := (parseRedirect_shape _).2 e
        rw [hr, this] at hF
        exact absurd hF (by simp)
      refine ⟨_, hlast, hm, filePathOffset_le _ hm, ?_⟩
      have := hfile _ hm
      rw [hr] at hF
      rw [hF] at this
      exact Option.some.inj this
    · rw [if_neg hlen] at hr
      exact absurd hr (by simp)

end Wsh
